import Mathlib

/-!
Armor hardware-wallet emulator: the signing session.

A shallow embedding of `src/Core/hardware/Emulator.cpp`.

* Scalars (`SecretKey`, `EllipticCurveScalar`) are the elements of a commutative ring `S`;
  `crypto::sc_mul` and the overloaded scalar operators are the ring operations.
* Curve points (`P3`, and their 32-byte encodings `PublicKey`, `KeyImage`,
  `EllipticCurvePoint`) are the elements of an `S`-module `P`; `to_bytes` is the identity and
  `.data` is `Crypto.point_data`.
* The primitives of the crypto library, the varint encoder and the type tags are not part of
  `Emulator.cpp`; they are the fields of `Crypto`.
* `uint64_t` and `size_t` are natural numbers, reduced modulo `2 ^ 64` where the code computes.
* `invariant(cond, msg)` throws when `cond` is false: an operation returns `none` together with
  the emulator as the throw leaves it.
* An attached hardware proxy is represented by the value it answers to the call (`some r`);
  `none` is `m_proxy == nullptr`.  Proxy calls that return nothing have no effect on the emulator.
-/

namespace Armor

/-- Largest `uint64_t` (and `size_t`) value, `std::numeric_limits<uint64_t>::max()`. -/
def UINT64_MAX : Nat := 2 ^ 64 - 1

/-- Reduction of an unsigned 64-bit result. -/
def wrap64 (n : Nat) : Nat := n % 2 ^ 64

/-- A `common::BinaryArray`: a vector of bytes. -/
abbrev BinaryArray := List Nat

/-- A `crypto::Hash`: 32 bytes. -/
abbrev Hash := List Nat

/-- The value-initialised hash `Hash{}`. -/
def zero_hash : Hash := List.replicate 32 0

/-- The enumeration `SigningState::State`. -/
inductive State where
  | FINISHED
  | EXPECT_ADD_INPUT
  | EXPECT_ADD_OUTPUT
  | EXPECT_ADD_EXTRA_CHUNK
  | EXPECT_STEP_A
  | EXPECT_STEP_A_MORE_DATA
  | EXPECT_STEP_B
  deriving DecidableEq, Repr

/-- The primitives `Emulator.cpp` takes from the crypto library, `common/Varint.hpp` and
`CryptoNote.hpp`. -/
structure Crypto (S P : Type) where
  G : P
  H : P
  cn_fast_hash : BinaryArray → Hash
  hash_to_scalar : BinaryArray → S
  hash_to_good_point_p3 : P → P
  secret_key_to_public_key : S → P
  secret_keys_to_public_key : S → S → P
  generate_key_image : P → S → P
  generate_hd_secretkey : S → P → Nat → S
  deterministic_keys_from_seed : Hash → Hash → BinaryArray → P
  generate_output_secrets : P → S × P × Hash
  linkable_derive_output_public_key : S → Hash → Nat → P → P → P × P
  unlinkable_derive_output_public_key : P → Hash → Nat → P → P → P × P
  get_varint_data : Nat → BinaryArray
  point_data : P → BinaryArray
  scalar_data : S → BinaryArray
  InputKey_type_tag : Nat
  OutputKey_type_tag : Nat
  AccountAddressSimple_type_tag : Nat
  AccountAddressUnlinkable_type_tag : Nat

/-- The byte buffer `ba` of an `Emulator::KeccakStream`. -/
abbrev KeccakStream := BinaryArray

/-- `KeccakStream::append(const unsigned char *data, size_t size)`. -/
def KeccakStream.append (ks : KeccakStream) (data : BinaryArray) : KeccakStream := ks ++ data

/-- `KeccakStream::append(uint64_t a)`: appends the varint encoding of `a`. -/
def KeccakStream.append_varint {S P : Type} (C : Crypto S P) (ks : KeccakStream) (a : Nat) :
    KeccakStream := ks ++ C.get_varint_data a

/-- `KeccakStream::append_byte(uint8_t b)`. -/
def KeccakStream.append_byte (ks : KeccakStream) (b : Nat) : KeccakStream := ks ++ [b]

/-- `add_amount(uint64_t &sum, uint64_t amount)`: `none` is the result `false` (the sum is left
as it was), `some v` is the result `true` with the new value of `sum`. -/
def add_amount (sum amount : Nat) : Option Nat :=
  if UINT64_MAX - amount < sum then none else some (wrap64 (sum + amount))

/-- Modelled from the spec: the declaration of `SigningState` (in `Emulator.hpp`) is missing; the
fields are those `Emulator.cpp` reads and writes. -/
structure SigningState (S P : Type) where
  state : State
  inputs_size : Nat
  outputs_size : Nat
  extra_size : Nat
  inputs_counter : Nat
  outputs_counter : Nat
  extra_counter : Nat
  inputs_amount : Nat
  dst_amount : Nat
  change_amount : Nat
  dst_address_set : Bool
  dst_address_tag : Nat
  dst_address_s : P
  dst_address_s_v : P
  tx_prefix_stream : KeccakStream
  tx_inputs_stream : KeccakStream
  tx_prefix_hash : Hash
  tx_inputs_hash : Hash
  random_seed : Hash
  c0 : S

/-- Modelled from the spec: the value `SigningState{}`, whose member initialisers are in the
missing `Emulator.hpp`: all sizes, counters and amounts zero, no destination committed, empty
transcripts, state `FINISHED`. -/
def SigningState.init (S P : Type) [Zero S] [Zero P] : SigningState S P where
  state := State.FINISHED
  inputs_size := 0
  outputs_size := 0
  extra_size := 0
  inputs_counter := 0
  outputs_counter := 0
  extra_counter := 0
  inputs_amount := 0
  dst_amount := 0
  change_amount := 0
  dst_address_set := false
  dst_address_tag := 0
  dst_address_s := 0
  dst_address_s_v := 0
  tx_prefix_stream := []
  tx_inputs_stream := []
  tx_prefix_hash := zero_hash
  tx_inputs_hash := zero_hash
  random_seed := zero_hash
  c0 := 0

/-- The members of `Emulator` that the signing operations use: the keys fixed by the
constructor, the one-entry subaddress cache and the signing session `sign`. -/
structure Emulator (S P : Type) where
  m_spend_secret_key : S
  m_audit_key_base_secret_key : S
  m_view_secret_key : S
  m_A_plus_sH : P
  m_sH : P
  m_tx_derivation_seed : Hash
  last_address_index : Nat
  last_address_audit_secret_key : S
  sign : SigningState S P

section Operations

variable {S P : Type} [CommRing S] [AddCommGroup P] [Module S P] [DecidableEq S] [DecidableEq P]

/-- `Emulator::prepare_address(size_t address_index)`. -/
def prepare_address (C : Crypto S P) (e : Emulator S P) (address_index : Nat) : Emulator S P :=
  if address_index ≠ e.last_address_index then
    { e with
      last_address_index := address_index
      last_address_audit_secret_key :=
        C.generate_hd_secretkey e.m_audit_key_base_secret_key e.m_A_plus_sH address_index }
  else e

/-- `Emulator::prepare_address(size_t, PublicKey *address_S, PublicKey *address_Sv)`: the emulator
with its cache updated, `address_S` and `address_Sv`.  `crypto::A_plus_B` is the sum of two points
and `crypto::A_mul_b` the product of a point by a scalar. -/
def prepare_address_public (C : Crypto S P) (e : Emulator S P) (address_index : Nat) :
    Emulator S P × P × P :=
  let e1 := prepare_address C e address_index
  let last_address_audit_public_key := C.secret_key_to_public_key e1.last_address_audit_secret_key
  let address_S := last_address_audit_public_key + e1.m_sH
  let address_Sv := e1.m_view_secret_key • address_S
  (e1, address_S, address_Sv)

/-- `Emulator::generate_sign_secret(size_t i, const char secret_name[2])`. -/
def generate_sign_secret (C : Crypto S P) (e : Emulator S P) (i : Nat) (secret_name : Char × Char) :
    S :=
  let ks : KeccakStream := []
  let ks := ks.append e.sign.random_seed
  let ks := ks.append (C.scalar_data e.m_spend_secret_key)
  let ks := ks.append_byte secret_name.1.toNat
  let ks := ks.append_byte secret_name.2.toNat
  let ks := ks.append_varint C i
  C.hash_to_scalar ks

/-- `Emulator::sign_start`. -/
def sign_start (C : Crypto S P) (e : Emulator S P)
    (version ut inputs_size outputs_size extra_size : Nat) : Option Unit × Emulator S P :=
  if inputs_size = 0 then (none, e)
  else if outputs_size = 0 then (none, e)
  else if version = 0 then (none, e)
  else
    let sign : SigningState S P :=
      { SigningState.init S P with
        inputs_size := inputs_size
        outputs_size := outputs_size
        extra_size := extra_size
        state := State.EXPECT_ADD_INPUT }
    let sign : SigningState S P := { sign with
      tx_prefix_stream :=
        ((sign.tx_prefix_stream.append_varint C version).append_varint C ut).append_varint C
          inputs_size
      tx_inputs_stream := sign.tx_inputs_stream.append_varint C inputs_size }
    let sign : SigningState S P := { sign with random_seed := zero_hash }
    (some (), { e with sign := sign })

/-- The serialisation loop of `sign_add_input` (`for (size_t j = 0; ...)`): appends the varint of
every output index. -/
def append_output_indexes (C : Crypto S P) (ks : KeccakStream) (output_indexes : List Nat) :
    KeccakStream :=
  output_indexes.foldl (fun acc j => acc.append_varint C j) ks

/-- `Emulator::sign_add_input`. -/
def sign_add_input (C : Crypto S P) (e : Emulator S P) (amount : Nat) (output_indexes : List Nat)
    (inv_output_secret_hash : S) (address_index : Nat) : Option Unit × Emulator S P :=
  if ¬ (e.sign.state = State.EXPECT_ADD_INPUT ∧ e.sign.inputs_counter < e.sign.inputs_size) then
    (none, e)
  else
    match add_amount e.sign.inputs_amount amount with
    | none => (none, e)
    | some inputs_amount =>
      let tag := C.InputKey_type_tag
      let ser (ks : KeccakStream) : KeccakStream :=
        append_output_indexes C
          (((ks.append_byte tag).append_varint C amount).append_varint C output_indexes.length)
          output_indexes
      let e1 := prepare_address C e address_index
      let output_secret_key_a := e1.last_address_audit_secret_key * inv_output_secret_hash
      let output_secret_key_s := e1.m_spend_secret_key * inv_output_secret_hash
      let output_public_key := C.secret_keys_to_public_key output_secret_key_a output_secret_key_s
      let key_image := C.generate_key_image output_public_key output_secret_key_a
      let sign : SigningState S P := { e1.sign with
        inputs_amount := inputs_amount
        tx_prefix_stream := (ser e1.sign.tx_prefix_stream).append (C.point_data key_image)
        tx_inputs_stream := (ser e1.sign.tx_inputs_stream).append (C.point_data key_image)
        inputs_counter := wrap64 (e1.sign.inputs_counter + 1) }
      if sign.inputs_counter < sign.inputs_size then
        (some (), { e1 with sign := sign })
      else
        let sign : SigningState S P := { sign with
          state := State.EXPECT_ADD_OUTPUT
          tx_inputs_hash := C.cn_fast_hash sign.tx_inputs_stream }
        let sign : SigningState S P := { sign with
          tx_prefix_stream := sign.tx_prefix_stream.append_varint C sign.outputs_size }
        (some (), { e1 with sign := sign })

/-- `Emulator::add_output_or_change`: the emulator with the output appended to the prefix
transcript, and `(public_key, encrypted_secret, encrypted_address_type)`. -/
def add_output_or_change (C : Crypto S P) (e : Emulator S P) (amount dst_address_tag : Nat)
    (dst_address_s dst_address_s_v : P) : Emulator S P × (P × P × Nat) :=
  let output_seed_keys :=
    C.deterministic_keys_from_seed e.sign.tx_inputs_hash e.m_tx_derivation_seed
      (C.get_varint_data e.sign.outputs_counter)
  let secrets := C.generate_output_secrets output_seed_keys
  let output_secret_scalar := secrets.1
  let output_secret_point := secrets.2.1
  let output_secret_address_type := secrets.2.2
  let output_tag := C.OutputKey_type_tag
  let encrypted_address_type := Nat.xor dst_address_tag (output_secret_address_type.headD 0)
  let keys :=
    if dst_address_tag = C.AccountAddressSimple_type_tag then
      C.linkable_derive_output_public_key output_secret_scalar e.sign.tx_inputs_hash
        e.sign.outputs_counter dst_address_s dst_address_s_v
    else
      C.unlinkable_derive_output_public_key output_secret_point e.sign.tx_inputs_hash
        e.sign.outputs_counter dst_address_s dst_address_s_v
  let public_key := keys.1
  let encrypted_secret := keys.2
  let ks := e.sign.tx_prefix_stream
  let ks := ks.append_byte output_tag
  let ks := ks.append_varint C amount
  let ks := ks.append (C.point_data public_key)
  let ks := ks.append (C.point_data encrypted_secret)
  let ks := ks.append_byte encrypted_address_type
  ({ e with sign := { e.sign with tx_prefix_stream := ks } },
    (public_key, encrypted_secret, encrypted_address_type))

/-- The tail of `sign_add_output` from `++sign.outputs_counter` on: the counter step and, on the
last output, the balance check.  The second component of the result is the `fee` the code prints
on the last output. -/
def sign_add_output_finish (C : Crypto S P) (e : Emulator S P) (out : P × P × Nat) :
    Option ((P × P × Nat) × Option Nat) × Emulator S P :=
  let e3 : Emulator S P :=
    { e with sign := { e.sign with outputs_counter := wrap64 (e.sign.outputs_counter + 1) } }
  if e3.sign.outputs_counter < e3.sign.outputs_size then (some (out, none), e3)
  else
    match add_amount e3.sign.dst_amount e3.sign.change_amount with
    | none => (none, e3)
    | some outputs_amount =>
      if ¬ (e3.sign.inputs_amount ≥ outputs_amount) then (none, e3)
      else
        let fee := e3.sign.inputs_amount - outputs_amount
        let sign : SigningState S P := { e3.sign with state := State.EXPECT_ADD_EXTRA_CHUNK }
        let sign : SigningState S P := { sign with
          tx_prefix_stream := sign.tx_prefix_stream.append_varint C sign.extra_size }
        (some (out, some fee), { e3 with sign := sign })

/-- The end of the `else` branch of `sign_add_output`, after the destination check:
`invariant(add_amount(sign.dst_amount, amount))` and the call of `add_output_or_change` on the
committed destination. -/
def sign_add_output_dst (C : Crypto S P) (e : Emulator S P) (amount : Nat) :
    Option (P × P × Nat) × Emulator S P :=
  match add_amount e.sign.dst_amount amount with
  | none => (none, e)
  | some dst_amount =>
    let e2 : Emulator S P := { e with sign := { e.sign with dst_amount := dst_amount } }
    let r2 := add_output_or_change C e2 amount e2.sign.dst_address_tag e2.sign.dst_address_s
      e2.sign.dst_address_s_v
    (some r2.2, r2.1)

/-- The branch `if (change) ... else ...` of `sign_add_output`: the amount accounting, the
destination check and the call of `add_output_or_change`. -/
def sign_add_output_account (C : Crypto S P) (e : Emulator S P) (change : Bool)
    (amount change_address_index dst_address_tag : Nat) (dst_address_s dst_address_s_v : P) :
    Option (P × P × Nat) × Emulator S P :=
  if change then
    match add_amount e.sign.change_amount amount with
    | none => (none, e)
    | some change_amount =>
      let e1 : Emulator S P := { e with sign := { e.sign with change_amount := change_amount } }
      let r := prepare_address_public C e1 change_address_index
      let r2 := add_output_or_change C r.1 amount C.AccountAddressUnlinkable_type_tag r.2.1 r.2.2
      (some r2.2, r2.1)
  else if ¬ e.sign.dst_address_set then
    sign_add_output_dst C
      { e with sign := { e.sign with
        dst_address_set := true
        dst_address_tag := dst_address_tag
        dst_address_s := dst_address_s
        dst_address_s_v := dst_address_s_v } } amount
  else if e.sign.dst_address_tag = dst_address_tag ∧ e.sign.dst_address_s = dst_address_s ∧
      e.sign.dst_address_s_v = dst_address_s_v then
    sign_add_output_dst C e amount
  else (none, e)

/-- `Emulator::sign_add_output`.  `px` is the answer `(public_key2, encrypted_secret2,
encrypted_address_type2)` of the attached proxy. -/
def sign_add_output (C : Crypto S P) (px : Option (P × P × Nat)) (e : Emulator S P) (change : Bool)
    (amount change_address_index dst_address_tag : Nat) (dst_address_s dst_address_s_v : P) :
    Option ((P × P × Nat) × Option Nat) × Emulator S P :=
  if ¬ (e.sign.state = State.EXPECT_ADD_OUTPUT ∧ e.sign.outputs_counter < e.sign.outputs_size) then
    (none, e)
  else
    match sign_add_output_account C e change amount change_address_index dst_address_tag
        dst_address_s dst_address_s_v with
    | (none, e1) => (none, e1)
    | (some out, e2) =>
      match px with
      | some out2 =>
        if out = out2 then sign_add_output_finish C e2 out else (none, e2)
      | none => sign_add_output_finish C e2 out

/-- `Emulator::sign_add_extra`. -/
def sign_add_extra (C : Crypto S P) (e : Emulator S P) (chunk : BinaryArray) :
    Option Unit × Emulator S P :=
  if ¬ (e.sign.state = State.EXPECT_ADD_EXTRA_CHUNK) then (none, e)
  else if ¬ (wrap64 (e.sign.extra_counter + chunk.length) ≤ e.sign.extra_size) then (none, e)
  else
    let sign : SigningState S P := { e.sign with
      tx_prefix_stream := e.sign.tx_prefix_stream.append chunk
      extra_counter := wrap64 (e.sign.extra_counter + chunk.length) }
    if sign.extra_counter < sign.extra_size then (some (), { e with sign := sign })
    else
      let tx_prefix_hash := C.cn_fast_hash sign.tx_prefix_stream
      let sign : SigningState S P := { sign with
        state := State.EXPECT_STEP_A
        tx_prefix_hash := tx_prefix_hash
        inputs_counter := 0
        tx_inputs_stream := KeccakStream.append [] tx_prefix_hash }
      (some (), { e with sign := sign })

/-- The first statement of `sign_step_a`: a call in `EXPECT_STEP_A_MORE_DATA` that is not for the
last input moves on to the next input. -/
def sign_step_a_next (e : Emulator S P) : Emulator S P :=
  if e.sign.state = State.EXPECT_STEP_A_MORE_DATA ∧
      wrap64 (e.sign.inputs_counter + 1) < e.sign.inputs_size then
    { e with sign := { e.sign with
      inputs_counter := wrap64 (e.sign.inputs_counter + 1)
      state := State.EXPECT_STEP_A } }
  else e

/-- `Emulator::sign_step_a`: returns `(sig_p, x, y)`.  `px` is the answer `(sigp2, x2, y2)` of the
attached proxy. -/
def sign_step_a (C : Crypto S P) (px : Option (P × P × P)) (e : Emulator S P)
    (inv_output_secret_hash : S) (address_index : Nat) : Option (P × P × P) × Emulator S P :=
  let e0 := sign_step_a_next e
  if ¬ (e0.sign.state = State.EXPECT_STEP_A ∧ e0.sign.inputs_counter < e0.sign.inputs_size) then
    (none, e0)
  else
    let e1 := prepare_address C e0 address_index
    let output_secret_key_a := e1.last_address_audit_secret_key * inv_output_secret_hash
    let output_secret_key_s := e1.m_spend_secret_key * inv_output_secret_hash
    let output_public_key := C.secret_keys_to_public_key output_secret_key_a output_secret_key_s
    let key_image := C.generate_key_image output_public_key output_secret_key_a
    let b_coin_p3 := C.hash_to_good_point_p3 key_image
    let hash_pubs_sec_p3 := C.hash_to_good_point_p3 output_public_key
    let sig_p := output_secret_key_s • C.H - output_secret_key_a • b_coin_p3
    let e2 : Emulator S P := { e1 with sign := { e1.sign with
      tx_inputs_stream := e1.sign.tx_inputs_stream.append (C.point_data sig_p) } }
    let ka := generate_sign_secret C e2 e2.sign.inputs_counter ('k', 'a')
    let kb := generate_sign_secret C e2 e2.sign.inputs_counter ('k', 'b')
    let kc := generate_sign_secret C e2 e2.sign.inputs_counter ('k', 'c')
    let z := kb • C.H + kc • b_coin_p3
    let e3 : Emulator S P := { e2 with sign := { e2.sign with
      tx_inputs_stream := e2.sign.tx_inputs_stream.append (C.point_data z) } }
    let G_plus_B_p3 := C.G + b_coin_p3
    let x := ka • G_plus_B_p3
    let y := ka • hash_pubs_sec_p3
    let e4 : Emulator S P := { e3 with sign := { e3.sign with state := State.EXPECT_STEP_A_MORE_DATA } }
    match px with
    | some r => if (sig_p, x, y) = r then (some (sig_p, x, y), e4) else (none, e4)
    | none => (some (sig_p, x, y), e4)

/-- `Emulator::sign_step_a_more_data`. -/
def sign_step_a_more_data (e : Emulator S P) (data : BinaryArray) : Option Unit × Emulator S P :=
  if ¬ (e.sign.state = State.EXPECT_STEP_A_MORE_DATA) then (none, e)
  else
    (some (), { e with sign := { e.sign with
      tx_inputs_stream := e.sign.tx_inputs_stream.append data } })

/-- `Emulator::sign_get_c0`.  `px` is the answer `c02` of the attached proxy. -/
def sign_get_c0 (C : Crypto S P) (px : Option S) (e : Emulator S P) : Option S × Emulator S P :=
  if ¬ (e.sign.state = State.EXPECT_STEP_A_MORE_DATA ∧
      wrap64 (e.sign.inputs_counter + 1) = e.sign.inputs_size) then (none, e)
  else
    let c0 := C.hash_to_scalar e.sign.tx_inputs_stream
    let e1 : Emulator S P := { e with sign := { e.sign with
      c0 := c0
      state := State.EXPECT_STEP_B
      inputs_counter := 0 } }
    match px with
    | some c02 => if c02 = c0 then (some c0, e1) else (none, e1)
    | none => (some c0, e1)

/-- `Emulator::sign_step_b`: returns `(sig_my_ra, sig_rb, sig_rc)`.  `px` is the answer
`(sig_my_ra2, rb2, rc2)` of the attached proxy. -/
def sign_step_b (C : Crypto S P) (px : Option (S × S × S)) (e : Emulator S P)
    (inv_output_secret_hash : S) (address_index : Nat) (my_c : S) :
    Option (S × S × S) × Emulator S P :=
  if ¬ (e.sign.state = State.EXPECT_STEP_B ∧ e.sign.inputs_counter < e.sign.inputs_size) then
    (none, e)
  else
    let e1 := prepare_address C e address_index
    let output_secret_key_a := e1.last_address_audit_secret_key * inv_output_secret_hash
    let output_secret_key_s := e1.m_spend_secret_key * inv_output_secret_hash
    let ka := generate_sign_secret C e1 e1.sign.inputs_counter ('k', 'a')
    let kb := generate_sign_secret C e1 e1.sign.inputs_counter ('k', 'b')
    let kc := generate_sign_secret C e1 e1.sign.inputs_counter ('k', 'c')
    let sig_rb := kb - e1.sign.c0 * output_secret_key_s
    let sig_rc := kc + e1.sign.c0 * output_secret_key_a
    let sig_my_ra := ka - my_c * output_secret_key_a
    let e2 : Emulator S P := { e1 with sign := { e1.sign with
      inputs_counter := wrap64 (e1.sign.inputs_counter + 1) } }
    let e3 :=
      if e2.sign.inputs_counter < e2.sign.inputs_size then e2
      else { e2 with sign := { e2.sign with state := State.FINISHED } }
    match px with
    | some r => if (sig_my_ra, sig_rb, sig_rc) = r then (some (sig_my_ra, sig_rb, sig_rc), e3)
        else (none, e1)
    | none => (some (sig_my_ra, sig_rb, sig_rc), e3)

/-- `Emulator::proof_start`. -/
def proof_start (C : Crypto S P) (e : Emulator S P) (data : BinaryArray) :
    Option Unit × Emulator S P :=
  let sign : SigningState S P := { SigningState.init S P with inputs_size := 1 }
  let ks := (sign.tx_prefix_stream.append_byte 0).append data
  let sign : SigningState S P := { sign with
    tx_prefix_stream := ks
    tx_prefix_hash := C.cn_fast_hash ks
    random_seed := zero_hash }
  let sign : SigningState S P := { sign with
    tx_inputs_stream := sign.tx_inputs_stream.append sign.tx_prefix_hash
    state := State.EXPECT_STEP_A }
  (some (), { e with sign := sign })

/-- A call of one of the operations of the signing protocol, with its arguments (and, where the
operation compares its result with the proxy, the answer of the attached proxy). -/
inductive Call (S P : Type) where
  | sign_start (version ut inputs_size outputs_size extra_size : Nat)
  | sign_add_input (amount : Nat) (output_indexes : List Nat) (inv_output_secret_hash : S)
      (address_index : Nat)
  | sign_add_output (px : Option (P × P × Nat)) (change : Bool)
      (amount change_address_index dst_address_tag : Nat) (dst_address_s dst_address_s_v : P)
  | sign_add_extra (chunk : BinaryArray)
  | sign_step_a (px : Option (P × P × P)) (inv_output_secret_hash : S) (address_index : Nat)
  | sign_step_a_more_data (data : BinaryArray)
  | sign_get_c0 (px : Option S)
  | sign_step_b (px : Option (S × S × S)) (inv_output_secret_hash : S) (address_index : Nat)
      (my_c : S)
  | proof_start (data : BinaryArray)

/-- What a call that does not throw hands back to its caller. -/
inductive Output (S P : Type) where
  | done
  | output (public_key encrypted_secret : P) (encrypted_address_type : Nat) (fee : Option Nat)
  | step_a (sig_p x y : P)
  | c0 (c : S)
  | step_b (sig_my_ra sig_rb sig_rc : S)

/-- The calls that work inside a session: every operation but `sign_start` and `proof_start`. -/
def Call.inSession : Call S P → Bool
  | .sign_start .. => false
  | .proof_start .. => false
  | _ => true

/-- The call is made with no hardware proxy attached. -/
def Call.noProxy : Call S P → Bool
  | .sign_add_output px .. => px.isNone
  | .sign_step_a px .. => px.isNone
  | .sign_get_c0 px => px.isNone
  | .sign_step_b px .. => px.isNone
  | _ => true

/-- The integer arguments of the call fit their C++ types (`uint64_t`, `size_t`, `uint8_t`). -/
def Call.typed : Call S P → Prop
  | .sign_start version ut inputs_size outputs_size extra_size =>
      version ≤ UINT64_MAX ∧ ut ≤ UINT64_MAX ∧ inputs_size ≤ UINT64_MAX ∧
        outputs_size ≤ UINT64_MAX ∧ extra_size ≤ UINT64_MAX
  | .sign_add_input amount output_indexes _ address_index =>
      amount ≤ UINT64_MAX ∧ output_indexes.length ≤ UINT64_MAX ∧
        (∀ j ∈ output_indexes, j ≤ UINT64_MAX) ∧ address_index ≤ UINT64_MAX
  | .sign_add_output _ _ amount change_address_index dst_address_tag _ _ =>
      amount ≤ UINT64_MAX ∧ change_address_index ≤ UINT64_MAX ∧ dst_address_tag < 256
  | .sign_add_extra chunk => chunk.length ≤ UINT64_MAX
  | .sign_step_a _ _ address_index => address_index ≤ UINT64_MAX
  | .sign_step_a_more_data data => data.length ≤ UINT64_MAX
  | .sign_get_c0 _ => True
  | .sign_step_b _ _ address_index _ => address_index ≤ UINT64_MAX
  | .proof_start data => data.length ≤ UINT64_MAX

/-- One call on the emulator: what it returns (`none` when it throws) and the emulator after
it. -/
def step (C : Crypto S P) (e : Emulator S P) : Call S P → Option (Output S P) × Emulator S P
  | .sign_start version ut inputs_size outputs_size extra_size =>
      let r := sign_start C e version ut inputs_size outputs_size extra_size
      (r.1.map (fun _ => Output.done), r.2)
  | .sign_add_input amount output_indexes inv_output_secret_hash address_index =>
      let r := sign_add_input C e amount output_indexes inv_output_secret_hash address_index
      (r.1.map (fun _ => Output.done), r.2)
  | .sign_add_output px change amount change_address_index dst_address_tag dst_address_s
      dst_address_s_v =>
      let r := sign_add_output C px e change amount change_address_index dst_address_tag
        dst_address_s dst_address_s_v
      (r.1.map (fun o => Output.output o.1.1 o.1.2.1 o.1.2.2 o.2), r.2)
  | .sign_add_extra chunk =>
      let r := sign_add_extra C e chunk
      (r.1.map (fun _ => Output.done), r.2)
  | .sign_step_a px inv_output_secret_hash address_index =>
      let r := sign_step_a C px e inv_output_secret_hash address_index
      (r.1.map (fun o => Output.step_a o.1 o.2.1 o.2.2), r.2)
  | .sign_step_a_more_data data =>
      let r := sign_step_a_more_data e data
      (r.1.map (fun _ => Output.done), r.2)
  | .sign_get_c0 px =>
      let r := sign_get_c0 C px e
      (r.1.map (fun c => Output.c0 c), r.2)
  | .sign_step_b px inv_output_secret_hash address_index my_c =>
      let r := sign_step_b C px e inv_output_secret_hash address_index my_c
      (r.1.map (fun o => Output.step_b o.1 o.2.1 o.2.2), r.2)
  | .proof_start data =>
      let r := proof_start C e data
      (r.1.map (fun _ => Output.done), r.2)

/-- The emulator after a sequence of calls; a call that throws leaves the emulator as the throw
left it and the caller goes on with the next call. -/
def run (C : Crypto S P) (e : Emulator S P) : List (Call S P) → Emulator S P
  | [] => e
  | c :: cs => run C (step C e c).2 cs

/-- One entry of the log of a run: the call, the emulator before it, what the call returned and
the emulator after it. -/
structure Event (S P : Type) where
  call : Call S P
  pre : Emulator S P
  result : Option (Output S P)
  post : Emulator S P

/-- The log of a sequence of calls. -/
def trace (C : Crypto S P) (e : Emulator S P) : List (Call S P) → List (Event S P)
  | [] => []
  | c :: cs =>
      { call := c, pre := e, result := (step C e c).1, post := (step C e c).2 } ::
        trace C (step C e c).2 cs

/-- The call of the event returned without throwing. -/
def Event.ok (ev : Event S P) : Bool := ev.result.isSome

/-- Every call of the sequence returns without throwing. -/
def allOk (C : Crypto S P) (e : Emulator S P) : List (Call S P) → Bool
  | [] => true
  | c :: cs => (step C e c).1.isSome && allOk C (step C e c).2 cs

/-- The local `KeccakStream ks` of `generate_sign_secret` at the moment it is hashed. -/
def generate_sign_secret_stream (C : Crypto S P) (e : Emulator S P) (i : Nat)
    (secret_name : Char × Char) : KeccakStream :=
  let ks : KeccakStream := []
  let ks := ks.append e.sign.random_seed
  let ks := ks.append (C.scalar_data e.m_spend_secret_key)
  let ks := ks.append_byte secret_name.1.toNat
  let ks := ks.append_byte secret_name.2.toNat
  let ks := ks.append_varint C i
  ks

/-- `Emulator::generate_keyimage`.  `px` is the answer of the attached proxy. -/
def generate_keyimage (C : Crypto S P) (px : Option P) (e : Emulator S P) (output_public_key : P)
    (inv_output_secret_hash : S) (address_index : Nat) : Option P × Emulator S P :=
  let e1 := prepare_address C e address_index
  let output_secret_key_a := e1.last_address_audit_secret_key * inv_output_secret_hash
  let result := C.generate_key_image output_public_key output_secret_key_a
  let output_secret_key_s := e1.m_spend_secret_key * inv_output_secret_hash
  let output_public_key2 := C.secret_keys_to_public_key output_secret_key_a output_secret_key_s
  if ¬ (output_public_key = output_public_key2) then (none, e1)
  else
    match px with
    | some r => if r = result then (some result, e1) else (none, e1)
    | none => (some result, e1)

/-- The local `KeccakStream ks` of `export_view_only` at the moment it is hashed. -/
def export_view_only_stream (C : Crypto S P) (e : Emulator S P) : KeccakStream :=
  let audit_key_base_secret_key := e.m_audit_key_base_secret_key
  let ks : KeccakStream := []
  let ks := ks.append (C.scalar_data audit_key_base_secret_key)
  let ks := ks.append (C.scalar_data e.m_view_secret_key)
  ks

/-- `Emulator::export_view_only`: returns `(audit_key_base_secret_key, view_secret_key,
tx_derivation_seed, view_secrets_signature)`.  `generate_signature_H` is the signing primitive of
the crypto library; `px` is the answer of the attached proxy, of which the signature is not
compared. -/
def export_view_only (C : Crypto S P) (generate_signature_H : Hash → P → S → S × S)
    (px : Option (S × S × Hash)) (e : Emulator S P) : Option (S × S × Hash × (S × S)) :=
  let view_secret_key := e.m_view_secret_key
  let audit_key_base_secret_key := e.m_audit_key_base_secret_key
  let tx_derivation_seed := e.m_tx_derivation_seed
  let view_secrets_hash := C.cn_fast_hash (export_view_only_stream C e)
  let view_secrets_signature := generate_signature_H view_secrets_hash e.m_sH e.m_spend_secret_key
  match px with
  | some r =>
    if (audit_key_base_secret_key, view_secret_key, tx_derivation_seed) = r then
      some (audit_key_base_secret_key, view_secret_key, tx_derivation_seed, view_secrets_signature)
    else none
  | none =>
    some (audit_key_base_secret_key, view_secret_key, tx_derivation_seed, view_secrets_signature)

end Operations

/-- A small instance of the primitives, on which the operations can be evaluated: scalars and
points are integers, `G = 1`, `H = 2`, and the hashes are sums of bytes. -/
def Crypto.small : Crypto Int Int where
  G := 1
  H := 2
  cn_fast_hash := fun ba => [ba.sum % 256]
  hash_to_scalar := fun ba => (ba.sum : Int) + 1
  hash_to_good_point_p3 := fun p => p + 3
  secret_key_to_public_key := fun a => a
  secret_keys_to_public_key := fun a s => a + 2 * s
  generate_key_image := fun p a => a * (p + 3)
  generate_hd_secretkey := fun a _ i => a + i + 1
  deterministic_keys_from_seed := fun h1 h2 ba => ((h1.sum + h2.sum + ba.sum : Nat) : Int)
  generate_output_secrets := fun p => (p + 1, p + 2, [p.natAbs % 256])
  linkable_derive_output_public_key := fun s _ i a v => (s + i + a, s + v)
  unlinkable_derive_output_public_key := fun p _ i a v => (p + i + v, p + a)
  get_varint_data := fun n => [n % 128]
  point_data := fun p => [p.natAbs % 256]
  scalar_data := fun s => [s.natAbs % 256]
  InputKey_type_tag := 2
  OutputKey_type_tag := 2
  AccountAddressSimple_type_tag := 0
  AccountAddressUnlinkable_type_tag := 1

/-- An emulator over `Crypto.small` with a consistent subaddress cache and no session. -/
def Emulator.small : Emulator Int Int where
  m_spend_secret_key := 5
  m_audit_key_base_secret_key := 7
  m_view_secret_key := 11
  m_A_plus_sH := 17
  m_sH := 10
  m_tx_derivation_seed := [9]
  last_address_index := 0
  last_address_audit_secret_key := 8
  sign := SigningState.init Int Int

/-- The emulator `Emulator.small` after `sign_start(2, 0, 2, 2, 3)`: a session that expects two
inputs, two outputs and three bytes of extra. -/
def Emulator.started : Emulator Int Int :=
  (sign_start Crypto.small Emulator.small 2 0 2 2 3).2

/-- The emulator `Emulator.small` after `sign_start(2, 0, 1, 1, 0)`, one input of amount 1000
with output indexes `[7]`, one non-change output of amount 900 and an empty extra chunk: a session
in `EXPECT_STEP_A`. -/
def Emulator.prepared : Emulator Int Int :=
  run Crypto.small Emulator.small
    [Call.sign_start 2 0 1 1 0, Call.sign_add_input 1000 [7] 3 0,
      Call.sign_add_output none false 900 0 0 4 6, Call.sign_add_extra []]

/-- The emulator `Emulator.small` after `sign_start(2, 0, 1, 2, 0)` and one input of amount
1000: a session in `EXPECT_ADD_OUTPUT` that expects two outputs. -/
def Emulator.funded : Emulator Int Int :=
  run Crypto.small Emulator.small
    [Call.sign_start 2 0 1 2 0, Call.sign_add_input 1000 [7] 3 0]

/-- The calls of the round trip of the spec after `sign_start(2, 0, 1, 1, 0)`. -/
def round_trip : List (Call Int Int) :=
  [Call.sign_add_input 1000 [7] 3 0, Call.sign_add_output none false 900 0 0 4 6,
    Call.sign_add_extra [], Call.sign_step_a none 3 0, Call.sign_step_a_more_data [],
    Call.sign_get_c0 none, Call.sign_step_b none 3 0 2]

/-- The event of the `sign_step_a` of the round trip. -/
def round_trip_step_a : Event Int Int :=
  { call := Call.sign_step_a none 3 0
    pre := Emulator.prepared
    result := (step Crypto.small Emulator.prepared (Call.sign_step_a none 3 0)).1
    post := (step Crypto.small Emulator.prepared (Call.sign_step_a none 3 0)).2 }

/-- The event of the `sign_step_b` of the round trip. -/
def round_trip_step_b : Event Int Int :=
  { call := Call.sign_step_b none 3 0 2
    pre := run Crypto.small Emulator.prepared
      [Call.sign_step_a none 3 0, Call.sign_step_a_more_data [], Call.sign_get_c0 none]
    result := (step Crypto.small (run Crypto.small Emulator.prepared
      [Call.sign_step_a none 3 0, Call.sign_step_a_more_data [], Call.sign_get_c0 none])
      (Call.sign_step_b none 3 0 2)).1
    post := (step Crypto.small (run Crypto.small Emulator.prepared
      [Call.sign_step_a none 3 0, Call.sign_step_a_more_data [], Call.sign_get_c0 none])
      (Call.sign_step_b none 3 0 2)).2 }

section Specification

variable {S P : Type} [CommRing S] [AddCommGroup P] [Module S P] [DecidableEq S] [DecidableEq P]

/-- The position in the protocol at which a call is expected (the condition of the first
`invariant` of each session operation; `+ 1` is the `size_t` addition of the code).  The two
operations that open a session are expected everywhere. -/
def expected_position (c : Call S P) (s : SigningState S P) : Prop :=
  match c with
  | .sign_add_input .. => s.state = State.EXPECT_ADD_INPUT ∧ s.inputs_counter < s.inputs_size
  | .sign_add_output .. => s.state = State.EXPECT_ADD_OUTPUT ∧ s.outputs_counter < s.outputs_size
  | .sign_add_extra .. => s.state = State.EXPECT_ADD_EXTRA_CHUNK
  | .sign_step_a .. =>
      (s.state = State.EXPECT_STEP_A ∧ s.inputs_counter < s.inputs_size) ∨
        (s.state = State.EXPECT_STEP_A_MORE_DATA ∧ wrap64 (s.inputs_counter + 1) < s.inputs_size)
  | .sign_step_a_more_data .. => s.state = State.EXPECT_STEP_A_MORE_DATA
  | .sign_get_c0 .. =>
      s.state = State.EXPECT_STEP_A_MORE_DATA ∧ wrap64 (s.inputs_counter + 1) = s.inputs_size
  | .sign_step_b .. => s.state = State.EXPECT_STEP_B ∧ s.inputs_counter < s.inputs_size
  | .sign_start .. => True
  | .proof_start .. => True

/-- The call is a `sign_add_input`. -/
def Call.isAddInput : Call S P → Bool
  | .sign_add_input .. => true
  | _ => false

/-- The call is a `sign_step_a`. -/
def Call.isStepA : Call S P → Bool
  | .sign_step_a .. => true
  | _ => false

/-- The call is a `sign_step_a_more_data`. -/
def Call.isMoreData : Call S P → Bool
  | .sign_step_a_more_data .. => true
  | _ => false

/-- The call is a `sign_step_b`. -/
def Call.isStepB : Call S P → Bool
  | .sign_step_b .. => true
  | _ => false

/-- The events of a log whose call is of the kind `kind` and returned without throwing, in the
order of the calls. -/
def accepted (kind : Call S P → Bool) (log : List (Event S P)) : List (Event S P) :=
  log.filter (fun ev => ev.ok && kind ev.call)

/-- The members of the emulator that the constructor fixes. -/
def Emulator.keys (e : Emulator S P) : S × S × S × P × P × Hash :=
  (e.m_spend_secret_key, e.m_audit_key_base_secret_key, e.m_view_secret_key, e.m_A_plus_sH, e.m_sH,
    e.m_tx_derivation_seed)

/-- The declared shape of a session: `inputs_size`, `outputs_size`, `extra_size`. -/
def SigningState.shape (s : SigningState S P) : Nat × Nat × Nat :=
  (s.inputs_size, s.outputs_size, s.extra_size)

/-- The accumulated amounts of a session: `inputs_amount`, `dst_amount`, `change_amount`. -/
def SigningState.amounts (s : SigningState S P) : Nat × Nat × Nat :=
  (s.inputs_amount, s.dst_amount, s.change_amount)

/-- The committed destination of a session: `dst_address_set` and the triple
`(dst_address_tag, dst_address_s, dst_address_s_v)`. -/
def SigningState.destination (s : SigningState S P) : Bool × Nat × P × P :=
  (s.dst_address_set, s.dst_address_tag, s.dst_address_s, s.dst_address_s_v)

/-- The index of the input that a `sign_step_a` accepted in the session `s` works on. -/
def step_a_index (s : SigningState S P) : Nat :=
  if s.state = State.EXPECT_STEP_A_MORE_DATA then wrap64 (s.inputs_counter + 1)
  else s.inputs_counter

/-- The nonce `hash_to_scalar(random_seed ‖ spend_secret_key ‖ tag[0] ‖ tag[1] ‖ varint(k))`. -/
def nonce (C : Crypto S P) (e : Emulator S P) (k : Nat) (tag : Char × Char) : S :=
  C.hash_to_scalar (e.sign.random_seed ++ C.scalar_data e.m_spend_secret_key ++
    [tag.1.toNat] ++ [tag.2.toNat] ++ C.get_varint_data k)

/-- The values `sign_step_a` computes for input `k` from `(inv_output_secret_hash,
address_index)`: the secrets `a` and `s`, the point `B`, and `p`, `z`, `x`, `y`. -/
structure StepA (S P : Type) where
  a : S
  s : S
  B : P
  p : P
  z : P
  x : P
  y : P

/-- The values of `sign_step_a` for input `k`. -/
def step_a_values (C : Crypto S P) (e : Emulator S P) (k : Nat) (inv : S) (address_index : Nat) :
    StepA S P :=
  let a := (prepare_address C e address_index).last_address_audit_secret_key * inv
  let s := e.m_spend_secret_key * inv
  let pk := C.secret_keys_to_public_key a s
  let B := C.hash_to_good_point_p3 (C.generate_key_image pk a)
  { a := a
    s := s
    B := B
    p := s • C.H - a • B
    z := nonce C e k ('k', 'b') • C.H + nonce C e k ('k', 'c') • B
    x := nonce C e k ('k', 'a') • (C.G + B)
    y := nonce C e k ('k', 'a') • C.hash_to_good_point_p3 pk }

/-- The place of a state in the pipeline of the protocol. -/
def State.rank : State → Nat
  | .EXPECT_ADD_INPUT => 0
  | .EXPECT_ADD_OUTPUT => 1
  | .EXPECT_ADD_EXTRA_CHUNK => 2
  | .EXPECT_STEP_A => 3
  | .EXPECT_STEP_A_MORE_DATA => 4
  | .EXPECT_STEP_B => 5
  | .FINISHED => 6

/-- The amounts after a `sign_add_output` whose accounting went through: the amount is added to
`change_amount` or to `dst_amount`, without wrap-around. -/
def Accounted (e e' : Emulator S P) (change : Bool) (amount : Nat) : Prop :=
  if change = true then
    e'.sign.change_amount = e.sign.change_amount + amount ∧
      e.sign.change_amount + amount ≤ 2 ^ 64 - 1 ∧ e'.sign.dst_amount = e.sign.dst_amount
  else
    e'.sign.dst_amount = e.sign.dst_amount + amount ∧
      e.sign.dst_amount + amount ≤ 2 ^ 64 - 1 ∧ e'.sign.change_amount = e.sign.change_amount

/-- The input phase of a session that declared `n` inputs, after `k` accepted inputs. -/
def InputPhase (n k : Nat) (e : Emulator S P) : Prop :=
  e.sign.inputs_size = n ∧
    ((e.sign.state = State.EXPECT_ADD_INPUT ∧ e.sign.inputs_counter = k ∧ k < n) ∨
      (e.sign.state ≠ State.EXPECT_ADD_INPUT ∧ k = n))

/-- The subaddress cache holds the secret of the index it is labelled with. -/
def CacheOk (C : Crypto S P) (e : Emulator S P) : Prop :=
  e.last_address_audit_secret_key =
    C.generate_hd_secretkey e.m_audit_key_base_secret_key e.m_A_plus_sH e.last_address_index

/-- The signing rounds of a session that declared `n` inputs, when `na` calls of `sign_step_a`
and `nb` calls of `sign_step_b` have been accepted. -/
def StepPhase (n na nb : Nat) (e : Emulator S P) : Prop :=
  e.sign.inputs_size = n ∧
  match e.sign.state with
  | .EXPECT_ADD_INPUT => na = 0 ∧ nb = 0
  | .EXPECT_ADD_OUTPUT => na = 0 ∧ nb = 0
  | .EXPECT_ADD_EXTRA_CHUNK => na = 0 ∧ nb = 0
  | .EXPECT_STEP_A => na = 0 ∧ nb = 0 ∧ e.sign.inputs_counter = 0
  | .EXPECT_STEP_A_MORE_DATA =>
      na = e.sign.inputs_counter + 1 ∧ e.sign.inputs_counter < n ∧ nb = 0
  | .EXPECT_STEP_B => na = n ∧ nb = e.sign.inputs_counter ∧ e.sign.inputs_counter < n
  | .FINISHED => na = n ∧ nb = n

instance expected_position_decidable (c : Call S P) (s : SigningState S P) :
    Decidable (expected_position c s) := by
  cases c <;> unfold expected_position <;> infer_instance

/-- The events of a log whose call is of the kind `kind` and was made in its expected position:
the calls that passed their state check and were carried out. -/
def carried (kind : Call S P → Bool) (log : List (Event S P)) : List (Event S P) :=
  log.filter (fun ev => decide (expected_position ev.call ev.pre.sign) && kind ev.call)

/-- The books of a session kept from outside: the exact sums of the amounts of the accepted
`sign_add_input`, non-change `sign_add_output` and change `sign_add_output` calls, and the fee
that the last `sign_add_output` computed. -/
structure Ledger where
  inputs : Nat
  dst : Nat
  change : Nat
  fee : Option Nat

/-- The books after one more call that returned `r`. -/
def Ledger.record (l : Ledger) (c : Call S P) (r : Option (Output S P)) : Ledger :=
  match c, r with
  | .sign_add_input amount _ _ _, some _ => { l with inputs := l.inputs + amount }
  | .sign_add_output _ false amount _ _ _ _, some (.output _ _ _ fee) =>
      { l with dst := l.dst + amount, fee := if fee.isSome then fee else l.fee }
  | .sign_add_output _ true amount _ _ _ _, some (.output _ _ _ fee) =>
      { l with change := l.change + amount, fee := if fee.isSome then fee else l.fee }
  | _, _ => l

/-- The books of a log, starting from `l`. -/
def ledger (l : Ledger) (log : List (Event S P)) : Ledger :=
  log.foldl (fun acc ev => acc.record ev.call ev.result) l

/-- The states in which all the outputs have been accepted: `EXPECT_ADD_EXTRA_CHUNK` and the
states after it. -/
def State.outputsDone : State → Bool
  | .EXPECT_ADD_INPUT => false
  | .EXPECT_ADD_OUTPUT => false
  | _ => true

/-- The call is a `sign_add_output`. -/
def Call.isAddOutput : Call S P → Bool
  | .sign_add_output .. => true
  | _ => false

/-- The books `l` agree with the session: the invariant behind the conservation of amounts.
With `clean` no `sign_add_output` of the session has failed the comparison with the proxy so
far. -/
def Conserved (clean : Bool) (l : Ledger) (e : Emulator S P) : Prop :=
  e.sign.inputs_amount = l.inputs ∧ e.sign.outputs_size ≤ UINT64_MAX ∧
  e.sign.change_amount ≤ UINT64_MAX ∧
  l.dst ≤ e.sign.dst_amount ∧ l.change ≤ e.sign.change_amount ∧
  (clean = true →
    (e.sign.state = State.EXPECT_ADD_OUTPUT ∧ e.sign.outputs_size ≤ e.sign.outputs_counter) ∨
    (l.dst = e.sign.dst_amount ∧ l.change = e.sign.change_amount)) ∧
  (if e.sign.state.outputsDone = true then
    e.sign.dst_amount + e.sign.change_amount ≤ 2 ^ 64 - 1 ∧
    e.sign.dst_amount + e.sign.change_amount ≤ e.sign.inputs_amount ∧
    l.fee = some (e.sign.inputs_amount - (e.sign.dst_amount + e.sign.change_amount))
  else l.fee = none)

/-- The arguments of one `sign_add_input` call. -/
structure InputArgs (S : Type) where
  amount : Nat
  output_indexes : List Nat
  inv_output_secret_hash : S
  address_index : Nat

/-- The arguments of one `sign_add_output` call. -/
structure OutputArgs (P : Type) where
  change : Bool
  amount : Nat
  change_address_index : Nat
  dst_address_tag : Nat
  dst_address_s : P
  dst_address_s_v : P

/-- The arguments of one `sign_step_a` call and of the `sign_step_a_more_data` call after it. -/
structure RoundA (S : Type) where
  inv_output_secret_hash : S
  address_index : Nat
  data : BinaryArray

/-- The arguments of one `sign_step_b` call. -/
structure RoundB (S : Type) where
  inv_output_secret_hash : S
  address_index : Nat
  my_c : S

/-- One `sign_add_input` call per input. -/
def add_inputs (ins : List (InputArgs S)) : List (Call S P) :=
  ins.map fun i =>
    Call.sign_add_input i.amount i.output_indexes i.inv_output_secret_hash i.address_index

/-- One `sign_add_output` call per output, no proxy attached. -/
def add_outputs (outs : List (OutputArgs P)) : List (Call S P) :=
  outs.map fun o =>
    Call.sign_add_output none o.change o.amount o.change_address_index o.dst_address_tag
      o.dst_address_s o.dst_address_s_v

/-- One `sign_add_extra` call per chunk. -/
def add_extras (chunks : List BinaryArray) : List (Call S P) :=
  chunks.map fun c => Call.sign_add_extra c

/-- For each input one `sign_step_a` followed by one `sign_step_a_more_data`, no proxy attached. -/
def steps_a : List (RoundA S) → List (Call S P)
  | [] => []
  | r :: rs =>
      Call.sign_step_a none r.inv_output_secret_hash r.address_index ::
        Call.sign_step_a_more_data r.data :: steps_a rs

/-- One `sign_step_b` call per input, no proxy attached. -/
def steps_b (rs : List (RoundB S)) : List (Call S P) :=
  rs.map fun r => Call.sign_step_b none r.inv_output_secret_hash r.address_index r.my_c

/-- The calls of a full signing session, in the order of the protocol. -/
def pipeline (version ut extra_size : Nat) (ins : List (InputArgs S)) (outs : List (OutputArgs P))
    (chunks : List BinaryArray) (ras : List (RoundA S)) (rbs : List (RoundB S)) :
    List (List (Call S P)) :=
  [[Call.sign_start version ut ins.length outs.length extra_size], add_inputs ins,
    add_outputs outs, add_extras chunks, steps_a ras, [Call.sign_get_c0 none], steps_b rbs]

/-- The full session of the round trip of the spec, phase by phase: `sign_start(2, 0, 1, 1, 0)`,
one input of amount 1000 with indexes `[7]`, one non-change output of amount 900, one empty extra
chunk, one signing round. -/
def round_trip_pipeline : List (List (Call Int Int)) :=
  pipeline 2 0 0 [⟨1000, [7], 3, 0⟩] [⟨false, 900, 0, 0, 4, 6⟩] [[]] [⟨3, 0, []⟩] [⟨3, 0, 2⟩]


/-- The emulator `Emulator.small` after `sign_start(2, 0, 1, 1, 3)`, one input of amount 1000 and
one non-change output of amount 900: a session in `EXPECT_ADD_EXTRA_CHUNK` that expects three
bytes of extra. -/
def Emulator.paid : Emulator Int Int :=
  run Crypto.small Emulator.small
    [Call.sign_start 2 0 1 1 3, Call.sign_add_input 1000 [7] 3 0,
      Call.sign_add_output none false 900 0 0 4 6]

/-- The key image that the emulator `e` derives for the input `(inv_output_secret_hash,
address_index)`: `generate_key_image(secret_keys_to_public_key(a, s), a)` with `a` the cached
subaddress secret after `prepare_address(address_index)` times `inv_output_secret_hash` and `s`
the spend secret times `inv_output_secret_hash`. -/
def input_key_image (C : Crypto S P) (e : Emulator S P) (inv_output_secret_hash : S)
    (address_index : Nat) : P :=
  C.generate_key_image
    (C.secret_keys_to_public_key
      ((prepare_address C e address_index).last_address_audit_secret_key * inv_output_secret_hash)
      (e.m_spend_secret_key * inv_output_secret_hash))
    ((prepare_address C e address_index).last_address_audit_secret_key * inv_output_secret_hash)

/-- The serialisation of an input: input type tag ‖ varint(amount) ‖ varint(number of output
indexes) ‖ varint of each output index in order ‖ key image. -/
def input_record (C : Crypto S P) (e : Emulator S P) (amount : Nat) (output_indexes : List Nat)
    (inv_output_secret_hash : S) (address_index : Nat) : BinaryArray :=
  [C.InputKey_type_tag] ++ C.get_varint_data amount ++ C.get_varint_data output_indexes.length ++
    output_indexes.flatMap C.get_varint_data ++
    C.point_data (input_key_image C e inv_output_secret_hash address_index)

/-- The secrets `(output_secret_scalar, output_secret_point, output_secret_address_type)` that
`add_output_or_change` derives for the next output of the session of `e`. -/
def output_secrets (C : Crypto S P) (e : Emulator S P) : S × P × Hash :=
  C.generate_output_secrets
    (C.deterministic_keys_from_seed e.sign.tx_inputs_hash e.m_tx_derivation_seed
      (C.get_varint_data e.sign.outputs_counter))

/-- The output that `add_output_or_change` derives on `e` for the destination
`(tag, address_s, address_s_v)`: `(public_key, encrypted_secret, encrypted_address_type)`. -/
def derived_output (C : Crypto S P) (e : Emulator S P) (tag : Nat) (address_s address_s_v : P) :
    P × P × Nat :=
  ((if tag = C.AccountAddressSimple_type_tag then
      C.linkable_derive_output_public_key (output_secrets C e).1 e.sign.tx_inputs_hash
        e.sign.outputs_counter address_s address_s_v
    else
      C.unlinkable_derive_output_public_key (output_secrets C e).2.1 e.sign.tx_inputs_hash
        e.sign.outputs_counter address_s address_s_v).1,
   (if tag = C.AccountAddressSimple_type_tag then
      C.linkable_derive_output_public_key (output_secrets C e).1 e.sign.tx_inputs_hash
        e.sign.outputs_counter address_s address_s_v
    else
      C.unlinkable_derive_output_public_key (output_secrets C e).2.1 e.sign.tx_inputs_hash
        e.sign.outputs_counter address_s address_s_v).2,
   Nat.xor tag ((output_secrets C e).2.2.headD 0))

/-- The serialisation of an output: output type tag ‖ varint(amount) ‖ public key ‖ encrypted
secret ‖ encrypted address type. -/
def output_record (C : Crypto S P) (amount : Nat) (out : P × P × Nat) : BinaryArray :=
  [C.OutputKey_type_tag] ++ C.get_varint_data amount ++ C.point_data out.1 ++
    C.point_data out.2.1 ++ [out.2.2]

/-- The call is a `sign_add_extra`. -/
def Call.isAddExtra : Call S P → Bool
  | .sign_add_extra .. => true
  | _ => false

/-- The serialisation of the input of a `sign_add_input` event. -/
def Event.input_bytes (C : Crypto S P) (ev : Event S P) : BinaryArray :=
  match ev.call with
  | .sign_add_input amount output_indexes inv address_index =>
      input_record C ev.pre amount output_indexes inv address_index
  | _ => []

/-- The serialisation of the output that a `sign_add_output` event returned. -/
def Event.output_bytes (C : Crypto S P) (ev : Event S P) : BinaryArray :=
  match ev.call, ev.result with
  | .sign_add_output _ _ amount _ _ _ _, some (.output public_key encrypted_secret
      encrypted_address_type _) =>
      output_record C amount (public_key, encrypted_secret, encrypted_address_type)
  | _, _ => []

/-- The chunk of a `sign_add_extra` event. -/
def Event.extra_bytes (ev : Event S P) : BinaryArray :=
  match ev.call with
  | .sign_add_extra chunk => chunk
  | _ => []

/-- The serialised inputs of a log: the serialisations of the accepted `sign_add_input` calls, in
call order. -/
def serialized_inputs (C : Crypto S P) (log : List (Event S P)) : BinaryArray :=
  (accepted Call.isAddInput log).flatMap (Event.input_bytes C)

/-- The serialised outputs of a log: the serialisations of the outputs returned by the accepted
`sign_add_output` calls, in call order. -/
def serialized_outputs (C : Crypto S P) (log : List (Event S P)) : BinaryArray :=
  (accepted Call.isAddOutput log).flatMap (Event.output_bytes C)

/-- The extra of a log: the chunks of the accepted `sign_add_extra` calls, in call order. -/
def extra_chunks (log : List (Event S P)) : BinaryArray :=
  (accepted Call.isAddExtra log).flatMap Event.extra_bytes

/-- The prefix transcript of a session in which no `sign_add_output` failed the comparison with
the proxy, phase by phase: `head` (the varints of `sign_start`), the serialised inputs `I`, then
`varint(m)` and the serialised outputs `O`, then `varint(x)` and the extra `X`.  A session in
`EXPECT_ADD_OUTPUT` that has counted all its outputs is stuck (its balance check failed). -/
def PrefixPhase (C : Crypto S P) (head : BinaryArray) (m x : Nat) (I O X : BinaryArray)
    (e : Emulator S P) : Prop :=
  e.sign.outputs_size = m ∧ e.sign.extra_size = x ∧
  match e.sign.state with
  | .EXPECT_ADD_INPUT => e.sign.tx_prefix_stream = head ++ I ∧ O = [] ∧ X = []
  | .EXPECT_ADD_OUTPUT =>
      X = [] ∧ (e.sign.outputs_counter < e.sign.outputs_size →
        e.sign.tx_prefix_stream = head ++ I ++ C.get_varint_data m ++ O)
  | .EXPECT_ADD_EXTRA_CHUNK =>
      e.sign.tx_prefix_stream =
        head ++ I ++ C.get_varint_data m ++ O ++ C.get_varint_data x ++ X
  | _ => True

/-- The log entry of one call `c` on the emulator `e`. -/
def event (C : Crypto S P) (e : Emulator S P) (c : Call S P) : Event S P :=
  { call := c, pre := e, result := (step C e c).1, post := (step C e c).2 }

/-- The rounds of the inputs transcript after one more event.  A round is the byte string of one
input: an accepted `sign_step_a` opens the round of the next input `k` (the number of rounds
before it) with `p_k ‖ z_k`, and an accepted `sign_step_a_more_data` appends its data to the round
of the current input. -/
def rounds_record (C : Crypto S P) (R : List BinaryArray) (ev : Event S P) : List BinaryArray :=
  if ev.ok = true then
    match ev.call with
    | .sign_step_a _ inv address_index =>
        R ++ [C.point_data (step_a_values C ev.pre R.length inv address_index).p ++
          C.point_data (step_a_values C ev.pre R.length inv address_index).z]
    | .sign_step_a_more_data data => R.dropLast ++ [R.getLast?.getD [] ++ data]
    | _ => R
  else R

/-- The rounds of a log: for each input `k` for which `sign_step_a` was accepted, in order,
`p_k ‖ z_k ‖` the data passed to `sign_step_a_more_data` for input `k`, in call order. -/
def rounds (C : Crypto S P) (log : List (Event S P)) : List BinaryArray :=
  log.foldl (rounds_record C) []

/-- The inputs transcript of the signing rounds of a session with no proxy attached, that
declared `n` inputs: `tx_prefix_hash` followed by the rounds `R`. -/
def RoundsPhase (n : Nat) (R : List BinaryArray) (e : Emulator S P) : Prop :=
  e.sign.inputs_size = n ∧
  match e.sign.state with
  | .EXPECT_ADD_INPUT => R = []
  | .EXPECT_ADD_OUTPUT => R = []
  | .EXPECT_ADD_EXTRA_CHUNK => R = []
  | .EXPECT_STEP_A =>
      R = [] ∧ e.sign.inputs_counter = 0 ∧ e.sign.tx_inputs_stream = e.sign.tx_prefix_hash
  | .EXPECT_STEP_A_MORE_DATA =>
      R.length = e.sign.inputs_counter + 1 ∧ e.sign.inputs_counter < n ∧
        e.sign.tx_inputs_stream = e.sign.tx_prefix_hash ++ R.flatten
  | _ => True

/-- The calls of a session of two inputs after `sign_start(2, 0, 2, 1, 0)`, up to the last
`sign_step_a_more_data`: the first input gets the data `[9]` then `[8]`, the second `[7]`. -/
def two_rounds : List (Call Int Int) :=
  [Call.sign_add_input 1000 [7] 3 0, Call.sign_add_input 500 [] 3 1,
    Call.sign_add_output none false 900 0 0 4 6, Call.sign_add_extra [],
    Call.sign_step_a none 3 0, Call.sign_step_a_more_data [9], Call.sign_step_a_more_data [8],
    Call.sign_step_a none 3 1, Call.sign_step_a_more_data [7]]

/-- The three counters of the session are within the declared sizes. -/
def Bounded (e : Emulator S P) : Prop :=
  e.sign.inputs_counter ≤ e.sign.inputs_size ∧ e.sign.outputs_counter ≤ e.sign.outputs_size ∧
    e.sign.extra_counter ≤ e.sign.extra_size

/-- The same call with no hardware proxy attached. -/
def Call.withoutProxy : Call S P → Call S P
  | .sign_add_output _ change amount change_address_index dst_address_tag dst_address_s
      dst_address_s_v =>
      .sign_add_output none change amount change_address_index dst_address_tag dst_address_s
        dst_address_s_v
  | .sign_step_a _ inv_output_secret_hash address_index =>
      .sign_step_a none inv_output_secret_hash address_index
  | .sign_get_c0 _ => .sign_get_c0 none
  | .sign_step_b _ inv_output_secret_hash address_index my_c =>
      .sign_step_b none inv_output_secret_hash address_index my_c
  | c => c

/-- The call on `e` fails the comparison with the answer of the attached proxy: it passes the
checks that the code makes before the `invariant` that compares the emulator's own values with
the proxy's, and the two differ.  For `sign_add_output` that `invariant` comes after the
accounting of the amount and the serialisation of the output and before the counter step and the
balance check; for the three other operations it comes after all their checks. -/
def proxy_refuses (C : Crypto S P) (e : Emulator S P) : Call S P → Bool
  | .sign_add_output (some r) change amount change_address_index dst_address_tag dst_address_s
      dst_address_s_v =>
      decide (e.sign.state = State.EXPECT_ADD_OUTPUT ∧
          e.sign.outputs_counter < e.sign.outputs_size) &&
        (match (sign_add_output_account C e change amount change_address_index dst_address_tag
            dst_address_s dst_address_s_v).1 with
          | some out => decide (out ≠ r)
          | none => false)
  | .sign_step_a (some r) inv_output_secret_hash address_index =>
      match (sign_step_a C none e inv_output_secret_hash address_index).1 with
      | some own => decide (own ≠ r)
      | none => false
  | .sign_get_c0 (some r) =>
      match (sign_get_c0 C none e).1 with
      | some own => decide (own ≠ r)
      | none => false
  | .sign_step_b (some r) inv_output_secret_hash address_index my_c =>
      match (sign_step_b C none e inv_output_secret_hash address_index my_c).1 with
      | some own => decide (own ≠ r)
      | none => false
  | _ => false

/-- The calls of a session after `sign_start(2, 0, 1, 2, 0)` in which the attached proxy answers
`(0, 0, 0)` to the first `sign_add_output`, which therefore fails the comparison, and answers
nothing else: one input of amount 1000, the refused output of amount 100 and two accepted
outputs of amount 100. -/
def refused_output : List (Call Int Int) :=
  [Call.sign_add_input 1000 [7] 3 0, Call.sign_add_output (some (0, 0, 0)) false 100 0 0 4 6,
    Call.sign_add_output none false 100 0 0 4 6, Call.sign_add_output none false 100 0 0 4 6]

/-- The round trip of the spec with a proxy attached that gives the emulator's own answer
`(217, 219, 212)` to `sign_add_output`. -/
def round_trip_agreeing : List (Call Int Int) :=
  [Call.sign_add_input 1000 [7] 3 0, Call.sign_add_output (some (217, 219, 212)) false 900 0 0 4 6,
    Call.sign_add_extra [], Call.sign_step_a none 3 0, Call.sign_step_a_more_data [],
    Call.sign_get_c0 none, Call.sign_step_b none 3 0 2]

/-- The calls of a session of two inputs after `sign_start(2, 0, 2, 1, 0)`, up to `FINISHED`; the
attached proxy gives the emulator's own answer to the second `sign_step_a`. -/
def signed_rounds : List (Call Int Int) :=
  [Call.sign_add_input 1000 [7] 3 0, Call.sign_add_input 500 [] 3 1,
    Call.sign_add_output none false 900 0 0 4 6, Call.sign_add_extra [],
    Call.sign_step_a none 3 0, Call.sign_step_a_more_data [9], Call.sign_step_a_more_data [8],
    Call.sign_step_a (some (-43791, 342664, 12660)) 3 1, Call.sign_step_a_more_data [7],
    Call.sign_get_c0 none, Call.sign_step_b none 3 0 2, Call.sign_step_b none 3 1 2]

/-- The calls of a session of two inputs after `sign_start(2, 0, 2, 1, 0)` in which the attached
proxy answers `(0, 0, 0)` to the first `sign_step_a`, which therefore fails the comparison; the
`sign_step_a` after it is accepted and so are `sign_get_c0` and two `sign_step_b`. -/
def refused_step_a : List (Call Int Int) :=
  [Call.sign_add_input 1000 [7] 3 0, Call.sign_add_input 500 [] 3 1,
    Call.sign_add_output none false 900 0 0 4 6, Call.sign_add_extra [],
    Call.sign_step_a (some (0, 0, 0)) 3 0, Call.sign_step_a none 3 1,
    Call.sign_step_a_more_data [7], Call.sign_get_c0 none, Call.sign_step_b none 3 0 2,
    Call.sign_step_b none 3 1 2]

-- SPEC-DEFS-END
end Specification

end Armor

namespace Armor

section Theorems

set_option linter.unusedSectionVars false

variable {S P : Type} [CommRing S] [AddCommGroup P] [Module S P] [DecidableEq S] [DecidableEq P]

/-- C9: `sign_start` throws exactly when `inputs_size == 0`, `outputs_size == 0` or
`version == 0`, whatever the emulator held before; it then leaves the emulator as it was, and
otherwise replaces the session by a fresh one in `EXPECT_ADD_INPUT` with the declared sizes, zero
counters and amounts, no destination, prefix transcript
`varint(version) ‖ varint(ut) ‖ varint(inputs_size)` and inputs transcript
`varint(inputs_size)`. -/
theorem sign_start_spec (C : Crypto S P) (e : Emulator S P)
    (version ut inputs_size outputs_size extra_size : Nat) :
    ((sign_start C e version ut inputs_size outputs_size extra_size).1 = none ↔
      (inputs_size = 0 ∨ outputs_size = 0 ∨ version = 0)) ∧
    sign_start C e version ut inputs_size outputs_size extra_size =
      if inputs_size = 0 ∨ outputs_size = 0 ∨ version = 0 then (none, e)
      else (some (), { e with sign :=
        { state := State.EXPECT_ADD_INPUT
          inputs_size := inputs_size
          outputs_size := outputs_size
          extra_size := extra_size
          inputs_counter := 0
          outputs_counter := 0
          extra_counter := 0
          inputs_amount := 0
          dst_amount := 0
          change_amount := 0
          dst_address_set := false
          dst_address_tag := 0
          dst_address_s := 0
          dst_address_s_v := 0
          tx_prefix_stream :=
            C.get_varint_data version ++ C.get_varint_data ut ++ C.get_varint_data inputs_size
          tx_inputs_stream := C.get_varint_data inputs_size
          tx_prefix_hash := zero_hash
          tx_inputs_hash := zero_hash
          random_seed := zero_hash
          c0 := 0 } }) := by
  unfold sign_start
  by_cases h1 : inputs_size = 0
  · simp [h1]
  · by_cases h2 : outputs_size = 0
    · simp [h2]
    · by_cases h3 : version = 0
      · simp [h3]
      · simp [h1, h2, h3, SigningState.init, KeccakStream.append_varint]

/-- `add_amount` on typed arguments refuses exactly the sums above `2^64 - 1`. -/
theorem add_amount_eq_none_iff (sum amount : Nat) (hamount : amount ≤ UINT64_MAX) :
    add_amount sum amount = none ↔ sum + amount > 2 ^ 64 - 1 := by
  unfold add_amount
  simp only [UINT64_MAX] at *
  split <;> simp <;> omega

/-- An accepted `add_amount` on typed arguments stores the exact sum. -/
theorem add_amount_eq_some (sum amount v : Nat) (hamount : amount ≤ UINT64_MAX)
    (h : add_amount sum amount = some v) : v = sum + amount ∧ sum + amount ≤ 2 ^ 64 - 1 := by
  unfold add_amount at h
  simp only [UINT64_MAX, wrap64] at *
  split at h
  · simp at h
  · simp at h
    omega

/-- When the sum fits, `add_amount` accepts it. -/
theorem add_amount_of_le (sum amount : Nat) (h : sum + amount ≤ 2 ^ 64 - 1) :
    add_amount sum amount = some (sum + amount) := by
  unfold add_amount
  simp only [UINT64_MAX, wrap64]
  rw [if_neg (by omega)]
  congr 1
  omega

/-- The result of `sign_add_input` in terms of its two checks. -/
theorem sign_add_input_fst (C : Crypto S P) (e : Emulator S P) (amount : Nat)
    (output_indexes : List Nat) (inv_output_secret_hash : S) (address_index : Nat) :
    (sign_add_input C e amount output_indexes inv_output_secret_hash address_index).1 =
      if e.sign.state = State.EXPECT_ADD_INPUT ∧ e.sign.inputs_counter < e.sign.inputs_size then
        (add_amount e.sign.inputs_amount amount).map (fun _ => ())
      else none := by
  unfold sign_add_input
  by_cases h : e.sign.state = State.EXPECT_ADD_INPUT ∧ e.sign.inputs_counter < e.sign.inputs_size
  · simp only [h, and_self, not_true_eq_false, if_false, if_true]
    cases add_amount e.sign.inputs_amount amount with
    | none => rfl
    | some v =>
      simp only [Option.map]
      split <;> rfl
  · simp [h]

/-- The amount `sign_add_input` leaves in the session when it accepts the input. -/
theorem sign_add_input_amount (C : Crypto S P) (e : Emulator S P) (amount : Nat)
    (output_indexes : List Nat) (inv_output_secret_hash : S) (address_index : Nat) (v : Nat)
    (hpos : e.sign.state = State.EXPECT_ADD_INPUT ∧ e.sign.inputs_counter < e.sign.inputs_size)
    (h : add_amount e.sign.inputs_amount amount = some v) :
    (sign_add_input C e amount output_indexes inv_output_secret_hash address_index).2.sign.inputs_amount
      = v := by
  unfold sign_add_input
  simp only [hpos, and_self, not_true_eq_false, if_false, h]
  split <;> rfl

/-- C8: in `EXPECT_ADD_INPUT` with `inputs_counter < inputs_size`, `sign_add_input` throws
exactly when `inputs_amount + amount` exceeds `2^64 - 1`, and otherwise stores exactly
`inputs_amount + amount`.  After an accepted input of amount `2^64 - 1` a second input of any
positive amount throws, and a second input of amount `0` is accepted while inputs are still
expected. -/
theorem sign_add_input_overflow_boundary (C : Crypto S P) (e : Emulator S P) (amount : Nat)
    (output_indexes : List Nat) (inv_output_secret_hash : S) (address_index : Nat)
    (hstate : e.sign.state = State.EXPECT_ADD_INPUT)
    (hcount : e.sign.inputs_counter < e.sign.inputs_size)
    (hamount : amount ≤ UINT64_MAX) :
    ((sign_add_input C e amount output_indexes inv_output_secret_hash address_index).1 = none ↔
      e.sign.inputs_amount + amount > 2 ^ 64 - 1) ∧
    (e.sign.inputs_amount + amount ≤ 2 ^ 64 - 1 →
      (sign_add_input C e amount output_indexes inv_output_secret_hash address_index).2.sign.inputs_amount
        = e.sign.inputs_amount + amount) ∧
    (amount = 2 ^ 64 - 1 →
      (sign_add_input C e amount output_indexes inv_output_secret_hash address_index).1 = some () →
      ∀ (amount2 : Nat) (output_indexes2 : List Nat) (inv2 : S) (address_index2 : Nat),
        (0 < amount2 →
          (sign_add_input C
            (sign_add_input C e amount output_indexes inv_output_secret_hash address_index).2
            amount2 output_indexes2 inv2 address_index2).1 = none) ∧
        (amount2 = 0 →
          expected_position (Call.sign_add_input amount2 output_indexes2 inv2 address_index2)
            (sign_add_input C e amount output_indexes inv_output_secret_hash address_index).2.sign →
          (sign_add_input C
            (sign_add_input C e amount output_indexes inv_output_secret_hash address_index).2
            amount2 output_indexes2 inv2 address_index2).1 = some ())) := by
  have hpos : e.sign.state = State.EXPECT_ADD_INPUT ∧ e.sign.inputs_counter < e.sign.inputs_size :=
    ⟨hstate, hcount⟩
  refine ⟨?_, ?_, ?_⟩
  · rw [sign_add_input_fst, if_pos hpos, Option.map_eq_none']
    exact add_amount_eq_none_iff _ _ hamount
  · intro hle
    exact sign_add_input_amount C e amount output_indexes inv_output_secret_hash address_index _
      hpos (add_amount_of_le _ _ hle)
  · intro hmax hok amount2 output_indexes2 inv2 address_index2
    rw [sign_add_input_fst, if_pos hpos] at hok
    obtain ⟨v, hv, -⟩ := Option.map_eq_some'.mp hok
    have hsum2 := add_amount_eq_some _ _ _ hamount hv
    have hamt := sign_add_input_amount C e amount output_indexes inv_output_secret_hash
      address_index v hpos hv
    constructor
    · intro hpos2
      rw [sign_add_input_fst]
      split
      · rw [Option.map_eq_none', hamt]
        unfold add_amount
        simp only [UINT64_MAX]
        rw [if_pos (by omega)]
      · rfl
    · intro h0 hexp
      rw [sign_add_input_fst, if_pos (show _ ∧ _ from hexp), hamt, h0,
        add_amount_of_le _ _ (by omega)]
      rfl

/-- Witness of C8 on the session `Emulator.started`, whose `inputs_amount` is `0`: the maximal
amount is accepted and stored exactly. -/
theorem sign_add_input_overflow_boundary_witness :
    Emulator.started.sign.state = State.EXPECT_ADD_INPUT ∧
    Emulator.started.sign.inputs_counter < Emulator.started.sign.inputs_size ∧
    (sign_add_input Crypto.small Emulator.started (2 ^ 64 - 1) [7] 3 0).2.sign.inputs_amount
      = Emulator.started.sign.inputs_amount + (2 ^ 64 - 1) :=
  ⟨by decide, by decide,
    (sign_add_input_overflow_boundary Crypto.small Emulator.started (2 ^ 64 - 1) [7] 3 0
      (by decide) (by decide) (by decide)).2.1 (by decide)⟩

/-- C2: a session operation called outside its expected position throws, whatever the session
holds: `sign_add_input` outside `EXPECT_ADD_INPUT` with `inputs_counter < inputs_size`,
`sign_add_output` outside `EXPECT_ADD_OUTPUT` with `outputs_counter < outputs_size`,
`sign_add_extra` outside `EXPECT_ADD_EXTRA_CHUNK`, `sign_step_a` outside `EXPECT_STEP_A` with
`inputs_counter < inputs_size` and `EXPECT_STEP_A_MORE_DATA` with
`inputs_counter + 1 < inputs_size`, `sign_step_a_more_data` outside `EXPECT_STEP_A_MORE_DATA`,
`sign_get_c0` outside `EXPECT_STEP_A_MORE_DATA` with `inputs_counter + 1 == inputs_size`,
`sign_step_b` outside `EXPECT_STEP_B` with `inputs_counter < inputs_size`; in particular each of
them throws in `FINISHED`. -/
theorem strict_state_gating (C : Crypto S P) (e : Emulator S P) (c : Call S P)
    (h : ¬ expected_position c e.sign ∨ (c.inSession = true ∧ e.sign.state = State.FINISHED)) :
    (step C e c).1 = none := by
  have h' : ¬ expected_position c e.sign := by
    rcases h with h | ⟨hs, hf⟩
    · exact h
    · cases c <;> simp_all [expected_position, Call.inSession]
  clear h
  cases c with
  | sign_start => simp [expected_position] at h'
  | proof_start => simp [expected_position] at h'
  | sign_add_input amount output_indexes inv address_index =>
    simp only [expected_position] at h'
    simp only [step, sign_add_input_fst]
    rw [if_neg h']
    rfl
  | sign_add_output px change amount cai tag ds dsv =>
    simp only [expected_position] at h'
    simp only [step, sign_add_output]
    rw [if_pos h']
    rfl
  | sign_add_extra chunk =>
    simp only [expected_position] at h'
    simp only [step, sign_add_extra]
    rw [if_pos h']
    rfl
  | sign_step_a px inv address_index =>
    simp only [expected_position, not_or] at h'
    simp only [step, sign_step_a, sign_step_a_next]
    split
    · exact absurd ‹_› h'.2
    · rw [if_pos h'.1]
      rfl
  | sign_step_a_more_data data =>
    simp only [expected_position] at h'
    simp only [step, sign_step_a_more_data]
    rw [if_pos h']
    rfl
  | sign_get_c0 px =>
    simp only [expected_position] at h'
    simp only [step, sign_get_c0]
    rw [if_pos h']
    rfl
  | sign_step_b px inv address_index my_c =>
    simp only [expected_position] at h'
    simp only [step, sign_step_b]
    rw [if_pos h']
    rfl

/-- Witness of C2: in the freshly started session `Emulator.started` (state `EXPECT_ADD_INPUT`)
`sign_get_c0` throws. -/
theorem strict_state_gating_witness :
    ¬ expected_position (Call.sign_get_c0 (none : Option Int)) Emulator.started.sign ∧
    (step Crypto.small Emulator.started (Call.sign_get_c0 none)).1 = none :=
  ⟨by simp [expected_position, Emulator.started, sign_start, SigningState.init],
    strict_state_gating Crypto.small Emulator.started (Call.sign_get_c0 none)
      (Or.inl (by simp [expected_position, Emulator.started, sign_start, SigningState.init]))⟩

/-! ### Frame lemmas of the helper functions -/

@[simp] theorem prepare_address_sign (C : Crypto S P) (e : Emulator S P) (i : Nat) :
    (prepare_address C e i).sign = e.sign := by
  unfold prepare_address
  split <;> rfl

@[simp] theorem prepare_address_m_spend_secret_key (C : Crypto S P) (e : Emulator S P) (i : Nat) :
    (prepare_address C e i).m_spend_secret_key = e.m_spend_secret_key := by
  unfold prepare_address
  split <;> rfl

@[simp] theorem prepare_address_m_audit_key_base_secret_key (C : Crypto S P) (e : Emulator S P) (i : Nat) :
    (prepare_address C e i).m_audit_key_base_secret_key = e.m_audit_key_base_secret_key := by
  unfold prepare_address
  split <;> rfl

@[simp] theorem prepare_address_m_view_secret_key (C : Crypto S P) (e : Emulator S P) (i : Nat) :
    (prepare_address C e i).m_view_secret_key = e.m_view_secret_key := by
  unfold prepare_address
  split <;> rfl

@[simp] theorem prepare_address_m_A_plus_sH (C : Crypto S P) (e : Emulator S P) (i : Nat) :
    (prepare_address C e i).m_A_plus_sH = e.m_A_plus_sH := by
  unfold prepare_address
  split <;> rfl

@[simp] theorem prepare_address_m_sH (C : Crypto S P) (e : Emulator S P) (i : Nat) :
    (prepare_address C e i).m_sH = e.m_sH := by
  unfold prepare_address
  split <;> rfl

@[simp] theorem prepare_address_m_tx_derivation_seed (C : Crypto S P) (e : Emulator S P) (i : Nat) :
    (prepare_address C e i).m_tx_derivation_seed = e.m_tx_derivation_seed := by
  unfold prepare_address
  split <;> rfl

@[simp] theorem prepare_address_public_fst (C : Crypto S P) (e : Emulator S P) (i : Nat) :
    (prepare_address_public C e i).1 = prepare_address C e i := rfl

@[simp] theorem add_output_or_change_state (C : Crypto S P) (e : Emulator S P) (a t : Nat)
    (s v : P) : (add_output_or_change C e a t s v).1.sign.state = e.sign.state := rfl

@[simp] theorem add_output_or_change_inputs_size (C : Crypto S P) (e : Emulator S P) (a t : Nat)
    (s v : P) : (add_output_or_change C e a t s v).1.sign.inputs_size = e.sign.inputs_size := rfl

@[simp] theorem add_output_or_change_outputs_size (C : Crypto S P) (e : Emulator S P) (a t : Nat)
    (s v : P) : (add_output_or_change C e a t s v).1.sign.outputs_size = e.sign.outputs_size := rfl

@[simp] theorem add_output_or_change_extra_size (C : Crypto S P) (e : Emulator S P) (a t : Nat)
    (s v : P) : (add_output_or_change C e a t s v).1.sign.extra_size = e.sign.extra_size := rfl

@[simp] theorem add_output_or_change_inputs_counter (C : Crypto S P) (e : Emulator S P) (a t : Nat)
    (s v : P) : (add_output_or_change C e a t s v).1.sign.inputs_counter = e.sign.inputs_counter := rfl

@[simp] theorem add_output_or_change_outputs_counter (C : Crypto S P) (e : Emulator S P) (a t : Nat)
    (s v : P) : (add_output_or_change C e a t s v).1.sign.outputs_counter = e.sign.outputs_counter := rfl

@[simp] theorem add_output_or_change_extra_counter (C : Crypto S P) (e : Emulator S P) (a t : Nat)
    (s v : P) : (add_output_or_change C e a t s v).1.sign.extra_counter = e.sign.extra_counter := rfl

@[simp] theorem add_output_or_change_inputs_amount (C : Crypto S P) (e : Emulator S P) (a t : Nat)
    (s v : P) : (add_output_or_change C e a t s v).1.sign.inputs_amount = e.sign.inputs_amount := rfl

@[simp] theorem add_output_or_change_dst_amount (C : Crypto S P) (e : Emulator S P) (a t : Nat)
    (s v : P) : (add_output_or_change C e a t s v).1.sign.dst_amount = e.sign.dst_amount := rfl

@[simp] theorem add_output_or_change_change_amount (C : Crypto S P) (e : Emulator S P) (a t : Nat)
    (s v : P) : (add_output_or_change C e a t s v).1.sign.change_amount = e.sign.change_amount := rfl

@[simp] theorem add_output_or_change_dst_address_set (C : Crypto S P) (e : Emulator S P) (a t : Nat)
    (s v : P) : (add_output_or_change C e a t s v).1.sign.dst_address_set = e.sign.dst_address_set := rfl

@[simp] theorem add_output_or_change_dst_address_tag (C : Crypto S P) (e : Emulator S P) (a t : Nat)
    (s v : P) : (add_output_or_change C e a t s v).1.sign.dst_address_tag = e.sign.dst_address_tag := rfl

@[simp] theorem add_output_or_change_dst_address_s (C : Crypto S P) (e : Emulator S P) (a t : Nat)
    (s v : P) : (add_output_or_change C e a t s v).1.sign.dst_address_s = e.sign.dst_address_s := rfl

@[simp] theorem add_output_or_change_dst_address_s_v (C : Crypto S P) (e : Emulator S P) (a t : Nat)
    (s v : P) : (add_output_or_change C e a t s v).1.sign.dst_address_s_v = e.sign.dst_address_s_v := rfl

@[simp] theorem add_output_or_change_tx_inputs_stream (C : Crypto S P) (e : Emulator S P) (a t : Nat)
    (s v : P) : (add_output_or_change C e a t s v).1.sign.tx_inputs_stream = e.sign.tx_inputs_stream := rfl

@[simp] theorem add_output_or_change_tx_prefix_hash (C : Crypto S P) (e : Emulator S P) (a t : Nat)
    (s v : P) : (add_output_or_change C e a t s v).1.sign.tx_prefix_hash = e.sign.tx_prefix_hash := rfl

@[simp] theorem add_output_or_change_tx_inputs_hash (C : Crypto S P) (e : Emulator S P) (a t : Nat)
    (s v : P) : (add_output_or_change C e a t s v).1.sign.tx_inputs_hash = e.sign.tx_inputs_hash := rfl

@[simp] theorem add_output_or_change_random_seed (C : Crypto S P) (e : Emulator S P) (a t : Nat)
    (s v : P) : (add_output_or_change C e a t s v).1.sign.random_seed = e.sign.random_seed := rfl

@[simp] theorem add_output_or_change_c0 (C : Crypto S P) (e : Emulator S P) (a t : Nat)
    (s v : P) : (add_output_or_change C e a t s v).1.sign.c0 = e.sign.c0 := rfl

@[simp] theorem add_output_or_change_m_spend_secret_key (C : Crypto S P) (e : Emulator S P) (a t : Nat)
    (s v : P) : (add_output_or_change C e a t s v).1.m_spend_secret_key = e.m_spend_secret_key := rfl

@[simp] theorem add_output_or_change_m_audit_key_base_secret_key (C : Crypto S P) (e : Emulator S P) (a t : Nat)
    (s v : P) : (add_output_or_change C e a t s v).1.m_audit_key_base_secret_key = e.m_audit_key_base_secret_key := rfl

@[simp] theorem add_output_or_change_m_view_secret_key (C : Crypto S P) (e : Emulator S P) (a t : Nat)
    (s v : P) : (add_output_or_change C e a t s v).1.m_view_secret_key = e.m_view_secret_key := rfl

@[simp] theorem add_output_or_change_m_A_plus_sH (C : Crypto S P) (e : Emulator S P) (a t : Nat)
    (s v : P) : (add_output_or_change C e a t s v).1.m_A_plus_sH = e.m_A_plus_sH := rfl

@[simp] theorem add_output_or_change_m_sH (C : Crypto S P) (e : Emulator S P) (a t : Nat)
    (s v : P) : (add_output_or_change C e a t s v).1.m_sH = e.m_sH := rfl

@[simp] theorem add_output_or_change_m_tx_derivation_seed (C : Crypto S P) (e : Emulator S P) (a t : Nat)
    (s v : P) : (add_output_or_change C e a t s v).1.m_tx_derivation_seed = e.m_tx_derivation_seed := rfl

@[simp] theorem add_output_or_change_last_address_index (C : Crypto S P) (e : Emulator S P) (a t : Nat)
    (s v : P) : (add_output_or_change C e a t s v).1.last_address_index = e.last_address_index := rfl

@[simp] theorem add_output_or_change_last_address_audit_secret_key (C : Crypto S P) (e : Emulator S P) (a t : Nat)
    (s v : P) : (add_output_or_change C e a t s v).1.last_address_audit_secret_key = e.last_address_audit_secret_key := rfl

/-! ### What each operation leaves untouched, and what it does to the control fields -/

theorem sign_add_input_frame (C : Crypto S P) (e : Emulator S P) (amount : Nat)
    (output_indexes : List Nat) (inv : S) (address_index : Nat) :
    (sign_add_input C e amount output_indexes inv address_index).2.keys = e.keys ∧
    (sign_add_input C e amount output_indexes inv address_index).2.sign.shape = e.sign.shape ∧
    (sign_add_input C e amount output_indexes inv address_index).2.sign.random_seed
      = e.sign.random_seed ∧
    (sign_add_input C e amount output_indexes inv address_index).2.sign.c0 = e.sign.c0 ∧
    (sign_add_input C e amount output_indexes inv address_index).2.sign.destination
      = e.sign.destination ∧
    (sign_add_input C e amount output_indexes inv address_index).2.sign.dst_amount
      = e.sign.dst_amount ∧
    (sign_add_input C e amount output_indexes inv address_index).2.sign.change_amount
      = e.sign.change_amount ∧
    (sign_add_input C e amount output_indexes inv address_index).2.sign.outputs_counter
      = e.sign.outputs_counter ∧
    (sign_add_input C e amount output_indexes inv address_index).2.sign.extra_counter
      = e.sign.extra_counter := by
  unfold sign_add_input
  dsimp only
  repeat' split
  all_goals simp [Emulator.keys, SigningState.shape, SigningState.destination]

theorem sign_add_input_fail (C : Crypto S P) (e : Emulator S P) (amount : Nat)
    (output_indexes : List Nat) (inv : S) (address_index : Nat)
    (h : ¬ (e.sign.state = State.EXPECT_ADD_INPUT ∧ e.sign.inputs_counter < e.sign.inputs_size) ∨
      add_amount e.sign.inputs_amount amount = none) :
    sign_add_input C e amount output_indexes inv address_index = (none, e) := by
  unfold sign_add_input
  rcases h with h | h
  · rw [if_pos h]
  · by_cases hp : e.sign.state = State.EXPECT_ADD_INPUT ∧ e.sign.inputs_counter < e.sign.inputs_size
    · rw [if_neg (not_not.mpr hp), h]
    · rw [if_pos hp]

theorem sign_add_input_ok (C : Crypto S P) (e : Emulator S P) (amount : Nat)
    (output_indexes : List Nat) (inv : S) (address_index : Nat) (v : Nat)
    (hpos : e.sign.state = State.EXPECT_ADD_INPUT ∧ e.sign.inputs_counter < e.sign.inputs_size)
    (h : add_amount e.sign.inputs_amount amount = some v) :
    (sign_add_input C e amount output_indexes inv address_index).1 = some () ∧
    (sign_add_input C e amount output_indexes inv address_index).2.sign.inputs_amount = v ∧
    (sign_add_input C e amount output_indexes inv address_index).2.sign.inputs_counter
      = wrap64 (e.sign.inputs_counter + 1) ∧
    (sign_add_input C e amount output_indexes inv address_index).2.sign.state =
      if wrap64 (e.sign.inputs_counter + 1) < e.sign.inputs_size then State.EXPECT_ADD_INPUT
      else State.EXPECT_ADD_OUTPUT := by
  unfold sign_add_input
  rw [if_neg (not_not.mpr hpos), h]
  dsimp only
  simp only [prepare_address_sign]
  split_ifs <;> simp [hpos.1]

theorem sign_add_extra_frame (C : Crypto S P) (e : Emulator S P) (chunk : BinaryArray) :
    (sign_add_extra C e chunk).2.keys = e.keys ∧
    (sign_add_extra C e chunk).2.last_address_index = e.last_address_index ∧
    (sign_add_extra C e chunk).2.last_address_audit_secret_key = e.last_address_audit_secret_key ∧
    (sign_add_extra C e chunk).2.sign.shape = e.sign.shape ∧
    (sign_add_extra C e chunk).2.sign.random_seed = e.sign.random_seed ∧
    (sign_add_extra C e chunk).2.sign.c0 = e.sign.c0 ∧
    (sign_add_extra C e chunk).2.sign.destination = e.sign.destination ∧
    (sign_add_extra C e chunk).2.sign.amounts = e.sign.amounts ∧
    (sign_add_extra C e chunk).2.sign.outputs_counter = e.sign.outputs_counter := by
  unfold sign_add_extra
  dsimp only
  repeat' split
  all_goals simp [Emulator.keys, SigningState.shape, SigningState.destination,
    SigningState.amounts]

theorem sign_add_extra_fail (C : Crypto S P) (e : Emulator S P) (chunk : BinaryArray)
    (h : ¬ (e.sign.state = State.EXPECT_ADD_EXTRA_CHUNK ∧
      wrap64 (e.sign.extra_counter + chunk.length) ≤ e.sign.extra_size)) :
    sign_add_extra C e chunk = (none, e) := by
  unfold sign_add_extra
  by_cases h1 : e.sign.state = State.EXPECT_ADD_EXTRA_CHUNK
  · rw [if_neg (not_not.mpr h1), if_pos (fun h2 => h ⟨h1, h2⟩)]
  · rw [if_pos h1]

theorem sign_add_extra_ok (C : Crypto S P) (e : Emulator S P) (chunk : BinaryArray)
    (hstate : e.sign.state = State.EXPECT_ADD_EXTRA_CHUNK)
    (hlen : wrap64 (e.sign.extra_counter + chunk.length) ≤ e.sign.extra_size) :
    (sign_add_extra C e chunk).1 = some () ∧
    (sign_add_extra C e chunk).2.sign.extra_counter
      = wrap64 (e.sign.extra_counter + chunk.length) ∧
    (sign_add_extra C e chunk).2.sign.tx_prefix_stream = e.sign.tx_prefix_stream ++ chunk ∧
    (sign_add_extra C e chunk).2.sign.state =
      (if wrap64 (e.sign.extra_counter + chunk.length) < e.sign.extra_size then
        State.EXPECT_ADD_EXTRA_CHUNK else State.EXPECT_STEP_A) ∧
    (sign_add_extra C e chunk).2.sign.inputs_counter =
      (if wrap64 (e.sign.extra_counter + chunk.length) < e.sign.extra_size then
        e.sign.inputs_counter else 0) := by
  unfold sign_add_extra
  rw [if_neg (not_not.mpr hstate), if_neg (not_not.mpr hlen)]
  dsimp only
  split_ifs <;> simp [hstate, KeccakStream.append]

theorem sign_step_a_more_data_frame (e : Emulator S P) (data : BinaryArray) :
    (sign_step_a_more_data e data).2.keys = e.keys ∧
    (sign_step_a_more_data e data).2.last_address_index = e.last_address_index ∧
    (sign_step_a_more_data e data).2.last_address_audit_secret_key
      = e.last_address_audit_secret_key ∧
    (sign_step_a_more_data e data).2.sign.shape = e.sign.shape ∧
    (sign_step_a_more_data e data).2.sign.random_seed = e.sign.random_seed ∧
    (sign_step_a_more_data e data).2.sign.c0 = e.sign.c0 ∧
    (sign_step_a_more_data e data).2.sign.destination = e.sign.destination ∧
    (sign_step_a_more_data e data).2.sign.amounts = e.sign.amounts ∧
    (sign_step_a_more_data e data).2.sign.state = e.sign.state ∧
    (sign_step_a_more_data e data).2.sign.inputs_counter = e.sign.inputs_counter ∧
    (sign_step_a_more_data e data).2.sign.outputs_counter = e.sign.outputs_counter ∧
    (sign_step_a_more_data e data).2.sign.extra_counter = e.sign.extra_counter ∧
    ((sign_step_a_more_data e data).1.isSome = true ↔
      e.sign.state = State.EXPECT_STEP_A_MORE_DATA) := by
  unfold sign_step_a_more_data
  dsimp only
  repeat' split
  all_goals simp_all [Emulator.keys, SigningState.shape, SigningState.destination,
    SigningState.amounts]

theorem sign_get_c0_frame (C : Crypto S P) (px : Option S) (e : Emulator S P) :
    (sign_get_c0 C px e).2.keys = e.keys ∧
    (sign_get_c0 C px e).2.last_address_index = e.last_address_index ∧
    (sign_get_c0 C px e).2.last_address_audit_secret_key = e.last_address_audit_secret_key ∧
    (sign_get_c0 C px e).2.sign.shape = e.sign.shape ∧
    (sign_get_c0 C px e).2.sign.random_seed = e.sign.random_seed ∧
    (sign_get_c0 C px e).2.sign.destination = e.sign.destination ∧
    (sign_get_c0 C px e).2.sign.amounts = e.sign.amounts ∧
    (sign_get_c0 C px e).2.sign.outputs_counter = e.sign.outputs_counter ∧
    (sign_get_c0 C px e).2.sign.extra_counter = e.sign.extra_counter ∧
    (sign_get_c0 C px e).2.sign.tx_inputs_stream = e.sign.tx_inputs_stream := by
  unfold sign_get_c0
  dsimp only
  repeat' split
  all_goals simp [Emulator.keys, SigningState.shape, SigningState.destination,
    SigningState.amounts]

theorem sign_get_c0_fail (C : Crypto S P) (px : Option S) (e : Emulator S P)
    (h : ¬ (e.sign.state = State.EXPECT_STEP_A_MORE_DATA ∧
      wrap64 (e.sign.inputs_counter + 1) = e.sign.inputs_size)) :
    sign_get_c0 C px e = (none, e) := by
  unfold sign_get_c0
  rw [if_pos h]

theorem sign_get_c0_ok (C : Crypto S P) (px : Option S) (e : Emulator S P)
    (h : e.sign.state = State.EXPECT_STEP_A_MORE_DATA ∧
      wrap64 (e.sign.inputs_counter + 1) = e.sign.inputs_size) :
    (sign_get_c0 C px e).2.sign.state = State.EXPECT_STEP_B ∧
    (sign_get_c0 C px e).2.sign.inputs_counter = 0 ∧
    (sign_get_c0 C px e).2.sign.c0 = C.hash_to_scalar e.sign.tx_inputs_stream ∧
    ((sign_get_c0 C px e).1 = none ∨
      (sign_get_c0 C px e).1 = some (C.hash_to_scalar e.sign.tx_inputs_stream)) ∧
    (px = none → (sign_get_c0 C px e).1 = some (C.hash_to_scalar e.sign.tx_inputs_stream)) := by
  unfold sign_get_c0
  rw [if_neg (not_not.mpr h)]
  dsimp only
  repeat' split
  all_goals simp

theorem sign_step_a_frame (C : Crypto S P) (px : Option (P × P × P)) (e : Emulator S P) (inv : S)
    (address_index : Nat) :
    (sign_step_a C px e inv address_index).2.keys = e.keys ∧
    (sign_step_a C px e inv address_index).2.sign.shape = e.sign.shape ∧
    (sign_step_a C px e inv address_index).2.sign.random_seed = e.sign.random_seed ∧
    (sign_step_a C px e inv address_index).2.sign.c0 = e.sign.c0 ∧
    (sign_step_a C px e inv address_index).2.sign.destination = e.sign.destination ∧
    (sign_step_a C px e inv address_index).2.sign.amounts = e.sign.amounts ∧
    (sign_step_a C px e inv address_index).2.sign.outputs_counter = e.sign.outputs_counter ∧
    (sign_step_a C px e inv address_index).2.sign.extra_counter = e.sign.extra_counter := by
  unfold sign_step_a sign_step_a_next
  dsimp only
  repeat' split
  all_goals simp [Emulator.keys, SigningState.shape, SigningState.destination,
    SigningState.amounts]

theorem prepare_address_with_sign (C : Crypto S P) (e : Emulator S P) (s : SigningState S P)
    (i : Nat) :
    prepare_address C { e with sign := s } i = { prepare_address C e i with sign := s } := by
  unfold prepare_address
  dsimp only
  split <;> rfl

theorem sign_step_a_next_eq (e : Emulator S P)
    (h : (e.sign.state = State.EXPECT_STEP_A ∧ e.sign.inputs_counter < e.sign.inputs_size) ∨
      (e.sign.state = State.EXPECT_STEP_A_MORE_DATA ∧
        wrap64 (e.sign.inputs_counter + 1) < e.sign.inputs_size)) :
    sign_step_a_next e = { e with sign := { e.sign with
      inputs_counter := step_a_index e.sign
      state := State.EXPECT_STEP_A } } ∧ step_a_index e.sign < e.sign.inputs_size := by
  unfold sign_step_a_next step_a_index
  rcases h with ⟨h1, h2⟩ | ⟨h1, h2⟩
  · have h3 : ¬ (e.sign.state = State.EXPECT_STEP_A_MORE_DATA ∧
        wrap64 (e.sign.inputs_counter + 1) < e.sign.inputs_size) := by simp [h1]
    rw [if_neg h3]
    simp only [h1, reduceCtorEq, if_false]
    refine ⟨?_, h2⟩
    conv_lhs => rw [show e = { e with sign := { e.sign with
      inputs_counter := e.sign.inputs_counter, state := e.sign.state } } from rfl]
    rw [h1]
  · rw [if_pos ⟨h1, h2⟩]
    simp only [h1, if_true]
    refine ⟨?_, h2⟩
    first | rfl | trivial

theorem sign_step_a_fail (C : Crypto S P) (px : Option (P × P × P)) (e : Emulator S P) (inv : S)
    (address_index : Nat)
    (h : ¬ ((e.sign.state = State.EXPECT_STEP_A ∧ e.sign.inputs_counter < e.sign.inputs_size) ∨
      (e.sign.state = State.EXPECT_STEP_A_MORE_DATA ∧
        wrap64 (e.sign.inputs_counter + 1) < e.sign.inputs_size))) :
    sign_step_a C px e inv address_index = (none, e) := by
  rw [not_or] at h
  unfold sign_step_a sign_step_a_next
  dsimp only
  rw [if_neg h.2, if_pos h.1]

theorem generate_sign_secret_eq (C : Crypto S P) (e : Emulator S P) (k : Nat) (tag : Char × Char) :
    generate_sign_secret C e k tag = nonce C e k tag := by
  simp [generate_sign_secret, nonce, KeccakStream.append, KeccakStream.append_byte,
    KeccakStream.append_varint]

theorem sign_step_a_ok (C : Crypto S P) (px : Option (P × P × P)) (e : Emulator S P) (inv : S)
    (address_index : Nat)
    (h : (e.sign.state = State.EXPECT_STEP_A ∧ e.sign.inputs_counter < e.sign.inputs_size) ∨
      (e.sign.state = State.EXPECT_STEP_A_MORE_DATA ∧
        wrap64 (e.sign.inputs_counter + 1) < e.sign.inputs_size)) :
    (sign_step_a C px e inv address_index).2.sign.state = State.EXPECT_STEP_A_MORE_DATA ∧
    (sign_step_a C px e inv address_index).2.sign.inputs_counter = step_a_index e.sign ∧
    step_a_index e.sign < e.sign.inputs_size ∧
    (sign_step_a C px e inv address_index).2.sign.tx_inputs_stream =
      e.sign.tx_inputs_stream ++
        C.point_data (step_a_values C e (step_a_index e.sign) inv address_index).p ++
        C.point_data (step_a_values C e (step_a_index e.sign) inv address_index).z ∧
    (sign_step_a C px e inv address_index).2.last_address_index = address_index ∧
    (sign_step_a C px e inv address_index).2.last_address_audit_secret_key =
      (prepare_address C e address_index).last_address_audit_secret_key ∧
    (∀ o, (sign_step_a C px e inv address_index).1 = some o →
      o = ((step_a_values C e (step_a_index e.sign) inv address_index).p,
        (step_a_values C e (step_a_index e.sign) inv address_index).x,
        (step_a_values C e (step_a_index e.sign) inv address_index).y)) ∧
    (px = none → (sign_step_a C px e inv address_index).1.isSome = true) := by
  obtain ⟨hnext, hlt⟩ := sign_step_a_next_eq e h
  unfold sign_step_a
  rw [hnext]
  dsimp only
  rw [if_neg (not_not.mpr ⟨rfl, hlt⟩)]
  simp only [prepare_address_with_sign, generate_sign_secret_eq]
  have hidx : (prepare_address C e address_index).last_address_index = address_index := by
    unfold prepare_address
    split
    · rfl
    · rename_i hh
      simp only [ne_eq, not_not] at hh
      exact hh.symm
  refine ⟨?_, ?_, hlt, ?_, ?_, ?_, ?_, ?_⟩
  · split <;> (try split) <;> rfl
  · split <;> (try split) <;> rfl
  · split <;> (try split) <;>
      simp [step_a_values, KeccakStream.append, nonce]
  · split <;> (try split) <;> exact hidx
  · split <;> (try split) <;> rfl
  · intro o ho
    split at ho
    · split at ho
      · simp only [Option.some.injEq] at ho
        subst ho
        simp [step_a_values, nonce]
      · simp at ho
    · simp only [Option.some.injEq] at ho
      subst ho
      simp [step_a_values, nonce]
  · intro hpx
    subst hpx
    rfl

theorem sign_step_b_frame (C : Crypto S P) (px : Option (S × S × S)) (e : Emulator S P) (inv : S)
    (address_index : Nat) (my_c : S) :
    (sign_step_b C px e inv address_index my_c).2.keys = e.keys ∧
    (sign_step_b C px e inv address_index my_c).2.sign.shape = e.sign.shape ∧
    (sign_step_b C px e inv address_index my_c).2.sign.random_seed = e.sign.random_seed ∧
    (sign_step_b C px e inv address_index my_c).2.sign.c0 = e.sign.c0 ∧
    (sign_step_b C px e inv address_index my_c).2.sign.destination = e.sign.destination ∧
    (sign_step_b C px e inv address_index my_c).2.sign.amounts = e.sign.amounts ∧
    (sign_step_b C px e inv address_index my_c).2.sign.outputs_counter = e.sign.outputs_counter ∧
    (sign_step_b C px e inv address_index my_c).2.sign.extra_counter = e.sign.extra_counter := by
  unfold sign_step_b
  dsimp only
  repeat' split
  all_goals simp [Emulator.keys, SigningState.shape, SigningState.destination,
    SigningState.amounts]

theorem sign_step_b_fail (C : Crypto S P) (px : Option (S × S × S)) (e : Emulator S P) (inv : S)
    (address_index : Nat) (my_c : S)
    (h : ¬ (e.sign.state = State.EXPECT_STEP_B ∧ e.sign.inputs_counter < e.sign.inputs_size)) :
    sign_step_b C px e inv address_index my_c = (none, e) := by
  unfold sign_step_b
  rw [if_pos h]

theorem sign_step_b_ok (C : Crypto S P) (px : Option (S × S × S)) (e : Emulator S P) (inv : S)
    (address_index : Nat) (my_c : S)
    (h : e.sign.state = State.EXPECT_STEP_B ∧ e.sign.inputs_counter < e.sign.inputs_size) :
    (((sign_step_b C px e inv address_index my_c).1 = none ∧
        (sign_step_b C px e inv address_index my_c).2.sign.state = e.sign.state ∧
        (sign_step_b C px e inv address_index my_c).2.sign.inputs_counter
          = e.sign.inputs_counter) ∨
      ((sign_step_b C px e inv address_index my_c).1.isSome = true ∧
        (sign_step_b C px e inv address_index my_c).2.sign.inputs_counter
          = wrap64 (e.sign.inputs_counter + 1) ∧
        (sign_step_b C px e inv address_index my_c).2.sign.state =
          if wrap64 (e.sign.inputs_counter + 1) < e.sign.inputs_size then State.EXPECT_STEP_B
          else State.FINISHED)) ∧
    (px = none → (sign_step_b C px e inv address_index my_c).1.isSome = true) := by
  unfold sign_step_b
  rw [if_neg (not_not.mpr h)]
  dsimp only
  simp only [prepare_address_sign]
  cases px with
  | none =>
    simp only [Option.isSome_some, true_and, forall_true_left]
    refine ⟨Or.inr ⟨?_, ?_⟩, trivial⟩
    · split <;> rfl
    · split <;> simp [h.1]
  | some r =>
    simp only [false_implies, and_true, reduceCtorEq]
    split
    · right
      simp only [Option.isSome_some, true_and]
      constructor
      · split <;> rfl
      · split <;> simp [h.1]
    · left
      simp

theorem sign_step_b_values (C : Crypto S P) (px : Option (S × S × S)) (e : Emulator S P) (inv : S)
    (address_index : Nat) (my_c : S) :
    (sign_step_b C px e inv address_index my_c).2.last_address_audit_secret_key =
      (if e.sign.state = State.EXPECT_STEP_B ∧ e.sign.inputs_counter < e.sign.inputs_size then
        (prepare_address C e address_index).last_address_audit_secret_key
      else e.last_address_audit_secret_key) ∧
    (sign_step_b C px e inv address_index my_c).2.last_address_index =
      (if e.sign.state = State.EXPECT_STEP_B ∧ e.sign.inputs_counter < e.sign.inputs_size then
        (prepare_address C e address_index).last_address_index
      else e.last_address_index) ∧
    ∀ o, (sign_step_b C px e inv address_index my_c).1 = some o →
      o = (nonce C e e.sign.inputs_counter ('k', 'a') -
            my_c * ((prepare_address C e address_index).last_address_audit_secret_key * inv),
          nonce C e e.sign.inputs_counter ('k', 'b') -
            e.sign.c0 * (e.m_spend_secret_key * inv),
          nonce C e e.sign.inputs_counter ('k', 'c') +
            e.sign.c0 * ((prepare_address C e address_index).last_address_audit_secret_key * inv))
      := by
  unfold sign_step_b
  by_cases h : e.sign.state = State.EXPECT_STEP_B ∧ e.sign.inputs_counter < e.sign.inputs_size
  · rw [if_neg (not_not.mpr h), if_pos h, if_pos h]
    dsimp only
    simp only [prepare_address_sign, prepare_address_m_spend_secret_key, generate_sign_secret_eq]
    have hn : ∀ k tag, nonce C (prepare_address C e address_index) k tag = nonce C e k tag := by
      intro k tag
      simp [nonce]
    rcases px with _ | r <;> dsimp only
    · refine ⟨?_, ?_, ?_⟩
      · split_ifs <;> rfl
      · split_ifs <;> rfl
      · intro o ho
        simp only [Option.some.injEq] at ho
        rw [← ho, hn, hn, hn]
    · refine ⟨?_, ?_, ?_⟩
      · split_ifs <;> rfl
      · split_ifs <;> rfl
      · intro o ho
        split_ifs at ho <;>
          (simp only [Option.some.injEq] at ho; rw [← ho, hn, hn, hn])
  · rw [if_pos h, if_neg h, if_neg h]
    simp

theorem sign_add_output_dst_frame (C : Crypto S P) (e : Emulator S P) (amount : Nat) :
    (sign_add_output_dst C e amount).2.keys = e.keys ∧
    (sign_add_output_dst C e amount).2.last_address_index = e.last_address_index ∧
    (sign_add_output_dst C e amount).2.last_address_audit_secret_key
      = e.last_address_audit_secret_key ∧
    (sign_add_output_dst C e amount).2.sign.shape = e.sign.shape ∧
    (sign_add_output_dst C e amount).2.sign.random_seed = e.sign.random_seed ∧
    (sign_add_output_dst C e amount).2.sign.c0 = e.sign.c0 ∧
    (sign_add_output_dst C e amount).2.sign.destination = e.sign.destination ∧
    (sign_add_output_dst C e amount).2.sign.inputs_amount = e.sign.inputs_amount ∧
    (sign_add_output_dst C e amount).2.sign.change_amount = e.sign.change_amount ∧
    (sign_add_output_dst C e amount).2.sign.state = e.sign.state ∧
    (sign_add_output_dst C e amount).2.sign.inputs_counter = e.sign.inputs_counter ∧
    (sign_add_output_dst C e amount).2.sign.outputs_counter = e.sign.outputs_counter ∧
    (sign_add_output_dst C e amount).2.sign.extra_counter = e.sign.extra_counter ∧
    (sign_add_output_dst C e amount).2.sign.dst_amount
      = (add_amount e.sign.dst_amount amount).getD e.sign.dst_amount ∧
    (sign_add_output_dst C e amount).1.isSome = (add_amount e.sign.dst_amount amount).isSome := by
  unfold sign_add_output_dst
  cases add_amount e.sign.dst_amount amount with
  | none => simp
  | some v => simp [Emulator.keys, SigningState.shape, SigningState.destination]

theorem sign_add_output_account_frame (C : Crypto S P) (e : Emulator S P) (change : Bool)
    (amount cai tag : Nat) (ds dsv : P) :
    (sign_add_output_account C e change amount cai tag ds dsv).2.keys = e.keys ∧
    (sign_add_output_account C e change amount cai tag ds dsv).2.sign.shape = e.sign.shape ∧
    (sign_add_output_account C e change amount cai tag ds dsv).2.sign.random_seed
      = e.sign.random_seed ∧
    (sign_add_output_account C e change amount cai tag ds dsv).2.sign.c0 = e.sign.c0 ∧
    (sign_add_output_account C e change amount cai tag ds dsv).2.sign.inputs_amount
      = e.sign.inputs_amount ∧
    (sign_add_output_account C e change amount cai tag ds dsv).2.sign.state = e.sign.state ∧
    (sign_add_output_account C e change amount cai tag ds dsv).2.sign.inputs_counter
      = e.sign.inputs_counter ∧
    (sign_add_output_account C e change amount cai tag ds dsv).2.sign.outputs_counter
      = e.sign.outputs_counter ∧
    (sign_add_output_account C e change amount cai tag ds dsv).2.sign.extra_counter
      = e.sign.extra_counter := by
  unfold sign_add_output_account
  by_cases hc : change = true
  · rw [if_pos hc]
    cases add_amount e.sign.change_amount amount with
    | none => simp
    | some v => simp [Emulator.keys, SigningState.shape]
  · rw [if_neg hc]
    by_cases hs : e.sign.dst_address_set = true
    · rw [if_neg (not_not.mpr hs)]
      split_ifs
      · have := sign_add_output_dst_frame C e amount
        simp_all [Emulator.keys, SigningState.shape, SigningState.destination]
      · simp
    · rw [if_pos hs]
      have := sign_add_output_dst_frame C { e with sign := { e.sign with
        dst_address_set := true
        dst_address_tag := tag
        dst_address_s := ds
        dst_address_s_v := dsv } } amount
      simp_all [Emulator.keys, SigningState.shape, SigningState.destination]

theorem sign_add_output_account_change (C : Crypto S P) (e : Emulator S P)
    (amount cai tag : Nat) (ds dsv : P) :
    (sign_add_output_account C e true amount cai tag ds dsv).2.sign.destination
      = e.sign.destination ∧
    (sign_add_output_account C e true amount cai tag ds dsv).2.sign.dst_amount
      = e.sign.dst_amount ∧
    (sign_add_output_account C e true amount cai tag ds dsv).2.sign.change_amount
      = (add_amount e.sign.change_amount amount).getD e.sign.change_amount ∧
    (sign_add_output_account C e true amount cai tag ds dsv).1.isSome
      = (add_amount e.sign.change_amount amount).isSome := by
  unfold sign_add_output_account
  rw [if_pos rfl]
  cases add_amount e.sign.change_amount amount with
  | none => simp
  | some v => simp [SigningState.destination]

theorem sign_add_output_account_dst (C : Crypto S P) (e : Emulator S P)
    (amount cai tag : Nat) (ds dsv : P) :
    (sign_add_output_account C e false amount cai tag ds dsv).2.sign.change_amount
      = e.sign.change_amount ∧
    (sign_add_output_account C e false amount cai tag ds dsv).2.sign.destination
      = (if e.sign.dst_address_set = true then e.sign.destination else (true, tag, ds, dsv)) ∧
    (sign_add_output_account C e false amount cai tag ds dsv).2.sign.dst_amount
      = (if e.sign.dst_address_set = true → (e.sign.dst_address_tag = tag ∧
            e.sign.dst_address_s = ds ∧ e.sign.dst_address_s_v = dsv) then
          (add_amount e.sign.dst_amount amount).getD e.sign.dst_amount
        else e.sign.dst_amount) ∧
    (sign_add_output_account C e false amount cai tag ds dsv).1.isSome
      = (if e.sign.dst_address_set = true → (e.sign.dst_address_tag = tag ∧
            e.sign.dst_address_s = ds ∧ e.sign.dst_address_s_v = dsv) then
          (add_amount e.sign.dst_amount amount).isSome
        else false) := by
  unfold sign_add_output_account
  rw [if_neg (by simp)]
  by_cases hs : e.sign.dst_address_set = true
  · rw [if_neg (not_not.mpr hs)]
    by_cases ht : e.sign.dst_address_tag = tag ∧ e.sign.dst_address_s = ds ∧
        e.sign.dst_address_s_v = dsv
    · rw [if_pos ht]
      have := sign_add_output_dst_frame C e amount
      simp_all
    · rw [if_neg ht]
      simp [hs, ht]
  · rw [if_pos hs]
    have := sign_add_output_dst_frame C { e with sign := { e.sign with
      dst_address_set := true
      dst_address_tag := tag
      dst_address_s := ds
      dst_address_s_v := dsv } } amount
    simp_all [SigningState.destination]

theorem sign_add_output_finish_frame (C : Crypto S P) (e : Emulator S P) (out : P × P × Nat) :
    (sign_add_output_finish C e out).2.keys = e.keys ∧
    (sign_add_output_finish C e out).2.last_address_index = e.last_address_index ∧
    (sign_add_output_finish C e out).2.last_address_audit_secret_key
      = e.last_address_audit_secret_key ∧
    (sign_add_output_finish C e out).2.sign.shape = e.sign.shape ∧
    (sign_add_output_finish C e out).2.sign.random_seed = e.sign.random_seed ∧
    (sign_add_output_finish C e out).2.sign.c0 = e.sign.c0 ∧
    (sign_add_output_finish C e out).2.sign.destination = e.sign.destination ∧
    (sign_add_output_finish C e out).2.sign.amounts = e.sign.amounts ∧
    (sign_add_output_finish C e out).2.sign.inputs_counter = e.sign.inputs_counter ∧
    (sign_add_output_finish C e out).2.sign.extra_counter = e.sign.extra_counter ∧
    (sign_add_output_finish C e out).2.sign.outputs_counter
      = wrap64 (e.sign.outputs_counter + 1) := by
  unfold sign_add_output_finish
  dsimp only
  repeat' split
  all_goals simp [Emulator.keys, SigningState.shape, SigningState.destination,
    SigningState.amounts]

theorem sign_add_output_finish_more (C : Crypto S P) (e : Emulator S P) (out : P × P × Nat)
    (h : wrap64 (e.sign.outputs_counter + 1) < e.sign.outputs_size) :
    (sign_add_output_finish C e out).1 = some (out, none) ∧
    (sign_add_output_finish C e out).2.sign.state = e.sign.state := by
  unfold sign_add_output_finish
  dsimp only
  rw [if_pos h]
  exact ⟨rfl, rfl⟩

theorem sign_add_output_finish_last (C : Crypto S P) (e : Emulator S P) (out : P × P × Nat)
    (h : ¬ wrap64 (e.sign.outputs_counter + 1) < e.sign.outputs_size)
    (hchange : e.sign.change_amount ≤ UINT64_MAX) :
    if e.sign.dst_amount + e.sign.change_amount ≤ 2 ^ 64 - 1 ∧
        e.sign.dst_amount + e.sign.change_amount ≤ e.sign.inputs_amount then
      (sign_add_output_finish C e out).1 =
        some (out, some (e.sign.inputs_amount - (e.sign.dst_amount + e.sign.change_amount))) ∧
      (sign_add_output_finish C e out).2.sign.state = State.EXPECT_ADD_EXTRA_CHUNK
    else
      (sign_add_output_finish C e out).1 = none ∧
      (sign_add_output_finish C e out).2.sign.state = e.sign.state := by
  unfold sign_add_output_finish
  dsimp only
  rw [if_neg h]
  by_cases hsum : e.sign.dst_amount + e.sign.change_amount ≤ 2 ^ 64 - 1
  · rw [add_amount_of_le _ _ hsum]
    dsimp only
    by_cases hin : e.sign.dst_amount + e.sign.change_amount ≤ e.sign.inputs_amount
    · rw [if_pos ⟨hsum, hin⟩, if_neg (not_not.mpr hin)]
      exact ⟨rfl, rfl⟩
    · rw [if_neg (fun hh => hin hh.2), if_pos hin]
      exact ⟨rfl, rfl⟩
  · rw [if_neg (fun hh => hsum hh.1)]
    have : add_amount e.sign.dst_amount e.sign.change_amount = none :=
      (add_amount_eq_none_iff _ _ hchange).mpr (by omega)
    rw [this]
    exact ⟨rfl, rfl⟩

/-- How `sign_add_output` is put together from its parts. -/
theorem sign_add_output_eq (C : Crypto S P) (px : Option (P × P × Nat)) (e : Emulator S P)
    (change : Bool) (amount cai tag : Nat) (ds dsv : P) :
    sign_add_output C px e change amount cai tag ds dsv =
      if e.sign.state = State.EXPECT_ADD_OUTPUT ∧ e.sign.outputs_counter < e.sign.outputs_size then
        match (sign_add_output_account C e change amount cai tag ds dsv).1 with
        | none => (none, (sign_add_output_account C e change amount cai tag ds dsv).2)
        | some out =>
          if px = none ∨ px = some out then
            sign_add_output_finish C (sign_add_output_account C e change amount cai tag ds dsv).2 out
          else (none, (sign_add_output_account C e change amount cai tag ds dsv).2)
      else (none, e) := by
  unfold sign_add_output
  split_ifs with hpos
  · generalize sign_add_output_account C e change amount cai tag ds dsv = r
    obtain ⟨o, e1⟩ := r
    cases o with
    | none => rfl
    | some out =>
      cases px with
      | none => simp
      | some out2 =>
        by_cases h : out = out2
        · simp [h]
        · have h' : ¬ out2 = out := fun h2 => h h2.symm
          simp [h, h']
  · rfl

theorem sign_add_output_frame (C : Crypto S P) (px : Option (P × P × Nat)) (e : Emulator S P)
    (change : Bool) (amount cai tag : Nat) (ds dsv : P) :
    (sign_add_output C px e change amount cai tag ds dsv).2.keys = e.keys ∧
    (sign_add_output C px e change amount cai tag ds dsv).2.sign.shape = e.sign.shape ∧
    (sign_add_output C px e change amount cai tag ds dsv).2.sign.random_seed
      = e.sign.random_seed ∧
    (sign_add_output C px e change amount cai tag ds dsv).2.sign.c0 = e.sign.c0 ∧
    (sign_add_output C px e change amount cai tag ds dsv).2.sign.inputs_amount
      = e.sign.inputs_amount ∧
    (sign_add_output C px e change amount cai tag ds dsv).2.sign.inputs_counter
      = e.sign.inputs_counter ∧
    (sign_add_output C px e change amount cai tag ds dsv).2.sign.extra_counter
      = e.sign.extra_counter := by
  rw [sign_add_output_eq]
  have ha := sign_add_output_account_frame C e change amount cai tag ds dsv
  split_ifs
  · split
    · simp_all
    · rename_i out _
      have hf := sign_add_output_finish_frame C
        (sign_add_output_account C e change amount cai tag ds dsv).2 out
      split_ifs
      · simp_all [SigningState.amounts]
      · simp_all
  · simp

theorem sign_add_output_fail (C : Crypto S P) (px : Option (P × P × Nat)) (e : Emulator S P)
    (change : Bool) (amount cai tag : Nat) (ds dsv : P)
    (h : ¬ (e.sign.state = State.EXPECT_ADD_OUTPUT ∧
      e.sign.outputs_counter < e.sign.outputs_size)) :
    sign_add_output C px e change amount cai tag ds dsv = (none, e) := by
  unfold sign_add_output
  rw [if_pos h]

theorem step_unexpected (C : Crypto S P) (e : Emulator S P) (c : Call S P)
    (h : ¬ expected_position c e.sign) : step C e c = (none, e) := by
  cases c with
  | sign_start => simp [expected_position] at h
  | proof_start => simp [expected_position] at h
  | sign_add_input amount output_indexes inv address_index =>
    simp only [step, sign_add_input_fail C e amount output_indexes inv address_index (Or.inl h)]
    rfl
  | sign_add_output px change amount cai tag ds dsv =>
    simp only [step, sign_add_output_fail C px e change amount cai tag ds dsv h]
    rfl
  | sign_add_extra chunk =>
    have h' : ¬ (e.sign.state = State.EXPECT_ADD_EXTRA_CHUNK ∧
        wrap64 (e.sign.extra_counter + chunk.length) ≤ e.sign.extra_size) := fun hh => h hh.1
    simp only [step, sign_add_extra_fail C e chunk h']
    rfl
  | sign_step_a px inv address_index =>
    simp only [step, sign_step_a_fail C px e inv address_index h]
    rfl
  | sign_step_a_more_data data =>
    simp only [expected_position] at h
    simp only [step, sign_step_a_more_data, h, not_false_eq_true, if_true]
    rfl
  | sign_get_c0 px =>
    simp only [step, sign_get_c0_fail C px e h]
    rfl
  | sign_step_b px inv address_index my_c =>
    simp only [step, sign_step_b_fail C px e inv address_index my_c h]
    rfl

/-- No operation of a session touches the keys, the declared shape or the random seed. -/
theorem step_frame (C : Crypto S P) (e : Emulator S P) (c : Call S P)
    (hc : c.inSession = true) :
    (step C e c).2.keys = e.keys ∧ (step C e c).2.sign.shape = e.sign.shape ∧
    (step C e c).2.sign.random_seed = e.sign.random_seed := by
  cases c with
  | sign_start => simp [Call.inSession] at hc
  | proof_start => simp [Call.inSession] at hc
  | sign_add_input amount output_indexes inv address_index =>
    have := sign_add_input_frame C e amount output_indexes inv address_index
    exact ⟨this.1, this.2.1, this.2.2.1⟩
  | sign_add_output px change amount cai tag ds dsv =>
    have := sign_add_output_frame C px e change amount cai tag ds dsv
    exact ⟨this.1, this.2.1, this.2.2.1⟩
  | sign_add_extra chunk =>
    have := sign_add_extra_frame C e chunk
    exact ⟨this.1, this.2.2.2.1, this.2.2.2.2.1⟩
  | sign_step_a px inv address_index =>
    have := sign_step_a_frame C px e inv address_index
    exact ⟨this.1, this.2.1, this.2.2.1⟩
  | sign_step_a_more_data data =>
    have := sign_step_a_more_data_frame e data
    exact ⟨this.1, this.2.2.2.1, this.2.2.2.2.1⟩
  | sign_get_c0 px =>
    have := sign_get_c0_frame C px e
    exact ⟨this.1, this.2.2.2.1, this.2.2.2.2.1⟩
  | sign_step_b px inv address_index my_c =>
    have := sign_step_b_frame C px e inv address_index my_c
    exact ⟨this.1, this.2.1, this.2.2.1⟩

theorem wrap64_of_le (n : Nat) (h : n ≤ UINT64_MAX) : wrap64 n = n := by
  simp only [wrap64, UINT64_MAX] at *
  omega

theorem sign_add_output_account_cases (C : Crypto S P) (e : Emulator S P) (change : Bool)
    (amount cai tag : Nat) (ds dsv : P) (hamount : amount ≤ UINT64_MAX) :
    ((sign_add_output_account C e change amount cai tag ds dsv).1 = none ∧
      (sign_add_output_account C e change amount cai tag ds dsv).2.sign.dst_amount
        = e.sign.dst_amount ∧
      (sign_add_output_account C e change amount cai tag ds dsv).2.sign.change_amount
        = e.sign.change_amount) ∨
    ((sign_add_output_account C e change amount cai tag ds dsv).1.isSome = true ∧
      Accounted e (sign_add_output_account C e change amount cai tag ds dsv).2 change amount) := by
  unfold Accounted
  cases change with
  | true =>
    obtain ⟨-, h2, h3, h4⟩ := sign_add_output_account_change C e amount cai tag ds dsv
    cases h : add_amount e.sign.change_amount amount with
    | none =>
      left
      rw [h] at h3 h4
      exact ⟨Option.not_isSome_iff_eq_none.mp (by simp [h4]), h2, by simpa using h3⟩
    | some v =>
      right
      rw [h] at h3 h4
      obtain ⟨hv, hle⟩ := add_amount_eq_some _ _ _ hamount h
      simp only [Option.getD_some] at h3
      simp only [if_true]
      exact ⟨by simpa using h4, by rw [h3, hv], hle, h2⟩
  | false =>
    obtain ⟨h1, -, h3, h4⟩ := sign_add_output_account_dst C e amount cai tag ds dsv
    by_cases hok : e.sign.dst_address_set = true → (e.sign.dst_address_tag = tag ∧
            e.sign.dst_address_s = ds ∧ e.sign.dst_address_s_v = dsv)
    · rw [if_pos hok] at h3 h4
      cases h : add_amount e.sign.dst_amount amount with
      | none =>
        left
        rw [h] at h3 h4
        exact ⟨Option.not_isSome_iff_eq_none.mp (by simp [h4]), by simpa using h3, h1⟩
      | some v =>
        right
        rw [h] at h3 h4
        obtain ⟨hv, hle⟩ := add_amount_eq_some _ _ _ hamount h
        simp only [Option.getD_some] at h3
        simp only [Bool.false_eq_true, if_false]
        exact ⟨by simpa using h4, by rw [h3, hv], hle, h1⟩
    · rw [if_neg hok] at h3 h4
      left
      exact ⟨Option.not_isSome_iff_eq_none.mp (by simp [h4]), h3, h1⟩

/-- The outcomes of a `sign_add_output` called in its expected position. -/
theorem sign_add_output_cases (C : Crypto S P) (px : Option (P × P × Nat)) (e : Emulator S P)
    (change : Bool) (amount cai tag : Nat) (ds dsv : P) (hamount : amount ≤ UINT64_MAX)
    (hpos : e.sign.state = State.EXPECT_ADD_OUTPUT ∧ e.sign.outputs_counter < e.sign.outputs_size)
    (hsize : e.sign.outputs_size ≤ UINT64_MAX)
    (hchange : e.sign.change_amount ≤ UINT64_MAX) :
    ((sign_add_output C px e change amount cai tag ds dsv).1 = none ∧
      (sign_add_output C px e change amount cai tag ds dsv).2.sign.state = e.sign.state ∧
      (((sign_add_output C px e change amount cai tag ds dsv).2.sign.dst_amount
            = e.sign.dst_amount ∧
          (sign_add_output C px e change amount cai tag ds dsv).2.sign.change_amount
            = e.sign.change_amount ∧
          (sign_add_output C px e change amount cai tag ds dsv).2.sign.outputs_counter
            = e.sign.outputs_counter) ∨
        (px ≠ none ∧
          Accounted e (sign_add_output C px e change amount cai tag ds dsv).2 change amount ∧
          (sign_add_output C px e change amount cai tag ds dsv).2.sign.outputs_counter
            = e.sign.outputs_counter) ∨
        (Accounted e (sign_add_output C px e change amount cai tag ds dsv).2 change amount ∧
          (sign_add_output C px e change amount cai tag ds dsv).2.sign.outputs_counter
            = e.sign.outputs_size))) ∨
    (∃ out fee, (sign_add_output C px e change amount cai tag ds dsv).1 = some (out, fee) ∧
      Accounted e (sign_add_output C px e change amount cai tag ds dsv).2 change amount ∧
      (sign_add_output C px e change amount cai tag ds dsv).2.sign.outputs_counter
        = e.sign.outputs_counter + 1 ∧
      ((e.sign.outputs_counter + 1 < e.sign.outputs_size ∧ fee = none ∧
          (sign_add_output C px e change amount cai tag ds dsv).2.sign.state = e.sign.state) ∨
        (e.sign.outputs_counter + 1 = e.sign.outputs_size ∧
          (sign_add_output C px e change amount cai tag ds dsv).2.sign.state
            = State.EXPECT_ADD_EXTRA_CHUNK ∧
          (sign_add_output C px e change amount cai tag ds dsv).2.sign.dst_amount +
            (sign_add_output C px e change amount cai tag ds dsv).2.sign.change_amount
              ≤ 2 ^ 64 - 1 ∧
          (sign_add_output C px e change amount cai tag ds dsv).2.sign.dst_amount +
            (sign_add_output C px e change amount cai tag ds dsv).2.sign.change_amount
              ≤ e.sign.inputs_amount ∧
          fee = some (e.sign.inputs_amount -
            ((sign_add_output C px e change amount cai tag ds dsv).2.sign.dst_amount +
              (sign_add_output C px e change amount cai tag ds dsv).2.sign.change_amount))))) := by
  have hacc := sign_add_output_account_cases C e change amount cai tag ds dsv hamount
  have hfr := sign_add_output_account_frame C e change amount cai tag ds dsv
  obtain ⟨-, hshape, -, -, hin, hst, -, hoc, -⟩ := hfr
  have hosz : (sign_add_output_account C e change amount cai tag ds dsv).2.sign.outputs_size
      = e.sign.outputs_size := by
    have := congrArg (fun t => t.2.1) hshape
    simpa [SigningState.shape] using this
  have hw : wrap64 (e.sign.outputs_counter + 1) = e.sign.outputs_counter + 1 :=
    wrap64_of_le _ (by have := hpos.2; omega)
  rw [sign_add_output_eq, if_pos hpos]
  rcases hacc with ⟨hnone, hd, hc⟩ | ⟨hsome, hAcc⟩
  · rw [hnone]
    exact Or.inl ⟨rfl, hst, Or.inl ⟨hd, hc, hoc⟩⟩
  · obtain ⟨out, hout⟩ := Option.isSome_iff_exists.mp hsome
    rw [hout]
    dsimp only
    by_cases hpx : px = none ∨ px = some out
    · rw [if_pos hpx]
      have hff := sign_add_output_finish_frame C
        (sign_add_output_account C e change amount cai tag ds dsv).2 out
      obtain ⟨-, -, -, -, -, -, -, hamts, -, -, hoc'⟩ := hff
      have hd' : (sign_add_output_finish C
          (sign_add_output_account C e change amount cai tag ds dsv).2 out).2.sign.dst_amount =
          (sign_add_output_account C e change amount cai tag ds dsv).2.sign.dst_amount := by
        have := congrArg (fun t => t.2.1) hamts
        simpa [SigningState.amounts] using this
      have hc' : (sign_add_output_finish C
          (sign_add_output_account C e change amount cai tag ds dsv).2 out).2.sign.change_amount =
          (sign_add_output_account C e change amount cai tag ds dsv).2.sign.change_amount := by
        have := congrArg (fun t => t.2.2) hamts
        simpa [SigningState.amounts] using this
      have hAcc' : Accounted e (sign_add_output_finish C
          (sign_add_output_account C e change amount cai tag ds dsv).2 out).2 change amount := by
        unfold Accounted at hAcc ⊢
        rw [hd', hc']
        exact hAcc
      rw [hoc, hw] at hoc'
      by_cases hlast : e.sign.outputs_counter + 1 < e.sign.outputs_size
      · obtain ⟨h1, h2⟩ := sign_add_output_finish_more C
          (sign_add_output_account C e change amount cai tag ds dsv).2 out
          (by rw [hoc, hw, hosz]; exact hlast)
        exact Or.inr ⟨out, none, h1, hAcc', hoc', Or.inl ⟨hlast, rfl, by rw [h2, hst]⟩⟩
      · have hchg : (sign_add_output_account C e change amount cai tag ds dsv).2.sign.change_amount
            ≤ UINT64_MAX := by
          unfold Accounted at hAcc
          simp only [UINT64_MAX] at *
          split_ifs at hAcc <;> omega
        have hfl := sign_add_output_finish_last C
          (sign_add_output_account C e change amount cai tag ds dsv).2 out
          (by rw [hoc, hw, hosz]; exact hlast) hchg
        have heq : e.sign.outputs_counter + 1 = e.sign.outputs_size := by
          have := hpos.2; omega
        split_ifs at hfl with hbal
        · rw [hin] at hbal hfl
          exact Or.inr ⟨out, _, hfl.1, hAcc', hoc',
            Or.inr ⟨heq, hfl.2, by rw [hd', hc']; exact hbal.1, by rw [hd', hc']; exact hbal.2,
              by rw [hd', hc']⟩⟩
        · exact Or.inl ⟨hfl.1, by rw [hfl.2, hst], Or.inr (Or.inr ⟨hAcc', by rw [hoc', heq]⟩)⟩
    · rw [if_neg hpx]
      refine Or.inl ⟨rfl, hst, Or.inr (Or.inl ⟨fun h => hpx (Or.inl h), hAcc, hoc⟩)⟩

theorem step_rank_mono (C : Crypto S P) (e : Emulator S P) (c : Call S P)
    (hc : c.inSession = true) :
    e.sign.state.rank ≤ (step C e c).2.sign.state.rank := by
  by_cases hexp : expected_position c e.sign
  · cases c with
    | sign_start => simp [Call.inSession] at hc
    | proof_start => simp [Call.inSession] at hc
    | sign_add_input amount output_indexes inv address_index =>
      simp only [expected_position] at hexp
      simp only [step]
      cases h : add_amount e.sign.inputs_amount amount with
      | none =>
        rw [sign_add_input_fail C e amount output_indexes inv address_index (Or.inr h)]
      | some v =>
        obtain ⟨-, -, -, h4⟩ := sign_add_input_ok C e amount output_indexes inv address_index v
          hexp h
        rw [h4, hexp.1]
        split_ifs <;> simp [State.rank]
    | sign_add_output px change amount cai tag ds dsv =>
      simp only [expected_position] at hexp
      simp only [step]
      rw [sign_add_output_eq, if_pos hexp]
      have hst := (sign_add_output_account_frame C e change amount cai tag ds dsv).2.2.2.2.2.1
      split
      · rw [hst]
      · split_ifs
        · rename_i out _ _
          generalize hq : (sign_add_output_account C e change amount cai tag ds dsv).2 = q at *
          unfold sign_add_output_finish
          dsimp only
          have : e.sign.state = State.EXPECT_ADD_OUTPUT := hexp.1
          repeat' split
          all_goals simp_all [State.rank]
        · rw [hst]
    | sign_add_extra chunk =>
      simp only [expected_position] at hexp
      simp only [step]
      by_cases hlen : wrap64 (e.sign.extra_counter + chunk.length) ≤ e.sign.extra_size
      · obtain ⟨-, -, -, h4, -⟩ := sign_add_extra_ok C e chunk hexp hlen
        rw [h4, show e.sign.state = State.EXPECT_ADD_EXTRA_CHUNK from hexp]
        split_ifs <;> simp [State.rank]
      · rw [sign_add_extra_fail C e chunk (fun hh => hlen hh.2)]
    | sign_step_a px inv address_index =>
      simp only [expected_position] at hexp
      simp only [step]
      obtain ⟨h1, -⟩ := sign_step_a_ok C px e inv address_index hexp
      rw [h1]
      rcases hexp with ⟨h, -⟩ | ⟨h, -⟩ <;> simp [h, State.rank]
    | sign_step_a_more_data data =>
      simp only [expected_position] at hexp
      simp only [step]
      rw [(sign_step_a_more_data_frame e data).2.2.2.2.2.2.2.2.1]
    | sign_get_c0 px =>
      simp only [expected_position] at hexp
      simp only [step]
      obtain ⟨h1, -⟩ := sign_get_c0_ok C px e hexp
      rw [h1, hexp.1]
      simp [State.rank]
    | sign_step_b px inv address_index my_c =>
      simp only [expected_position] at hexp
      simp only [step]
      obtain ⟨h1, -⟩ := sign_step_b_ok C px e inv address_index my_c hexp
      rcases h1 with ⟨-, h, -⟩ | ⟨-, -, h⟩
      · rw [h]
      · rw [h, hexp.1]
        split_ifs <;> simp [State.rank]
  · rw [step_unexpected C e c hexp]

theorem shape_inputs_size {s s' : SigningState S P} (h : s'.shape = s.shape) :
    s'.inputs_size = s.inputs_size := by
  have := congrArg (fun t => t.1) h
  simpa [SigningState.shape] using this

theorem shape_outputs_size {s s' : SigningState S P} (h : s'.shape = s.shape) :
    s'.outputs_size = s.outputs_size := by
  have := congrArg (fun t => t.2.1) h
  simpa [SigningState.shape] using this

theorem shape_extra_size {s s' : SigningState S P} (h : s'.shape = s.shape) :
    s'.extra_size = s.extra_size := by
  have := congrArg (fun t => t.2.2) h
  simpa [SigningState.shape] using this

theorem rank_eq_zero_iff (s : State) : s.rank = 0 ↔ s = State.EXPECT_ADD_INPUT := by
  cases s <;> simp [State.rank]

theorem inputPhase_step (C : Crypto S P) (n k : Nat) (hn : n ≤ UINT64_MAX) (e : Emulator S P)
    (c : Call S P) (hc : c.inSession = true) (h : InputPhase n k e) :
    InputPhase n (k + if ((step C e c).1.isSome && c.isAddInput) = true then 1 else 0)
      (step C e c).2 := by
  obtain ⟨hsize, hcase⟩ := h
  have hsize' : (step C e c).2.sign.inputs_size = n := by
    rw [shape_inputs_size (step_frame C e c hc).2.1, hsize]
  refine ⟨hsize', ?_⟩
  rcases hcase with ⟨hst, hic, hk⟩ | ⟨hst, hk⟩
  · by_cases hexp : expected_position c e.sign
    · cases c with
      | sign_add_input amount output_indexes inv address_index =>
        simp only [expected_position] at hexp
        simp only [step, Call.isAddInput, Bool.and_true]
        cases h : add_amount e.sign.inputs_amount amount with
        | none =>
          rw [sign_add_input_fail C e amount output_indexes inv address_index (Or.inr h)]
          simp [hst, hic, hk]
        | some v =>
          obtain ⟨h1, -, h3, h4⟩ :=
            sign_add_input_ok C e amount output_indexes inv address_index v hexp h
          have hw : wrap64 (e.sign.inputs_counter + 1) = k + 1 := by
            rw [hic]
            exact wrap64_of_le _ (by omega)
          rw [h1, h3, h4, hw, hsize]
          by_cases hlt : k + 1 < n
          · simp [hlt]
          · simp only [hlt, if_false, Option.map_some', Option.isSome_some, if_true]
            right
            exact ⟨by simp, by omega⟩
      | sign_start => simp [Call.inSession] at hc
      | proof_start => simp [Call.inSession] at hc
      | sign_add_output => simp [expected_position, hst] at hexp
      | sign_add_extra => simp [expected_position, hst] at hexp
      | sign_step_a => simp [expected_position, hst] at hexp
      | sign_step_a_more_data => simp [expected_position, hst] at hexp
      | sign_get_c0 => simp [expected_position, hst] at hexp
      | sign_step_b => simp [expected_position, hst] at hexp
    · rw [step_unexpected C e c hexp]
      simp [hst, hic, hk]
  · have hmono := step_rank_mono C e c hc
    have hne : (step C e c).2.sign.state ≠ State.EXPECT_ADD_INPUT := by
      intro h0
      rw [h0] at hmono
      simp only [State.rank, Nat.le_zero] at hmono
      exact hst ((rank_eq_zero_iff _).mp hmono)
    have hfail : ((step C e c).1.isSome && c.isAddInput) = false := by
      cases c with
      | sign_add_input amount output_indexes inv address_index =>
        have : ¬ expected_position (Call.sign_add_input amount output_indexes inv address_index)
            e.sign := fun hh => hst hh.1
        rw [step_unexpected C e _ this]
        rfl
      | _ => simp [Call.isAddInput]
    rw [hfail]
    right
    exact ⟨hne, by simpa using hk⟩

theorem inputPhase_run (C : Crypto S P) (n : Nat) (hn : n ≤ UINT64_MAX) (cs : List (Call S P)) :
    ∀ (k : Nat) (e : Emulator S P), (∀ c ∈ cs, c.inSession = true) → InputPhase n k e →
      InputPhase n (k + (accepted Call.isAddInput (trace C e cs)).length) (run C e cs) := by
  induction cs with
  | nil => intro k e _ h; simpa [accepted, trace, run] using h
  | cons c cs ih =>
    intro k e hcs h
    have hc : c.inSession = true := hcs c (List.mem_cons_self _ _)
    have hstep := inputPhase_step C n k hn e c hc h
    have := ih _ (step C e c).2 (fun c' hc' => hcs c' (List.mem_cons_of_mem _ hc')) hstep
    simp only [run, trace, accepted, List.filter_cons, Event.ok] at this ⊢
    split_ifs with hq
    · simp only [hq, if_true] at this
      simpa [accepted, Nat.add_assoc, Nat.add_comm 1] using this
    · simp only [hq] at this
      simpa [accepted] using this

theorem sign_start_inputPhase (C : Crypto S P) (e : Emulator S P)
    (version ut n outputs_size extra_size : Nat)
    (h : (sign_start C e version ut n outputs_size extra_size).1 = some ()) :
    InputPhase n 0 (sign_start C e version ut n outputs_size extra_size).2 := by
  have hs := sign_start_spec C e version ut n outputs_size extra_size
  have hcond : ¬ (n = 0 ∨ outputs_size = 0 ∨ version = 0) := by
    intro hc
    rw [hs.1.mpr hc] at h
    exact Option.noConfusion h
  rw [hs.2, if_neg hcond]
  refine ⟨rfl, Or.inl ⟨rfl, rfl, ?_⟩⟩
  have : n ≠ 0 := fun h0 => hcond (Or.inl h0)
  omega

/-- C3: in a session opened by a successful `sign_start` that declares `n` inputs, whatever
session operations the caller tries, at most `n` calls of `sign_add_input` are accepted; while
fewer than `n` have been accepted every `sign_add_output` throws, and once `n` have been accepted
every further `sign_add_input` throws. -/
theorem order_enforcement (C : Crypto S P) (e : Emulator S P)
    (version ut n outputs_size extra_size : Nat) (cs : List (Call S P))
    (hn : n ≤ UINT64_MAX)
    (hstart : (sign_start C e version ut n outputs_size extra_size).1 = some ())
    (hcs : ∀ c ∈ cs, c.inSession = true) :
    (accepted Call.isAddInput
      (trace C (sign_start C e version ut n outputs_size extra_size).2 cs)).length ≤ n ∧
    ((accepted Call.isAddInput
        (trace C (sign_start C e version ut n outputs_size extra_size).2 cs)).length < n →
      ∀ px change amount cai tag ds dsv,
        (sign_add_output C px (run C (sign_start C e version ut n outputs_size extra_size).2 cs)
          change amount cai tag ds dsv).1 = none) ∧
    ((accepted Call.isAddInput
        (trace C (sign_start C e version ut n outputs_size extra_size).2 cs)).length = n →
      ∀ amount output_indexes inv address_index,
        (sign_add_input C (run C (sign_start C e version ut n outputs_size extra_size).2 cs)
          amount output_indexes inv address_index).1 = none) := by
  have h0 := sign_start_inputPhase C e version ut n outputs_size extra_size hstart
  have h := inputPhase_run C n hn cs 0 _ hcs h0
  rw [Nat.zero_add] at h
  obtain ⟨-, hcase⟩ := h
  refine ⟨?_, ?_, ?_⟩
  · rcases hcase with ⟨-, -, hk⟩ | ⟨-, hk⟩ <;> omega
  · intro hlt px change amount cai tag ds dsv
    rcases hcase with ⟨hst, -, -⟩ | ⟨-, hk⟩
    · rw [sign_add_output_fail _ _ _ _ _ _ _ _ _ (by simp [hst])]
    · omega
  · intro heq amount output_indexes inv address_index
    rcases hcase with ⟨-, -, hk⟩ | ⟨hst, -⟩
    · omega
    · rw [sign_add_input_fail _ _ _ _ _ _ (Or.inl (fun hh => hst hh.1))]

/-- Witness of C3: after one of the two declared inputs of `Emulator.started` an output is
refused. -/
theorem order_enforcement_witness :
    (accepted Call.isAddInput (trace Crypto.small
      (sign_start Crypto.small Emulator.small 2 0 2 2 3).2
      [Call.sign_add_input 5 [1] 3 0])).length < 2 ∧
    (sign_add_output Crypto.small none
      (run Crypto.small (sign_start Crypto.small Emulator.small 2 0 2 2 3).2
        [Call.sign_add_input 5 [1] 3 0]) false 1 0 0 4 6).1 = none :=
  ⟨by decide,
    (order_enforcement Crypto.small Emulator.small 2 0 2 2 3 [Call.sign_add_input 5 [1] 3 0]
      (by decide) (by decide) (by decide)).2.1 (by decide) none false 1 0 0 4 6⟩

theorem prepare_address_cache (C : Crypto S P) (e : Emulator S P) (i : Nat) (h : CacheOk C e) :
    (prepare_address C e i).last_address_index = i ∧
    (prepare_address C e i).last_address_audit_secret_key =
      C.generate_hd_secretkey e.m_audit_key_base_secret_key e.m_A_plus_sH i := by
  unfold prepare_address
  split
  · exact ⟨rfl, rfl⟩
  · rename_i hh
    simp only [ne_eq, not_not] at hh
    subst hh
    exact ⟨rfl, h⟩

theorem cacheOk_of_eq (C : Crypto S P) (e e' : Emulator S P) (i : Nat) (h : CacheOk C e)
    (hk : e'.keys = e.keys)
    (hc : (e'.last_address_index = e.last_address_index ∧
        e'.last_address_audit_secret_key = e.last_address_audit_secret_key) ∨
      (e'.last_address_index = (prepare_address C e i).last_address_index ∧
        e'.last_address_audit_secret_key
          = (prepare_address C e i).last_address_audit_secret_key)) :
    CacheOk C e' := by
  unfold CacheOk at *
  simp only [Emulator.keys, Prod.mk.injEq] at hk
  obtain ⟨-, hk2, -, hk4, -, -⟩ := hk
  rcases hc with ⟨h1, h2⟩ | ⟨h1, h2⟩
  · rw [h2, h1, hk2, hk4, h]
  · obtain ⟨p1, p2⟩ := prepare_address_cache C e i h
    rw [h2, h1, hk2, hk4, p2, p1]

theorem sign_add_input_cache (C : Crypto S P) (e : Emulator S P) (amount : Nat)
    (output_indexes : List Nat) (inv : S) (address_index : Nat) :
    ((sign_add_input C e amount output_indexes inv address_index).2.last_address_index
        = e.last_address_index ∧
      (sign_add_input C e amount output_indexes inv address_index).2.last_address_audit_secret_key
        = e.last_address_audit_secret_key) ∨
    ((sign_add_input C e amount output_indexes inv address_index).2.last_address_index
        = (prepare_address C e address_index).last_address_index ∧
      (sign_add_input C e amount output_indexes inv address_index).2.last_address_audit_secret_key
        = (prepare_address C e address_index).last_address_audit_secret_key) := by
  unfold sign_add_input
  dsimp only
  repeat' split
  all_goals simp

theorem sign_step_a_cache (C : Crypto S P) (px : Option (P × P × P)) (e : Emulator S P) (inv : S)
    (address_index : Nat) :
    ((sign_step_a C px e inv address_index).2.last_address_index = e.last_address_index ∧
      (sign_step_a C px e inv address_index).2.last_address_audit_secret_key
        = e.last_address_audit_secret_key) ∨
    ((sign_step_a C px e inv address_index).2.last_address_index
        = (prepare_address C e address_index).last_address_index ∧
      (sign_step_a C px e inv address_index).2.last_address_audit_secret_key
        = (prepare_address C e address_index).last_address_audit_secret_key) := by
  by_cases h : (e.sign.state = State.EXPECT_STEP_A ∧ e.sign.inputs_counter < e.sign.inputs_size) ∨
      (e.sign.state = State.EXPECT_STEP_A_MORE_DATA ∧
        wrap64 (e.sign.inputs_counter + 1) < e.sign.inputs_size)
  · obtain ⟨-, -, -, -, h5, h6, -⟩ := sign_step_a_ok C px e inv address_index h
    right
    refine ⟨?_, h6⟩
    rw [h5]
    unfold prepare_address
    split
    · rfl
    · rename_i hh
      simp only [ne_eq, not_not] at hh
      exact hh
  · rw [sign_step_a_fail C px e inv address_index h]
    left
    exact ⟨rfl, rfl⟩

theorem sign_step_b_cache (C : Crypto S P) (px : Option (S × S × S)) (e : Emulator S P) (inv : S)
    (address_index : Nat) (my_c : S) :
    ((sign_step_b C px e inv address_index my_c).2.last_address_index = e.last_address_index ∧
      (sign_step_b C px e inv address_index my_c).2.last_address_audit_secret_key
        = e.last_address_audit_secret_key) ∨
    ((sign_step_b C px e inv address_index my_c).2.last_address_index
        = (prepare_address C e address_index).last_address_index ∧
      (sign_step_b C px e inv address_index my_c).2.last_address_audit_secret_key
        = (prepare_address C e address_index).last_address_audit_secret_key) := by
  obtain ⟨h1, h2, -⟩ := sign_step_b_values C px e inv address_index my_c
  rw [h1, h2]
  split_ifs
  · right; exact ⟨rfl, rfl⟩
  · left; exact ⟨rfl, rfl⟩

theorem sign_add_output_account_cache (C : Crypto S P) (e : Emulator S P) (change : Bool)
    (amount cai tag : Nat) (ds dsv : P) :
    ((sign_add_output_account C e change amount cai tag ds dsv).2.last_address_index
        = e.last_address_index ∧
      (sign_add_output_account C e change amount cai tag ds dsv).2.last_address_audit_secret_key
        = e.last_address_audit_secret_key) ∨
    ((sign_add_output_account C e change amount cai tag ds dsv).2.last_address_index
        = (prepare_address C e cai).last_address_index ∧
      (sign_add_output_account C e change amount cai tag ds dsv).2.last_address_audit_secret_key
        = (prepare_address C e cai).last_address_audit_secret_key) := by
  unfold sign_add_output_account
  by_cases hc : change = true
  · rw [if_pos hc]
    cases add_amount e.sign.change_amount amount with
    | none => left; exact ⟨rfl, rfl⟩
    | some v =>
      right
      simp [prepare_address_with_sign]
  · rw [if_neg hc]
    left
    by_cases hs : e.sign.dst_address_set = true
    · rw [if_neg (not_not.mpr hs)]
      split_ifs
      · have := sign_add_output_dst_frame C e amount
        exact ⟨this.2.1, this.2.2.1⟩
      · exact ⟨rfl, rfl⟩
    · rw [if_pos hs]
      have := sign_add_output_dst_frame C { e with sign := { e.sign with
        dst_address_set := true
        dst_address_tag := tag
        dst_address_s := ds
        dst_address_s_v := dsv } } amount
      exact ⟨this.2.1, this.2.2.1⟩

theorem sign_add_output_cache (C : Crypto S P) (px : Option (P × P × Nat)) (e : Emulator S P)
    (change : Bool) (amount cai tag : Nat) (ds dsv : P) :
    ((sign_add_output C px e change amount cai tag ds dsv).2.last_address_index
        = e.last_address_index ∧
      (sign_add_output C px e change amount cai tag ds dsv).2.last_address_audit_secret_key
        = e.last_address_audit_secret_key) ∨
    ((sign_add_output C px e change amount cai tag ds dsv).2.last_address_index
        = (prepare_address C e cai).last_address_index ∧
      (sign_add_output C px e change amount cai tag ds dsv).2.last_address_audit_secret_key
        = (prepare_address C e cai).last_address_audit_secret_key) := by
  rw [sign_add_output_eq]
  have ha := sign_add_output_account_cache C e change amount cai tag ds dsv
  split_ifs
  · split
    · exact ha
    · rename_i out _
      have hf := sign_add_output_finish_frame C
        (sign_add_output_account C e change amount cai tag ds dsv).2 out
      split_ifs
      · rw [hf.2.1, hf.2.2.1]
        exact ha
      · exact ha
  · left; exact ⟨rfl, rfl⟩

theorem step_cacheOk (C : Crypto S P) (e : Emulator S P) (c : Call S P)
    (hc : c.inSession = true) (h : CacheOk C e) : CacheOk C (step C e c).2 := by
  have hk := (step_frame C e c hc).1
  cases c with
  | sign_start => simp [Call.inSession] at hc
  | proof_start => simp [Call.inSession] at hc
  | sign_add_input amount output_indexes inv address_index =>
    exact cacheOk_of_eq C e _ address_index h hk
      (sign_add_input_cache C e amount output_indexes inv address_index)
  | sign_add_output px change amount cai tag ds dsv =>
    exact cacheOk_of_eq C e _ cai h hk (sign_add_output_cache C px e change amount cai tag ds dsv)
  | sign_add_extra chunk =>
    have := sign_add_extra_frame C e chunk
    exact cacheOk_of_eq C e _ 0 h hk (Or.inl ⟨this.2.1, this.2.2.1⟩)
  | sign_step_a px inv address_index =>
    exact cacheOk_of_eq C e _ address_index h hk (sign_step_a_cache C px e inv address_index)
  | sign_step_a_more_data data =>
    have := sign_step_a_more_data_frame e data
    exact cacheOk_of_eq C e _ 0 h hk (Or.inl ⟨this.2.1, this.2.2.1⟩)
  | sign_get_c0 px =>
    have := sign_get_c0_frame C px e
    exact cacheOk_of_eq C e _ 0 h hk (Or.inl ⟨this.2.1, this.2.2.1⟩)
  | sign_step_b px inv address_index my_c =>
    exact cacheOk_of_eq C e _ address_index h hk
      (sign_step_b_cache C px e inv address_index my_c)

theorem run_frame (C : Crypto S P) (cs : List (Call S P)) :
    ∀ e : Emulator S P, (∀ c ∈ cs, c.inSession = true) →
      (run C e cs).keys = e.keys ∧ (run C e cs).sign.shape = e.sign.shape ∧
      (run C e cs).sign.random_seed = e.sign.random_seed ∧
      (CacheOk C e → CacheOk C (run C e cs)) := by
  induction cs with
  | nil => intro e _; exact ⟨rfl, rfl, rfl, id⟩
  | cons c cs ih =>
    intro e hcs
    have hc : c.inSession = true := hcs c (List.mem_cons_self _ _)
    obtain ⟨h1, h2, h3, h4⟩ := ih (step C e c).2 (fun c' hc' => hcs c' (List.mem_cons_of_mem _ hc'))
    obtain ⟨f1, f2, f3⟩ := step_frame C e c hc
    simp only [run]
    exact ⟨h1.trans f1, h2.trans f2, h3.trans f3, fun h => h4 (step_cacheOk C e c hc h)⟩

/-- C5: let `a = subaddress_audit_secret · inv_output_secret_hash`,
`s = spend_secret_key · inv_output_secret_hash` and `B` the hash-to-point of the key image.  When
`sign_step_a` returns `(p, x, y)` for an input, it has appended `p = s·H − a·B` and a point `z`
to the inputs transcript, and the `(ra, rb, rc)` that a later `sign_step_b` of the same session
returns for the same input index, the same `(inv_output_secret_hash, address_index)` and any
`my_c` satisfy `rb·H + rc·B + c0·p = z` and `ra·(G + B) + my_c·(a·G + a·B) = x`, where `c0` is
the challenge of the session at that call. -/
theorem signature_verification_identity (C : Crypto S P) (e : Emulator S P)
    (cs : List (Call S P)) (pxa : Option (P × P × P)) (pxb : Option (S × S × S))
    (inv : S) (address_index : Nat) (my_c a s : S) (B p x y : P) (ra rb rc : S)
    (hcs : ∀ c ∈ cs, c.inSession = true)
    (hsecret : (prepare_address C e address_index).last_address_audit_secret_key =
      C.generate_hd_secretkey e.m_audit_key_base_secret_key e.m_A_plus_sH address_index)
    (ha : a = C.generate_hd_secretkey e.m_audit_key_base_secret_key e.m_A_plus_sH address_index
      * inv)
    (hs : s = e.m_spend_secret_key * inv)
    (hB : B = C.hash_to_good_point_p3
      (C.generate_key_image (C.secret_keys_to_public_key a s) a))
    (hstep_a : (sign_step_a C pxa e inv address_index).1 = some (p, x, y))
    (hindex : (run C (sign_step_a C pxa e inv address_index).2 cs).sign.inputs_counter =
      (sign_step_a C pxa e inv address_index).2.sign.inputs_counter)
    (hstep_b : (sign_step_b C pxb (run C (sign_step_a C pxa e inv address_index).2 cs) inv
      address_index my_c).1 = some (ra, rb, rc)) :
    p = s • C.H - a • B ∧
    ∃ z : P,
      (sign_step_a C pxa e inv address_index).2.sign.tx_inputs_stream =
        e.sign.tx_inputs_stream ++ C.point_data p ++ C.point_data z ∧
      rb • C.H + rc • B +
        (run C (sign_step_a C pxa e inv address_index).2 cs).sign.c0 • p = z ∧
      ra • (C.G + B) + my_c • (a • C.G + a • B) = x := by
  have hexp : (e.sign.state = State.EXPECT_STEP_A ∧ e.sign.inputs_counter < e.sign.inputs_size) ∨
      (e.sign.state = State.EXPECT_STEP_A_MORE_DATA ∧
        wrap64 (e.sign.inputs_counter + 1) < e.sign.inputs_size) := by
    by_contra hne
    rw [sign_step_a_fail C pxa e inv address_index hne] at hstep_a
    exact Option.noConfusion hstep_a
  obtain ⟨-, hic, -, hstream, hci, hcs', hval, -⟩ := sign_step_a_ok C pxa e inv address_index hexp
  obtain ⟨fk, -, fseed, -⟩ := sign_step_a_frame C pxa e inv address_index
  have hv := hval _ hstep_a
  obtain ⟨rk, -, rseed, rcache⟩ := run_frame C cs (sign_step_a C pxa e inv address_index).2 hcs
  have hkeys : (run C (sign_step_a C pxa e inv address_index).2 cs).keys = e.keys := rk.trans fk
  have hk' := hkeys
  simp only [Emulator.keys, Prod.mk.injEq] at hk'
  obtain ⟨k1, k2, -, k4, -, -⟩ := hk'
  have hfk := fk
  simp only [Emulator.keys, Prod.mk.injEq] at hfk
  obtain ⟨-, fk2, -, fk4, -, -⟩ := hfk
  have hcache : CacheOk C (run C (sign_step_a C pxa e inv address_index).2 cs) := by
    apply rcache
    unfold CacheOk
    rw [hcs', hci, fk2, fk4, hsecret]
  obtain ⟨-, hsec⟩ := prepare_address_cache C _ address_index hcache
  obtain ⟨-, -, hvb⟩ := sign_step_b_values C pxb
    (run C (sign_step_a C pxa e inv address_index).2 cs) inv address_index my_c
  have hb := hvb _ hstep_b
  have hn : ∀ tag, nonce C (run C (sign_step_a C pxa e inv address_index).2 cs)
      (run C (sign_step_a C pxa e inv address_index).2 cs).sign.inputs_counter tag =
      nonce C e (step_a_index e.sign) tag := by
    intro tag
    rw [hindex, hic]
    simp only [nonce, rseed.trans fseed, k1]
  rw [hsec, k1, k2, k4, hn, hn, hn, ← ha, ← hs] at hb
  simp only [step_a_values, hsecret, ← ha, ← hs, ← hB] at hv hstream
  simp only [Prod.mk.injEq] at hv hb
  obtain ⟨hp, hx, -⟩ := hv
  obtain ⟨hra, hrb, hrc⟩ := hb
  refine ⟨hp, nonce C e (step_a_index e.sign) ('k', 'b') • C.H +
    nonce C e (step_a_index e.sign) ('k', 'c') • B, ?_, ?_, ?_⟩
  · rw [hstream, hp]
  · rw [hrb, hrc, hp]
    module
  · rw [hra, hx]
    module

/-- Witness of C5 on the session `Emulator.prepared`: `sign_step_a` returns
`(-32874, 288120, 11970)`, the session goes on with an empty `sign_step_a_more_data` and
`sign_get_c0`, and `sign_step_b` returns `(162, -2804, 5036)`. -/
theorem signature_verification_identity_witness :
    (sign_step_a Crypto.small none Emulator.prepared 3 0).1 = some (-32874, 288120, 11970) ∧
    (sign_step_b Crypto.small none
      (run Crypto.small (sign_step_a Crypto.small none Emulator.prepared 3 0).2
        [Call.sign_step_a_more_data [], Call.sign_get_c0 none]) 3 0 2).1
      = some (162, -2804, 5036) ∧
    ((-32874 : Int) = (15 : Int) • Crypto.small.H - (24 : Int) • (1371 : Int) ∧
      ∃ z : Int,
        (sign_step_a Crypto.small none Emulator.prepared 3 0).2.sign.tx_inputs_stream =
          Emulator.prepared.sign.tx_inputs_stream ++ Crypto.small.point_data (-32874) ++
            Crypto.small.point_data z ∧
        (-2804 : Int) • Crypto.small.H + (5036 : Int) • (1371 : Int) +
          (run Crypto.small (sign_step_a Crypto.small none Emulator.prepared 3 0).2
            [Call.sign_step_a_more_data [], Call.sign_get_c0 none]).sign.c0 • (-32874 : Int) = z ∧
        (162 : Int) • (Crypto.small.G + (1371 : Int)) +
          (2 : Int) • ((24 : Int) • Crypto.small.G + (24 : Int) • (1371 : Int)) = 288120) :=
  ⟨by decide, by decide,
    signature_verification_identity Crypto.small Emulator.prepared
      [Call.sign_step_a_more_data [], Call.sign_get_c0 none] none none 3 0 2 24 15 1371
      (-32874) 288120 11970 162 (-2804) 5036
      (by decide) (by decide) (by decide) (by decide) (by decide) (by decide) (by decide)
      (by decide)⟩

theorem sign_add_output_account_destination (C : Crypto S P) (e : Emulator S P) (change : Bool)
    (amount cai tag : Nat) (ds dsv : P) :
    (e.sign.dst_address_set = true →
      (sign_add_output_account C e change amount cai tag ds dsv).2.sign.destination
        = e.sign.destination) ∧
    (change = false →
      (sign_add_output_account C e change amount cai tag ds dsv).1.isSome = true →
      (sign_add_output_account C e change amount cai tag ds dsv).2.sign.destination
        = (true, tag, ds, dsv)) := by
  cases change with
  | true =>
    exact ⟨fun _ => (sign_add_output_account_change C e amount cai tag ds dsv).1,
      fun h => Bool.noConfusion h⟩
  | false =>
    obtain ⟨-, h2, -, h4⟩ := sign_add_output_account_dst C e amount cai tag ds dsv
    constructor
    · intro hset
      rw [h2, if_pos hset]
    · intro _ hsome
      rw [h2]
      by_cases hset : e.sign.dst_address_set = true
      · rw [if_pos hset]
        rw [h4] at hsome
        split_ifs at hsome with hok
        obtain ⟨h1, h2, h3⟩ := hok hset
        simp [SigningState.destination, hset, h1, h2, h3]
      · rw [if_neg hset]

theorem sign_add_output_destination (C : Crypto S P) (px : Option (P × P × Nat))
    (e : Emulator S P) (change : Bool) (amount cai tag : Nat) (ds dsv : P) :
    (e.sign.dst_address_set = true →
      (sign_add_output C px e change amount cai tag ds dsv).2.sign.destination
        = e.sign.destination) ∧
    (change = false → (sign_add_output C px e change amount cai tag ds dsv).1.isSome = true →
      (sign_add_output C px e change amount cai tag ds dsv).2.sign.destination
        = (true, tag, ds, dsv)) := by
  obtain ⟨a1, a2⟩ := sign_add_output_account_destination C e change amount cai tag ds dsv
  rw [sign_add_output_eq]
  by_cases hpos : e.sign.state = State.EXPECT_ADD_OUTPUT ∧
      e.sign.outputs_counter < e.sign.outputs_size
  · rw [if_pos hpos]
    cases hacc : (sign_add_output_account C e change amount cai tag ds dsv).1 with
    | none =>
      dsimp only
      exact ⟨a1, fun _ h => Bool.noConfusion h⟩
    | some out =>
      dsimp only
      rw [hacc] at a2
      have hf := (sign_add_output_finish_frame C
        (sign_add_output_account C e change amount cai tag ds dsv).2 out).2.2.2.2.2.2.1
      split_ifs
      · rw [hf]
        exact ⟨a1, fun h _ => a2 h rfl⟩
      · exact ⟨a1, fun _ h => Bool.noConfusion h⟩
  · rw [if_neg hpos]
    exact ⟨fun _ => rfl, fun _ h => Bool.noConfusion h⟩

theorem step_destination (C : Crypto S P) (e : Emulator S P) (c : Call S P)
    (hc : c.inSession = true) (hset : e.sign.dst_address_set = true) :
    (step C e c).2.sign.destination = e.sign.destination := by
  cases c with
  | sign_start => simp [Call.inSession] at hc
  | proof_start => simp [Call.inSession] at hc
  | sign_add_input amount output_indexes inv address_index =>
    exact (sign_add_input_frame C e amount output_indexes inv address_index).2.2.2.2.1
  | sign_add_output px change amount cai tag ds dsv =>
    exact (sign_add_output_destination C px e change amount cai tag ds dsv).1 hset
  | sign_add_extra chunk => exact (sign_add_extra_frame C e chunk).2.2.2.2.2.2.1
  | sign_step_a px inv address_index =>
    exact (sign_step_a_frame C px e inv address_index).2.2.2.2.1
  | sign_step_a_more_data data => exact (sign_step_a_more_data_frame e data).2.2.2.2.2.2.1
  | sign_get_c0 px => exact (sign_get_c0_frame C px e).2.2.2.2.2.1
  | sign_step_b px inv address_index my_c =>
    exact (sign_step_b_frame C px e inv address_index my_c).2.2.2.2.1

theorem run_destination (C : Crypto S P) (cs : List (Call S P)) :
    ∀ e : Emulator S P, (∀ c ∈ cs, c.inSession = true) → e.sign.dst_address_set = true →
      (run C e cs).sign.destination = e.sign.destination := by
  induction cs with
  | nil => intro e _ _; rfl
  | cons c cs ih =>
    intro e hcs hset
    have hc : c.inSession = true := hcs c (List.mem_cons_self _ _)
    have h1 := step_destination C e c hc hset
    have hset' : (step C e c).2.sign.dst_address_set = true := by
      have := congrArg (fun t => t.1) h1
      simpa [SigningState.destination, hset] using this
    simp only [run]
    rw [ih _ (fun c' hc' => hcs c' (List.mem_cons_of_mem _ hc')) hset', h1]

/-- C7: after a non-change `sign_add_output` has been accepted with the triple
`(tag, S, Sv)`, and whatever session operations follow, (i) every non-change `sign_add_output`
with another triple throws; (ii) a non-change `sign_add_output` with the same triple is accepted
when no proxy is attached, the session is in `EXPECT_ADD_OUTPUT` with
`outputs_counter < outputs_size`, the amount fits `dst_amount` and, on the last output, the
inputs cover the outputs; (iii) a change output is never compared with the committed
destination: its result does not depend on the triple in its arguments. -/
theorem destination_consistency (C : Crypto S P) (e : Emulator S P) (cs : List (Call S P))
    (px0 : Option (P × P × Nat)) (amount0 cai0 tag : Nat) (ds dsv : P)
    (hfirst : (sign_add_output C px0 e false amount0 cai0 tag ds dsv).1.isSome = true)
    (hcs : ∀ c ∈ cs, c.inSession = true) :
    (∀ px amount cai tag' ds' dsv', (tag', ds', dsv') ≠ (tag, ds, dsv) →
      (sign_add_output C px (run C (sign_add_output C px0 e false amount0 cai0 tag ds dsv).2 cs)
        false amount cai tag' ds' dsv').1 = none) ∧
    (∀ amount cai,
      (run C (sign_add_output C px0 e false amount0 cai0 tag ds dsv).2 cs).sign.state
        = State.EXPECT_ADD_OUTPUT →
      (run C (sign_add_output C px0 e false amount0 cai0 tag ds dsv).2 cs).sign.outputs_counter
        < (run C (sign_add_output C px0 e false amount0 cai0 tag ds dsv).2 cs).sign.outputs_size →
      (run C (sign_add_output C px0 e false amount0 cai0 tag ds dsv).2 cs).sign.outputs_size
        ≤ UINT64_MAX →
      (run C (sign_add_output C px0 e false amount0 cai0 tag ds dsv).2 cs).sign.inputs_amount
        ≤ UINT64_MAX →
      (run C (sign_add_output C px0 e false amount0 cai0 tag ds dsv).2 cs).sign.dst_amount
        + amount ≤ UINT64_MAX →
      ((run C (sign_add_output C px0 e false amount0 cai0 tag ds dsv).2 cs).sign.outputs_counter + 1
          = (run C (sign_add_output C px0 e false amount0 cai0 tag ds dsv).2 cs).sign.outputs_size →
        (run C (sign_add_output C px0 e false amount0 cai0 tag ds dsv).2 cs).sign.dst_amount
            + amount
            + (run C (sign_add_output C px0 e false amount0 cai0 tag ds dsv).2 cs).sign.change_amount
          ≤ (run C (sign_add_output C px0 e false amount0 cai0 tag ds dsv).2 cs).sign.inputs_amount) →
      (sign_add_output C none (run C (sign_add_output C px0 e false amount0 cai0 tag ds dsv).2 cs)
        false amount cai tag ds dsv).1.isSome = true) ∧
    (∀ (e' : Emulator S P) px amount cai tag1 ds1 dsv1 tag2 ds2 dsv2,
      sign_add_output C px e' true amount cai tag1 ds1 dsv1 =
        sign_add_output C px e' true amount cai tag2 ds2 dsv2) := by
  have hcommit := (sign_add_output_destination C px0 e false amount0 cai0 tag ds dsv).2 rfl hfirst
  generalize (sign_add_output C px0 e false amount0 cai0 tag ds dsv).2 = e1 at hcommit
  have hset1 : e1.sign.dst_address_set = true := by
    have := congrArg (fun t => t.1) hcommit
    simpa [SigningState.destination] using this
  have hdest := (run_destination C cs e1 hcs hset1).trans hcommit
  generalize run C e1 cs = e2 at hdest
  simp only [SigningState.destination, Prod.mk.injEq] at hdest
  obtain ⟨hset, htag, hds, hdsv⟩ := hdest
  refine ⟨?_, ?_, ?_⟩
  · intro px amount cai tag' ds' dsv' hne
    rw [sign_add_output_eq]
    split_ifs
    · have h4 := (sign_add_output_account_dst C e2 amount cai tag' ds' dsv').2.2.2
      have hno : ¬ (e2.sign.dst_address_set = true → (e2.sign.dst_address_tag = tag' ∧
            e2.sign.dst_address_s = ds' ∧ e2.sign.dst_address_s_v = dsv')) := by
        intro hh
        obtain ⟨h1, h2, h3⟩ := hh hset
        apply hne
        rw [← h1, ← h2, ← h3, htag, hds, hdsv]
      rw [if_neg hno] at h4
      have h5 : (sign_add_output_account C e2 false amount cai tag' ds' dsv').1 = none :=
        Option.not_isSome_iff_eq_none.mp (by simp [h4])
      rw [h5]
    · rfl
  · intro amount cai hstate hcount hsize hin hfit hlast
    simp only [UINT64_MAX] at hsize hin hfit
    rw [sign_add_output_eq, if_pos ⟨hstate, hcount⟩]
    obtain ⟨h1, -, h3, h4⟩ := sign_add_output_account_dst C e2 amount cai tag ds dsv
    have hok : e2.sign.dst_address_set = true → (e2.sign.dst_address_tag = tag ∧
        e2.sign.dst_address_s = ds ∧ e2.sign.dst_address_s_v = dsv) := fun _ => ⟨htag, hds, hdsv⟩
    rw [if_pos hok, add_amount_of_le _ _ hfit] at h3 h4
    obtain ⟨out, hout⟩ := Option.isSome_iff_exists.mp (h4.trans rfl)
    rw [hout]
    dsimp only
    rw [if_pos (Or.inl rfl)]
    obtain ⟨-, hshape, -, -, hin', -, -, hoc, -⟩ :=
      sign_add_output_account_frame C e2 false amount cai tag ds dsv
    have hosz := shape_outputs_size hshape
    have hw : wrap64 (e2.sign.outputs_counter + 1) = e2.sign.outputs_counter + 1 :=
      wrap64_of_le _ (by simp only [UINT64_MAX]; omega)
    by_cases hl : e2.sign.outputs_counter + 1 < e2.sign.outputs_size
    · rw [(sign_add_output_finish_more C _ out (by rw [hoc, hw, hosz]; exact hl)).1]
      rfl
    · have heq : e2.sign.outputs_counter + 1 = e2.sign.outputs_size := by omega
      have hbal := hlast heq
      have hfl := sign_add_output_finish_last C
        (sign_add_output_account C e2 false amount cai tag ds dsv).2 out
        (by rw [hoc, hw, hosz]; exact hl) (by rw [h1]; simp only [UINT64_MAX]; omega)
      rw [h3, h1, hin', Option.getD_some] at hfl
      rw [if_pos ⟨by omega, hbal⟩] at hfl
      rw [hfl.1]
      rfl
  · intro e' px amount cai tag1 ds1 dsv1 tag2 ds2 dsv2
    unfold sign_add_output sign_add_output_account
    rfl

/-- Witness of C7: in the session `Emulator.funded` a first destination `(0, 4, 6)` is accepted
and a second non-change output to `(0, 4, 7)` throws. -/
theorem destination_consistency_witness :
    (sign_add_output Crypto.small none Emulator.funded false 100 0 0 4 6).1.isSome = true ∧
    (sign_add_output Crypto.small none
      (run Crypto.small (sign_add_output Crypto.small none Emulator.funded false 100 0 0 4 6).2 [])
      false 50 0 0 4 7).1 = none :=
  ⟨by decide,
    (destination_consistency Crypto.small Emulator.funded [] none 100 0 0 4 6 (by decide)
      (by decide)).1 none 50 0 0 4 7 (by decide)⟩

theorem sign_add_output_state (C : Crypto S P) (px : Option (P × P × Nat)) (e : Emulator S P)
    (change : Bool) (amount cai tag : Nat) (ds dsv : P) :
    (sign_add_output C px e change amount cai tag ds dsv).2.sign.state = e.sign.state ∨
    (e.sign.state = State.EXPECT_ADD_OUTPUT ∧
      (sign_add_output C px e change amount cai tag ds dsv).2.sign.state
        = State.EXPECT_ADD_EXTRA_CHUNK) := by
  rw [sign_add_output_eq]
  have hst := (sign_add_output_account_frame C e change amount cai tag ds dsv).2.2.2.2.2.1
  split_ifs with hpos
  · split
    · left; exact hst
    · split_ifs
      · rename_i out _ _
        generalize hq : (sign_add_output_account C e change amount cai tag ds dsv).2 = q at *
        unfold sign_add_output_finish
        dsimp only
        repeat' split
        all_goals simp_all
      · left; exact hst
  · left; rfl

theorem stepPhase_step (C : Crypto S P) (n na nb : Nat) (hn : n ≤ UINT64_MAX) (e : Emulator S P)
    (c : Call S P) (hc : c.inSession = true) (h : StepPhase n na nb e) :
    StepPhase n
      (na + if (decide (expected_position c e.sign) && c.isStepA) = true then 1 else 0)
      (nb + if ((step C e c).1.isSome && c.isStepB) = true then 1 else 0) (step C e c).2 ∧
    ((decide (expected_position c e.sign) && c.isStepA) = true → step_a_index e.sign = na) ∧
    (((step C e c).1.isSome && c.isStepB) = true → e.sign.inputs_counter = nb) := by
  obtain ⟨hsize, hcase⟩ := h
  have hsize' : (step C e c).2.sign.inputs_size = n := by
    rw [shape_inputs_size (step_frame C e c hc).2.1, hsize]
  by_cases hexp : expected_position c e.sign
  · cases c with
    | sign_start => simp [Call.inSession] at hc
    | proof_start => simp [Call.inSession] at hc
    | sign_add_input amount output_indexes inv address_index =>
      simp only [expected_position] at hexp
      simp only [Call.isStepA, Call.isStepB, Bool.and_false, Bool.false_eq_true, if_false,
        Nat.add_zero, false_implies, and_true]
      refine ⟨hsize', ?_⟩
      simp only [step]
      rw [hexp.1] at hcase
      cases hh : add_amount e.sign.inputs_amount amount with
      | none =>
        rw [sign_add_input_fail C e amount output_indexes inv address_index (Or.inr hh), hexp.1]
        exact hcase
      | some v =>
        obtain ⟨-, -, -, h4⟩ :=
          sign_add_input_ok C e amount output_indexes inv address_index v hexp hh
        rw [h4]
        split_ifs <;> exact hcase
    | sign_add_output px change amount cai tag ds dsv =>
      simp only [expected_position] at hexp
      simp only [Call.isStepA, Call.isStepB, Bool.and_false, Bool.false_eq_true, if_false,
        Nat.add_zero, false_implies, and_true]
      refine ⟨hsize', ?_⟩
      simp only [step]
      rw [hexp.1] at hcase
      rcases sign_add_output_state C px e change amount cai tag ds dsv with h1 | ⟨-, h1⟩
      · rw [h1, hexp.1]; exact hcase
      · rw [h1]; exact hcase
    | sign_add_extra chunk =>
      simp only [expected_position] at hexp
      simp only [Call.isStepA, Call.isStepB, Bool.and_false, Bool.false_eq_true, if_false,
        Nat.add_zero, false_implies, and_true]
      refine ⟨hsize', ?_⟩
      simp only [step]
      rw [hexp] at hcase
      by_cases hlen : wrap64 (e.sign.extra_counter + chunk.length) ≤ e.sign.extra_size
      · obtain ⟨-, -, -, h4, h5⟩ := sign_add_extra_ok C e chunk hexp hlen
        rw [h4, h5]
        split_ifs
        · exact hcase
        · exact ⟨hcase.1, hcase.2, rfl⟩
      · rw [sign_add_extra_fail C e chunk (fun hh => hlen hh.2), hexp]
        exact hcase
    | sign_step_a px inv address_index =>
      have hdec : decide (expected_position (Call.sign_step_a px inv address_index) e.sign)
          = true := decide_eq_true hexp
      simp only [expected_position] at hexp
      obtain ⟨h1, h2, h3, -⟩ := sign_step_a_ok C px e inv address_index hexp
      simp only [step, Call.isStepA, Call.isStepB, Bool.and_false, Bool.false_eq_true, if_false,
        Nat.add_zero, false_implies, and_true, Bool.and_true, hdec, if_true, true_implies]
      have hidx : step_a_index e.sign = na := by
        unfold step_a_index
        rcases hexp with ⟨hs, -⟩ | ⟨hs, -⟩
        · rw [hs] at hcase
          simp only [hs, reduceCtorEq, if_false]
          rw [hcase.2.2, hcase.1]
        · rw [hs] at hcase
          simp only [hs, if_true]
          rw [hcase.1]
          exact wrap64_of_le _ (by have := hcase.2.1; omega)
      refine ⟨⟨hsize', ?_⟩, hidx⟩
      rw [h1]
      dsimp only
      rw [h2, hidx]
      refine ⟨rfl, ?_, ?_⟩
      · rw [← hidx, ← hsize]; exact h3
      · rcases hexp with ⟨hs, -⟩ | ⟨hs, -⟩ <;> rw [hs] at hcase
        · exact hcase.2.1
        · exact hcase.2.2
    | sign_step_a_more_data data =>
      simp only [Call.isStepA, Call.isStepB, Bool.and_false, Bool.false_eq_true, if_false,
        Nat.add_zero, false_implies, and_true]
      refine ⟨hsize', ?_⟩
      simp only [step]
      have hf := sign_step_a_more_data_frame e data
      rw [hf.2.2.2.2.2.2.2.2.1, hf.2.2.2.2.2.2.2.2.2.1]
      exact hcase
    | sign_get_c0 px =>
      simp only [expected_position] at hexp
      simp only [Call.isStepA, Call.isStepB, Bool.and_false, Bool.false_eq_true, if_false,
        Nat.add_zero, false_implies, and_true]
      refine ⟨hsize', ?_⟩
      simp only [step]
      obtain ⟨h1, h2, -⟩ := sign_get_c0_ok C px e hexp
      rw [hexp.1] at hcase
      rw [h1]
      dsimp only
      rw [h2]
      obtain ⟨c1, c2, c3⟩ := hcase
      have hw : wrap64 (e.sign.inputs_counter + 1) = e.sign.inputs_counter + 1 :=
        wrap64_of_le _ (by omega)
      have := hexp.2
      rw [hw, hsize] at this
      exact ⟨by omega, c3, by omega⟩
    | sign_step_b px inv address_index my_c =>
      simp only [expected_position] at hexp
      obtain ⟨h1, -⟩ := sign_step_b_ok C px e inv address_index my_c hexp
      have hcase0 := hcase
      rw [hexp.1] at hcase
      obtain ⟨c1, c2, c3⟩ := hcase
      simp only [step, Call.isStepA, Call.isStepB, Bool.and_false, Bool.false_eq_true, if_false,
        Nat.add_zero, false_implies, and_true, Bool.and_true, Option.isSome_map', true_and]
      refine ⟨⟨hsize', ?_⟩, fun _ => c2.symm⟩
      rcases h1 with ⟨hnone, hst, hic⟩ | ⟨hok, hic, hst⟩
      · rw [hnone, hst]
        simp only [Option.isSome_none, Bool.false_eq_true, if_false, Nat.add_zero]
        rw [hexp.1]
        dsimp only
        rw [hic]
        exact ⟨c1, c2, c3⟩
      · have hw : wrap64 (e.sign.inputs_counter + 1) = e.sign.inputs_counter + 1 :=
          wrap64_of_le _ (by omega)
        rw [hok, hst, hw, hsize]
        simp only [if_true]
        by_cases hlt : e.sign.inputs_counter + 1 < n
        · rw [if_pos hlt]
          dsimp only
          rw [hic, hw]
          exact ⟨c1, by omega, hlt⟩
        · rw [if_neg hlt]
          dsimp only
          exact ⟨c1, by omega⟩
  · rw [step_unexpected C e c hexp]
    simp only [Option.isSome_none, Bool.false_and, Bool.false_eq_true, if_false, Nat.add_zero,
      false_implies, and_true, decide_eq_false hexp]
    exact ⟨hsize, hcase⟩

theorem getElem?_cons_filter {α : Type} (p : α → Bool) (a : α) (l : List α) (j : Nat) (x : α)
    (h : (List.filter p (a :: l))[j]? = some x) :
    (p a = true ∧ j = 0 ∧ x = a) ∨
    (p a = true ∧ ∃ i, j = i + 1 ∧ (List.filter p l)[i]? = some x) ∨
    (p a = false ∧ (List.filter p l)[j]? = some x) := by
  by_cases hp : p a = true
  · rw [List.filter_cons_of_pos hp] at h
    cases j with
    | zero =>
      left
      simp only [List.getElem?_cons_zero, Option.some.injEq] at h
      exact ⟨hp, rfl, h.symm⟩
    | succ i =>
      right; left
      simp only [List.getElem?_cons_succ] at h
      exact ⟨hp, i, rfl, h⟩
  · right; right
    rw [List.filter_cons_of_neg hp] at h
    exact ⟨by simpa using hp, h⟩

theorem stepPhase_trace (C : Crypto S P) (n : Nat) (hn : n ≤ UINT64_MAX)
    (cs : List (Call S P)) :
    ∀ (na nb : Nat) (e : Emulator S P), (∀ c ∈ cs, c.inSession = true) → StepPhase n na nb e →
      StepPhase n (na + (carried Call.isStepA (trace C e cs)).length)
        (nb + (accepted Call.isStepB (trace C e cs)).length) (run C e cs) ∧
      (∀ j ev, (carried Call.isStepA (trace C e cs))[j]? = some ev →
        step_a_index ev.pre.sign = na + j) ∧
      (∀ j ev, (accepted Call.isStepB (trace C e cs))[j]? = some ev →
        ev.pre.sign.inputs_counter = nb + j) := by
  induction cs with
  | nil =>
    intro na nb e _ h
    refine ⟨by simpa [carried, accepted, trace, run] using h, ?_, ?_⟩ <;>
      intro j ev hj <;> simp [carried, accepted, trace] at hj
  | cons c cs ih =>
    intro na nb e hcs h
    have hc : c.inSession = true := hcs c (List.mem_cons_self _ _)
    obtain ⟨hstep, ha0, hb0⟩ := stepPhase_step C n na nb hn e c hc h
    obtain ⟨ih1, ih2, ih3⟩ :=
      ih _ _ (step C e c).2 (fun c' hc' => hcs c' (List.mem_cons_of_mem _ hc')) hstep
    refine ⟨?_, ?_, ?_⟩
    · simp only [run, trace, carried, accepted, List.filter_cons, Event.ok] at ih1 ⊢
      have e1 : ∀ (b : Bool) (l : List (Event S P)) (x : Event S P),
          (if b = true then x :: l else l).length = l.length + if b = true then 1 else 0 := by
        intro b l x
        cases b <;> simp
      rw [e1, e1]
      simpa [carried, accepted, Nat.add_assoc, Nat.add_comm] using ih1
    · intro j ev hj
      simp only [trace, carried] at hj
      rcases getElem?_cons_filter _ _ _ j ev hj with ⟨hp, hj0, hev⟩ | ⟨hp, i, hji, hi⟩ | ⟨hp, hi⟩
      · subst hj0 hev
        exact ha0 hp
      · have := ih2 i ev hi
        dsimp only at hp
        rw [hp] at this
        rw [this, hji]
        simp only [if_true]
        omega
      · have := ih2 j ev hi
        dsimp only at hp
        rw [hp] at this
        simpa using this
    · intro j ev hj
      simp only [trace, accepted] at hj
      rcases getElem?_cons_filter _ _ _ j ev hj with ⟨hp, hj0, hev⟩ | ⟨hp, i, hji, hi⟩ | ⟨hp, hi⟩
      · subst hj0 hev
        exact hb0 hp
      · have := ih3 i ev hi
        simp only [Event.ok] at hp
        rw [hp] at this
        rw [this, hji]
        simp only [if_true]
        omega
      · have := ih3 j ev hi
        simp only [Event.ok] at hp
        rw [hp] at this
        simpa using this

/-- What the log records: every event is a step of the emulator, from a state of the session. -/
theorem trace_event (C : Crypto S P) (cs : List (Call S P)) :
    ∀ (e : Emulator S P), (∀ c ∈ cs, c.inSession = true) → ∀ ev ∈ trace C e cs,
      ev.call ∈ cs ∧ ev.result = (step C ev.pre ev.call).1 ∧ ev.post = (step C ev.pre ev.call).2 ∧
      ev.pre.keys = e.keys ∧ ev.pre.sign.shape = e.sign.shape ∧
      ev.pre.sign.random_seed = e.sign.random_seed := by
  induction cs with
  | nil => intro e _ ev hev; simp [trace] at hev
  | cons c cs ih =>
    intro e hcs ev hev
    simp only [trace, List.mem_cons] at hev
    rcases hev with hev | hev
    · subst hev
      exact ⟨List.mem_cons_self _ _, rfl, rfl, rfl, rfl, rfl⟩
    · have hc : c.inSession = true := hcs c (List.mem_cons_self _ _)
      obtain ⟨h1, h2, h3, h4, h5, h6⟩ :=
        ih (step C e c).2 (fun c' hc' => hcs c' (List.mem_cons_of_mem _ hc')) ev hev
      obtain ⟨f1, f2, f3⟩ := step_frame C e c hc
      exact ⟨List.mem_cons_of_mem _ h1, h2, h3, h4.trans f1, h5.trans f2, h6.trans f3⟩

theorem sign_start_stepPhase (C : Crypto S P) (e : Emulator S P)
    (version ut n outputs_size extra_size : Nat)
    (h : (sign_start C e version ut n outputs_size extra_size).1 = some ()) :
    StepPhase n 0 0 (sign_start C e version ut n outputs_size extra_size).2 ∧
    (sign_start C e version ut n outputs_size extra_size).2.sign.random_seed = zero_hash ∧
    (sign_start C e version ut n outputs_size extra_size).2.keys = e.keys := by
  have hs := sign_start_spec C e version ut n outputs_size extra_size
  have hcond : ¬ (n = 0 ∨ outputs_size = 0 ∨ version = 0) := by
    intro hc
    rw [hs.1.mpr hc] at h
    exact Option.noConfusion h
  rw [hs.2, if_neg hcond]
  exact ⟨⟨rfl, rfl, rfl⟩, rfl, rfl⟩

/-- With no proxy attached a `sign_step_a` is accepted exactly when it is called in its expected
position. -/
theorem accepted_step_a_eq_carried (C : Crypto S P) (cs : List (Call S P)) (e : Emulator S P)
    (hcs : ∀ c ∈ cs, c.inSession = true) (hnp : ∀ c ∈ cs, c.noProxy = true) :
    accepted Call.isStepA (trace C e cs) = carried Call.isStepA (trace C e cs) := by
  unfold accepted carried
  apply List.filter_congr
  intro ev hev
  obtain ⟨hmem, hres, -⟩ := trace_event C cs e hcs ev hev
  have hnp' := hnp _ hmem
  cases hcall : ev.call with
  | sign_step_a px inv address_index =>
    rw [hcall] at hnp'
    simp only [Call.noProxy, Option.isNone_iff_eq_none] at hnp'
    simp only [Call.isStepA, Bool.and_true, Event.ok, hres, hcall, step, Option.isSome_map']
    by_cases hexp : expected_position (Call.sign_step_a px inv address_index) ev.pre.sign
    · rw [decide_eq_true hexp]
      exact (sign_step_a_ok C px ev.pre inv address_index hexp).2.2.2.2.2.2.2 hnp'
    · rw [decide_eq_false hexp, sign_step_a_fail C px ev.pre inv address_index hexp]
      rfl
  | _ => simp [Call.isStepA]

theorem mem_of_accepted (kind : Call S P → Bool) (log : List (Event S P)) (j : Nat)
    (ev : Event S P) (h : (accepted kind log)[j]? = some ev) :
    ev ∈ log ∧ ev.ok = true ∧ kind ev.call = true := by
  have hmem := List.getElem?_mem h
  unfold accepted at hmem
  rw [List.mem_filter] at hmem
  simpa using hmem

/-- C10, as the code has it: in a session opened by `sign_start`, `sign_get_c0` is accepted only
in `EXPECT_STEP_A_MORE_DATA` after the `sign_step_a` of the last input, that is when
`inputs_size` calls of `sign_step_a` have been carried out; calls of `sign_step_a_more_data` are
not needed for it and do not change whether it is accepted. -/
theorem sign_get_c0_after_last_step_a (C : Crypto S P) (e : Emulator S P)
    (version ut n outputs_size extra_size : Nat) (cs : List (Call S P)) (px : Option S)
    (hn : n ≤ UINT64_MAX)
    (hstart : (sign_start C e version ut n outputs_size extra_size).1 = some ())
    (hcs : ∀ c ∈ cs, c.inSession = true)
    (hok : (sign_get_c0 C px
      (run C (sign_start C e version ut n outputs_size extra_size).2 cs)).1.isSome = true) :
    (carried Call.isStepA
      (trace C (sign_start C e version ut n outputs_size extra_size).2 cs)).length = n ∧
    (run C (sign_start C e version ut n outputs_size extra_size).2 cs).sign.state
      = State.EXPECT_STEP_A_MORE_DATA ∧
    (∀ e' : Emulator S P, expected_position (Call.sign_get_c0 (none : Option S)) e'.sign →
      (sign_get_c0 C none e').1.isSome = true) ∧
    (∀ (e' : Emulator S P) (data : BinaryArray),
      (sign_get_c0 C none (sign_step_a_more_data e' data).2).1.isSome
        = (sign_get_c0 C none e').1.isSome) := by
  obtain ⟨hphase, -, -⟩ := sign_start_stepPhase C e version ut n outputs_size extra_size hstart
  generalize (sign_start C e version ut n outputs_size extra_size).2 = E at *
  obtain ⟨⟨hsize, hcase⟩, -, -⟩ := stepPhase_trace C n hn cs 0 0 E hcs hphase
  have hpos : (run C E cs).sign.state = State.EXPECT_STEP_A_MORE_DATA ∧
      wrap64 ((run C E cs).sign.inputs_counter + 1) = (run C E cs).sign.inputs_size := by
    by_contra hne
    rw [sign_get_c0_fail C px _ hne] at hok
    exact Bool.noConfusion hok
  have hgood : ∀ e' : Emulator S P,
      expected_position (Call.sign_get_c0 (none : Option S)) e'.sign →
      (sign_get_c0 C none e').1.isSome = true := by
    intro e' hexp
    rw [(sign_get_c0_ok C none e' hexp).2.2.2.2 rfl]
    rfl
  refine ⟨?_, hpos.1, hgood, ?_⟩
  · rw [hpos.1] at hcase
    dsimp only at hcase
    obtain ⟨c1, c2, -⟩ := hcase
    have hw : wrap64 ((run C E cs).sign.inputs_counter + 1)
        = (run C E cs).sign.inputs_counter + 1 := wrap64_of_le _ (by omega)
    have := hpos.2
    rw [hw, hsize] at this
    omega
  · intro e' data
    have hf := sign_step_a_more_data_frame e' data
    obtain ⟨-, -, -, hshape, -, -, -, -, hst, hic, -⟩ := hf
    have hsz := shape_inputs_size hshape
    by_cases hexp : e'.sign.state = State.EXPECT_STEP_A_MORE_DATA ∧
        wrap64 (e'.sign.inputs_counter + 1) = e'.sign.inputs_size
    · rw [hgood e' hexp, hgood _ (show _ ∧ _ by rw [hst, hic, hsz]; exact hexp)]
    · rw [sign_get_c0_fail C none e' hexp,
        sign_get_c0_fail C none _ (by rw [hst, hic, hsz]; exact hexp)]


/-- Witness of C10: on the round trip of the spec without its last call, `sign_get_c0` is
accepted and one `sign_step_a`, for the one declared input, has been carried out. -/
theorem sign_get_c0_after_last_step_a_witness :
    (sign_get_c0 Crypto.small none
      (run Crypto.small (sign_start Crypto.small Emulator.small 2 0 1 1 0).2
        (round_trip.take 5))).1.isSome = true ∧
    (carried Call.isStepA
      (trace Crypto.small (sign_start Crypto.small Emulator.small 2 0 1 1 0).2
        (round_trip.take 5))).length = 1 :=
  ⟨by decide,
    (sign_get_c0_after_last_step_a Crypto.small Emulator.small 2 0 1 1 0 (round_trip.take 5) none
      (by decide) (by decide) (by decide) (by decide)).1⟩

/-- Counterexample to C10 as stated: in the session `sign_start(2, 0, 1, 1, 0)`, one input, one
output, an empty extra chunk and the `sign_step_a` of the only input, no
`sign_step_a_more_data` has been called, and `sign_get_c0` is accepted. -/
theorem sign_get_c0_without_more_data :
    (∀ c ∈ ([Call.sign_start 2 0 1 1 0, Call.sign_add_input 1000 [7] 3 0,
        Call.sign_add_output none false 900 0 0 4 6, Call.sign_add_extra [],
        Call.sign_step_a none 3 0] : List (Call Int Int)), c.isMoreData = false) ∧
    (step Crypto.small
      (run Crypto.small Emulator.small
        [Call.sign_start 2 0 1 1 0, Call.sign_add_input 1000 [7] 3 0,
          Call.sign_add_output none false 900 0 0 4 6, Call.sign_add_extra [],
          Call.sign_step_a none 3 0])
      (Call.sign_get_c0 none)).1 = some (Output.c0 201) := by
  constructor
  · decide
  · rfl

theorem amounts_eq {s s' : SigningState S P} (h : s'.amounts = s.amounts) :
    s'.inputs_amount = s.inputs_amount ∧ s'.dst_amount = s.dst_amount ∧
    s'.change_amount = s.change_amount := by
  simpa [SigningState.amounts] using h

/-- The operations after the outputs leave the amounts and the output counter alone. -/
theorem step_amounts_frame (C : Crypto S P) (e : Emulator S P) (c : Call S P)
    (hc : c.inSession = true) (h1 : c.isAddInput = false) (h2 : c.isAddOutput = false) :
    (step C e c).2.sign.amounts = e.sign.amounts ∧
    (step C e c).2.sign.outputs_counter = e.sign.outputs_counter := by
  cases c with
  | sign_start => simp [Call.inSession] at hc
  | proof_start => simp [Call.inSession] at hc
  | sign_add_input => simp [Call.isAddInput] at h1
  | sign_add_output => simp [Call.isAddOutput] at h2
  | sign_add_extra chunk =>
    have := sign_add_extra_frame C e chunk
    exact ⟨this.2.2.2.2.2.2.2.1, this.2.2.2.2.2.2.2.2⟩
  | sign_step_a px inv address_index =>
    have := sign_step_a_frame C px e inv address_index
    exact ⟨this.2.2.2.2.2.1, this.2.2.2.2.2.2.1⟩
  | sign_step_a_more_data data =>
    have := sign_step_a_more_data_frame e data
    exact ⟨this.2.2.2.2.2.2.2.1, this.2.2.2.2.2.2.2.2.2.2.1⟩
  | sign_get_c0 px =>
    have := sign_get_c0_frame C px e
    exact ⟨this.2.2.2.2.2.2.1, this.2.2.2.2.2.2.2.1⟩
  | sign_step_b px inv address_index my_c =>
    have := sign_step_b_frame C px e inv address_index my_c
    exact ⟨this.2.2.2.2.2.1, this.2.2.2.2.2.2.1⟩

theorem outputsDone_of_rank (s s' : State) (h : s.rank ≤ s'.rank)
    (hs : s.outputsDone = true) : s'.outputsDone = true := by
  cases s <;> cases s' <;> simp_all [State.rank, State.outputsDone]

theorem record_other (l : Ledger) (c : Call S P) (r : Option (Output S P))
    (h1 : c.isAddInput = false) (h2 : c.isAddOutput = false) : l.record c r = l := by
  cases c <;> simp_all [Ledger.record, Call.isAddInput, Call.isAddOutput]

theorem record_none (l : Ledger) (c : Call S P) : l.record c none = l := by
  cases c <;> simp [Ledger.record]

theorem expected_outputsDone (c : Call S P) (s : SigningState S P) (hc : c.inSession = true)
    (h1 : c.isAddInput = false) (h2 : c.isAddOutput = false) (h : expected_position c s) :
    s.state.outputsDone = true := by
  cases c <;> simp_all [expected_position, Call.inSession, Call.isAddInput, Call.isAddOutput,
    State.outputsDone]
  rcases h with h | h <;> simp [h.1]

theorem conserved_step_other (C : Crypto S P) (clean : Bool) (l : Ledger) (e : Emulator S P)
    (c : Call S P) (hc : c.inSession = true) (h1 : c.isAddInput = false)
    (h2 : c.isAddOutput = false) (hexp : expected_position c e.sign)
    (h : Conserved clean l e) :
    Conserved clean (l.record c (step C e c).1) (step C e c).2 := by
  obtain ⟨hin, hosz, hchg, hd, hch, hcl, hst⟩ := h
  have hshape := (step_frame C e c hc).2.1
  obtain ⟨hamt, -⟩ := step_amounts_frame C e c hc h1 h2
  obtain ⟨ai, ad, ac⟩ := amounts_eq hamt
  have hdone := expected_outputsDone c e.sign hc h1 h2 hexp
  have hdone' := outputsDone_of_rank _ _ (step_rank_mono C e c hc) hdone
  rw [record_other l c _ h1 h2]
  rw [hdone] at hst
  refine ⟨by rw [ai, hin], by rw [shape_outputs_size hshape]; exact hosz, by rw [ac]; exact hchg,
    by rw [ad]; exact hd, by rw [ac]; exact hch, ?_, ?_⟩
  · intro hc1
    right
    rcases hcl hc1 with ⟨hs, -⟩ | hq
    · rw [hs] at hdone; exact Bool.noConfusion hdone
    · rw [ad, ac]; exact hq
  · rw [hdone', ai, ad, ac]
    exact hst

theorem conserved_step (C : Crypto S P) (clean : Bool) (l : Ledger) (e : Emulator S P)
    (c : Call S P) (hc : c.inSession = true) (htyped : c.typed)
    (hclean : clean = true → c.isAddOutput = true → c.noProxy = true)
    (h : Conserved clean l e) :
    Conserved clean (l.record c (step C e c).1) (step C e c).2 := by
  by_cases hexp : expected_position c e.sign
  · obtain ⟨hin, hosz, hchg, hd, hch, hcl, hst⟩ := h
    have hshape := (step_frame C e c hc).2.1
    have hosz' : (step C e c).2.sign.outputs_size ≤ UINT64_MAX := by
      rw [shape_outputs_size hshape]; exact hosz
    cases c with
    | sign_start => simp [Call.inSession] at hc
    | proof_start => simp [Call.inSession] at hc
    | sign_add_input amount output_indexes inv address_index =>
      simp only [expected_position] at hexp
      simp only [Call.typed] at htyped
      have hdone : e.sign.state.outputsDone = false := by rw [hexp.1]; rfl
      rw [hdone] at hst
      simp only [Bool.false_eq_true, if_false] at hst
      have hfr := sign_add_input_frame C e amount output_indexes inv address_index
      obtain ⟨-, -, -, -, -, fd, fc, foc, -⟩ := hfr
      cases hh : add_amount e.sign.inputs_amount amount with
      | none =>
        simp only [step]
        rw [sign_add_input_fail C e amount output_indexes inv address_index (Or.inr hh)]
        simp only [Option.map_none', record_none]
        refine ⟨hin, hosz, hchg, hd, hch, hcl, ?_⟩
        rw [hdone]
        simpa using hst
      | some v =>
        obtain ⟨g1, g2, -, g4⟩ :=
          sign_add_input_ok C e amount output_indexes inv address_index v hexp hh
        obtain ⟨hv, -⟩ := add_amount_eq_some _ _ _ htyped.1 hh
        simp only [step]
        rw [g1]
        simp only [Option.map_some', Ledger.record]
        have hdone' : (sign_add_input C e amount output_indexes inv address_index).2.sign.state.outputsDone
            = false := by
          rw [g4]; split_ifs <;> rfl
        refine ⟨by rw [g2, hv, hin], hosz', by rw [fc]; exact hchg, by rw [fd]; exact hd,
          by rw [fc]; exact hch, ?_, ?_⟩
        · intro hc1
          right
          rcases hcl hc1 with ⟨hs, -⟩ | hq
          · rw [hexp.1] at hs; exact State.noConfusion hs
          · rw [fd, fc]; exact hq
        · rw [hdone']
          simpa using hst
    | sign_add_output px change amount cai tag ds dsv =>
      simp only [expected_position] at hexp
      simp only [Call.typed] at htyped
      have hdone : e.sign.state.outputsDone = false := by rw [hexp.1]; rfl
      rw [hdone] at hst
      simp only [Bool.false_eq_true, if_false] at hst
      have hfin := (sign_add_output_frame C px e change amount cai tag ds dsv).2.2.2.2.1
      have hcases := sign_add_output_cases C px e change amount cai tag ds dsv htyped.1 hexp
        hosz hchg
      simp only [step] at hshape hosz' ⊢
      generalize sign_add_output C px e change amount cai tag ds dsv = r at *
      have hacc : ∀ (hA : Accounted e r.2 change amount),
          r.2.sign.change_amount ≤ UINT64_MAX ∧ l.dst ≤ r.2.sign.dst_amount ∧
          l.change ≤ r.2.sign.change_amount := by
        intro hA
        unfold Accounted at hA
        simp only [UINT64_MAX] at *
        split_ifs at hA <;> omega
      rcases hcases with ⟨hnone, hstate, hsub⟩ | ⟨out, fee, hsome, hA, hoc, hsub⟩
      · rw [hnone]
        simp only [Option.map_none', record_none]
        have hdone' : r.2.sign.state.outputsDone = false := by rw [hstate, hexp.1]; rfl
        rcases hsub with ⟨q1, q2, q3⟩ | ⟨q1, q2, q3⟩ | ⟨q2, q3⟩
        · refine ⟨by rw [hfin, hin], hosz', by rw [q2]; exact hchg, by rw [q1]; exact hd,
            by rw [q2]; exact hch, ?_, by rw [hdone']; simpa using hst⟩
          intro hc1
          right
          rcases hcl hc1 with ⟨-, hs⟩ | hq
          · have := hexp.2; omega
          · rw [q1, q2]; exact hq
        · obtain ⟨a1, a2, a3⟩ := hacc q2
          refine ⟨by rw [hfin, hin], hosz', a1, a2, a3, ?_, by rw [hdone']; simpa using hst⟩
          intro hc1
          have := hclean hc1 rfl
          simp only [Call.noProxy, Option.isNone_iff_eq_none] at this
          exact absurd this q1
        · obtain ⟨a1, a2, a3⟩ := hacc q2
          refine ⟨by rw [hfin, hin], hosz', a1, a2, a3, ?_, by rw [hdone']; simpa using hst⟩
          intro _
          left
          rw [hstate, q3, shape_outputs_size hshape]
          exact ⟨hexp.1, Nat.le_refl _⟩
      · rw [hsome]
        obtain ⟨a1, -, -⟩ := hacc hA
        simp only [Option.map_some']
        have hrec : ∀ l' : Ledger, l' = Ledger.record l
            (Call.sign_add_output px change amount cai tag ds dsv : Call S P)
            (some (Output.output out.1 out.2.1 out.2.2 fee)) →
            l'.inputs = l.inputs ∧
            l'.fee = (if fee.isSome then fee else l.fee) ∧
            (if change = true then l'.change = l.change + amount ∧ l'.dst = l.dst
              else l'.dst = l.dst + amount ∧ l'.change = l.change) := by
          intro l' hl'
          subst hl'
          cases change <;> simp [Ledger.record]
        obtain ⟨r1, r2, r3⟩ := hrec _ rfl
        generalize Ledger.record l
            (Call.sign_add_output px change amount cai tag ds dsv : Call S P)
            (some (Output.output out.1 out.2.1 out.2.2 fee)) = l' at *
        have hle : l'.dst ≤ r.2.sign.dst_amount ∧ l'.change ≤ r.2.sign.change_amount := by
          unfold Accounted at hA
          split_ifs at hA r3 <;> omega
        have heq : clean = true →
            l'.dst = r.2.sign.dst_amount ∧ l'.change = r.2.sign.change_amount := by
          intro hc1
          rcases hcl hc1 with ⟨-, hs⟩ | hq
          · have := hexp.2; omega
          · unfold Accounted at hA
            split_ifs at hA r3 <;> omega
        refine ⟨by rw [hfin, hin, r1], hosz', a1, hle.1, hle.2, fun hc1 => Or.inr (heq hc1), ?_⟩
        rcases hsub with ⟨-, s2, s3⟩ | ⟨-, s2, s3, s4, s5⟩
        · have hdone' : r.2.sign.state.outputsDone = false := by rw [s3, hexp.1]; rfl
          rw [hdone', r2, s2]
          simpa using hst
        · have hdone' : r.2.sign.state.outputsDone = true := by rw [s2]; rfl
          rw [hdone', r2, s5, hfin]
          simp only [if_true, Option.isSome_some]
          exact ⟨s3, s4, trivial⟩
    | sign_add_extra chunk =>
      exact conserved_step_other C clean l e _ hc rfl rfl hexp ⟨hin, hosz, hchg, hd, hch, hcl, hst⟩
    | sign_step_a px inv address_index =>
      exact conserved_step_other C clean l e _ hc rfl rfl hexp ⟨hin, hosz, hchg, hd, hch, hcl, hst⟩
    | sign_step_a_more_data data =>
      exact conserved_step_other C clean l e _ hc rfl rfl hexp ⟨hin, hosz, hchg, hd, hch, hcl, hst⟩
    | sign_get_c0 px =>
      exact conserved_step_other C clean l e _ hc rfl rfl hexp ⟨hin, hosz, hchg, hd, hch, hcl, hst⟩
    | sign_step_b px inv address_index my_c =>
      exact conserved_step_other C clean l e _ hc rfl rfl hexp ⟨hin, hosz, hchg, hd, hch, hcl, hst⟩
  · rw [step_unexpected C e c hexp, record_none]
    exact h

theorem conserved_run (C : Crypto S P) (clean : Bool) (cs : List (Call S P)) :
    ∀ (l : Ledger) (e : Emulator S P), (∀ c ∈ cs, c.inSession = true) → (∀ c ∈ cs, c.typed) →
      (clean = true → ∀ c ∈ cs, c.noProxy = true) → Conserved clean l e →
      Conserved clean (ledger l (trace C e cs)) (run C e cs) := by
  induction cs with
  | nil => intro l e _ _ _ h; exact h
  | cons c cs ih =>
    intro l e hcs hty hnp h
    have hstep := conserved_step C clean l e c (hcs c (List.mem_cons_self _ _))
      (hty c (List.mem_cons_self _ _)) (fun hc _ => hnp hc c (List.mem_cons_self _ _)) h
    exact ih _ _ (fun c' hc' => hcs c' (List.mem_cons_of_mem _ hc'))
      (fun c' hc' => hty c' (List.mem_cons_of_mem _ hc'))
      (fun hc c' hc' => hnp hc c' (List.mem_cons_of_mem _ hc')) hstep

theorem sign_start_conserved (C : Crypto S P) (clean : Bool) (e : Emulator S P)
    (version ut n outputs_size extra_size : Nat) (hsize : outputs_size ≤ UINT64_MAX)
    (h : (sign_start C e version ut n outputs_size extra_size).1 = some ()) :
    Conserved clean ⟨0, 0, 0, none⟩ (sign_start C e version ut n outputs_size extra_size).2 := by
  have hs := sign_start_spec C e version ut n outputs_size extra_size
  have hcond : ¬ (n = 0 ∨ outputs_size = 0 ∨ version = 0) := by
    intro hc
    rw [hs.1.mpr hc] at h
    exact Option.noConfusion h
  rw [hs.2, if_neg hcond]
  refine ⟨rfl, hsize, by simp [UINT64_MAX], Nat.le_refl _, Nat.le_refl _,
    fun _ => Or.inr ⟨rfl, rfl⟩, ?_⟩
  simp [State.outputsDone]

theorem run_append (C : Crypto S P) (cs ds : List (Call S P)) :
    ∀ e : Emulator S P, run C e (cs ++ ds) = run C (run C e cs) ds := by
  induction cs with
  | nil => intro e; rfl
  | cons c cs ih => intro e; simp only [List.cons_append, run]; exact ih _

theorem allOk_append (C : Crypto S P) (cs ds : List (Call S P)) :
    ∀ e : Emulator S P, allOk C e (cs ++ ds) = (allOk C e cs && allOk C (run C e cs) ds) := by
  induction cs with
  | nil => intro e; simp [allOk, run]
  | cons c cs ih =>
    intro e
    show ((step C e c).1.isSome && allOk C (step C e c).2 (cs ++ ds)) = _
    rw [ih]
    simp only [allOk, run, Bool.and_assoc]

/-- A `sign_add_output` with no proxy attached is accepted in its expected position when the
destination agrees with the committed one, the amount fits and, on the last output, the inputs
cover the outputs. -/
theorem sign_add_output_accepts (C : Crypto S P) (e : Emulator S P) (change : Bool)
    (amount cai tag : Nat) (ds dsv : P)
    (hpos : e.sign.state = State.EXPECT_ADD_OUTPUT ∧ e.sign.outputs_counter < e.sign.outputs_size)
    (hsize : e.sign.outputs_size ≤ UINT64_MAX) (hin : e.sign.inputs_amount ≤ UINT64_MAX)
    (hdest : change = false → e.sign.dst_address_set = true →
      (e.sign.dst_address_tag = tag ∧ e.sign.dst_address_s = ds ∧ e.sign.dst_address_s_v = dsv))
    (hfit : e.sign.dst_amount + e.sign.change_amount + amount ≤ e.sign.inputs_amount) :
    (sign_add_output C none e change amount cai tag ds dsv).1.isSome = true ∧
    Accounted e (sign_add_output C none e change amount cai tag ds dsv).2 change amount ∧
    (sign_add_output C none e change amount cai tag ds dsv).2.sign.outputs_counter
      = e.sign.outputs_counter + 1 ∧
    (sign_add_output C none e change amount cai tag ds dsv).2.sign.state =
      (if e.sign.outputs_counter + 1 < e.sign.outputs_size then State.EXPECT_ADD_OUTPUT
        else State.EXPECT_ADD_EXTRA_CHUNK) := by
  have hamount : amount ≤ UINT64_MAX := by simp only [UINT64_MAX] at *; omega
  have hchg : e.sign.change_amount ≤ UINT64_MAX := by simp only [UINT64_MAX] at *; omega
  have hsome : (sign_add_output C none e change amount cai tag ds dsv).1.isSome = true := by
    rw [sign_add_output_eq, if_pos hpos]
    have hacc : (sign_add_output_account C e change amount cai tag ds dsv).1.isSome = true ∧
        Accounted e (sign_add_output_account C e change amount cai tag ds dsv).2 change
          amount := by
      rcases sign_add_output_account_cases C e change amount cai tag ds dsv hamount with
        ⟨hnone, -, -⟩ | h
      · exfalso
        cases change with
        | true =>
          have h4 := (sign_add_output_account_change C e amount cai tag ds dsv).2.2.2
          rw [hnone, add_amount_of_le _ _ (by simp only [UINT64_MAX] at *; omega)] at h4
          exact Bool.noConfusion h4
        | false =>
          have h4 := (sign_add_output_account_dst C e amount cai tag ds dsv).2.2.2
          rw [hnone, if_pos (hdest rfl),
            add_amount_of_le _ _ (by simp only [UINT64_MAX] at *; omega)] at h4
          exact Bool.noConfusion h4
      · exact h
    obtain ⟨hs, hA⟩ := hacc
    obtain ⟨out, hout⟩ := Option.isSome_iff_exists.mp hs
    rw [hout]
    dsimp only
    rw [if_pos (Or.inl rfl)]
    obtain ⟨-, hshape, -, -, hin', -, -, hoc, -⟩ :=
      sign_add_output_account_frame C e change amount cai tag ds dsv
    have hosz := shape_outputs_size hshape
    have hw : wrap64 (e.sign.outputs_counter + 1) = e.sign.outputs_counter + 1 :=
      wrap64_of_le _ (by simp only [UINT64_MAX] at *; omega)
    by_cases hl : e.sign.outputs_counter + 1 < e.sign.outputs_size
    · rw [(sign_add_output_finish_more C _ out (by rw [hoc, hw, hosz]; exact hl)).1]
      rfl
    · have hchg' : (sign_add_output_account C e change amount cai tag ds dsv).2.sign.change_amount
          ≤ UINT64_MAX := by
        unfold Accounted at hA
        simp only [UINT64_MAX] at *
        split_ifs at hA <;> omega
      have hfl := sign_add_output_finish_last C
        (sign_add_output_account C e change amount cai tag ds dsv).2 out
        (by rw [hoc, hw, hosz]; exact hl) hchg'
      have hbal : (sign_add_output_account C e change amount cai tag ds dsv).2.sign.dst_amount +
          (sign_add_output_account C e change amount cai tag ds dsv).2.sign.change_amount
            ≤ 2 ^ 64 - 1 ∧
          (sign_add_output_account C e change amount cai tag ds dsv).2.sign.dst_amount +
          (sign_add_output_account C e change amount cai tag ds dsv).2.sign.change_amount
            ≤ (sign_add_output_account C e change amount cai tag ds dsv).2.sign.inputs_amount := by
        rw [hin']
        unfold Accounted at hA
        simp only [UINT64_MAX] at *
        split_ifs at hA <;> omega
      rw [if_pos hbal] at hfl
      rw [hfl.1]
      rfl
  refine ⟨hsome, ?_⟩
  rcases sign_add_output_cases C none e change amount cai tag ds dsv hamount hpos hsize hchg with
    ⟨hnone, -⟩ | ⟨out, fee, -, hA, hoc, hsub⟩
  · rw [hnone] at hsome
    exact Bool.noConfusion hsome
  · refine ⟨hA, hoc, ?_⟩
    rcases hsub with ⟨h1, -, h3⟩ | ⟨h1, h2, -⟩
    · rw [if_pos h1, h3, hpos.1]
    · rw [if_neg (by omega), h2]

theorem add_inputs_run (C : Crypto S P) (ins : List (InputArgs S)) :
    ∀ e : Emulator S P, e.sign.state = State.EXPECT_ADD_INPUT → ins ≠ [] →
      e.sign.inputs_counter + ins.length = e.sign.inputs_size →
      e.sign.inputs_size ≤ UINT64_MAX →
      e.sign.inputs_amount + (ins.map InputArgs.amount).sum ≤ UINT64_MAX →
      allOk C e (add_inputs ins) = true ∧
      (run C e (add_inputs ins)).sign.state = State.EXPECT_ADD_OUTPUT ∧
      (run C e (add_inputs ins)).sign.inputs_amount
        = e.sign.inputs_amount + (ins.map InputArgs.amount).sum ∧
      (run C e (add_inputs ins)).sign.shape = e.sign.shape ∧
      (run C e (add_inputs ins)).sign.destination = e.sign.destination ∧
      (run C e (add_inputs ins)).sign.dst_amount = e.sign.dst_amount ∧
      (run C e (add_inputs ins)).sign.change_amount = e.sign.change_amount ∧
      (run C e (add_inputs ins)).sign.outputs_counter = e.sign.outputs_counter ∧
      (run C e (add_inputs ins)).sign.extra_counter = e.sign.extra_counter := by
  induction ins with
  | nil => intro e _ h; exact absurd rfl h
  | cons i rest ih =>
    intro e hstate _ hcount hsize hsum
    simp only [List.map_cons, List.sum_cons, List.length_cons] at hsum hcount ⊢
    have hpos : e.sign.state = State.EXPECT_ADD_INPUT ∧
        e.sign.inputs_counter < e.sign.inputs_size := ⟨hstate, by omega⟩
    have hadd : add_amount e.sign.inputs_amount i.amount
        = some (e.sign.inputs_amount + i.amount) :=
      add_amount_of_le _ _ (by simp only [UINT64_MAX] at hsum; omega)
    obtain ⟨h1, h2, h3, h4⟩ := sign_add_input_ok C e i.amount i.output_indexes
      i.inv_output_secret_hash i.address_index _ hpos hadd
    obtain ⟨-, f2, -, -, f5, f6, f7, f8, f9⟩ := sign_add_input_frame C e i.amount
      i.output_indexes i.inv_output_secret_hash i.address_index
    have hw : wrap64 (e.sign.inputs_counter + 1) = e.sign.inputs_counter + 1 :=
      wrap64_of_le _ (by omega)
    rw [hw] at h3 h4
    simp only [add_inputs, List.map_cons, allOk, run, step, h1, Option.map_some',
      Option.isSome_some, Bool.true_and]
    cases rest with
    | nil =>
      simp only [List.map_nil, allOk, run, List.sum_nil, List.length_nil] at hcount ⊢
      rw [if_neg (by omega)] at h4
      exact ⟨trivial, h4, by rw [h2]; rfl, f2, f5, f6, f7, f8, f9⟩
    | cons j rest' =>
      rw [if_pos (by simp only [List.length_cons] at hcount; omega)] at h4
      have hs := shape_inputs_size f2
      obtain ⟨g1, g2, g3, g4, g5, g6, g7, g8, g9⟩ := ih _ h4 (List.cons_ne_nil _ _)
        (by rw [h3, hs]; omega) (by rw [hs]; exact hsize) (by rw [h2]; omega)
      simp only [add_inputs] at g1 g2 g3 g4 g5 g6 g7 g8 g9
      refine ⟨g1, g2, ?_, g4.trans f2, g5.trans f5, g6.trans f6, g7.trans f7, g8.trans f8,
        g9.trans f9⟩
      rw [g3, h2]
      omega

theorem sign_add_output_change_destination (C : Crypto S P) (px : Option (P × P × Nat))
    (e : Emulator S P) (amount cai tag : Nat) (ds dsv : P) :
    (sign_add_output C px e true amount cai tag ds dsv).2.sign.destination
      = e.sign.destination := by
  have a1 := (sign_add_output_account_change C e amount cai tag ds dsv).1
  rw [sign_add_output_eq]
  split_ifs
  · split
    · exact a1
    · rename_i out _
      have hf := (sign_add_output_finish_frame C
        (sign_add_output_account C e true amount cai tag ds dsv).2 out).2.2.2.2.2.2.1
      split_ifs
      · rw [hf]; exact a1
      · exact a1
  · rfl

theorem add_outputs_run (C : Crypto S P) (tag : Nat) (ds dsv : P) (outs : List (OutputArgs P)) :
    ∀ e : Emulator S P, e.sign.state = State.EXPECT_ADD_OUTPUT → outs ≠ [] →
      e.sign.outputs_counter + outs.length = e.sign.outputs_size →
      e.sign.outputs_size ≤ UINT64_MAX → e.sign.inputs_amount ≤ UINT64_MAX →
      e.sign.dst_amount + e.sign.change_amount + (outs.map OutputArgs.amount).sum
        ≤ e.sign.inputs_amount →
      (∀ o ∈ outs, o.change = false →
        o.dst_address_tag = tag ∧ o.dst_address_s = ds ∧ o.dst_address_s_v = dsv) →
      (e.sign.dst_address_set = true →
        e.sign.dst_address_tag = tag ∧ e.sign.dst_address_s = ds ∧ e.sign.dst_address_s_v = dsv) →
      allOk C e (add_outputs outs) = true ∧
      (run C e (add_outputs outs)).sign.state = State.EXPECT_ADD_EXTRA_CHUNK ∧
      (run C e (add_outputs outs)).sign.shape = e.sign.shape ∧
      (run C e (add_outputs outs)).sign.inputs_counter = e.sign.inputs_counter ∧
      (run C e (add_outputs outs)).sign.extra_counter = e.sign.extra_counter ∧
      (run C e (add_outputs outs)).sign.inputs_amount = e.sign.inputs_amount ∧
      (run C e (add_outputs outs)).sign.dst_amount + (run C e (add_outputs outs)).sign.change_amount
        = e.sign.dst_amount + e.sign.change_amount + (outs.map OutputArgs.amount).sum := by
  induction outs with
  | nil => intro e _ h; exact absurd rfl h
  | cons o rest ih =>
    intro e hstate _ hcount hsize hin hsum hdst hset
    simp only [List.map_cons, List.sum_cons, List.length_cons] at hsum hcount ⊢
    have hpos : e.sign.state = State.EXPECT_ADD_OUTPUT ∧
        e.sign.outputs_counter < e.sign.outputs_size := ⟨hstate, by omega⟩
    have hdest : o.change = false → e.sign.dst_address_set = true →
        (e.sign.dst_address_tag = o.dst_address_tag ∧ e.sign.dst_address_s = o.dst_address_s ∧
          e.sign.dst_address_s_v = o.dst_address_s_v) := by
      intro hc hs
      obtain ⟨a1, a2, a3⟩ := hdst o (List.mem_cons_self _ _) hc
      obtain ⟨b1, b2, b3⟩ := hset hs
      exact ⟨b1.trans a1.symm, b2.trans a2.symm, b3.trans a3.symm⟩
    obtain ⟨h1, h2, h3, h4⟩ := sign_add_output_accepts C e o.change o.amount
      o.change_address_index o.dst_address_tag o.dst_address_s o.dst_address_s_v hpos hsize hin
      hdest (by omega)
    obtain ⟨-, f2, -, -, f5, f6, f7⟩ := sign_add_output_frame C none e o.change o.amount
      o.change_address_index o.dst_address_tag o.dst_address_s o.dst_address_s_v
    have hamt : (sign_add_output C none e o.change o.amount o.change_address_index
          o.dst_address_tag o.dst_address_s o.dst_address_s_v).2.sign.dst_amount +
        (sign_add_output C none e o.change o.amount o.change_address_index
          o.dst_address_tag o.dst_address_s o.dst_address_s_v).2.sign.change_amount
        = e.sign.dst_amount + e.sign.change_amount + o.amount := by
      unfold Accounted at h2
      split_ifs at h2 <;> omega
    have hset' : (sign_add_output C none e o.change o.amount o.change_address_index
          o.dst_address_tag o.dst_address_s o.dst_address_s_v).2.sign.dst_address_set = true →
        ((sign_add_output C none e o.change o.amount o.change_address_index
          o.dst_address_tag o.dst_address_s o.dst_address_s_v).2.sign.dst_address_tag = tag ∧
        (sign_add_output C none e o.change o.amount o.change_address_index
          o.dst_address_tag o.dst_address_s o.dst_address_s_v).2.sign.dst_address_s = ds ∧
        (sign_add_output C none e o.change o.amount o.change_address_index
          o.dst_address_tag o.dst_address_s o.dst_address_s_v).2.sign.dst_address_s_v = dsv) := by
      cases hc : o.change with
      | true =>
        have hd := sign_add_output_change_destination C none e o.amount o.change_address_index
          o.dst_address_tag o.dst_address_s o.dst_address_s_v
        simp only [SigningState.destination, Prod.mk.injEq] at hd
        rw [hd.1, hd.2.1, hd.2.2.1, hd.2.2.2]
        exact hset
      | false =>
        have hd := (sign_add_output_destination C none e o.change o.amount
          o.change_address_index o.dst_address_tag o.dst_address_s o.dst_address_s_v).2 hc h1
        rw [hc] at hd
        simp only [SigningState.destination, Prod.mk.injEq] at hd
        rw [hd.2.1, hd.2.2.1, hd.2.2.2]
        intro _
        exact hdst o (List.mem_cons_self _ _) hc
    obtain ⟨out, hout⟩ := Option.isSome_iff_exists.mp h1
    simp only [add_outputs, List.map_cons, allOk, run, step, hout, Option.map_some',
      Option.isSome_some, Bool.true_and]
    cases rest with
    | nil =>
      simp only [List.map_nil, allOk, run, List.sum_nil, List.length_nil] at hcount ⊢
      rw [if_neg (by omega)] at h4
      exact ⟨trivial, h4, f2, f6, f7, f5, by rw [hamt]; omega⟩
    | cons j rest' =>
      rw [if_pos (by simp only [List.length_cons] at hcount; omega)] at h4
      have hs := shape_outputs_size f2
      obtain ⟨g1, g2, g3, g4, g5, g6, g7⟩ := ih _ h4 (List.cons_ne_nil _ _)
        (by rw [h3, hs]; omega) (by rw [hs]; exact hsize) (by rw [f5]; exact hin)
        (by rw [hamt, f5]; omega) (fun o ho => hdst o (List.mem_cons_of_mem _ ho)) hset'
      simp only [add_outputs] at g1 g2 g3 g4 g5 g6 g7
      refine ⟨g1, g2, g3.trans f2, g4.trans f6, g5.trans f7, g6.trans f5, ?_⟩
      rw [g7, hamt]
      omega

theorem add_extras_run (C : Crypto S P) (last : BinaryArray) (init : List BinaryArray) :
    ∀ e : Emulator S P, e.sign.state = State.EXPECT_ADD_EXTRA_CHUNK →
      e.sign.extra_counter + ((init ++ [last]).map List.length).sum = e.sign.extra_size →
      e.sign.extra_size ≤ UINT64_MAX → (last = [] → init = []) →
      allOk C e (add_extras (init ++ [last])) = true ∧
      (run C e (add_extras (init ++ [last]))).sign.state = State.EXPECT_STEP_A ∧
      (run C e (add_extras (init ++ [last]))).sign.inputs_counter = 0 ∧
      (run C e (add_extras (init ++ [last]))).sign.shape = e.sign.shape := by
  induction init with
  | nil =>
    intro e hstate hsum hsize _
    simp only [List.nil_append, List.map_cons, List.map_nil, List.sum_cons, List.sum_nil,
      Nat.add_zero] at hsum
    have hw : wrap64 (e.sign.extra_counter + last.length) = e.sign.extra_size := by
      rw [hsum]; exact wrap64_of_le _ hsize
    obtain ⟨h1, -, -, h4, h5⟩ := sign_add_extra_ok C e last hstate (by rw [hw])
    rw [hw, if_neg (lt_irrefl _)] at h4 h5
    have f4 := (sign_add_extra_frame C e last).2.2.2.1
    simp only [add_extras, List.nil_append, List.map_cons, List.map_nil, allOk, run, step, h1,
      Option.map_some', Option.isSome_some, Bool.true_and]
    exact ⟨trivial, h4, h5, f4⟩
  | cons c rest ih =>
    intro e hstate hsum hsize hlast
    have hne : last ≠ [] := fun h => List.cons_ne_nil _ _ (hlast h)
    have hpos : 0 < last.length := List.length_pos.mpr hne
    simp only [List.cons_append, List.map_cons, List.sum_cons, List.map_append, List.sum_append,
      List.map_nil, List.sum_nil, Nat.add_zero] at hsum
    have hw : wrap64 (e.sign.extra_counter + c.length) = e.sign.extra_counter + c.length :=
      wrap64_of_le _ (by omega)
    obtain ⟨h1, h2, -, h4, -⟩ := sign_add_extra_ok C e c hstate (by rw [hw]; omega)
    rw [hw] at h2
    rw [hw, if_pos (by omega)] at h4
    have f4 := (sign_add_extra_frame C e c).2.2.2.1
    have hs := shape_extra_size f4
    obtain ⟨g1, g2, g3, g4⟩ := ih _ h4
      (by
        simp only [List.map_append, List.sum_append, List.map_cons, List.map_nil, List.sum_cons,
          List.sum_nil, Nat.add_zero]
        rw [h2, hs]; omega)
      (by rw [hs]; exact hsize) (fun h => absurd h hne)
    simp only [add_extras] at g1 g2 g3 g4
    simp only [add_extras, List.cons_append, List.map_cons, allOk, run, step, h1,
      Option.map_some', Option.isSome_some, Bool.true_and]
    exact ⟨g1, g2, g3, g4.trans f4⟩

theorem steps_a_run (C : Crypto S P) (ras : List (RoundA S)) :
    ∀ e : Emulator S P,
      ((e.sign.state = State.EXPECT_STEP_A ∧ e.sign.inputs_counter < e.sign.inputs_size) ∨
        (e.sign.state = State.EXPECT_STEP_A_MORE_DATA ∧
          wrap64 (e.sign.inputs_counter + 1) < e.sign.inputs_size)) →
      ras ≠ [] → step_a_index e.sign + ras.length = e.sign.inputs_size →
      e.sign.inputs_size ≤ UINT64_MAX →
      allOk C e (steps_a ras) = true ∧
      (run C e (steps_a ras)).sign.state = State.EXPECT_STEP_A_MORE_DATA ∧
      (run C e (steps_a ras)).sign.inputs_counter + 1 = e.sign.inputs_size ∧
      (run C e (steps_a ras)).sign.shape = e.sign.shape := by
  induction ras with
  | nil => intro e _ h; exact absurd rfl h
  | cons r rest ih =>
    intro e hexp _ hcount hsize
    simp only [List.length_cons] at hcount
    obtain ⟨h1, h2, -, -, -, -, -, h8⟩ := sign_step_a_ok C none e r.inv_output_secret_hash
      r.address_index hexp
    have f2 := (sign_step_a_frame C none e r.inv_output_secret_hash r.address_index).2.1
    obtain ⟨-, -, -, m4, -, -, -, -, m9, m10, -, -, m13⟩ := sign_step_a_more_data_frame
      (sign_step_a C none e r.inv_output_secret_hash r.address_index).2 r.data
    obtain ⟨o1, ho1⟩ := Option.isSome_iff_exists.mp (h8 rfl)
    obtain ⟨o2, ho2⟩ := Option.isSome_iff_exists.mp (m13.mpr h1)
    simp only [steps_a, allOk, run, step, ho1, ho2, Option.map_some', Option.isSome_some,
      Bool.true_and]
    cases rest with
    | nil =>
      simp only [steps_a, allOk, run, List.length_nil] at hcount ⊢
      refine ⟨trivial, m9.trans h1, ?_, m4.trans f2⟩
      rw [m10, h2]
      omega
    | cons r' rest' =>
      have hs := shape_inputs_size (m4.trans f2)
      have hlt : wrap64 ((sign_step_a_more_data
          (sign_step_a C none e r.inv_output_secret_hash r.address_index).2
            r.data).2.sign.inputs_counter + 1) = step_a_index e.sign + 1 := by
        rw [m10, h2]
        exact wrap64_of_le _ (by simp only [List.length_cons] at hcount; omega)
      obtain ⟨g1, g2, g3, g4⟩ := ih _
        (Or.inr ⟨m9.trans h1, by
          rw [hlt, hs]; simp only [List.length_cons] at hcount; omega⟩)
        (List.cons_ne_nil _ _)
        (by
          rw [step_a_index, if_pos (m9.trans h1), hlt, hs]
          omega)
        (by rw [hs]; exact hsize)
      exact ⟨g1, g2, by rw [g3, hs], g4.trans (m4.trans f2)⟩

theorem steps_b_run (C : Crypto S P) (rbs : List (RoundB S)) :
    ∀ e : Emulator S P, e.sign.state = State.EXPECT_STEP_B → rbs ≠ [] →
      e.sign.inputs_counter + rbs.length = e.sign.inputs_size →
      e.sign.inputs_size ≤ UINT64_MAX →
      allOk C e (steps_b rbs) = true ∧
      (run C e (steps_b rbs)).sign.state = State.FINISHED := by
  induction rbs with
  | nil => intro e _ h; exact absurd rfl h
  | cons r rest ih =>
    intro e hstate _ hcount hsize
    simp only [List.length_cons] at hcount
    obtain ⟨hcase, hsome⟩ := sign_step_b_ok C none e r.inv_output_secret_hash r.address_index
      r.my_c ⟨hstate, by omega⟩
    have hok := hsome rfl
    have f2 := (sign_step_b_frame C none e r.inv_output_secret_hash r.address_index r.my_c).2.1
    have hs := shape_inputs_size f2
    rcases hcase with ⟨hnone, -⟩ | ⟨-, h2, h3⟩
    · rw [hnone] at hok
      exact Bool.noConfusion hok
    · obtain ⟨o1, ho1⟩ := Option.isSome_iff_exists.mp hok
      have hw : wrap64 (e.sign.inputs_counter + 1) = e.sign.inputs_counter + 1 :=
        wrap64_of_le _ (by omega)
      rw [hw] at h2 h3
      simp only [steps_b, List.map_cons, allOk, run, step, ho1, Option.map_some',
        Option.isSome_some, Bool.true_and]
      cases rest with
      | nil =>
        simp only [List.map_nil, allOk, run, List.length_nil] at hcount ⊢
        rw [if_neg (by omega)] at h3
        exact ⟨trivial, h3⟩
      | cons r' rest' =>
        rw [if_pos (by simp only [List.length_cons] at hcount; omega)] at h3
        obtain ⟨g1, g2⟩ := ih _ h3 (List.cons_ne_nil _ _) (by rw [h2, hs]; omega)
          (by rw [hs]; exact hsize)
        simp only [steps_b] at g1 g2
        exact ⟨g1, g2⟩

theorem trace_expected (C : Crypto S P) (cs : List (Call S P)) :
    ∀ e : Emulator S P, allOk C e cs = true →
      ∀ ev ∈ trace C e cs, expected_position ev.call ev.pre.sign := by
  induction cs with
  | nil => intro e _ ev hev; simp [trace] at hev
  | cons c rest ih =>
    intro e hok ev hev
    simp only [allOk, Bool.and_eq_true] at hok
    simp only [trace, List.mem_cons] at hev
    rcases hev with rfl | hev
    · by_contra hne
      have := step_unexpected C e c hne
      rw [this] at hok
      exact Bool.noConfusion hok.1
    · exact ih _ hok.2 ev hev

/-- C4 (full pipeline): for every shape with `version ≠ 0`, `n ≥ 1` inputs, `m ≥ 1` outputs and
any `extra_size` (sizes of type `size_t`), the calls of `pipeline` all return without throwing
when no proxy is attached: `sign_start`; one `sign_add_input` per input, the amounts summing to at
most `2^64 - 1`; one `sign_add_output` per output, the non-change outputs all naming the
destination `(tag, ds, dsv)` and the outputs summing to at most the inputs; `sign_add_extra`
chunks whose lengths sum to `extra_size`, the last of which completes the extra (it is empty only
when it is the only chunk: the one empty chunk of `extra_size = 0`); for each input one
`sign_step_a` followed by `sign_step_a_more_data`; `sign_get_c0`; one `sign_step_b` per input.
The session is in `EXPECT_ADD_INPUT` after `sign_start`, in `EXPECT_ADD_OUTPUT` after the inputs,
in `EXPECT_ADD_EXTRA_CHUNK` after the outputs, in `EXPECT_STEP_A` after the extra, in
`EXPECT_STEP_A_MORE_DATA` after the first half of the signing rounds, in `EXPECT_STEP_B` after
`sign_get_c0` and in `FINISHED` at the end, and every call is made in the position its operation
expects. -/
theorem full_pipeline (C : Crypto S P) (e : Emulator S P) (version ut extra_size : Nat)
    (ins : List (InputArgs S)) (outs : List (OutputArgs P)) (chunks : List BinaryArray)
    (ras : List (RoundA S)) (rbs : List (RoundB S)) (tag : Nat) (ds dsv : P)
    (calls : List (List (Call S P)))
    (hversion : version ≠ 0) (hn : 1 ≤ ins.length) (hm : 1 ≤ outs.length)
    (hsizes : ins.length ≤ UINT64_MAX ∧ outs.length ≤ UINT64_MAX ∧ extra_size ≤ UINT64_MAX)
    (hin : (ins.map InputArgs.amount).sum ≤ UINT64_MAX)
    (hout : (outs.map OutputArgs.amount).sum ≤ (ins.map InputArgs.amount).sum)
    (hdst : ∀ o ∈ outs, o.change = false →
      o.dst_address_tag = tag ∧ o.dst_address_s = ds ∧ o.dst_address_s_v = dsv)
    (hsum : (chunks.map List.length).sum = extra_size)
    (hlast : ∃ init last, chunks = init ++ [last] ∧ (last = [] → init = []))
    (hra : ras.length = ins.length) (hrb : rbs.length = ins.length)
    (hcalls : calls = pipeline version ut extra_size ins outs chunks ras rbs) :
    allOk C e calls.flatten = true ∧
    (run C e (calls.take 1).flatten).sign.state = State.EXPECT_ADD_INPUT ∧
    (run C e (calls.take 2).flatten).sign.state = State.EXPECT_ADD_OUTPUT ∧
    (run C e (calls.take 3).flatten).sign.state = State.EXPECT_ADD_EXTRA_CHUNK ∧
    (run C e (calls.take 4).flatten).sign.state = State.EXPECT_STEP_A ∧
    (run C e (calls.take 5).flatten).sign.state = State.EXPECT_STEP_A_MORE_DATA ∧
    (run C e (calls.take 6).flatten).sign.state = State.EXPECT_STEP_B ∧
    (run C e calls.flatten).sign.state = State.FINISHED ∧
    (∀ ev ∈ trace C e calls.flatten, expected_position ev.call ev.pre.sign) := by
  subst hcalls
  obtain ⟨init, last, rfl, hl⟩ := hlast
  obtain ⟨hn', hm', hx'⟩ := hsizes
  have hins : ins ≠ [] := List.length_pos.mp hn
  have houts : outs ≠ [] := List.length_pos.mp hm
  have hras : ras ≠ [] := List.length_pos.mp (by omega)
  have hrbs : rbs ≠ [] := List.length_pos.mp (by omega)
  -- sign_start
  have hstart := (sign_start_spec C e version ut ins.length outs.length extra_size).2
  rw [if_neg (by omega)] at hstart
  have s0 : (step C e (Call.sign_start version ut ins.length outs.length extra_size)).1.isSome
      = true := by
    simp only [step, hstart]; rfl
  have r0 : (step C e (Call.sign_start version ut ins.length outs.length extra_size)).2
      = (sign_start C e version ut ins.length outs.length extra_size).2 := rfl
  generalize he0 : (sign_start C e version ut ins.length outs.length extra_size).2 = e0 at r0
  have a1 : e0.sign.state = State.EXPECT_ADD_INPUT := by rw [← he0, hstart]
  have a2 : e0.sign.shape = (ins.length, outs.length, extra_size) := by rw [← he0, hstart]; rfl
  have a3 : e0.sign.inputs_counter = 0 := by rw [← he0, hstart]
  have a4 : e0.sign.outputs_counter = 0 := by rw [← he0, hstart]
  have a5 : e0.sign.extra_counter = 0 := by rw [← he0, hstart]
  have a6 : e0.sign.inputs_amount = 0 := by rw [← he0, hstart]
  have a7 : e0.sign.dst_amount = 0 := by rw [← he0, hstart]
  have a8 : e0.sign.change_amount = 0 := by rw [← he0, hstart]
  have a9 : e0.sign.destination = (false, 0, 0, 0) := by rw [← he0, hstart]; rfl
  simp only [SigningState.shape, Prod.mk.injEq] at a2
  obtain ⟨a2i, a2o, a2x⟩ := a2
  -- inputs
  obtain ⟨b1, b2, b3, b4, b5, b6, b7, b8, b9⟩ := add_inputs_run C ins e0 a1 hins
    (by rw [a3, a2i]; omega) (by rw [a2i]; exact hn') (by rw [a6]; omega)
  generalize hr1 : run C e0 (add_inputs ins) = e1 at b1 b2 b3 b4 b5 b6 b7 b8 b9
  simp only [SigningState.shape, SigningState.destination, Prod.mk.injEq] at b4 b5
  -- outputs
  obtain ⟨c1, c2, c3, c4, c5, c6, c7⟩ := add_outputs_run C tag ds dsv outs e1 b2 houts
    (by rw [b8, a4, b4.2.1, a2o]; omega) (by rw [b4.2.1, a2o]; exact hm')
    (by rw [b3, a6]; omega) (by rw [b6, b7, a7, a8, b3, a6]; omega) hdst
    (by
      intro h
      rw [b5.1] at h
      simp only [SigningState.destination, Prod.mk.injEq] at a9
      rw [a9.1] at h
      exact Bool.noConfusion h)
  generalize hr2 : run C e1 (add_outputs outs) = e2 at c1 c2 c3 c4 c5 c6 c7
  simp only [SigningState.shape, Prod.mk.injEq] at c3
  -- extra
  obtain ⟨d1, d2, d3, d4⟩ := add_extras_run C last init e2 c2
    (by rw [c5, b9, a5, c3.2.2, b4.2.2, a2x, hsum]; omega)
    (by rw [c3.2.2, b4.2.2, a2x]; exact hx') hl
  generalize hr3 : run C e2 (add_extras (init ++ [last])) = e3 at d1 d2 d3 d4
  simp only [SigningState.shape, Prod.mk.injEq] at d4
  have hsz3 : e3.sign.inputs_size = ins.length := by rw [d4.1, c3.1, b4.1, a2i]
  -- signing rounds, first half
  obtain ⟨f1, f2, f3, f4⟩ := steps_a_run C ras e3
    (Or.inl ⟨d2, by rw [d3, hsz3]; omega⟩) hras
    (by rw [step_a_index, if_neg (by rw [d2]; decide), d3, hsz3, hra]; omega)
    (by rw [hsz3]; exact hn')
  generalize hr4 : run C e3 (steps_a ras) = e4 at f1 f2 f3 f4
  simp only [SigningState.shape, Prod.mk.injEq] at f4
  have hsz4 : e4.sign.inputs_size = ins.length := by rw [f4.1, hsz3]
  -- sign_get_c0
  have hpos4 : e4.sign.state = State.EXPECT_STEP_A_MORE_DATA ∧
      wrap64 (e4.sign.inputs_counter + 1) = e4.sign.inputs_size := by
    refine ⟨f2, ?_⟩
    rw [f3, hsz4, hsz3]
    exact wrap64_of_le _ hn'
  obtain ⟨g1, g2, -, -, g5⟩ := sign_get_c0_ok C none e4 hpos4
  have g6 := shape_inputs_size (sign_get_c0_frame C none e4).2.2.2.1
  have s5 : (step C e4 (Call.sign_get_c0 none)).1.isSome = true := by
    simp only [step, g5 rfl]; rfl
  have r5 : (step C e4 (Call.sign_get_c0 none)).2 = (sign_get_c0 C none e4).2 := rfl
  generalize (sign_get_c0 C none e4).2 = e5 at g1 g2 g6 r5
  -- signing rounds, second half
  obtain ⟨k1, k2⟩ := steps_b_run C rbs e5 g1 hrbs (by rw [g2, g6, hsz4, hrb]; omega)
    (by rw [g6, hsz4]; exact hn')
  have hall : allOk C e (pipeline version ut extra_size ins outs (init ++ [last]) ras rbs).flatten
      = true := by
    simp only [pipeline, List.flatten, List.append_nil, List.singleton_append]
    simp only [allOk, run, s0, r0, Bool.true_and, allOk_append, run_append, b1, hr1, c1, hr2, d1,
      hr3, f1, hr4, s5, r5, k1, Bool.and_self]
  refine ⟨hall, ?_, ?_, ?_, ?_, ?_, ?_, ?_, trace_expected C _ e hall⟩
  · simp only [pipeline, List.take, List.flatten, List.append_nil, run, r0, a1]
  · simp only [pipeline, List.take, List.flatten, List.append_nil, List.singleton_append]
    simp only [run, r0, hr1, b2]
  · simp only [pipeline, List.take, List.flatten, List.append_nil, List.singleton_append]
    simp only [run, r0, run_append, hr1, hr2, c2]
  · simp only [pipeline, List.take, List.flatten, List.append_nil, List.singleton_append]
    simp only [run, r0, run_append, hr1, hr2, hr3, d2]
  · simp only [pipeline, List.take, List.flatten, List.append_nil, List.singleton_append]
    simp only [run, r0, run_append, hr1, hr2, hr3, hr4, f2]
  · simp only [pipeline, List.take, List.flatten, List.append_nil, List.singleton_append]
    simp only [run, r0, run_append, hr1, hr2, hr3, hr4, r5, g1]
  · simp only [pipeline, List.flatten, List.append_nil, List.singleton_append]
    simp only [run, r0, run_append, hr1, hr2, hr3, hr4, r5, k2]

/-- The round trip of the spec goes through `full_pipeline`: every call returns, the states
follow the protocol, the output returns the fee `100` and the session ends in `FINISHED`. -/
theorem full_pipeline_witness :
    round_trip_pipeline.flatten = Call.sign_start 2 0 1 1 0 :: round_trip ∧
    (trace Crypto.small Emulator.small round_trip_pipeline.flatten).map
        (fun ev => ev.post.sign.state)
      = [State.EXPECT_ADD_INPUT, State.EXPECT_ADD_OUTPUT, State.EXPECT_ADD_EXTRA_CHUNK,
          State.EXPECT_STEP_A, State.EXPECT_STEP_A_MORE_DATA, State.EXPECT_STEP_A_MORE_DATA,
          State.EXPECT_STEP_B, State.FINISHED] ∧
    (sign_add_output Crypto.small none
        (run Crypto.small Emulator.small (round_trip_pipeline.take 2).flatten)
        false 900 0 0 4 6).1.map Prod.snd = some (some 100) ∧
    allOk Crypto.small Emulator.small round_trip_pipeline.flatten = true ∧
    (run Crypto.small Emulator.small round_trip_pipeline.flatten).sign.state = State.FINISHED :=
  have h := full_pipeline Crypto.small Emulator.small 2 0 0 [⟨1000, [7], 3, 0⟩]
    [⟨false, 900, 0, 0, 4, 6⟩] [[]] [⟨3, 0, []⟩] [⟨3, 0, 2⟩] 0 4 6 round_trip_pipeline
    (by decide) (by decide) (by decide) (by decide) (by decide) (by decide) (by decide) rfl
    ⟨[], [], rfl, fun _ => rfl⟩ rfl rfl rfl
  ⟨rfl, by decide, by decide, h.1, h.2.2.2.2.2.2.2.1⟩


/-- C12 (`sign_add_extra` length limit): in state `EXPECT_ADD_EXTRA_CHUNK`, for a chunk whose
length added to `extra_counter` does not exceed `size_t` (both count bytes held in memory),
`sign_add_extra(chunk)` throws if and only if `extra_counter + len(chunk) > extra_size`, and then
leaves the emulator as it was; when it is accepted it adds `len(chunk)` to `extra_counter`, and the
session is in `EXPECT_STEP_A` if and only if the new `extra_counter` equals `extra_size`, and
otherwise still in `EXPECT_ADD_EXTRA_CHUNK`; with `extra_size = 0` (and nothing counted yet) the
empty chunk is accepted and advances the session. -/
theorem sign_add_extra_length_limit (C : Crypto S P) (e : Emulator S P) (chunk : BinaryArray)
    (hstate : e.sign.state = State.EXPECT_ADD_EXTRA_CHUNK)
    (hfit : e.sign.extra_counter + chunk.length ≤ UINT64_MAX) :
    ((sign_add_extra C e chunk).1 = none ↔
      e.sign.extra_counter + chunk.length > e.sign.extra_size) ∧
    ((sign_add_extra C e chunk).1 = none → (sign_add_extra C e chunk).2 = e) ∧
    ((sign_add_extra C e chunk).1 = some () →
      (sign_add_extra C e chunk).2.sign.extra_counter = e.sign.extra_counter + chunk.length ∧
      ((sign_add_extra C e chunk).2.sign.state = State.EXPECT_STEP_A ↔
        (sign_add_extra C e chunk).2.sign.extra_counter = e.sign.extra_size) ∧
      ((sign_add_extra C e chunk).2.sign.state = State.EXPECT_STEP_A ∨
        (sign_add_extra C e chunk).2.sign.state = State.EXPECT_ADD_EXTRA_CHUNK)) ∧
    (e.sign.extra_size = 0 → e.sign.extra_counter = 0 →
      (sign_add_extra C e []).1 = some () ∧
      (sign_add_extra C e []).2.sign.state = State.EXPECT_STEP_A) := by
  have hw : wrap64 (e.sign.extra_counter + chunk.length) = e.sign.extra_counter + chunk.length :=
    wrap64_of_le _ hfit
  by_cases hle : e.sign.extra_counter + chunk.length ≤ e.sign.extra_size
  · obtain ⟨h1, h2, -, h4, -⟩ := sign_add_extra_ok C e chunk hstate (by rw [hw]; exact hle)
    rw [hw] at h2 h4
    refine ⟨?_, ?_, ?_, ?_⟩
    · rw [h1]
      constructor
      · intro h; exact Option.noConfusion h
      · intro h; omega
    · intro h; rw [h1] at h; exact Option.noConfusion h
    · intro _
      refine ⟨h2, ?_, ?_⟩
      · rw [h4, h2]
        by_cases hlt : e.sign.extra_counter + chunk.length < e.sign.extra_size
        · rw [if_pos hlt]
          constructor
          · intro h; exact State.noConfusion h
          · intro h; omega
        · rw [if_neg hlt]
          constructor
          · intro _; omega
          · intro _; rfl
      · rw [h4]
        split_ifs
        · exact Or.inr rfl
        · exact Or.inl rfl
    · intro hx hc
      have hw0 : wrap64 (e.sign.extra_counter + ([] : BinaryArray).length) = 0 := by
        rw [hc]; rfl
      obtain ⟨g1, -, -, g4, -⟩ := sign_add_extra_ok C e [] hstate (by rw [hw0]; omega)
      rw [hw0, hx, if_neg (lt_irrefl _)] at g4
      exact ⟨g1, g4⟩
  · have hfail := sign_add_extra_fail C e chunk (fun h => hle (by rw [hw] at h; exact h.2))
    refine ⟨?_, ?_, ?_, ?_⟩
    · rw [hfail]
      constructor
      · intro _; omega
      · intro _; rfl
    · intro _; rw [hfail]
    · intro h; rw [hfail] at h; exact Option.noConfusion h
    · intro hx hc
      have hw0 : wrap64 (e.sign.extra_counter + ([] : BinaryArray).length) = 0 := by
        rw [hc]; rfl
      obtain ⟨g1, -, -, g4, -⟩ := sign_add_extra_ok C e [] hstate (by rw [hw0]; omega)
      rw [hw0, hx, if_neg (lt_irrefl _)] at g4
      exact ⟨g1, g4⟩

/-- On a session that expects three bytes of extra, a chunk of two bytes is accepted and the
session waits for more, a chunk of three bytes completes the extra and a chunk of four bytes is
refused. -/
theorem sign_add_extra_length_limit_witness :
    Emulator.paid.sign.state = State.EXPECT_ADD_EXTRA_CHUNK ∧
    Emulator.paid.sign.extra_size = 3 ∧ Emulator.paid.sign.extra_counter = 0 ∧
    (sign_add_extra Crypto.small Emulator.paid [1, 2]).1 = some () ∧
    (sign_add_extra Crypto.small Emulator.paid [1, 2]).2.sign.state
      = State.EXPECT_ADD_EXTRA_CHUNK ∧
    (sign_add_extra Crypto.small Emulator.paid [1, 2, 3]).2.sign.state = State.EXPECT_STEP_A ∧
    ((sign_add_extra Crypto.small Emulator.paid [1, 2, 3, 4]).1 = none ↔
      Emulator.paid.sign.extra_counter + [1, 2, 3, 4].length > Emulator.paid.sign.extra_size) :=
  ⟨by decide, by decide, by decide, by decide, by decide, by decide,
    (sign_add_extra_length_limit Crypto.small Emulator.paid [1, 2, 3, 4] (by decide)
      (by decide)).1⟩

theorem append_output_indexes_eq (C : Crypto S P) (output_indexes : List Nat) :
    ∀ ks : KeccakStream, append_output_indexes C ks output_indexes
      = ks ++ output_indexes.flatMap C.get_varint_data := by
  induction output_indexes with
  | nil => intro ks; simp [append_output_indexes]
  | cons j rest ih =>
    intro ks
    have := ih (ks.append_varint C j)
    simp only [append_output_indexes, List.foldl_cons] at this ⊢
    rw [this]
    simp [KeccakStream.append_varint]

/-- The transcripts after an accepted `sign_add_input`. -/
theorem sign_add_input_streams (C : Crypto S P) (e : Emulator S P) (amount : Nat)
    (output_indexes : List Nat) (inv : S) (address_index : Nat) (v : Nat)
    (hpos : e.sign.state = State.EXPECT_ADD_INPUT ∧ e.sign.inputs_counter < e.sign.inputs_size)
    (h : add_amount e.sign.inputs_amount amount = some v) :
    (sign_add_input C e amount output_indexes inv address_index).2.sign.tx_inputs_stream =
      e.sign.tx_inputs_stream ++ input_record C e amount output_indexes inv address_index ∧
    (sign_add_input C e amount output_indexes inv address_index).2.sign.tx_prefix_stream =
      e.sign.tx_prefix_stream ++ input_record C e amount output_indexes inv address_index ++
        (if wrap64 (e.sign.inputs_counter + 1) < e.sign.inputs_size then []
          else C.get_varint_data e.sign.outputs_size) ∧
    (sign_add_input C e amount output_indexes inv address_index).2.sign.tx_inputs_hash =
      (if wrap64 (e.sign.inputs_counter + 1) < e.sign.inputs_size then e.sign.tx_inputs_hash
        else C.cn_fast_hash
          (e.sign.tx_inputs_stream ++ input_record C e amount output_indexes inv address_index)) ∧
    (sign_add_input C e amount output_indexes inv address_index).2.sign.tx_prefix_hash =
      e.sign.tx_prefix_hash := by
  unfold sign_add_input
  rw [if_neg (not_not.mpr hpos), h]
  dsimp only
  simp only [prepare_address_sign, prepare_address_m_spend_secret_key, append_output_indexes_eq]
  split_ifs <;>
    simp [input_record, input_key_image, KeccakStream.append, KeccakStream.append_varint,
      KeccakStream.append_byte]

/-- While inputs are expected, the prefix transcript is `h` followed by the inputs transcript:
one call keeps it so. -/
theorem step_prefix_inputs (C : Crypto S P) (h : BinaryArray) (e : Emulator S P) (c : Call S P)
    (hc : c.inSession = true)
    (hinv : e.sign.state = State.EXPECT_ADD_INPUT →
      e.sign.tx_prefix_stream = h ++ e.sign.tx_inputs_stream) :
    (step C e c).2.sign.state = State.EXPECT_ADD_INPUT →
      (step C e c).2.sign.tx_prefix_stream = h ++ (step C e c).2.sign.tx_inputs_stream := by
  intro hpost
  have hmono := step_rank_mono C e c hc
  rw [hpost] at hmono
  have hstate : e.sign.state = State.EXPECT_ADD_INPUT :=
    (rank_eq_zero_iff _).mp (Nat.le_zero.mp hmono)
  by_cases hexp : expected_position c e.sign
  · cases c with
    | sign_add_input amount idx inv ai =>
      simp only [expected_position] at hexp
      cases hadd : add_amount e.sign.inputs_amount amount with
      | none =>
        simp only [step, sign_add_input_fail C e amount idx inv ai (Or.inr hadd)]
        exact hinv hstate
      | some v =>
        obtain ⟨s1, s2, -, -⟩ := sign_add_input_streams C e amount idx inv ai v hexp hadd
        obtain ⟨-, -, -, o4⟩ := sign_add_input_ok C e amount idx inv ai v hexp hadd
        simp only [step] at hpost ⊢
        rw [o4] at hpost
        split_ifs at hpost with hlt
        rw [s1, s2, if_pos hlt, hinv hstate]
        simp
    | sign_start => simp [Call.inSession] at hc
    | proof_start => simp [Call.inSession] at hc
    | sign_add_output => simp [expected_position, hstate] at hexp
    | sign_add_extra => simp [expected_position, hstate] at hexp
    | sign_step_a => simp [expected_position, hstate] at hexp
    | sign_step_a_more_data => simp [expected_position, hstate] at hexp
    | sign_get_c0 => simp [expected_position, hstate] at hexp
    | sign_step_b => simp [expected_position, hstate] at hexp
  · rw [step_unexpected C e c hexp]
    exact hinv hstate

theorem run_prefix_inputs (C : Crypto S P) (h : BinaryArray) (cs : List (Call S P)) :
    ∀ e : Emulator S P, (∀ c ∈ cs, c.inSession = true) →
      (e.sign.state = State.EXPECT_ADD_INPUT →
        e.sign.tx_prefix_stream = h ++ e.sign.tx_inputs_stream) →
      (run C e cs).sign.state = State.EXPECT_ADD_INPUT →
        (run C e cs).sign.tx_prefix_stream = h ++ (run C e cs).sign.tx_inputs_stream := by
  induction cs with
  | nil => intro e _ hinv; exact hinv
  | cons c rest ih =>
    intro e hcs hinv
    exact ih _ (fun c' hc' => hcs c' (List.mem_cons_of_mem _ hc'))
      (step_prefix_inputs C h e c (hcs c (List.mem_cons_self _ _)) hinv)

/-- C14 (input serialisation to both transcripts): in a session opened by `sign_start(version,
ut, n, m, x)` and after any calls of session operations, (1) while the session is in
`EXPECT_ADD_INPUT` the prefix transcript is `varint(version) ‖ varint(ut) ‖ inputs transcript`;
(2) every accepted `sign_add_input` appends `input_record` (input type tag ‖ varint(amount) ‖
varint(number of output indexes) ‖ varint of each output index in order ‖ key image) to the inputs
transcript and to the prefix transcript; when it is not the `n`-th accepted one, nothing else is
appended, `tx_inputs_hash` is as before and the state stays `EXPECT_ADD_INPUT`; when it is the
`n`-th accepted one, `tx_inputs_hash` is the hash of the inputs transcript, `varint(m)` is
appended to the prefix transcript only, and the state becomes `EXPECT_ADD_OUTPUT`. -/
theorem input_serialisation (C : Crypto S P) (e : Emulator S P)
    (version ut n m x : Nat) (cs : List (Call S P)) (session pre : Emulator S P)
    (hn : n ≤ UINT64_MAX)
    (hstart : (sign_start C e version ut n m x).1 = some ())
    (hsession : session = (sign_start C e version ut n m x).2)
    (hcs : ∀ c ∈ cs, c.inSession = true)
    (hpre : pre = run C session cs) :
    (pre.sign.state = State.EXPECT_ADD_INPUT →
      pre.sign.tx_prefix_stream =
        C.get_varint_data version ++ C.get_varint_data ut ++ pre.sign.tx_inputs_stream) ∧
    (∀ amount output_indexes inv address_index,
      (sign_add_input C pre amount output_indexes inv address_index).1 = some () →
      (sign_add_input C pre amount output_indexes inv address_index).2.sign.tx_inputs_stream =
        pre.sign.tx_inputs_stream ++ input_record C pre amount output_indexes inv address_index ∧
      ((accepted Call.isAddInput (trace C session cs)).length + 1 < n →
        (sign_add_input C pre amount output_indexes inv address_index).2.sign.tx_prefix_stream =
          pre.sign.tx_prefix_stream ++
            input_record C pre amount output_indexes inv address_index ∧
        (sign_add_input C pre amount output_indexes inv address_index).2.sign.tx_inputs_hash =
          pre.sign.tx_inputs_hash ∧
        (sign_add_input C pre amount output_indexes inv address_index).2.sign.state =
          State.EXPECT_ADD_INPUT) ∧
      ((accepted Call.isAddInput (trace C session cs)).length + 1 = n →
        (sign_add_input C pre amount output_indexes inv address_index).2.sign.tx_prefix_stream =
          pre.sign.tx_prefix_stream ++
            input_record C pre amount output_indexes inv address_index ++
            C.get_varint_data m ∧
        (sign_add_input C pre amount output_indexes inv address_index).2.sign.tx_inputs_hash =
          C.cn_fast_hash
            (sign_add_input C pre amount output_indexes inv address_index).2.sign.tx_inputs_stream ∧
        (sign_add_input C pre amount output_indexes inv address_index).2.sign.state =
          State.EXPECT_ADD_OUTPUT)) := by
  subst hsession hpre
  have hne : ¬ (n = 0 ∨ m = 0 ∨ version = 0) := by
    intro h
    rw [((sign_start_spec C e version ut n m x).1).mpr h] at hstart
    exact Option.noConfusion hstart
  have hspec := (sign_start_spec C e version ut n m x).2
  rw [if_neg hne] at hspec
  have hphase := inputPhase_run C n hn cs 0 _ hcs (sign_start_inputPhase C e version ut n m x hstart)
  rw [Nat.zero_add] at hphase
  have hshape := (run_frame C cs (sign_start C e version ut n m x).2 hcs).2.1
  have hm : (run C (sign_start C e version ut n m x).2 cs).sign.outputs_size = m := by
    rw [shape_outputs_size hshape, hspec]
  constructor
  · apply run_prefix_inputs C _ cs _ hcs
    intro _
    rw [hspec]
  · intro amount idx inv ai hok
    have hpos : (run C (sign_start C e version ut n m x).2 cs).sign.state
          = State.EXPECT_ADD_INPUT ∧
        (run C (sign_start C e version ut n m x).2 cs).sign.inputs_counter <
          (run C (sign_start C e version ut n m x).2 cs).sign.inputs_size := by
      by_contra hp
      rw [sign_add_input_fail C _ amount idx inv ai (Or.inl hp)] at hok
      exact Option.noConfusion hok
    obtain ⟨v, hv⟩ : ∃ v, add_amount
        (run C (sign_start C e version ut n m x).2 cs).sign.inputs_amount amount = some v := by
      cases hadd : add_amount
          (run C (sign_start C e version ut n m x).2 cs).sign.inputs_amount amount with
      | none =>
        rw [sign_add_input_fail C _ amount idx inv ai (Or.inr hadd)] at hok
        exact Option.noConfusion hok
      | some v => exact ⟨v, rfl⟩
    obtain ⟨s1, s2, s3, -⟩ := sign_add_input_streams C _ amount idx inv ai v hpos hv
    obtain ⟨-, -, -, o4⟩ := sign_add_input_ok C _ amount idx inv ai v hpos hv
    obtain ⟨hsz, hcase⟩ := hphase
    have hic : (run C (sign_start C e version ut n m x).2 cs).sign.inputs_counter
        = (accepted Call.isAddInput (trace C (sign_start C e version ut n m x).2 cs)).length := by
      rcases hcase with ⟨-, h2, -⟩ | ⟨h1, -⟩
      · exact h2
      · exact absurd hpos.1 h1
    have hlt := hpos.2
    rw [hsz, hic] at hlt
    have hw : wrap64 ((run C (sign_start C e version ut n m x).2 cs).sign.inputs_counter + 1)
        = (accepted Call.isAddInput (trace C (sign_start C e version ut n m x).2 cs)).length + 1 := by
      rw [hic]
      exact wrap64_of_le _ (by omega)
    rw [hw, hsz] at s2 s3 o4
    refine ⟨s1, ?_, ?_⟩
    · intro hnot
      rw [if_pos hnot] at s2 s3 o4
      exact ⟨by rw [s2, List.append_nil], s3, o4⟩
    · intro hlast
      rw [if_neg (by omega)] at s2 s3 o4
      refine ⟨by rw [s2, hm], ?_, o4⟩
      rw [s3, s1]

/-- Two inputs on the session `sign_start(2, 0, 2, 2, 3)` of `Emulator.small`: after the first
the prefix transcript is still `varint(2) ‖ varint(0) ‖ inputs transcript`; the second is the
last one. -/
theorem input_serialisation_witness :
    (run Crypto.small Emulator.started
      [Call.sign_add_input 1000 [7] 3 0]).sign.tx_inputs_stream = [2, 2, 104, 1, 7, 88] ∧
    (run Crypto.small Emulator.started
      [Call.sign_add_input 1000 [7] 3 0]).sign.tx_prefix_stream
        = [2, 0] ++ [2, 2, 104, 1, 7, 88] ∧
    (sign_add_input Crypto.small
      (run Crypto.small Emulator.started [Call.sign_add_input 1000 [7] 3 0])
      5 [] 3 1).2.sign.state = State.EXPECT_ADD_OUTPUT ∧
    ((run Crypto.small Emulator.started [Call.sign_add_input 1000 [7] 3 0]).sign.state
        = State.EXPECT_ADD_INPUT →
      (run Crypto.small Emulator.started [Call.sign_add_input 1000 [7] 3 0]).sign.tx_prefix_stream
        = Crypto.small.get_varint_data 2 ++ Crypto.small.get_varint_data 0 ++
          (run Crypto.small Emulator.started
            [Call.sign_add_input 1000 [7] 3 0]).sign.tx_inputs_stream) :=
  ⟨by decide, by decide, by decide,
    (input_serialisation Crypto.small Emulator.small 2 0 2 2 3
      [Call.sign_add_input 1000 [7] 3 0] Emulator.started
      (run Crypto.small Emulator.started [Call.sign_add_input 1000 [7] 3 0])
      (by decide) (by decide) rfl (by decide) rfl).1⟩

/-- C16 (`generate_keyimage` self-check, no proxy): with `a` the subaddress audit secret that
`prepare_address(address_index)` yields times `inv_output_secret_hash` and `s` the spend secret
times `inv_output_secret_hash`, `generate_keyimage(output_public_key, inv_output_secret_hash,
address_index)` throws if and only if `output_public_key` differs from
`secret_keys_to_public_key(a, s)`; when it returns, its result is
`generate_key_image(secret_keys_to_public_key(a, s), a)`, whatever public key the caller passed,
which is the key image `input_key_image` that an accepted `sign_add_input` serialises and from
which `sign_step_a` computes `sig_p` for the same `(inv_output_secret_hash, address_index)`; the
subaddress secret is `generate_hd_secretkey(audit_base_secret_key, A_plus_sH, address_index)`
unless the cache is labelled `address_index` with another scalar. -/
theorem generate_keyimage_self_check (C : Crypto S P) (e : Emulator S P) (output_public_key : P)
    (inv : S) (address_index : Nat) :
    ((generate_keyimage C none e output_public_key inv address_index).1 = none ↔
      output_public_key ≠ C.secret_keys_to_public_key
        ((prepare_address C e address_index).last_address_audit_secret_key * inv)
        (e.m_spend_secret_key * inv)) ∧
    (∀ r, (generate_keyimage C none e output_public_key inv address_index).1 = some r →
      r = C.generate_key_image
        (C.secret_keys_to_public_key
          ((prepare_address C e address_index).last_address_audit_secret_key * inv)
          (e.m_spend_secret_key * inv))
        ((prepare_address C e address_index).last_address_audit_secret_key * inv) ∧
      r = input_key_image C e inv address_index) ∧
    (generate_keyimage C none e output_public_key inv address_index).2
      = prepare_address C e address_index ∧
    (∀ amount output_indexes,
      (sign_add_input C e amount output_indexes inv address_index).1 = some () →
      (sign_add_input C e amount output_indexes inv address_index).2.sign.tx_inputs_stream =
        e.sign.tx_inputs_stream ++ ([C.InputKey_type_tag] ++ C.get_varint_data amount ++
          C.get_varint_data output_indexes.length ++ output_indexes.flatMap C.get_varint_data) ++
          C.point_data (input_key_image C e inv address_index)) ∧
    (∀ px o, (sign_step_a C px e inv address_index).1 = some o →
      o.1 = (e.m_spend_secret_key * inv) • C.H -
        ((prepare_address C e address_index).last_address_audit_secret_key * inv) •
          C.hash_to_good_point_p3 (input_key_image C e inv address_index)) ∧
    ((e.last_address_index = address_index → CacheOk C e) →
      (prepare_address C e address_index).last_address_audit_secret_key =
        C.generate_hd_secretkey e.m_audit_key_base_secret_key e.m_A_plus_sH address_index) := by
  refine ⟨?_, ?_, ?_, ?_, ?_, ?_⟩
  · unfold generate_keyimage
    dsimp only
    simp only [prepare_address_m_spend_secret_key]
    by_cases h : output_public_key = C.secret_keys_to_public_key
        ((prepare_address C e address_index).last_address_audit_secret_key * inv)
        (e.m_spend_secret_key * inv)
    · rw [if_neg (not_not.mpr h)]
      exact ⟨fun hh => Option.noConfusion hh, fun hh => absurd h hh⟩
    · rw [if_pos h]
      exact ⟨fun _ => h, fun _ => rfl⟩
  · intro r hr
    unfold generate_keyimage at hr
    dsimp only at hr
    simp only [prepare_address_m_spend_secret_key] at hr
    by_cases h : output_public_key = C.secret_keys_to_public_key
        ((prepare_address C e address_index).last_address_audit_secret_key * inv)
        (e.m_spend_secret_key * inv)
    swap
    · rw [if_pos h] at hr
      exact Option.noConfusion hr
    rw [if_neg (not_not.mpr h)] at hr
    simp only [Option.some.injEq] at hr
    subst hr
    constructor
    · rw [← h]
    · unfold input_key_image
      rw [← h]
  · unfold generate_keyimage
    dsimp only
    split_ifs <;> rfl
  · intro amount idx hok
    have hpos : e.sign.state = State.EXPECT_ADD_INPUT ∧
        e.sign.inputs_counter < e.sign.inputs_size := by
      by_contra hp
      rw [sign_add_input_fail C _ amount idx inv address_index (Or.inl hp)] at hok
      exact Option.noConfusion hok
    obtain ⟨v, hv⟩ : ∃ v, add_amount e.sign.inputs_amount amount = some v := by
      cases hadd : add_amount e.sign.inputs_amount amount with
      | none =>
        rw [sign_add_input_fail C _ amount idx inv address_index (Or.inr hadd)] at hok
        exact Option.noConfusion hok
      | some v => exact ⟨v, rfl⟩
    rw [(sign_add_input_streams C e amount idx inv address_index v hpos hv).1]
    simp [input_record]
  · intro px o ho
    have hpos : (e.sign.state = State.EXPECT_STEP_A ∧
          e.sign.inputs_counter < e.sign.inputs_size) ∨
        (e.sign.state = State.EXPECT_STEP_A_MORE_DATA ∧
          wrap64 (e.sign.inputs_counter + 1) < e.sign.inputs_size) := by
      by_contra hp
      rw [sign_step_a_fail C px e inv address_index hp] at ho
      exact Option.noConfusion ho
    obtain ⟨-, -, -, -, -, -, h7, -⟩ := sign_step_a_ok C px e inv address_index hpos
    rw [h7 o ho]
    rfl
  · intro hcache
    unfold prepare_address
    split
    · rfl
    · rename_i hh
      simp only [ne_eq, not_not] at hh
      have hc := hcache hh.symm
      unfold CacheOk at hc
      rw [← hh] at hc
      exact hc

/-- On `Emulator.small` the input `(3, 0)` has the public key `54` and the key image `1368`:
`generate_keyimage` returns it for the public key `54` and throws for `55`. -/
theorem generate_keyimage_small :
    (generate_keyimage Crypto.small none Emulator.small 54 3 0).1 = some 1368 ∧
    (generate_keyimage Crypto.small none Emulator.small 55 3 0).1 = none ∧
    input_key_image Crypto.small Emulator.small 3 0 = 1368 := by
  decide

theorem proof_start_eq (C : Crypto S P) (e : Emulator S P) (data : BinaryArray) :
    proof_start C e data = (some (), { e with sign :=
      { SigningState.init S P with
        inputs_size := 1
        tx_prefix_stream := 0 :: data
        tx_prefix_hash := C.cn_fast_hash (0 :: data)
        random_seed := zero_hash
        tx_inputs_stream := C.cn_fast_hash (0 :: data)
        state := State.EXPECT_STEP_A } }) := by
  simp [proof_start, SigningState.init, KeccakStream.append, KeccakStream.append_byte]

/-- C17 (`proof_start`): for every byte string `data` and every prior emulator, `proof_start(data)`
returns and leaves a session with state `EXPECT_STEP_A`, `inputs_size = 1`, `inputs_counter = 0`,
`tx_prefix_hash = hash(0x00 ‖ data)` and the inputs transcript equal to the bytes of
`tx_prefix_hash` (keys and cache untouched); from it the sequence `sign_step_a`, `sign_get_c0`,
`sign_step_b` (no proxy attached) returns at every call and reaches `FINISHED`, while
`sign_add_input`, `sign_add_output` and `sign_add_extra` all throw and change nothing. -/
theorem proof_start_spec (C : Crypto S P) (e : Emulator S P) (data : BinaryArray) :
    (proof_start C e data).1 = some () ∧
    (proof_start C e data).2.sign.state = State.EXPECT_STEP_A ∧
    (proof_start C e data).2.sign.inputs_size = 1 ∧
    (proof_start C e data).2.sign.inputs_counter = 0 ∧
    (proof_start C e data).2.sign.tx_prefix_hash = C.cn_fast_hash (0 :: data) ∧
    (proof_start C e data).2.sign.tx_inputs_stream = (proof_start C e data).2.sign.tx_prefix_hash ∧
    (proof_start C e data).2.keys = e.keys ∧
    (proof_start C e data).2.last_address_index = e.last_address_index ∧
    (proof_start C e data).2.last_address_audit_secret_key = e.last_address_audit_secret_key ∧
    (∀ inv address_index inv2 address_index2 my_c,
      allOk C (proof_start C e data).2
        [Call.sign_step_a none inv address_index, Call.sign_get_c0 none,
          Call.sign_step_b none inv2 address_index2 my_c] = true ∧
      (run C (proof_start C e data).2
        [Call.sign_step_a none inv address_index, Call.sign_get_c0 none,
          Call.sign_step_b none inv2 address_index2 my_c]).sign.state = State.FINISHED) ∧
    (∀ amount output_indexes inv address_index,
      sign_add_input C (proof_start C e data).2 amount output_indexes inv address_index
        = (none, (proof_start C e data).2)) ∧
    (∀ px change amount change_address_index dst_address_tag dst_address_s dst_address_s_v,
      sign_add_output C px (proof_start C e data).2 change amount change_address_index
        dst_address_tag dst_address_s dst_address_s_v = (none, (proof_start C e data).2)) ∧
    (∀ chunk, sign_add_extra C (proof_start C e data).2 chunk
      = (none, (proof_start C e data).2)) := by
  have heq := proof_start_eq C e data
  have hstate : (proof_start C e data).2.sign.state = State.EXPECT_STEP_A := by rw [heq]
  have hsize : (proof_start C e data).2.sign.inputs_size = 1 := by rw [heq]
  have hic : (proof_start C e data).2.sign.inputs_counter = 0 := by rw [heq]; rfl
  refine ⟨by rw [heq], hstate, hsize, hic, by rw [heq], by rw [heq], by rw [heq]; rfl, by rw [heq],
    by rw [heq], ?_, ?_, ?_, ?_⟩
  · intro inv ai inv2 ai2 my_c
    generalize (proof_start C e data).2 = e0 at hstate hsize hic
    -- sign_step_a
    obtain ⟨a1, a2, -, -, -, -, -, a8⟩ := sign_step_a_ok C none e0 inv ai
      (Or.inl ⟨hstate, by rw [hic, hsize]; decide⟩)
    have a9 := shape_inputs_size (sign_step_a_frame C none e0 inv ai).2.1
    rw [step_a_index, if_neg (by rw [hstate]; decide), hic] at a2
    obtain ⟨o1, ho1⟩ := Option.isSome_iff_exists.mp (a8 rfl)
    have r1 : (step C e0 (Call.sign_step_a none inv ai)).2 = (sign_step_a C none e0 inv ai).2 :=
      rfl
    generalize (sign_step_a C none e0 inv ai).2 = e1 at a1 a2 a9 r1
    -- sign_get_c0
    have hpos1 : e1.sign.state = State.EXPECT_STEP_A_MORE_DATA ∧
        wrap64 (e1.sign.inputs_counter + 1) = e1.sign.inputs_size := by
      refine ⟨a1, ?_⟩
      rw [a2, a9, hsize]
      rfl
    obtain ⟨g1, g2, -, -, g5⟩ := sign_get_c0_ok C none e1 hpos1
    have g6 := shape_inputs_size (sign_get_c0_frame C none e1).2.2.2.1
    have r2 : (step C e1 (Call.sign_get_c0 none)).2 = (sign_get_c0 C none e1).2 := rfl
    have s2 : (step C e1 (Call.sign_get_c0 none)).1.isSome = true := by
      simp only [step, g5 rfl]; rfl
    generalize (sign_get_c0 C none e1).2 = e2 at g1 g2 g6 r2
    -- sign_step_b
    obtain ⟨hcase, hsome⟩ := sign_step_b_ok C none e2 inv2 ai2 my_c
      ⟨g1, by rw [g2, g6, a9, hsize]; decide⟩
    have hok := hsome rfl
    rcases hcase with ⟨hnone, -⟩ | ⟨-, -, b3⟩
    · rw [hnone] at hok
      exact Bool.noConfusion hok
    · obtain ⟨o3, ho3⟩ := Option.isSome_iff_exists.mp hok
      rw [g2, g6, a9, hsize, if_neg (by decide)] at b3
      simp only [allOk, run, step, ho1, Option.map_some', Option.isSome_some, Bool.true_and]
      simp only [step] at r1 r2 s2
      rw [r1, s2, r2, ho3]
      exact ⟨rfl, b3⟩
  · intro amount idx inv ai
    exact sign_add_input_fail C _ amount idx inv ai
      (Or.inl (fun h => by rw [hstate] at h; exact State.noConfusion h.1))
  · intro px change amount cai tag ds dsv
    exact sign_add_output_fail C px _ change amount cai tag ds dsv
      (fun h => by rw [hstate] at h; exact State.noConfusion h.1)
  · intro chunk
    exact sign_add_extra_fail C _ chunk
      (fun h => by rw [hstate] at h; exact State.noConfusion h.1)

theorem sign_add_output_parity (C : Crypto S P) (e : Emulator S P) (change : Bool)
    (amount cai tag : Nat) (ds dsv : P) (r : P × P × Nat) :
    ((sign_add_output C none e change amount cai tag ds dsv).1 = none →
      (sign_add_output C (some r) e change amount cai tag ds dsv).1 = none) ∧
    (∀ own fee, (sign_add_output C none e change amount cai tag ds dsv).1 = some (own, fee) →
      (r ≠ own → (sign_add_output C (some r) e change amount cai tag ds dsv).1 = none) ∧
      (r = own → sign_add_output C (some r) e change amount cai tag ds dsv
        = sign_add_output C none e change amount cai tag ds dsv)) := by
  rw [sign_add_output_eq C none, sign_add_output_eq C (some r)]
  by_cases hpos : e.sign.state = State.EXPECT_ADD_OUTPUT ∧
      e.sign.outputs_counter < e.sign.outputs_size
  · rw [if_pos hpos, if_pos hpos]
    cases hacc : (sign_add_output_account C e change amount cai tag ds dsv).1 with
    | none =>
      dsimp only
      exact ⟨fun _ => rfl, fun own fee h => Option.noConfusion h⟩
    | some out =>
      dsimp only
      rw [if_pos (Or.inl rfl)]
      have hfst : ∀ own fee, (sign_add_output_finish C
          (sign_add_output_account C e change amount cai tag ds dsv).2 out).1 = some (own, fee) →
          own = out := by
        intro own fee h
        unfold sign_add_output_finish at h
        dsimp only at h
        split at h
        · simp only [Option.some.injEq, Prod.mk.injEq] at h
          exact h.1.symm
        · split at h
          · exact Option.noConfusion h
          · split at h
            · exact Option.noConfusion h
            · simp only [Option.some.injEq, Prod.mk.injEq] at h
              exact h.1.symm
      by_cases hr : r = out
      · subst hr
        rw [if_pos (Or.inr rfl)]
        exact ⟨fun h => h, fun own fee h => ⟨fun hne => absurd (hfst own fee h).symm hne,
          fun _ => rfl⟩⟩
      · rw [if_neg (by
          intro h
          rcases h with h | h
          · exact Option.noConfusion h
          · exact hr (Option.some.inj h))]
        refine ⟨fun _ => rfl, fun own fee h => ⟨fun _ => rfl, fun heq => ?_⟩⟩
        exact absurd (heq.trans (hfst own fee h)) hr
  · rw [if_neg hpos, if_neg hpos]
    exact ⟨fun _ => rfl, fun own fee h => Option.noConfusion h⟩

theorem sign_step_a_parity (C : Crypto S P) (e : Emulator S P) (inv : S) (address_index : Nat)
    (r : P × P × P) :
    ((sign_step_a C none e inv address_index).1 = none →
      (sign_step_a C (some r) e inv address_index).1 = none) ∧
    (∀ own, (sign_step_a C none e inv address_index).1 = some own →
      (r ≠ own → (sign_step_a C (some r) e inv address_index).1 = none) ∧
      (r = own → sign_step_a C (some r) e inv address_index
        = sign_step_a C none e inv address_index)) := by
  unfold sign_step_a
  dsimp only
  by_cases hc : (sign_step_a_next e).sign.state = State.EXPECT_STEP_A ∧
      (sign_step_a_next e).sign.inputs_counter < (sign_step_a_next e).sign.inputs_size
  · simp only [if_neg (not_not.mpr hc)]
    refine ⟨fun h => by simp at h, fun own h => ?_⟩
    simp only [Option.some.injEq] at h
    subst h
    constructor
    · intro hne
      rw [if_neg (fun hh => hne hh.symm)]
    · intro heq
      rw [if_pos heq.symm]
  · simp only [if_pos hc]
    exact ⟨fun _ => trivial, fun own h => by simp at h⟩

theorem sign_get_c0_parity (C : Crypto S P) (e : Emulator S P) (r : S) :
    ((sign_get_c0 C none e).1 = none → (sign_get_c0 C (some r) e).1 = none) ∧
    (∀ own, (sign_get_c0 C none e).1 = some own →
      (r ≠ own → (sign_get_c0 C (some r) e).1 = none) ∧
      (r = own → sign_get_c0 C (some r) e = sign_get_c0 C none e)) := by
  unfold sign_get_c0
  dsimp only
  by_cases hc : e.sign.state = State.EXPECT_STEP_A_MORE_DATA ∧
      wrap64 (e.sign.inputs_counter + 1) = e.sign.inputs_size
  · simp only [if_neg (not_not.mpr hc)]
    refine ⟨fun h => by simp at h, fun own h => ?_⟩
    simp only [Option.some.injEq] at h
    subst h
    constructor
    · intro hne
      rw [if_neg hne]
    · intro heq
      rw [if_pos heq]
  · simp only [if_pos hc]
    exact ⟨fun _ => trivial, fun own h => by simp at h⟩

theorem sign_step_b_parity (C : Crypto S P) (e : Emulator S P) (inv : S) (address_index : Nat)
    (my_c : S) (r : S × S × S) :
    ((sign_step_b C none e inv address_index my_c).1 = none →
      (sign_step_b C (some r) e inv address_index my_c).1 = none) ∧
    (∀ own, (sign_step_b C none e inv address_index my_c).1 = some own →
      (r ≠ own → (sign_step_b C (some r) e inv address_index my_c).1 = none) ∧
      (r = own → sign_step_b C (some r) e inv address_index my_c
        = sign_step_b C none e inv address_index my_c)) := by
  unfold sign_step_b
  dsimp only
  by_cases hc : e.sign.state = State.EXPECT_STEP_B ∧ e.sign.inputs_counter < e.sign.inputs_size
  · simp only [if_neg (not_not.mpr hc)]
    refine ⟨fun h => by simp at h, fun own h => ?_⟩
    simp only [Option.some.injEq] at h
    subst h
    constructor
    · intro hne
      rw [if_neg (fun hh => hne hh.symm)]
    · intro heq
      rw [if_pos heq.symm]
  · simp only [if_pos hc]
    exact ⟨fun _ => trivial, fun own h => by simp at h⟩

/-- On `Emulator.prepared`, `sign_step_a` returns when the proxy gives the emulator's own answer
and throws when it gives another one; on `Emulator.funded` likewise for `sign_add_output`. -/
theorem parity_small :
    (sign_step_a Crypto.small none Emulator.prepared 3 0).1.isSome = true ∧
    (sign_step_a Crypto.small (sign_step_a Crypto.small none Emulator.prepared 3 0).1
      Emulator.prepared 3 0).1.isSome = true ∧
    (sign_step_a Crypto.small (some (0, 0, 0)) Emulator.prepared 3 0).1 = none ∧
    (sign_add_output Crypto.small
      ((sign_add_output Crypto.small none Emulator.funded false 900 0 0 4 6).1.map Prod.fst)
      Emulator.funded false 900 0 0 4 6).1.isSome = true ∧
    (sign_add_output Crypto.small (some (0, 0, 0)) Emulator.funded false 900 0 0 4 6).1
      = none := by
  decide

theorem add_output_or_change_snd (C : Crypto S P) (e : Emulator S P) (amount tag : Nat)
    (s sv : P) :
    (add_output_or_change C e amount tag s sv).2 = derived_output C e tag s sv := by
  unfold add_output_or_change derived_output output_secrets
  rfl

theorem sign_add_output_finish_fst (C : Crypto S P) (e : Emulator S P) (out own : P × P × Nat)
    (fee : Option Nat) (h : (sign_add_output_finish C e out).1 = some (own, fee)) : own = out := by
  unfold sign_add_output_finish at h
  dsimp only at h
  split at h
  · simp only [Option.some.injEq, Prod.mk.injEq] at h
    exact h.1.symm
  · split at h
    · exact Option.noConfusion h
    · split at h
      · exact Option.noConfusion h
      · simp only [Option.some.injEq, Prod.mk.injEq] at h
        exact h.1.symm

/-- The output of an accepted `sign_add_output` is the one its accounting step returned. -/
theorem sign_add_output_out (C : Crypto S P) (px : Option (P × P × Nat)) (e : Emulator S P)
    (change : Bool) (amount cai tag : Nat) (ds dsv : P) (out : P × P × Nat) (fee : Option Nat)
    (h : (sign_add_output C px e change amount cai tag ds dsv).1 = some (out, fee)) :
    (e.sign.state = State.EXPECT_ADD_OUTPUT ∧ e.sign.outputs_counter < e.sign.outputs_size) ∧
    (sign_add_output_account C e change amount cai tag ds dsv).1 = some out ∧
    sign_add_output C px e change amount cai tag ds dsv =
      sign_add_output_finish C (sign_add_output_account C e change amount cai tag ds dsv).2
        out := by
  rw [sign_add_output_eq] at h ⊢
  by_cases hpos : e.sign.state = State.EXPECT_ADD_OUTPUT ∧
      e.sign.outputs_counter < e.sign.outputs_size
  · rw [if_pos hpos] at h ⊢
    cases hacc : (sign_add_output_account C e change amount cai tag ds dsv).1 with
    | none =>
      rw [hacc] at h
      exact Option.noConfusion h
    | some out2 =>
      rw [hacc] at h
      dsimp only at h ⊢
      split_ifs at h with hp
      have := sign_add_output_finish_fst C _ out2 out fee h
      subst this
      rw [if_pos hp]
      exact ⟨hpos, rfl, rfl⟩
  · rw [if_neg hpos] at h
    exact Option.noConfusion h

theorem derived_output_congr (C : Crypto S P) (e e2 : Emulator S P) (tag : Nat) (s sv : P)
    (h1 : e2.sign.tx_inputs_hash = e.sign.tx_inputs_hash)
    (h2 : e2.m_tx_derivation_seed = e.m_tx_derivation_seed)
    (h3 : e2.sign.outputs_counter = e.sign.outputs_counter) :
    derived_output C e2 tag s sv = derived_output C e tag s sv := by
  unfold derived_output output_secrets
  rw [h1, h2, h3]

theorem prepare_address_public_with_sign (C : Crypto S P) (e : Emulator S P)
    (s : SigningState S P) (i : Nat) :
    (prepare_address_public C { e with sign := s } i).2 = (prepare_address_public C e i).2 := by
  unfold prepare_address_public prepare_address
  dsimp only
  split_ifs <;> rfl

/-- What the accounting step of `sign_add_output` returns. -/
theorem sign_add_output_account_out (C : Crypto S P) (e : Emulator S P) (change : Bool)
    (amount cai tag : Nat) (ds dsv : P) (out : P × P × Nat)
    (h : (sign_add_output_account C e change amount cai tag ds dsv).1 = some out) :
    out = if change = true then
        derived_output C e C.AccountAddressUnlinkable_type_tag
          (prepare_address_public C e cai).2.1 (prepare_address_public C e cai).2.2
      else derived_output C e tag ds dsv := by
  unfold sign_add_output_account at h
  cases change with
  | true =>
    rw [if_pos rfl] at h
    rw [if_pos rfl]
    cases hadd : add_amount e.sign.change_amount amount with
    | none => rw [hadd] at h; exact Option.noConfusion h
    | some v =>
      rw [hadd] at h
      simp only [Option.some.injEq] at h
      rw [← h, add_output_or_change_snd, prepare_address_public_with_sign]
      apply derived_output_congr
      · simp only [prepare_address_public_fst, prepare_address_sign]
      · simp only [prepare_address_public_fst, prepare_address_m_tx_derivation_seed]
      · simp only [prepare_address_public_fst, prepare_address_sign]
  | false =>
    rw [if_neg (by decide)] at h
    rw [if_neg (by decide)]
    by_cases hset : e.sign.dst_address_set = true
    · rw [if_neg (not_not.mpr hset)] at h
      by_cases hm : e.sign.dst_address_tag = tag ∧ e.sign.dst_address_s = ds ∧
          e.sign.dst_address_s_v = dsv
      · rw [if_pos hm] at h
        unfold sign_add_output_dst at h
        cases hadd : add_amount e.sign.dst_amount amount with
        | none => rw [hadd] at h; exact Option.noConfusion h
        | some v =>
          rw [hadd] at h
          simp only [Option.some.injEq] at h
          rw [← h, add_output_or_change_snd, hm.1, hm.2.1, hm.2.2]
          rfl
      · rw [if_neg hm] at h
        exact Option.noConfusion h
    · rw [if_pos hset] at h
      unfold sign_add_output_dst at h
      dsimp only at h
      cases hadd : add_amount e.sign.dst_amount amount with
      | none => rw [hadd] at h; exact Option.noConfusion h
      | some v =>
        rw [hadd] at h
        simp only [Option.some.injEq] at h
        rw [← h, add_output_or_change_snd]
        rfl

/-- C20 (address-type masking): for every output `out = (public_key, encrypted_secret,
encrypted_address_type)` that `sign_add_output` returns, with `byte` the first byte of the derived
`output_secret_address_type`: a non-change output leaves the destination `(dst_address_tag,
dst_address_s, dst_address_s_v)` of the call committed in the session; the effective tag is the
committed `dst_address_tag` for a non-change output and `AccountAddressUnlinkable::type_tag` for a
change output, whatever tag the caller passed; `encrypted_address_type` is the effective tag XOR
`byte`, so that XORing it with `byte` again recovers the effective tag; and `(public_key,
encrypted_secret)` come from the linkable derivation exactly when the effective tag is
`AccountAddressSimple::type_tag`, and from the unlinkable derivation otherwise (on the committed
destination address, or on the change subaddress). -/
theorem address_type_masking (C : Crypto S P) (px : Option (P × P × Nat)) (e : Emulator S P)
    (change : Bool) (amount change_address_index dst_address_tag : Nat)
    (dst_address_s dst_address_s_v : P) (out : P × P × Nat) (fee : Option Nat)
    (effective_tag byte : Nat) (address : P × P)
    (hok : (sign_add_output C px e change amount change_address_index dst_address_tag
      dst_address_s dst_address_s_v).1 = some (out, fee))
    (htag : effective_tag = if change = true then C.AccountAddressUnlinkable_type_tag
      else (sign_add_output C px e change amount change_address_index dst_address_tag
        dst_address_s dst_address_s_v).2.sign.dst_address_tag)
    (hbyte : byte = (output_secrets C e).2.2.headD 0)
    (haddress : address = if change = true then (prepare_address_public C e change_address_index).2
      else ((sign_add_output C px e change amount change_address_index dst_address_tag
          dst_address_s dst_address_s_v).2.sign.dst_address_s,
        (sign_add_output C px e change amount change_address_index dst_address_tag
          dst_address_s dst_address_s_v).2.sign.dst_address_s_v)) :
    (change = false →
      (sign_add_output C px e change amount change_address_index dst_address_tag
        dst_address_s dst_address_s_v).2.sign.destination
        = (true, dst_address_tag, dst_address_s, dst_address_s_v)) ∧
    out.2.2 = Nat.xor effective_tag byte ∧
    Nat.xor out.2.2 byte = effective_tag ∧
    (out.1, out.2.1) =
      (if effective_tag = C.AccountAddressSimple_type_tag then
        C.linkable_derive_output_public_key (output_secrets C e).1 e.sign.tx_inputs_hash
          e.sign.outputs_counter address.1 address.2
      else
        C.unlinkable_derive_output_public_key (output_secrets C e).2.1 e.sign.tx_inputs_hash
          e.sign.outputs_counter address.1 address.2) := by
  obtain ⟨-, hacc, -⟩ := sign_add_output_out C px e change amount change_address_index
    dst_address_tag dst_address_s dst_address_s_v out fee hok
  have hout := sign_add_output_account_out C e change amount change_address_index
    dst_address_tag dst_address_s dst_address_s_v out hacc
  have hdest : change = false →
      (sign_add_output C px e change amount change_address_index dst_address_tag
        dst_address_s dst_address_s_v).2.sign.destination
        = (true, dst_address_tag, dst_address_s, dst_address_s_v) := fun hc =>
    (sign_add_output_destination C px e change amount change_address_index dst_address_tag
      dst_address_s dst_address_s_v).2 hc (by rw [hok]; rfl)
  have hxor : ∀ t : Nat, Nat.xor (Nat.xor t byte) byte = t := fun t => Nat.xor_cancel_right byte t
  cases change with
  | true =>
    rw [if_pos rfl] at hout htag haddress
    subst htag hbyte haddress hout
    refine ⟨fun h => Bool.noConfusion h, rfl, hxor _, ?_⟩
    unfold derived_output
    dsimp only
  | false =>
    rw [if_neg (by decide)] at hout htag haddress
    have hd := hdest rfl
    simp only [SigningState.destination, Prod.mk.injEq] at hd
    rw [hd.2.1] at htag
    rw [hd.2.2.1, hd.2.2.2] at haddress
    subst htag hbyte haddress hout
    refine ⟨hdest, rfl, hxor _, ?_⟩
    unfold derived_output
    dsimp only

/-- On `Emulator.funded`: the non-change output to the simple address `(0, 4, 6)` is derived
linkably and masked to `0 XOR 212 = 212`; the change output is derived unlinkably on the change
subaddress and masked to `1 XOR 212 = 213`, although the caller passed the tag `7`. -/
theorem address_type_masking_witness :
    (sign_add_output Crypto.small none Emulator.funded false 900 0 0 4 6).1
      = some ((217, 219, 212), none) ∧
    (sign_add_output Crypto.small none Emulator.funded true 50 1 7 4 6).1
      = some ((423, 233, 213), none) ∧
    Nat.xor 212 212 = 0 ∧ Nat.xor 213 212 = 1 ∧
    ((217 : Int), (219 : Int)) = Crypto.small.linkable_derive_output_public_key
      (output_secrets Crypto.small Emulator.funded).1 Emulator.funded.sign.tx_inputs_hash
      Emulator.funded.sign.outputs_counter 4 6 ∧
    ((423 : Int), (233 : Int)) = Crypto.small.unlinkable_derive_output_public_key
      (output_secrets Crypto.small Emulator.funded).2.1 Emulator.funded.sign.tx_inputs_hash
      Emulator.funded.sign.outputs_counter 19 209 :=
  ⟨by decide, by decide,
    (address_type_masking Crypto.small none Emulator.funded false 900 0 0 4 6 (217, 219, 212)
      none 0 212 (4, 6) (by decide) (by decide) (by decide) (by decide)).2.2.1,
    (address_type_masking Crypto.small none Emulator.funded true 50 1 7 4 6 (423, 233, 213)
      none 1 212 (19, 209) (by decide) (by decide) (by decide) (by decide)).2.2.1,
    (address_type_masking Crypto.small none Emulator.funded false 900 0 0 4 6 (217, 219, 212)
      none 0 212 (4, 6) (by decide) (by decide) (by decide) (by decide)).2.2.2,
    (address_type_masking Crypto.small none Emulator.funded true 50 1 7 4 6 (423, 233, 213)
      none 1 212 (19, 209) (by decide) (by decide) (by decide) (by decide)).2.2.2⟩

theorem add_output_or_change_appends (C : Crypto S P) (e : Emulator S P) (amount tag : Nat)
    (s sv : P) :
    (add_output_or_change C e amount tag s sv).1.sign.tx_prefix_stream =
      e.sign.tx_prefix_stream ++
        output_record C amount (add_output_or_change C e amount tag s sv).2 := by
  unfold add_output_or_change output_record
  simp [KeccakStream.append, KeccakStream.append_varint, KeccakStream.append_byte]

theorem sign_add_output_dst_streams (C : Crypto S P) (e : Emulator S P) (amount : Nat) :
    (sign_add_output_dst C e amount).2.sign.tx_inputs_stream = e.sign.tx_inputs_stream ∧
    (sign_add_output_dst C e amount).2.sign.tx_prefix_hash = e.sign.tx_prefix_hash ∧
    (sign_add_output_dst C e amount).2.sign.tx_inputs_hash = e.sign.tx_inputs_hash ∧
    (sign_add_output_dst C e amount).2.sign.tx_prefix_stream =
      e.sign.tx_prefix_stream ++
        (match (sign_add_output_dst C e amount).1 with
          | none => []
          | some out => output_record C amount out) := by
  unfold sign_add_output_dst
  cases add_amount e.sign.dst_amount amount with
  | none => simp
  | some v =>
    dsimp only
    rw [add_output_or_change_appends]
    simp

/-- The transcripts after the accounting step of `sign_add_output`: when it returns an output,
the serialisation of that output is appended to the prefix transcript. -/
theorem sign_add_output_account_streams (C : Crypto S P) (e : Emulator S P) (change : Bool)
    (amount cai tag : Nat) (ds dsv : P) :
    (sign_add_output_account C e change amount cai tag ds dsv).2.sign.tx_inputs_stream
      = e.sign.tx_inputs_stream ∧
    (sign_add_output_account C e change amount cai tag ds dsv).2.sign.tx_prefix_hash
      = e.sign.tx_prefix_hash ∧
    (sign_add_output_account C e change amount cai tag ds dsv).2.sign.tx_inputs_hash
      = e.sign.tx_inputs_hash ∧
    (sign_add_output_account C e change amount cai tag ds dsv).2.sign.tx_prefix_stream =
      e.sign.tx_prefix_stream ++
        (match (sign_add_output_account C e change amount cai tag ds dsv).1 with
          | none => []
          | some out => output_record C amount out) := by
  unfold sign_add_output_account
  cases change with
  | true =>
    rw [if_pos rfl]
    cases add_amount e.sign.change_amount amount with
    | none => simp
    | some v =>
      dsimp only
      rw [add_output_or_change_appends]
      simp
  | false =>
    rw [if_neg (by decide)]
    by_cases hset : e.sign.dst_address_set = true
    · rw [if_neg (not_not.mpr hset)]
      split_ifs
      · exact sign_add_output_dst_streams C e amount
      · simp
    · rw [if_pos hset]
      exact sign_add_output_dst_streams C _ amount

/-- The transcripts after the tail of `sign_add_output`: `varint(extra_size)` is appended to the
prefix transcript exactly when the tail returns a fee. -/
theorem sign_add_output_finish_streams (C : Crypto S P) (e : Emulator S P) (out : P × P × Nat) :
    (sign_add_output_finish C e out).2.sign.tx_inputs_stream = e.sign.tx_inputs_stream ∧
    (sign_add_output_finish C e out).2.sign.tx_prefix_hash = e.sign.tx_prefix_hash ∧
    (sign_add_output_finish C e out).2.sign.tx_inputs_hash = e.sign.tx_inputs_hash ∧
    (sign_add_output_finish C e out).2.sign.tx_prefix_stream =
      e.sign.tx_prefix_stream ++
        (match (sign_add_output_finish C e out).1 with
          | some (_, some _) => C.get_varint_data e.sign.extra_size
          | _ => []) := by
  unfold sign_add_output_finish
  dsimp only
  split
  · simp
  · split
    · simp
    · split
      · simp
      · simp [KeccakStream.append_varint]

/-- The transcripts after `sign_add_output`: the inputs transcript and the two hashes are as
before; the prefix transcript of an accepted call has the serialisation of the returned output
appended and, when a fee is returned (on the last output), `varint(extra_size)` after it. -/
theorem sign_add_output_streams (C : Crypto S P) (px : Option (P × P × Nat)) (e : Emulator S P)
    (change : Bool) (amount cai tag : Nat) (ds dsv : P) :
    (sign_add_output C px e change amount cai tag ds dsv).2.sign.tx_inputs_stream
      = e.sign.tx_inputs_stream ∧
    (sign_add_output C px e change amount cai tag ds dsv).2.sign.tx_prefix_hash
      = e.sign.tx_prefix_hash ∧
    (sign_add_output C px e change amount cai tag ds dsv).2.sign.tx_inputs_hash
      = e.sign.tx_inputs_hash ∧
    (∀ out fee, (sign_add_output C px e change amount cai tag ds dsv).1 = some (out, fee) →
      (sign_add_output C px e change amount cai tag ds dsv).2.sign.tx_prefix_stream =
        e.sign.tx_prefix_stream ++ output_record C amount out ++
          (if fee.isSome = true then C.get_varint_data e.sign.extra_size else [])) ∧
    ((sign_add_output C px e change amount cai tag ds dsv).1 = none →
      (sign_add_output C px e change amount cai tag ds dsv).2.sign.tx_prefix_stream
          = e.sign.tx_prefix_stream ∨
      ∃ out, (sign_add_output_account C e change amount cai tag ds dsv).1 = some out ∧
        (sign_add_output C px e change amount cai tag ds dsv).2.sign.tx_prefix_stream
          = e.sign.tx_prefix_stream ++ output_record C amount out) := by
  obtain ⟨a1, a2, a3, a4⟩ := sign_add_output_account_streams C e change amount cai tag ds dsv
  have ashape := (sign_add_output_account_frame C e change amount cai tag ds dsv).2.1
  rw [sign_add_output_eq]
  by_cases hpos : e.sign.state = State.EXPECT_ADD_OUTPUT ∧
      e.sign.outputs_counter < e.sign.outputs_size
  · rw [if_pos hpos]
    cases hacc : (sign_add_output_account C e change amount cai tag ds dsv).1 with
    | none =>
      dsimp only
      rw [hacc] at a4
      refine ⟨a1, a2, a3, fun out fee h => Option.noConfusion h, fun _ => Or.inl ?_⟩
      rw [a4, List.append_nil]
    | some out =>
      dsimp only
      rw [hacc] at a4
      dsimp only at a4
      obtain ⟨f1, f2, f3, f4⟩ := sign_add_output_finish_streams C
        (sign_add_output_account C e change amount cai tag ds dsv).2 out
      by_cases hp : px = none ∨ px = some out
      · rw [if_pos hp]
        refine ⟨f1.trans a1, f2.trans a2, f3.trans a3, ?_, ?_⟩
        · intro own fee h
          have hown := sign_add_output_finish_fst C _ out own fee h
          subst hown
          rw [f4, h, a4, shape_extra_size ashape]
          cases fee <;> simp
        · intro h
          refine Or.inr ⟨out, rfl, ?_⟩
          rw [f4, h, a4, List.append_nil]
      · rw [if_neg hp]
        refine ⟨a1, a2, a3, fun own fee h => Option.noConfusion h, fun _ => Or.inr ⟨out, rfl, a4⟩⟩
  · rw [if_neg hpos]
    exact ⟨rfl, rfl, rfl, fun out fee h => Option.noConfusion h, fun _ => Or.inl rfl⟩

theorem sign_add_output_finish_none (C : Crypto S P) (e : Emulator S P) (out : P × P × Nat)
    (h : (sign_add_output_finish C e out).1 = none) :
    (sign_add_output_finish C e out).2.sign.state = e.sign.state ∧
    ¬ (sign_add_output_finish C e out).2.sign.outputs_counter <
      (sign_add_output_finish C e out).2.sign.outputs_size := by
  unfold sign_add_output_finish at h ⊢
  dsimp only at h ⊢
  by_cases hlt : wrap64 (e.sign.outputs_counter + 1) < e.sign.outputs_size
  · rw [if_pos hlt] at h
    exact Option.noConfusion h
  · rw [if_neg hlt] at h ⊢
    cases hadd : add_amount e.sign.dst_amount e.sign.change_amount with
    | none => exact ⟨rfl, hlt⟩
    | some v =>
      rw [hadd] at h
      dsimp only at h ⊢
      by_cases hge : e.sign.inputs_amount ≥ v
      · rw [if_neg (not_not.mpr hge)] at h
        exact Option.noConfusion h
      · rw [if_pos hge]
        exact ⟨rfl, hlt⟩

/-- A `sign_add_output` that throws with no proxy attached either leaves the prefix transcript,
the counter and the state as they were, or has counted the last output and leaves the session in
`EXPECT_ADD_OUTPUT` with no output left to add. -/
theorem sign_add_output_rejected (C : Crypto S P) (e : Emulator S P)
    (change : Bool) (amount cai tag : Nat) (ds dsv : P)
    (h : (sign_add_output C none e change amount cai tag ds dsv).1 = none) :
    ((sign_add_output C none e change amount cai tag ds dsv).2.sign.tx_prefix_stream
        = e.sign.tx_prefix_stream ∧
      (sign_add_output C none e change amount cai tag ds dsv).2.sign.outputs_counter
        = e.sign.outputs_counter ∧
      (sign_add_output C none e change amount cai tag ds dsv).2.sign.state = e.sign.state) ∨
    ((sign_add_output C none e change amount cai tag ds dsv).2.sign.state = e.sign.state ∧
      ¬ (sign_add_output C none e change amount cai tag ds dsv).2.sign.outputs_counter <
        (sign_add_output C none e change amount cai tag ds dsv).2.sign.outputs_size) := by
  obtain ⟨-, -, -, a4⟩ := sign_add_output_account_streams C e change amount cai tag ds dsv
  obtain ⟨-, ashape, -, -, -, astate, -, aoc, -⟩ :=
    sign_add_output_account_frame C e change amount cai tag ds dsv
  rw [sign_add_output_eq] at h ⊢
  by_cases hpos : e.sign.state = State.EXPECT_ADD_OUTPUT ∧
      e.sign.outputs_counter < e.sign.outputs_size
  · rw [if_pos hpos] at h ⊢
    cases hacc : (sign_add_output_account C e change amount cai tag ds dsv).1 with
    | none =>
      dsimp only
      rw [hacc] at a4
      exact Or.inl ⟨by rw [a4, List.append_nil], aoc, astate⟩
    | some out =>
      rw [hacc] at h
      dsimp only at h ⊢
      rw [if_pos (Or.inl rfl)] at h ⊢
      obtain ⟨n1, n2⟩ := sign_add_output_finish_none C _ out h
      exact Or.inr ⟨n1.trans astate, n2⟩
  · rw [if_neg hpos]
    exact Or.inl ⟨rfl, rfl, rfl⟩

/-- The transcripts after an accepted `sign_add_extra`. -/
theorem sign_add_extra_streams (C : Crypto S P) (e : Emulator S P) (chunk : BinaryArray)
    (hstate : e.sign.state = State.EXPECT_ADD_EXTRA_CHUNK)
    (hlen : wrap64 (e.sign.extra_counter + chunk.length) ≤ e.sign.extra_size) :
    (sign_add_extra C e chunk).2.sign.tx_prefix_stream = e.sign.tx_prefix_stream ++ chunk ∧
    (sign_add_extra C e chunk).2.sign.tx_inputs_hash = e.sign.tx_inputs_hash ∧
    (if wrap64 (e.sign.extra_counter + chunk.length) < e.sign.extra_size then
      (sign_add_extra C e chunk).2.sign.tx_prefix_hash = e.sign.tx_prefix_hash ∧
      (sign_add_extra C e chunk).2.sign.tx_inputs_stream = e.sign.tx_inputs_stream
    else
      (sign_add_extra C e chunk).2.sign.tx_prefix_hash
        = C.cn_fast_hash (e.sign.tx_prefix_stream ++ chunk) ∧
      (sign_add_extra C e chunk).2.sign.tx_inputs_stream
        = C.cn_fast_hash (e.sign.tx_prefix_stream ++ chunk)) := by
  unfold sign_add_extra
  rw [if_neg (not_not.mpr hstate), if_neg (not_not.mpr hlen)]
  dsimp only
  split_ifs <;> simp [KeccakStream.append]

/-- The signing rounds leave the prefix transcript and the two hashes as they are. -/
theorem sign_step_a_streams (C : Crypto S P) (px : Option (P × P × P)) (e : Emulator S P)
    (inv : S) (address_index : Nat) :
    (sign_step_a C px e inv address_index).2.sign.tx_prefix_stream = e.sign.tx_prefix_stream ∧
    (sign_step_a C px e inv address_index).2.sign.tx_prefix_hash = e.sign.tx_prefix_hash ∧
    (sign_step_a C px e inv address_index).2.sign.tx_inputs_hash = e.sign.tx_inputs_hash := by
  unfold sign_step_a sign_step_a_next
  dsimp only
  repeat' split
  all_goals simp

theorem sign_step_a_more_data_streams (e : Emulator S P) (data : BinaryArray) :
    (sign_step_a_more_data e data).2.sign.tx_prefix_stream = e.sign.tx_prefix_stream ∧
    (sign_step_a_more_data e data).2.sign.tx_prefix_hash = e.sign.tx_prefix_hash ∧
    (sign_step_a_more_data e data).2.sign.tx_inputs_hash = e.sign.tx_inputs_hash ∧
    (sign_step_a_more_data e data).2.sign.tx_inputs_stream =
      e.sign.tx_inputs_stream ++
        (if e.sign.state = State.EXPECT_STEP_A_MORE_DATA then data else []) := by
  unfold sign_step_a_more_data
  by_cases h : e.sign.state = State.EXPECT_STEP_A_MORE_DATA
  · rw [if_neg (not_not.mpr h), if_pos h]
    simp [KeccakStream.append]
  · rw [if_pos h, if_neg h]
    simp

theorem sign_get_c0_streams (C : Crypto S P) (px : Option S) (e : Emulator S P) :
    (sign_get_c0 C px e).2.sign.tx_prefix_stream = e.sign.tx_prefix_stream ∧
    (sign_get_c0 C px e).2.sign.tx_prefix_hash = e.sign.tx_prefix_hash ∧
    (sign_get_c0 C px e).2.sign.tx_inputs_hash = e.sign.tx_inputs_hash ∧
    (sign_get_c0 C px e).2.sign.tx_inputs_stream = e.sign.tx_inputs_stream := by
  unfold sign_get_c0
  dsimp only
  repeat' split
  all_goals simp

theorem sign_step_b_streams (C : Crypto S P) (px : Option (S × S × S)) (e : Emulator S P)
    (inv : S) (address_index : Nat) (my_c : S) :
    (sign_step_b C px e inv address_index my_c).2.sign.tx_prefix_stream
      = e.sign.tx_prefix_stream ∧
    (sign_step_b C px e inv address_index my_c).2.sign.tx_prefix_hash = e.sign.tx_prefix_hash ∧
    (sign_step_b C px e inv address_index my_c).2.sign.tx_inputs_hash = e.sign.tx_inputs_hash ∧
    (sign_step_b C px e inv address_index my_c).2.sign.tx_inputs_stream
      = e.sign.tx_inputs_stream := by
  unfold sign_step_b
  dsimp only
  repeat' split
  all_goals simp

theorem serialized_inputs_cons (C : Crypto S P) (ev : Event S P) (log : List (Event S P)) :
    serialized_inputs C (ev :: log) = serialized_inputs C [ev] ++ serialized_inputs C log := by
  show serialized_inputs C ([ev] ++ log) = _
  simp only [serialized_inputs, accepted, List.filter_append, List.flatMap_append]

theorem serialized_outputs_cons (C : Crypto S P) (ev : Event S P) (log : List (Event S P)) :
    serialized_outputs C (ev :: log) = serialized_outputs C [ev] ++ serialized_outputs C log := by
  show serialized_outputs C ([ev] ++ log) = _
  simp only [serialized_outputs, accepted, List.filter_append, List.flatMap_append]

theorem extra_chunks_cons (ev : Event S P) (log : List (Event S P)) :
    extra_chunks (ev :: log) = extra_chunks [ev] ++ extra_chunks log := by
  show extra_chunks ([ev] ++ log) = _
  simp only [extra_chunks, accepted, List.filter_append, List.flatMap_append]

/-- An event whose call threw contributes nothing to the serialisations. -/
theorem serialized_of_none (C : Crypto S P) (c : Call S P) (e e2 : Emulator S P) :
    serialized_inputs C [{ call := c, pre := e, result := none, post := e2 }] = [] ∧
    serialized_outputs C [{ call := c, pre := e, result := none, post := e2 }] = [] ∧
    extra_chunks [({ call := c, pre := e, result := none, post := e2 } : Event S P)] = [] := by
  simp [serialized_inputs, serialized_outputs, extra_chunks, accepted, Event.ok]

/-- The state of an accepted `sign_add_output`: `EXPECT_ADD_EXTRA_CHUNK` exactly when a fee is
returned. -/
theorem sign_add_output_accepted_state (C : Crypto S P) (px : Option (P × P × Nat))
    (e : Emulator S P) (change : Bool) (amount cai tag : Nat) (ds dsv : P) (out : P × P × Nat)
    (fee : Option Nat)
    (h : (sign_add_output C px e change amount cai tag ds dsv).1 = some (out, fee)) :
    (sign_add_output C px e change amount cai tag ds dsv).2.sign.state =
      (if fee.isSome = true then State.EXPECT_ADD_EXTRA_CHUNK else State.EXPECT_ADD_OUTPUT) ∧
    (fee.isSome = false →
      (sign_add_output C px e change amount cai tag ds dsv).2.sign.outputs_counter <
        (sign_add_output C px e change amount cai tag ds dsv).2.sign.outputs_size) := by
  obtain ⟨hpos, -, heq⟩ := sign_add_output_out C px e change amount cai tag ds dsv out fee h
  have astate := (sign_add_output_account_frame C e change amount cai tag ds dsv).2.2.2.2.2.1
  rw [heq] at h ⊢
  generalize (sign_add_output_account C e change amount cai tag ds dsv).2 = e1 at h astate ⊢
  unfold sign_add_output_finish at h ⊢
  dsimp only at h ⊢
  by_cases hlt : wrap64 (e1.sign.outputs_counter + 1) < e1.sign.outputs_size
  · rw [if_pos hlt] at h ⊢
    simp only [Option.some.injEq, Prod.mk.injEq] at h
    rw [← h.2]
    exact ⟨by rw [astate, hpos.1]; rfl, fun _ => hlt⟩
  · rw [if_neg hlt] at h ⊢
    cases hadd : add_amount e1.sign.dst_amount e1.sign.change_amount with
    | none => rw [hadd] at h; exact Option.noConfusion h
    | some v =>
      rw [hadd] at h
      dsimp only at h ⊢
      by_cases hge : e1.sign.inputs_amount ≥ v
      · rw [if_neg (not_not.mpr hge)] at h ⊢
        simp only [Option.some.injEq, Prod.mk.injEq] at h
        rw [← h.2]
        exact ⟨rfl, fun hh => Bool.noConfusion hh⟩
      · rw [if_pos hge] at h
        exact Option.noConfusion h

/-- After the outputs, the prefix phases say nothing more. -/
theorem prefixPhase_late (C : Crypto S P) (head : BinaryArray) (m x : Nat) (I O X : BinaryArray)
    (e : Emulator S P) (hm : e.sign.outputs_size = m) (hx : e.sign.extra_size = x)
    (h : 3 ≤ e.sign.state.rank) : PrefixPhase C head m x I O X e := by
  refine ⟨hm, hx, ?_⟩
  cases hs : e.sign.state <;> rw [hs] at h <;> simp [State.rank] at h <;> trivial

theorem serialized_of_rejected (C : Crypto S P) (e : Emulator S P) (c : Call S P)
    (h : (step C e c).1 = none) :
    serialized_inputs C [event C e c] = [] ∧ serialized_outputs C [event C e c] = [] ∧
    extra_chunks [event C e c] = [] := by
  simp [event, serialized_inputs, serialized_outputs, extra_chunks, accepted, Event.ok, h]

theorem prefixPhase_step (C : Crypto S P) (head : BinaryArray) (m x : Nat) (I O X : BinaryArray)
    (e : Emulator S P) (c : Call S P) (hc : c.inSession = true)
    (hnp : c.isAddOutput = true → c.noProxy = true) (h : PrefixPhase C head m x I O X e) :
    PrefixPhase C head m x
      (I ++ serialized_inputs C [event C e c]) (O ++ serialized_outputs C [event C e c])
      (X ++ extra_chunks [event C e c]) (step C e c).2 := by
  obtain ⟨hm, hx, hmatch⟩ := h
  have hshape := (step_frame C e c hc).2.1
  have hm2 : (step C e c).2.sign.outputs_size = m := by rw [shape_outputs_size hshape, hm]
  have hx2 : (step C e c).2.sign.extra_size = x := by rw [shape_extra_size hshape, hx]
  have hkeep : step C e c = (none, e) → PrefixPhase C head m x
      (I ++ serialized_inputs C [event C e c]) (O ++ serialized_outputs C [event C e c])
      (X ++ extra_chunks [event C e c]) (step C e c).2 := by
    intro hs
    obtain ⟨z1, z2, z3⟩ := serialized_of_rejected C e c (by rw [hs])
    rw [z1, z2, z3, List.append_nil, List.append_nil, List.append_nil, hs]
    exact ⟨hm, hx, hmatch⟩
  by_cases hlate : 3 ≤ e.sign.state.rank
  · exact prefixPhase_late C head m x _ _ _ _ hm2 hx2
      (le_trans hlate (step_rank_mono C e c hc))
  by_cases hexp : expected_position c e.sign
  swap
  · exact hkeep (step_unexpected C e c hexp)
  cases c with
  | sign_start => simp [Call.inSession] at hc
  | proof_start => simp [Call.inSession] at hc
  | sign_add_input amount idx inv ai =>
    simp only [expected_position] at hexp
    rw [hexp.1] at hmatch
    dsimp only at hmatch
    cases hadd : add_amount e.sign.inputs_amount amount with
    | none =>
      apply hkeep
      simp only [step, sign_add_input_fail C e amount idx inv ai (Or.inr hadd)]
      rfl
    | some v =>
      obtain ⟨-, s2, -, -⟩ := sign_add_input_streams C e amount idx inv ai v hexp hadd
      obtain ⟨o1, -, -, o4⟩ := sign_add_input_ok C e amount idx inv ai v hexp hadd
      have hr : (step C e (Call.sign_add_input amount idx inv ai)).1 = some Output.done := by
        simp only [step, o1]
        rfl
      have he : (step C e (Call.sign_add_input amount idx inv ai)).2
          = (sign_add_input C e amount idx inv ai).2 := rfl
      have cI : serialized_inputs C [event C e (Call.sign_add_input amount idx inv ai)]
          = input_record C e amount idx inv ai := by
        simp [event, serialized_inputs, accepted, Event.ok, Event.input_bytes, Call.isAddInput,
          hr]
      have cO : serialized_outputs C [event C e (Call.sign_add_input amount idx inv ai)]
          = [] := by
        simp [event, serialized_outputs, accepted, Call.isAddOutput]
      have cX : extra_chunks [event C e (Call.sign_add_input amount idx inv ai)] = [] := by
        simp [event, extra_chunks, accepted, Call.isAddExtra]
      rw [cI, cO, cX]
      refine ⟨hm2, hx2, ?_⟩
      rw [he, o4]
      by_cases hlt : wrap64 (e.sign.inputs_counter + 1) < e.sign.inputs_size
      · rw [if_pos hlt]
        dsimp only
        rw [s2, if_pos hlt, hmatch.1, hmatch.2.1, hmatch.2.2]
        simp
      · rw [if_neg hlt]
        dsimp only
        rw [s2, if_neg hlt, hmatch.1, hmatch.2.1, hmatch.2.2, hm]
        simp
  | sign_add_output px change amount cai tag ds dsv =>
    have hnp := hnp rfl
    simp only [Call.noProxy, Option.isNone_iff_eq_none] at hnp
    subst hnp
    simp only [expected_position] at hexp
    rw [hexp.1] at hmatch
    dsimp only at hmatch
    have he : (step C e (Call.sign_add_output none change amount cai tag ds dsv)).2
        = (sign_add_output C none e change amount cai tag ds dsv).2 := rfl
    cases hres : (sign_add_output C none e change amount cai tag ds dsv).1 with
    | none =>
      have hr : (step C e (Call.sign_add_output none change amount cai tag ds dsv)).1 = none := by
        simp only [step, hres]
        rfl
      obtain ⟨z1, z2, z3⟩ := serialized_of_rejected C e _ hr
      rw [z1, z2, z3, List.append_nil, List.append_nil, List.append_nil]
      refine ⟨hm2, hx2, ?_⟩
      rw [he]
      rcases sign_add_output_rejected C e change amount cai tag ds dsv hres with
        ⟨r1, r2, r3⟩ | ⟨r3, r4⟩
      · rw [r3, hexp.1]
        dsimp only
        refine ⟨hmatch.1, fun _ => ?_⟩
        rw [r1]
        exact hmatch.2 hexp.2
      · rw [r3, hexp.1]
        dsimp only
        exact ⟨hmatch.1, fun hh => absurd hh r4⟩
    | some of =>
      obtain ⟨out, fee⟩ := of
      obtain ⟨-, -, -, s4, -⟩ := sign_add_output_streams C none e change amount cai tag ds dsv
      have s4 := s4 out fee hres
      obtain ⟨t1, t2⟩ := sign_add_output_accepted_state C none e change amount cai tag ds dsv
        out fee hres
      have hr : (step C e (Call.sign_add_output none change amount cai tag ds dsv)).1
          = some (Output.output out.1 out.2.1 out.2.2 fee) := by
        simp only [step, hres]
        rfl
      have cI : serialized_inputs C
          [event C e (Call.sign_add_output none change amount cai tag ds dsv)] = [] := by
        simp [event, serialized_inputs, accepted, Call.isAddInput]
      have cO : serialized_outputs C
          [event C e (Call.sign_add_output none change amount cai tag ds dsv)]
          = output_record C amount out := by
        simp [event, serialized_outputs, accepted, Event.ok, Event.output_bytes,
          Call.isAddOutput, hr]
      have cX : extra_chunks
          [event C e (Call.sign_add_output none change amount cai tag ds dsv)] = [] := by
        simp [event, extra_chunks, accepted, Call.isAddExtra]
      rw [cI, cO, cX]
      refine ⟨hm2, hx2, ?_⟩
      rw [he, t1]
      cases fee with
      | none =>
        dsimp only [Option.isSome]
        rw [if_neg (by decide)]
        dsimp only
        refine ⟨by rw [hmatch.1]; rfl, fun _ => ?_⟩
        rw [s4, hmatch.2 hexp.2]
        simp
      | some f =>
        dsimp only [Option.isSome]
        rw [if_pos rfl]
        dsimp only
        rw [s4, hmatch.2 hexp.2, hmatch.1, hx]
        simp
  | sign_add_extra chunk =>
    simp only [expected_position] at hexp
    rw [hexp] at hmatch
    dsimp only at hmatch
    by_cases hlen : wrap64 (e.sign.extra_counter + chunk.length) ≤ e.sign.extra_size
    · obtain ⟨s1, -, -⟩ := sign_add_extra_streams C e chunk hexp hlen
      obtain ⟨o1, -, -, o4, -⟩ := sign_add_extra_ok C e chunk hexp hlen
      have hr : (step C e (Call.sign_add_extra chunk)).1 = some Output.done := by
        simp only [step, o1]
        rfl
      have he : (step C e (Call.sign_add_extra chunk)).2 = (sign_add_extra C e chunk).2 := rfl
      have cI : serialized_inputs C [event C e (Call.sign_add_extra chunk)] = [] := by
        simp [event, serialized_inputs, accepted, Call.isAddInput]
      have cO : serialized_outputs C [event C e (Call.sign_add_extra chunk)] = [] := by
        simp [event, serialized_outputs, accepted, Call.isAddOutput]
      have cX : extra_chunks [event C e (Call.sign_add_extra chunk)] = chunk := by
        simp [event, extra_chunks, accepted, Event.ok, Event.extra_bytes, Call.isAddExtra, hr]
      rw [cI, cO, cX]
      refine ⟨hm2, hx2, ?_⟩
      rw [he, o4]
      split_ifs
      · dsimp only
        rw [s1, hmatch]
        simp
      · trivial
    · apply hkeep
      simp only [step, sign_add_extra_fail C e chunk (fun hh => hlen hh.2)]
      rfl
  | sign_step_a px inv ai =>
    exfalso
    simp only [expected_position] at hexp
    rcases hexp with ⟨h1, -⟩ | ⟨h1, -⟩ <;> rw [h1] at hlate <;> exact hlate (by decide)
  | sign_step_a_more_data data =>
    exfalso
    simp only [expected_position] at hexp
    rw [hexp] at hlate
    exact hlate (by decide)
  | sign_get_c0 px =>
    exfalso
    simp only [expected_position] at hexp
    rw [hexp.1] at hlate
    exact hlate (by decide)
  | sign_step_b px inv ai my_c =>
    exfalso
    simp only [expected_position] at hexp
    rw [hexp.1] at hlate
    exact hlate (by decide)

theorem append_to_last_round (R : List BinaryArray) (d : BinaryArray) (h : R ≠ []) :
    (R.dropLast ++ [R.getLast?.getD [] ++ d]).length = R.length ∧
    (R.dropLast ++ [R.getLast?.getD [] ++ d]).flatten = R.flatten ++ d := by
  obtain ⟨init, last, rfl⟩ : ∃ init last, R = init ++ [last] :=
    ⟨R.dropLast, R.getLast h, (List.dropLast_append_getLast h).symm⟩
  simp

theorem rounds_record_rejected (C : Crypto S P) (R : List BinaryArray) (e : Emulator S P)
    (c : Call S P) (h : (step C e c).1 = none) : rounds_record C R (event C e c) = R := by
  simp [rounds_record, event, Event.ok, h]

theorem roundsPhase_late (n : Nat) (R : List BinaryArray) (e : Emulator S P)
    (hn : e.sign.inputs_size = n) (h : 5 ≤ e.sign.state.rank) : RoundsPhase n R e := by
  refine ⟨hn, ?_⟩
  cases hs : e.sign.state <;> rw [hs] at h <;> simp [State.rank] at h <;> trivial

theorem roundsPhase_step (C : Crypto S P) (n : Nat) (hn : n ≤ UINT64_MAX) (R : List BinaryArray)
    (e : Emulator S P) (c : Call S P) (hc : c.inSession = true) (hnp : c.noProxy = true)
    (h : RoundsPhase n R e) :
    RoundsPhase n (rounds_record C R (event C e c)) (step C e c).2 := by
  obtain ⟨hsize, hmatch⟩ := h
  have hshape := (step_frame C e c hc).2.1
  have hsize2 : (step C e c).2.sign.inputs_size = n := by rw [shape_inputs_size hshape, hsize]
  have hkeep : step C e c = (none, e) →
      RoundsPhase n (rounds_record C R (event C e c)) (step C e c).2 := by
    intro hs
    rw [rounds_record_rejected C R e c (by rw [hs]), hs]
    exact ⟨hsize, hmatch⟩
  by_cases hlate : 5 ≤ e.sign.state.rank
  · exact roundsPhase_late n _ _ hsize2 (le_trans hlate (step_rank_mono C e c hc))
  by_cases hexp : expected_position c e.sign
  swap
  · exact hkeep (step_unexpected C e c hexp)
  cases c with
  | sign_start => simp [Call.inSession] at hc
  | proof_start => simp [Call.inSession] at hc
  | sign_add_input amount idx inv ai =>
    simp only [expected_position] at hexp
    rw [hexp.1] at hmatch
    dsimp only at hmatch
    have hR : rounds_record C R (event C e (Call.sign_add_input amount idx inv ai)) = R := by
      simp only [rounds_record, event]
      split_ifs <;> rfl
    rw [hR]
    refine ⟨hsize2, ?_⟩
    have he : (step C e (Call.sign_add_input amount idx inv ai)).2
        = (sign_add_input C e amount idx inv ai).2 := rfl
    rw [he]
    cases hadd : add_amount e.sign.inputs_amount amount with
    | none =>
      rw [sign_add_input_fail C e amount idx inv ai (Or.inr hadd), hexp.1]
      exact hmatch
    | some v =>
      obtain ⟨-, -, -, o4⟩ := sign_add_input_ok C e amount idx inv ai v hexp hadd
      rw [o4]
      split_ifs <;> exact hmatch
  | sign_add_output px change amount cai tag ds dsv =>
    simp only [expected_position] at hexp
    rw [hexp.1] at hmatch
    dsimp only at hmatch
    have hR : rounds_record C R
        (event C e (Call.sign_add_output px change amount cai tag ds dsv)) = R := by
      simp only [rounds_record, event]
      split_ifs <;> rfl
    rw [hR]
    refine ⟨hsize2, ?_⟩
    have he : (step C e (Call.sign_add_output px change amount cai tag ds dsv)).2
        = (sign_add_output C px e change amount cai tag ds dsv).2 := rfl
    rw [he]
    rcases sign_add_output_state C px e change amount cai tag ds dsv with h1 | ⟨-, h1⟩
    · rw [h1, hexp.1]
      exact hmatch
    · rw [h1]
      exact hmatch
  | sign_add_extra chunk =>
    simp only [expected_position] at hexp
    rw [hexp] at hmatch
    dsimp only at hmatch
    have hR : rounds_record C R (event C e (Call.sign_add_extra chunk)) = R := by
      simp only [rounds_record, event]
      split_ifs <;> rfl
    rw [hR]
    by_cases hlen : wrap64 (e.sign.extra_counter + chunk.length) ≤ e.sign.extra_size
    · obtain ⟨-, -, s3⟩ := sign_add_extra_streams C e chunk hexp hlen
      obtain ⟨-, -, -, o4, o5⟩ := sign_add_extra_ok C e chunk hexp hlen
      refine ⟨hsize2, ?_⟩
      have he : (step C e (Call.sign_add_extra chunk)).2 = (sign_add_extra C e chunk).2 := rfl
      rw [he, o4]
      by_cases hlt : wrap64 (e.sign.extra_counter + chunk.length) < e.sign.extra_size
      · rw [if_pos hlt]
        exact hmatch
      · rw [if_neg hlt] at s3 o5 ⊢
        dsimp only
        exact ⟨hmatch, o5, by rw [s3.2, s3.1]⟩
    · have hs : step C e (Call.sign_add_extra chunk) = (none, e) := by
        simp only [step, sign_add_extra_fail C e chunk (fun hh => hlen hh.2)]
        rfl
      rw [hs]
      refine ⟨hsize, ?_⟩
      rw [hexp]
      exact hmatch
  | sign_step_a px inv ai =>
    simp only [Call.noProxy, Option.isNone_iff_eq_none] at hnp
    subst hnp
    simp only [expected_position] at hexp
    obtain ⟨a1, a2, a3, a4, -, -, -, a8⟩ := sign_step_a_ok C none e inv ai hexp
    obtain ⟨-, t2, -⟩ := sign_step_a_streams C none e inv ai
    have he : (step C e (Call.sign_step_a none inv ai)).2 = (sign_step_a C none e inv ai).2 :=
      rfl
    have hr : (step C e (Call.sign_step_a none inv ai)).1.isSome = true := by
      simp only [step, Option.isSome_map']
      exact a8 rfl
    have hidx : step_a_index e.sign = R.length ∧
        (R = [] ∨ R.length = e.sign.inputs_counter + 1) ∧
        e.sign.tx_inputs_stream = e.sign.tx_prefix_hash ++ R.flatten := by
      rcases hexp with ⟨h1, h2⟩ | ⟨h1, h2⟩
      · rw [h1] at hmatch
        dsimp only at hmatch
        obtain ⟨m1, m2, m3⟩ := hmatch
        subst m1
        refine ⟨?_, Or.inl rfl, by simp [m3]⟩
        rw [step_a_index, if_neg (by rw [h1]; decide), m2]
        rfl
      · rw [h1] at hmatch
        dsimp only at hmatch
        obtain ⟨m1, m2, m3⟩ := hmatch
        refine ⟨?_, Or.inr m1, m3⟩
        rw [step_a_index, if_pos h1, m1]
        exact wrap64_of_le _ (by omega)
    obtain ⟨i1, i2, i3⟩ := hidx
    have hR : rounds_record C R (event C e (Call.sign_step_a none inv ai)) =
        R ++ [C.point_data (step_a_values C e R.length inv ai).p ++
          C.point_data (step_a_values C e R.length inv ai).z] := by
      simp only [rounds_record, event, Event.ok, hr, if_true]
    rw [hR]
    refine ⟨hsize2, ?_⟩
    rw [he, a1]
    dsimp only
    rw [a2, a4, t2, i1, i3]
    rw [i1, hsize] at a3
    exact ⟨by simp, a3, by simp⟩
  | sign_step_a_more_data data =>
    simp only [expected_position] at hexp
    rw [hexp] at hmatch
    dsimp only at hmatch
    obtain ⟨m1, m2, m3⟩ := hmatch
    obtain ⟨-, -, -, -, -, -, -, -, f9, f10, -, -, f13⟩ := sign_step_a_more_data_frame e data
    obtain ⟨-, t2, -, t4⟩ := sign_step_a_more_data_streams e data
    have he : (step C e (Call.sign_step_a_more_data data)).2 = (sign_step_a_more_data e data).2 :=
      rfl
    have hr : (step C e (Call.sign_step_a_more_data data)).1.isSome = true := by
      simp only [step, Option.isSome_map']
      exact f13.mpr hexp
    have hne : R ≠ [] := by
      intro hnil
      rw [hnil] at m1
      simp at m1
    obtain ⟨l1, l2⟩ := append_to_last_round R data hne
    have hR : rounds_record C R (event C e (Call.sign_step_a_more_data data)) =
        R.dropLast ++ [R.getLast?.getD [] ++ data] := by
      simp only [rounds_record, event, Event.ok, hr, if_true]
    rw [hR]
    refine ⟨hsize2, ?_⟩
    rw [he, f9, hexp]
    dsimp only
    rw [f10, t4, if_pos hexp, t2, l1, l2, m3]
    exact ⟨m1, m2, by simp⟩
  | sign_get_c0 px =>
    simp only [expected_position] at hexp
    have he : (step C e (Call.sign_get_c0 px)).2 = (sign_get_c0 C px e).2 := rfl
    apply roundsPhase_late n _ _ hsize2
    rw [he, (sign_get_c0_ok C px e hexp).1]
    decide
  | sign_step_b px inv ai my_c =>
    exfalso
    simp only [expected_position] at hexp
    rw [hexp.1] at hlate
    exact hlate (by decide)

theorem roundsPhase_run (C : Crypto S P) (n : Nat) (hn : n ≤ UINT64_MAX) (cs : List (Call S P)) :
    ∀ (R : List BinaryArray) (e : Emulator S P), (∀ c ∈ cs, c.inSession = true) →
      (∀ c ∈ cs, c.noProxy = true) → RoundsPhase n R e →
      RoundsPhase n ((trace C e cs).foldl (rounds_record C) R) (run C e cs) := by
  induction cs with
  | nil => intro R e _ _ h; exact h
  | cons c rest ih =>
    intro R e hcs hnp h
    exact ih _ _ (fun c2 h2 => hcs c2 (List.mem_cons_of_mem _ h2))
      (fun c2 h2 => hnp c2 (List.mem_cons_of_mem _ h2))
      (roundsPhase_step C n hn R e c (hcs c (List.mem_cons_self _ _))
        (hnp c (List.mem_cons_self _ _)) h)

/-- A session just opened by `sign_start` or `proof_start` has no round yet. -/
theorem roundsPhase_opening (C : Crypto S P) (e : Emulator S P) (opening : Call S P)
    (hopening : opening.inSession = false) (hopened : (step C e opening).1.isSome = true) :
    RoundsPhase (step C e opening).2.sign.inputs_size [] (step C e opening).2 := by
  refine ⟨rfl, ?_⟩
  cases opening with
  | sign_start version ut n m x =>
    have hne : ¬ (n = 0 ∨ m = 0 ∨ version = 0) := by
      intro h
      simp only [step, ((sign_start_spec C e version ut n m x).1).mpr h] at hopened
      exact Bool.noConfusion hopened
    have hspec := (sign_start_spec C e version ut n m x).2
    rw [if_neg hne] at hspec
    simp only [step, hspec]
  | proof_start data =>
    simp only [step, proof_start_eq]
    exact ⟨trivial, rfl, trivial⟩
  | sign_add_input => simp [Call.inSession] at hopening
  | sign_add_output => simp [Call.inSession] at hopening
  | sign_add_extra => simp [Call.inSession] at hopening
  | sign_step_a => simp [Call.inSession] at hopening
  | sign_step_a_more_data => simp [Call.inSession] at hopening
  | sign_get_c0 => simp [Call.inSession] at hopening
  | sign_step_b => simp [Call.inSession] at hopening

/-- C11 (challenge composition): in a session opened by `sign_start` or `proof_start` and driven
by calls of session operations with no proxy attached (`inputs_size` of type `size_t`), when
`sign_get_c0` returns `c`, then `c = hash_to_scalar(T)` with `T = tx_prefix_hash ‖` the rounds of
the log: one round per input `k = 0 .. inputs_size - 1`, in order, each `p_k ‖ z_k ‖` the data
passed to `sign_step_a_more_data` for input `k` in call order; `c` is stored in `c0`,
`inputs_counter` is set to 0 and the state to `EXPECT_STEP_B`, and `tx_prefix_hash`, the declared
sizes and the amounts are left unchanged. -/
theorem challenge_composition (C : Crypto S P) (e : Emulator S P) (opening : Call S P)
    (cs : List (Call S P)) (session pre : Emulator S P) (R : List BinaryArray) (px : Option S)
    (c : S)
    (hopening : opening.inSession = false) (hopened : (step C e opening).1.isSome = true)
    (hsession : session = (step C e opening).2)
    (hn : session.sign.inputs_size ≤ UINT64_MAX)
    (hcs : ∀ c ∈ cs, c.inSession = true) (hnp : ∀ c ∈ cs, c.noProxy = true)
    (hpre : pre = run C session cs) (hR : R = rounds C (trace C session cs))
    (hok : (sign_get_c0 C px pre).1 = some c) :
    c = C.hash_to_scalar (pre.sign.tx_prefix_hash ++ R.flatten) ∧
    R.length = pre.sign.inputs_size ∧
    (sign_get_c0 C px pre).2.sign.c0 = c ∧
    (sign_get_c0 C px pre).2.sign.inputs_counter = 0 ∧
    (sign_get_c0 C px pre).2.sign.state = State.EXPECT_STEP_B ∧
    (sign_get_c0 C px pre).2.sign.tx_prefix_hash = pre.sign.tx_prefix_hash ∧
    (sign_get_c0 C px pre).2.sign.shape = pre.sign.shape ∧
    (sign_get_c0 C px pre).2.sign.amounts = pre.sign.amounts := by
  subst hsession hpre hR
  have hinv := roundsPhase_run C _ hn cs [] _ hcs hnp (roundsPhase_opening C e opening hopening
    hopened)
  have hpos : (run C (step C e opening).2 cs).sign.state = State.EXPECT_STEP_A_MORE_DATA ∧
      wrap64 ((run C (step C e opening).2 cs).sign.inputs_counter + 1) =
        (run C (step C e opening).2 cs).sign.inputs_size := by
    by_contra hp
    rw [sign_get_c0_fail C px _ hp] at hok
    exact Option.noConfusion hok
  obtain ⟨g1, g2, g3, g4, -⟩ := sign_get_c0_ok C px _ hpos
  obtain ⟨-, -, -, f4, -, -, f7, -, -, -⟩ := sign_get_c0_frame C px (run C (step C e opening).2 cs)
  obtain ⟨-, t2, -, -⟩ := sign_get_c0_streams C px (run C (step C e opening).2 cs)
  obtain ⟨hsize, hmatch⟩ := hinv
  rw [hpos.1] at hmatch
  dsimp only at hmatch
  obtain ⟨m1, m2, m3⟩ := hmatch
  have hc : c = C.hash_to_scalar (run C (step C e opening).2 cs).sign.tx_inputs_stream := by
    rcases g4 with g4 | g4
    · rw [g4] at hok
      exact Option.noConfusion hok
    · rw [g4] at hok
      exact (Option.some.inj hok).symm
  have hw : wrap64 ((run C (step C e opening).2 cs).sign.inputs_counter + 1)
      = (run C (step C e opening).2 cs).sign.inputs_counter + 1 :=
    wrap64_of_le _ (by omega)
  refine ⟨?_, ?_, by rw [g3, hc], g2, g1, t2, f4, f7⟩
  · rw [hc, m3]
    rfl
  · show ((trace C (step C e opening).2 cs).foldl (rounds_record C) []).length = _
    rw [m1, ← hpos.2, hw]

/-- The session of `two_rounds`: two rounds, `p_0 ‖ z_0 ‖ 9 ‖ 8` and `p_1 ‖ z_1 ‖ 7`, after the
prefix hash `[136]`; `sign_get_c0` returns the hash of these bytes. -/
theorem challenge_composition_witness :
    rounds Crypto.small
      (trace Crypto.small (step Crypto.small Emulator.small (Call.sign_start 2 0 2 1 0)).2
        two_rounds) = [[106, 2, 9, 8], [15, 11, 7]] ∧
    (run Crypto.small (step Crypto.small Emulator.small (Call.sign_start 2 0 2 1 0)).2
      two_rounds).sign.tx_prefix_hash = [136] ∧
    (sign_get_c0 Crypto.small none
      (run Crypto.small (step Crypto.small Emulator.small (Call.sign_start 2 0 2 1 0)).2
        two_rounds)).1 = some 295 ∧
    (295 : Int) = Crypto.small.hash_to_scalar
      ((run Crypto.small (step Crypto.small Emulator.small (Call.sign_start 2 0 2 1 0)).2
        two_rounds).sign.tx_prefix_hash ++
      (rounds Crypto.small
        (trace Crypto.small (step Crypto.small Emulator.small (Call.sign_start 2 0 2 1 0)).2
          two_rounds)).flatten) :=
  ⟨by decide, by decide, by decide,
    (challenge_composition Crypto.small Emulator.small (Call.sign_start 2 0 2 1 0) two_rounds
      _ _ _ none 295 rfl (by decide) rfl (by decide) (by decide) (by decide) rfl rfl
      (by decide)).1⟩

/-- C19, as amended (no secret in the session transcripts): what each operation appends to the
two session transcripts `tx_prefix_stream` and `tx_inputs_stream` is, for every emulator and
every argument, whether the call returns or throws: `sign_start`, three varints of the shape
(fresh transcripts); `sign_add_input`, the input record (type tag, varints of the amount and of
the output indexes, key image) and `varint(outputs_size)`; `sign_add_output`, the output record
(type tag, varint of the amount, the derived public key and encrypted secret, the masked address
type) and `varint(extra_size)`; `sign_add_extra`, the caller's chunk, and the prefix hash as new
inputs transcript; `sign_step_a`, the points `p` and `z`; `sign_step_a_more_data`, the caller's
data; `proof_start`, the byte 0, the caller's data and the hash of them; `sign_get_c0`,
`sign_step_b` and `generate_keyimage`, nothing.  None of these is the serialisation of
`spend_secret_key`, `audit_base_secret_key` or `view_secret_key`.  The serialisation of a secret
key enters only the local `KeccakStream` of `generate_sign_secret` (the spend secret key, hashed
to a nonce) and of `export_view_only` (the audit base and view secret keys, hashed for the
signature). -/
theorem session_transcripts_hold_no_secret (C : Crypto S P) (e : Emulator S P) :
    (∀ version ut n m x,
      sign_start C e version ut n m x = (none, e) ∨
      ((sign_start C e version ut n m x).2.sign.tx_prefix_stream =
          C.get_varint_data version ++ C.get_varint_data ut ++ C.get_varint_data n ∧
        (sign_start C e version ut n m x).2.sign.tx_inputs_stream = C.get_varint_data n)) ∧
    (∀ amount idx inv ai,
      sign_add_input C e amount idx inv ai = (none, e) ∨
      ((sign_add_input C e amount idx inv ai).2.sign.tx_inputs_stream =
          e.sign.tx_inputs_stream ++ input_record C e amount idx inv ai ∧
        ((sign_add_input C e amount idx inv ai).2.sign.tx_prefix_stream =
            e.sign.tx_prefix_stream ++ input_record C e amount idx inv ai ∨
          (sign_add_input C e amount idx inv ai).2.sign.tx_prefix_stream =
            e.sign.tx_prefix_stream ++ input_record C e amount idx inv ai ++
              C.get_varint_data e.sign.outputs_size))) ∧
    (∀ px change amount cai tag ds dsv (out : P × P × Nat),
      out = (if change = true then
          derived_output C e C.AccountAddressUnlinkable_type_tag
            (prepare_address_public C e cai).2.1 (prepare_address_public C e cai).2.2
        else derived_output C e tag ds dsv) →
      (sign_add_output C px e change amount cai tag ds dsv).2.sign.tx_inputs_stream
        = e.sign.tx_inputs_stream ∧
      ((sign_add_output C px e change amount cai tag ds dsv).2.sign.tx_prefix_stream
          = e.sign.tx_prefix_stream ∨
        (sign_add_output C px e change amount cai tag ds dsv).2.sign.tx_prefix_stream
          = e.sign.tx_prefix_stream ++ output_record C amount out ∨
        (sign_add_output C px e change amount cai tag ds dsv).2.sign.tx_prefix_stream
          = e.sign.tx_prefix_stream ++ output_record C amount out ++
            C.get_varint_data e.sign.extra_size)) ∧
    (∀ chunk,
      sign_add_extra C e chunk = (none, e) ∨
      ((sign_add_extra C e chunk).2.sign.tx_prefix_stream = e.sign.tx_prefix_stream ++ chunk ∧
        ((sign_add_extra C e chunk).2.sign.tx_inputs_stream = e.sign.tx_inputs_stream ∨
          (sign_add_extra C e chunk).2.sign.tx_inputs_stream
            = C.cn_fast_hash (e.sign.tx_prefix_stream ++ chunk)))) ∧
    (∀ px inv ai,
      (sign_step_a C px e inv ai).2.sign.tx_prefix_stream = e.sign.tx_prefix_stream ∧
      ((sign_step_a C px e inv ai).2.sign.tx_inputs_stream = e.sign.tx_inputs_stream ∨
        (sign_step_a C px e inv ai).2.sign.tx_inputs_stream =
          e.sign.tx_inputs_stream ++
            C.point_data (step_a_values C e (step_a_index e.sign) inv ai).p ++
            C.point_data (step_a_values C e (step_a_index e.sign) inv ai).z)) ∧
    (∀ data,
      (sign_step_a_more_data e data).2.sign.tx_prefix_stream = e.sign.tx_prefix_stream ∧
      ((sign_step_a_more_data e data).2.sign.tx_inputs_stream = e.sign.tx_inputs_stream ∨
        (sign_step_a_more_data e data).2.sign.tx_inputs_stream
          = e.sign.tx_inputs_stream ++ data)) ∧
    (∀ px,
      (sign_get_c0 C px e).2.sign.tx_prefix_stream = e.sign.tx_prefix_stream ∧
      (sign_get_c0 C px e).2.sign.tx_inputs_stream = e.sign.tx_inputs_stream) ∧
    (∀ px inv ai my_c,
      (sign_step_b C px e inv ai my_c).2.sign.tx_prefix_stream = e.sign.tx_prefix_stream ∧
      (sign_step_b C px e inv ai my_c).2.sign.tx_inputs_stream = e.sign.tx_inputs_stream) ∧
    (∀ data,
      (proof_start C e data).2.sign.tx_prefix_stream = 0 :: data ∧
      (proof_start C e data).2.sign.tx_inputs_stream = C.cn_fast_hash (0 :: data)) ∧
    (∀ px output_public_key inv ai,
      (generate_keyimage C px e output_public_key inv ai).2.sign = e.sign) ∧
    (∀ i secret_name,
      generate_sign_secret C e i secret_name
        = C.hash_to_scalar (generate_sign_secret_stream C e i secret_name) ∧
      generate_sign_secret_stream C e i secret_name =
        e.sign.random_seed ++ C.scalar_data e.m_spend_secret_key ++
          [secret_name.1.toNat, secret_name.2.toNat] ++ C.get_varint_data i) ∧
    export_view_only_stream C e =
      C.scalar_data e.m_audit_key_base_secret_key ++ C.scalar_data e.m_view_secret_key := by
  refine ⟨?_, ?_, ?_, ?_, ?_, ?_, ?_, ?_, ?_, ?_, ?_, ?_⟩
  · intro version ut n m x
    have hspec := (sign_start_spec C e version ut n m x).2
    by_cases h : n = 0 ∨ m = 0 ∨ version = 0
    · rw [if_pos h] at hspec
      exact Or.inl hspec
    · rw [if_neg h] at hspec
      right
      rw [hspec]
      exact ⟨rfl, rfl⟩
  · intro amount idx inv ai
    by_cases hpos : e.sign.state = State.EXPECT_ADD_INPUT ∧
        e.sign.inputs_counter < e.sign.inputs_size
    · cases hadd : add_amount e.sign.inputs_amount amount with
      | none => exact Or.inl (sign_add_input_fail C e amount idx inv ai (Or.inr hadd))
      | some v =>
        obtain ⟨s1, s2, -, -⟩ := sign_add_input_streams C e amount idx inv ai v hpos hadd
        refine Or.inr ⟨s1, ?_⟩
        rw [s2]
        split_ifs
        · left; rw [List.append_nil]
        · right; rfl
    · exact Or.inl (sign_add_input_fail C e amount idx inv ai (Or.inl hpos))
  · intro px change amount cai tag ds dsv out hout
    obtain ⟨s1, -, -, s4, s5⟩ := sign_add_output_streams C px e change amount cai tag ds dsv
    refine ⟨s1, ?_⟩
    cases hres : (sign_add_output C px e change amount cai tag ds dsv).1 with
    | none =>
      rcases s5 hres with h | ⟨out2, hacc, h⟩
      · exact Or.inl h
      · have := sign_add_output_account_out C e change amount cai tag ds dsv out2 hacc
        rw [← hout] at this
        subst this
        exact Or.inr (Or.inl h)
    | some of =>
      obtain ⟨out2, fee⟩ := of
      obtain ⟨-, hacc, -⟩ := sign_add_output_out C px e change amount cai tag ds dsv out2 fee hres
      have := sign_add_output_account_out C e change amount cai tag ds dsv out2 hacc
      rw [← hout] at this
      subst this
      rw [s4 out2 fee hres]
      cases fee with
      | none => right; left; simp
      | some f => right; right; simp
  · intro chunk
    by_cases hpos : e.sign.state = State.EXPECT_ADD_EXTRA_CHUNK ∧
        wrap64 (e.sign.extra_counter + chunk.length) ≤ e.sign.extra_size
    · obtain ⟨s1, -, s3⟩ := sign_add_extra_streams C e chunk hpos.1 hpos.2
      refine Or.inr ⟨s1, ?_⟩
      split_ifs at s3
      · exact Or.inl s3.2
      · exact Or.inr s3.2
    · exact Or.inl (sign_add_extra_fail C e chunk hpos)
  · intro px inv ai
    refine ⟨(sign_step_a_streams C px e inv ai).1, ?_⟩
    by_cases hpos : (e.sign.state = State.EXPECT_STEP_A ∧
          e.sign.inputs_counter < e.sign.inputs_size) ∨
        (e.sign.state = State.EXPECT_STEP_A_MORE_DATA ∧
          wrap64 (e.sign.inputs_counter + 1) < e.sign.inputs_size)
    · exact Or.inr (sign_step_a_ok C px e inv ai hpos).2.2.2.1
    · rw [sign_step_a_fail C px e inv ai hpos]
      exact Or.inl rfl
  · intro data
    obtain ⟨t1, -, -, t4⟩ := sign_step_a_more_data_streams e data
    refine ⟨t1, ?_⟩
    rw [t4]
    split_ifs
    · exact Or.inr rfl
    · left; rw [List.append_nil]
  · intro px
    exact ⟨(sign_get_c0_streams C px e).1, (sign_get_c0_streams C px e).2.2.2⟩
  · intro px inv ai my_c
    exact ⟨(sign_step_b_streams C px e inv ai my_c).1,
      (sign_step_b_streams C px e inv ai my_c).2.2.2⟩
  · intro data
    rw [proof_start_eq]
    exact ⟨rfl, rfl⟩
  · intro px opk inv ai
    unfold generate_keyimage
    dsimp only
    repeat' split
    all_goals simp
  · intro i secret_name
    constructor
    · rfl
    · simp [generate_sign_secret_stream, KeccakStream.append, KeccakStream.append_byte,
        KeccakStream.append_varint]
  · simp [export_view_only_stream, KeccakStream.append]

/-- C19 as stated fails: the `KeccakStream` that `generate_sign_secret` fills, here for the nonce
`ka` of input 0 on `Emulator.prepared`, is the zero seed followed by the bytes `[5]` of
`spend_secret_key`, the two letters and `varint(0)`; `sign_step_a` hashes it to its nonce.  The
`KeccakStream` of `export_view_only` is the bytes `[7]` of `audit_base_secret_key` followed by the
bytes `[11]` of `view_secret_key`. -/
theorem generate_sign_secret_absorbs_spend_key :
    Crypto.small.scalar_data Emulator.prepared.m_spend_secret_key = [5] ∧
    generate_sign_secret_stream Crypto.small Emulator.prepared 0 ('k', 'a')
      = zero_hash ++ Crypto.small.scalar_data Emulator.prepared.m_spend_secret_key ++
        [107, 97] ++ [0] ∧
    generate_sign_secret Crypto.small Emulator.prepared 0 ('k', 'a')
      = Crypto.small.hash_to_scalar
        (generate_sign_secret_stream Crypto.small Emulator.prepared 0 ('k', 'a')) ∧
    export_view_only_stream Crypto.small Emulator.small
      = Crypto.small.scalar_data Emulator.small.m_audit_key_base_secret_key ++
        Crypto.small.scalar_data Emulator.small.m_view_secret_key ∧
    export_view_only_stream Crypto.small Emulator.small = [7, 11] := by
  decide

/-- C22 (declared shape is frozen): for every emulator, every argument and every answer of an
attached proxy, whether the call returns or throws, each of `sign_add_input`, `sign_add_output`,
`sign_add_extra`, `sign_step_a`, `sign_step_a_more_data`, `sign_get_c0` and `sign_step_b` leaves
`inputs_size`, `outputs_size` and `extra_size` as they were (and `generate_keyimage` leaves the
whole session as it was); `sign_start` and `proof_start` are the operations that set them. -/
theorem declared_shape_frozen (C : Crypto S P) (e : Emulator S P) :
    (∀ amount output_indexes inv address_index,
      (sign_add_input C e amount output_indexes inv address_index).2.sign.inputs_size
        = e.sign.inputs_size ∧
      (sign_add_input C e amount output_indexes inv address_index).2.sign.outputs_size
        = e.sign.outputs_size ∧
      (sign_add_input C e amount output_indexes inv address_index).2.sign.extra_size
        = e.sign.extra_size) ∧
    (∀ px change amount change_address_index dst_address_tag dst_address_s dst_address_s_v,
      (sign_add_output C px e change amount change_address_index dst_address_tag dst_address_s
        dst_address_s_v).2.sign.inputs_size = e.sign.inputs_size ∧
      (sign_add_output C px e change amount change_address_index dst_address_tag dst_address_s
        dst_address_s_v).2.sign.outputs_size = e.sign.outputs_size ∧
      (sign_add_output C px e change amount change_address_index dst_address_tag dst_address_s
        dst_address_s_v).2.sign.extra_size = e.sign.extra_size) ∧
    (∀ chunk,
      (sign_add_extra C e chunk).2.sign.inputs_size = e.sign.inputs_size ∧
      (sign_add_extra C e chunk).2.sign.outputs_size = e.sign.outputs_size ∧
      (sign_add_extra C e chunk).2.sign.extra_size = e.sign.extra_size) ∧
    (∀ px inv address_index,
      (sign_step_a C px e inv address_index).2.sign.inputs_size = e.sign.inputs_size ∧
      (sign_step_a C px e inv address_index).2.sign.outputs_size = e.sign.outputs_size ∧
      (sign_step_a C px e inv address_index).2.sign.extra_size = e.sign.extra_size) ∧
    (∀ data,
      (sign_step_a_more_data e data).2.sign.inputs_size = e.sign.inputs_size ∧
      (sign_step_a_more_data e data).2.sign.outputs_size = e.sign.outputs_size ∧
      (sign_step_a_more_data e data).2.sign.extra_size = e.sign.extra_size) ∧
    (∀ px,
      (sign_get_c0 C px e).2.sign.inputs_size = e.sign.inputs_size ∧
      (sign_get_c0 C px e).2.sign.outputs_size = e.sign.outputs_size ∧
      (sign_get_c0 C px e).2.sign.extra_size = e.sign.extra_size) ∧
    (∀ px inv address_index my_c,
      (sign_step_b C px e inv address_index my_c).2.sign.inputs_size = e.sign.inputs_size ∧
      (sign_step_b C px e inv address_index my_c).2.sign.outputs_size = e.sign.outputs_size ∧
      (sign_step_b C px e inv address_index my_c).2.sign.extra_size = e.sign.extra_size) ∧
    (∀ px output_public_key inv address_index,
      (generate_keyimage C px e output_public_key inv address_index).2.sign = e.sign) ∧
    (∀ version ut n m x, (sign_start C e version ut n m x).1 = some () →
      (sign_start C e version ut n m x).2.sign.inputs_size = n ∧
      (sign_start C e version ut n m x).2.sign.outputs_size = m ∧
      (sign_start C e version ut n m x).2.sign.extra_size = x) ∧
    (∀ data,
      (proof_start C e data).2.sign.inputs_size = 1 ∧
      (proof_start C e data).2.sign.outputs_size = 0 ∧
      (proof_start C e data).2.sign.extra_size = 0) := by
  have key : ∀ e2 : Emulator S P, e2.sign.shape = e.sign.shape →
      e2.sign.inputs_size = e.sign.inputs_size ∧ e2.sign.outputs_size = e.sign.outputs_size ∧
      e2.sign.extra_size = e.sign.extra_size :=
    fun e2 h => ⟨shape_inputs_size h, shape_outputs_size h, shape_extra_size h⟩
  refine ⟨?_, ?_, ?_, ?_, ?_, ?_, ?_, ?_, ?_, ?_⟩
  · intro amount idx inv ai
    exact key _ (sign_add_input_frame C e amount idx inv ai).2.1
  · intro px change amount cai tag ds dsv
    exact key _ (sign_add_output_frame C px e change amount cai tag ds dsv).2.1
  · intro chunk
    exact key _ (sign_add_extra_frame C e chunk).2.2.2.1
  · intro px inv ai
    exact key _ (sign_step_a_frame C px e inv ai).2.1
  · intro data
    exact key _ (sign_step_a_more_data_frame e data).2.2.2.1
  · intro px
    exact key _ (sign_get_c0_frame C px e).2.2.2.1
  · intro px inv ai my_c
    exact key _ (sign_step_b_frame C px e inv ai my_c).2.1
  · intro px opk inv ai
    unfold generate_keyimage
    dsimp only
    repeat' split
    all_goals simp
  · intro version ut n m x hok
    have hne : ¬ (n = 0 ∨ m = 0 ∨ version = 0) := by
      intro h
      rw [((sign_start_spec C e version ut n m x).1).mpr h] at hok
      exact Option.noConfusion hok
    have hspec := (sign_start_spec C e version ut n m x).2
    rw [if_neg hne] at hspec
    rw [hspec]
    exact ⟨rfl, rfl, rfl⟩
  · intro data
    rw [proof_start_eq]
    exact ⟨rfl, rfl, rfl⟩

/-- On `Emulator.started`, which declared the shape `(2, 2, 3)`, an accepted input, a refused
output and a refused chunk leave the shape as it is. -/
theorem shape_small :
    Emulator.started.sign.shape = (2, 2, 3) ∧
    (sign_add_input Crypto.small Emulator.started 1000 [7] 3 0).1 = some () ∧
    (sign_add_input Crypto.small Emulator.started 1000 [7] 3 0).2.sign.shape = (2, 2, 3) ∧
    (sign_add_output Crypto.small none Emulator.started false 900 0 0 4 6).1 = none ∧
    (sign_add_output Crypto.small none Emulator.started false 900 0 0 4 6).2.sign.shape
      = (2, 2, 3) ∧
    (sign_add_extra Crypto.small Emulator.started [1]).2.sign.shape = (2, 2, 3) := by
  decide

/-- C24 (failure atomicity, no proxy attached): every call of `sign_start`, `sign_add_input`,
`sign_add_extra`, `sign_step_a`, `sign_step_a_more_data`, `sign_get_c0` or `sign_step_b` that
throws leaves the emulator, and so every field of the signing session, exactly as it was before
the call; in particular a `sign_add_input` whose amount (a `uint64_t`) overflows `inputs_amount`
throws and leaves `inputs_amount`, `inputs_counter` and both transcripts unchanged. -/
theorem failure_atomicity (C : Crypto S P) (e : Emulator S P) :
    (∀ version ut n m x, (sign_start C e version ut n m x).1 = none →
      (sign_start C e version ut n m x).2 = e) ∧
    (∀ amount output_indexes inv address_index,
      (sign_add_input C e amount output_indexes inv address_index).1 = none →
      (sign_add_input C e amount output_indexes inv address_index).2 = e) ∧
    (∀ chunk, (sign_add_extra C e chunk).1 = none → (sign_add_extra C e chunk).2 = e) ∧
    (∀ inv address_index, (sign_step_a C none e inv address_index).1 = none →
      (sign_step_a C none e inv address_index).2 = e) ∧
    (∀ data, (sign_step_a_more_data e data).1 = none → (sign_step_a_more_data e data).2 = e) ∧
    ((sign_get_c0 C none e).1 = none → (sign_get_c0 C none e).2 = e) ∧
    (∀ inv address_index my_c, (sign_step_b C none e inv address_index my_c).1 = none →
      (sign_step_b C none e inv address_index my_c).2 = e) ∧
    (∀ amount output_indexes inv address_index, amount ≤ UINT64_MAX →
      e.sign.inputs_amount + amount > UINT64_MAX →
      (sign_add_input C e amount output_indexes inv address_index).1 = none ∧
      (sign_add_input C e amount output_indexes inv address_index).2.sign.inputs_amount
        = e.sign.inputs_amount ∧
      (sign_add_input C e amount output_indexes inv address_index).2.sign.inputs_counter
        = e.sign.inputs_counter ∧
      (sign_add_input C e amount output_indexes inv address_index).2.sign.tx_prefix_stream
        = e.sign.tx_prefix_stream ∧
      (sign_add_input C e amount output_indexes inv address_index).2.sign.tx_inputs_stream
        = e.sign.tx_inputs_stream) := by
  refine ⟨?_, ?_, ?_, ?_, ?_, ?_, ?_, ?_⟩
  · intro version ut n m x h
    have hspec := (sign_start_spec C e version ut n m x).2
    rw [if_pos (((sign_start_spec C e version ut n m x).1).mp h)] at hspec
    rw [hspec]
  · intro amount idx inv ai h
    by_cases hpos : e.sign.state = State.EXPECT_ADD_INPUT ∧
        e.sign.inputs_counter < e.sign.inputs_size
    · cases hadd : add_amount e.sign.inputs_amount amount with
      | none => rw [sign_add_input_fail C e amount idx inv ai (Or.inr hadd)]
      | some v =>
        rw [(sign_add_input_ok C e amount idx inv ai v hpos hadd).1] at h
        exact Option.noConfusion h
    · rw [sign_add_input_fail C e amount idx inv ai (Or.inl hpos)]
  · intro chunk h
    by_cases hpos : e.sign.state = State.EXPECT_ADD_EXTRA_CHUNK ∧
        wrap64 (e.sign.extra_counter + chunk.length) ≤ e.sign.extra_size
    · rw [(sign_add_extra_ok C e chunk hpos.1 hpos.2).1] at h
      exact Option.noConfusion h
    · rw [sign_add_extra_fail C e chunk hpos]
  · intro inv ai h
    by_cases hpos : (e.sign.state = State.EXPECT_STEP_A ∧
          e.sign.inputs_counter < e.sign.inputs_size) ∨
        (e.sign.state = State.EXPECT_STEP_A_MORE_DATA ∧
          wrap64 (e.sign.inputs_counter + 1) < e.sign.inputs_size)
    · have := (sign_step_a_ok C none e inv ai hpos).2.2.2.2.2.2.2 rfl
      rw [h] at this
      exact Bool.noConfusion this
    · rw [sign_step_a_fail C none e inv ai hpos]
  · intro data h
    unfold sign_step_a_more_data at h ⊢
    by_cases hs : e.sign.state = State.EXPECT_STEP_A_MORE_DATA
    · rw [if_neg (not_not.mpr hs)] at h
      exact Option.noConfusion h
    · rw [if_pos hs]
  · intro h
    by_cases hpos : e.sign.state = State.EXPECT_STEP_A_MORE_DATA ∧
        wrap64 (e.sign.inputs_counter + 1) = e.sign.inputs_size
    · rw [(sign_get_c0_ok C none e hpos).2.2.2.2 rfl] at h
      exact Option.noConfusion h
    · rw [sign_get_c0_fail C none e hpos]
  · intro inv ai my_c h
    by_cases hpos : e.sign.state = State.EXPECT_STEP_B ∧
        e.sign.inputs_counter < e.sign.inputs_size
    · have := (sign_step_b_ok C none e inv ai my_c hpos).2 rfl
      rw [h] at this
      exact Bool.noConfusion this
    · rw [sign_step_b_fail C none e inv ai my_c hpos]
  · intro amount idx inv ai hamount hover
    have hadd : add_amount e.sign.inputs_amount amount = none :=
      (add_amount_eq_none_iff _ _ hamount).mpr (by simp only [UINT64_MAX] at hover ⊢; omega)
    rw [sign_add_input_fail C e amount idx inv ai (Or.inr hadd)]
    exact ⟨rfl, rfl, rfl, rfl, rfl⟩

/-- On `Emulator.started` after a first input of amount `2^64 - 1`, a second input of amount 1 is
refused for overflow and the emulator is as before; a `sign_step_a` on `Emulator.started`, with no
proxy, is refused and changes nothing either. -/
theorem atomicity_small :
    (sign_add_input Crypto.small
      (sign_add_input Crypto.small Emulator.started (2 ^ 64 - 1) [7] 3 0).2 1 [] 3 0)
      = (none, (sign_add_input Crypto.small Emulator.started (2 ^ 64 - 1) [7] 3 0).2) ∧
    (sign_add_input Crypto.small Emulator.started (2 ^ 64 - 1) [7] 3 0).2.sign.state
      = State.EXPECT_ADD_INPUT ∧
    sign_step_a Crypto.small none Emulator.started 3 0 = (none, Emulator.started) := by
  refine ⟨?_, by decide, ?_⟩
  · exact sign_add_input_fail _ _ _ _ _ _ (Or.inr (by decide))
  · exact sign_step_a_fail _ _ _ _ _ (by decide)

theorem wrap64_le (n : Nat) : wrap64 n ≤ n := Nat.mod_le _ _

theorem sign_add_output_counter (C : Crypto S P) (px : Option (P × P × Nat)) (e : Emulator S P)
    (change : Bool) (amount cai tag : Nat) (ds dsv : P) :
    (sign_add_output C px e change amount cai tag ds dsv).2.sign.outputs_counter
        = e.sign.outputs_counter ∨
      (e.sign.outputs_counter < e.sign.outputs_size ∧
        (sign_add_output C px e change amount cai tag ds dsv).2.sign.outputs_counter
          = wrap64 (e.sign.outputs_counter + 1)) := by
  have aoc := (sign_add_output_account_frame C e change amount cai tag ds dsv).2.2.2.2.2.2.2.1
  rw [sign_add_output_eq]
  by_cases hpos : e.sign.state = State.EXPECT_ADD_OUTPUT ∧
      e.sign.outputs_counter < e.sign.outputs_size
  · rw [if_pos hpos]
    cases (sign_add_output_account C e change amount cai tag ds dsv).1 with
    | none => exact Or.inl aoc
    | some out =>
      dsimp only
      split_ifs
      · right
        refine ⟨hpos.2, ?_⟩
        rw [(sign_add_output_finish_frame C _ out).2.2.2.2.2.2.2.2.2.2, aoc]
      · exact Or.inl aoc
  · rw [if_neg hpos]
    exact Or.inl rfl

theorem bounded_step (C : Crypto S P) (e : Emulator S P) (c : Call S P) (h : Bounded e) :
    Bounded (step C e c).2 := by
  obtain ⟨hi, ho, hx⟩ := h
  cases c with
  | sign_start version ut n m x =>
    have hspec := (sign_start_spec C e version ut n m x).2
    simp only [step]
    by_cases hz : n = 0 ∨ m = 0 ∨ version = 0
    · rw [if_pos hz] at hspec
      rw [hspec]
      exact ⟨hi, ho, hx⟩
    · rw [if_neg hz] at hspec
      rw [hspec]
      exact ⟨Nat.zero_le _, Nat.zero_le _, Nat.zero_le _⟩
  | proof_start data =>
    simp only [step, proof_start_eq]
    exact ⟨Nat.zero_le _, Nat.zero_le _, Nat.zero_le _⟩
  | sign_add_input amount idx inv ai =>
    show Bounded (sign_add_input C e amount idx inv ai).2
    obtain ⟨-, f2, -, -, -, -, -, f8, f9⟩ := sign_add_input_frame C e amount idx inv ai
    refine ⟨?_, by rw [f8, shape_outputs_size f2]; exact ho,
      by rw [f9, shape_extra_size f2]; exact hx⟩
    rw [shape_inputs_size f2]
    by_cases hpos : e.sign.state = State.EXPECT_ADD_INPUT ∧
        e.sign.inputs_counter < e.sign.inputs_size
    · cases hadd : add_amount e.sign.inputs_amount amount with
      | none =>
        rw [sign_add_input_fail C e amount idx inv ai (Or.inr hadd)]
        exact hi
      | some v =>
        rw [(sign_add_input_ok C e amount idx inv ai v hpos hadd).2.2.1]
        exact le_trans (wrap64_le _) hpos.2
    · rw [sign_add_input_fail C e amount idx inv ai (Or.inl hpos)]
      exact hi
  | sign_add_output px change amount cai tag ds dsv =>
    show Bounded (sign_add_output C px e change amount cai tag ds dsv).2
    obtain ⟨-, f2, -, -, -, f6, f7⟩ := sign_add_output_frame C px e change amount cai tag ds dsv
    refine ⟨by rw [f6, shape_inputs_size f2]; exact hi, ?_,
      by rw [f7, shape_extra_size f2]; exact hx⟩
    rw [shape_outputs_size f2]
    rcases sign_add_output_counter C px e change amount cai tag ds dsv with h | ⟨h1, h2⟩
    · rw [h]
      exact ho
    · rw [h2]
      exact le_trans (wrap64_le _) h1
  | sign_add_extra chunk =>
    show Bounded (sign_add_extra C e chunk).2
    obtain ⟨-, -, -, f4, -, -, -, -, f9⟩ := sign_add_extra_frame C e chunk
    by_cases hpos : e.sign.state = State.EXPECT_ADD_EXTRA_CHUNK ∧
        wrap64 (e.sign.extra_counter + chunk.length) ≤ e.sign.extra_size
    · obtain ⟨-, o2, -, -, o5⟩ := sign_add_extra_ok C e chunk hpos.1 hpos.2
      refine ⟨?_, by rw [f9, shape_outputs_size f4]; exact ho, ?_⟩
      · rw [o5, shape_inputs_size f4]
        split_ifs
        · exact hi
        · exact Nat.zero_le _
      · rw [o2, shape_extra_size f4]
        exact hpos.2
    · rw [sign_add_extra_fail C e chunk hpos]
      exact ⟨hi, ho, hx⟩
  | sign_step_a px inv ai =>
    show Bounded (sign_step_a C px e inv ai).2
    obtain ⟨-, f2, -, -, -, -, f7, f8⟩ := sign_step_a_frame C px e inv ai
    by_cases hpos : (e.sign.state = State.EXPECT_STEP_A ∧
          e.sign.inputs_counter < e.sign.inputs_size) ∨
        (e.sign.state = State.EXPECT_STEP_A_MORE_DATA ∧
          wrap64 (e.sign.inputs_counter + 1) < e.sign.inputs_size)
    · obtain ⟨-, a2, a3, -⟩ := sign_step_a_ok C px e inv ai hpos
      refine ⟨?_, by rw [f7, shape_outputs_size f2]; exact ho,
        by rw [f8, shape_extra_size f2]; exact hx⟩
      rw [a2, shape_inputs_size f2]
      exact le_of_lt a3
    · rw [sign_step_a_fail C px e inv ai hpos]
      exact ⟨hi, ho, hx⟩
  | sign_step_a_more_data data =>
    show Bounded (sign_step_a_more_data e data).2
    obtain ⟨-, -, -, f4, -, -, -, -, -, f10, f11, f12, -⟩ := sign_step_a_more_data_frame e data
    exact ⟨by rw [f10, shape_inputs_size f4]; exact hi,
      by rw [f11, shape_outputs_size f4]; exact ho, by rw [f12, shape_extra_size f4]; exact hx⟩
  | sign_get_c0 px =>
    show Bounded (sign_get_c0 C px e).2
    obtain ⟨-, -, -, f4, -, -, -, f8, f9, -⟩ := sign_get_c0_frame C px e
    by_cases hpos : e.sign.state = State.EXPECT_STEP_A_MORE_DATA ∧
        wrap64 (e.sign.inputs_counter + 1) = e.sign.inputs_size
    · refine ⟨?_, by rw [f8, shape_outputs_size f4]; exact ho,
        by rw [f9, shape_extra_size f4]; exact hx⟩
      rw [(sign_get_c0_ok C px e hpos).2.1]
      exact Nat.zero_le _
    · rw [sign_get_c0_fail C px e hpos]
      exact ⟨hi, ho, hx⟩
  | sign_step_b px inv ai my_c =>
    show Bounded (sign_step_b C px e inv ai my_c).2
    obtain ⟨-, f2, -, -, -, -, f7, f8⟩ := sign_step_b_frame C px e inv ai my_c
    by_cases hpos : e.sign.state = State.EXPECT_STEP_B ∧
        e.sign.inputs_counter < e.sign.inputs_size
    · refine ⟨?_, by rw [f7, shape_outputs_size f2]; exact ho,
        by rw [f8, shape_extra_size f2]; exact hx⟩
      rw [shape_inputs_size f2]
      rcases (sign_step_b_ok C px e inv ai my_c hpos).1 with ⟨-, -, h3⟩ | ⟨-, h2, -⟩
      · rw [h3]
        exact hi
      · rw [h2]
        exact le_trans (wrap64_le _) hpos.2
    · rw [sign_step_b_fail C px e inv ai my_c hpos]
      exact ⟨hi, ho, hx⟩

theorem bounded_run (C : Crypto S P) (cs : List (Call S P)) :
    ∀ e : Emulator S P, Bounded e → Bounded (run C e cs) := by
  induction cs with
  | nil => intro e h; exact h
  | cons c rest ih => intro e h; exact ih _ (bounded_step C e c h)

/-- C21 (counter bounds): in every emulator reached from an accepted `sign_start` or
`proof_start` by any sequence of operations of the protocol (`sign_start` and `proof_start`
included, with any arguments and any answers of an attached proxy, returning or throwing),
`inputs_counter ≤ inputs_size`, `outputs_counter ≤ outputs_size` and
`extra_counter ≤ extra_size`. -/
theorem counter_bounds (C : Crypto S P) (e : Emulator S P) (opening : Call S P)
    (cs : List (Call S P))
    (hopening : opening.inSession = false) (hopened : (step C e opening).1.isSome = true) :
    (run C (step C e opening).2 cs).sign.inputs_counter
      ≤ (run C (step C e opening).2 cs).sign.inputs_size ∧
    (run C (step C e opening).2 cs).sign.outputs_counter
      ≤ (run C (step C e opening).2 cs).sign.outputs_size ∧
    (run C (step C e opening).2 cs).sign.extra_counter
      ≤ (run C (step C e opening).2 cs).sign.extra_size := by
  apply bounded_run C cs
  cases opening with
  | sign_start version ut n m x =>
    have hne : ¬ (n = 0 ∨ m = 0 ∨ version = 0) := by
      intro h
      simp only [step, ((sign_start_spec C e version ut n m x).1).mpr h] at hopened
      exact Bool.noConfusion hopened
    have hspec := (sign_start_spec C e version ut n m x).2
    rw [if_neg hne] at hspec
    simp only [step, hspec]
    exact ⟨Nat.zero_le _, Nat.zero_le _, Nat.zero_le _⟩
  | proof_start data =>
    simp only [step, proof_start_eq]
    exact ⟨Nat.zero_le _, Nat.zero_le _, Nat.zero_le _⟩
  | sign_add_input => simp [Call.inSession] at hopening
  | sign_add_output => simp [Call.inSession] at hopening
  | sign_add_extra => simp [Call.inSession] at hopening
  | sign_step_a => simp [Call.inSession] at hopening
  | sign_step_a_more_data => simp [Call.inSession] at hopening
  | sign_get_c0 => simp [Call.inSession] at hopening
  | sign_step_b => simp [Call.inSession] at hopening

/-- The session `sign_start(2, 0, 2, 1, 0)` driven by `two_rounds` and then by a refused
`sign_add_input` and a `sign_step_b`: the counters are `(1, 1, 0)` within the sizes
`(2, 1, 0)`. -/
theorem counter_bounds_witness :
    (run Crypto.small (step Crypto.small Emulator.small (Call.sign_start 2 0 2 1 0)).2
      (two_rounds ++ [Call.sign_get_c0 none, Call.sign_add_input 1 [] 3 0,
        Call.sign_step_b none 3 0 2])).sign.shape = (2, 1, 0) ∧
    (run Crypto.small (step Crypto.small Emulator.small (Call.sign_start 2 0 2 1 0)).2
      (two_rounds ++ [Call.sign_get_c0 none, Call.sign_add_input 1 [] 3 0,
        Call.sign_step_b none 3 0 2])).sign.outputs_counter = 1 ∧
    (run Crypto.small (step Crypto.small Emulator.small (Call.sign_start 2 0 2 1 0)).2
      (two_rounds ++ [Call.sign_get_c0 none, Call.sign_add_input 1 [] 3 0,
        Call.sign_step_b none 3 0 2])).sign.inputs_counter = 1 ∧
    (run Crypto.small (step Crypto.small Emulator.small (Call.sign_start 2 0 2 1 0)).2
      (two_rounds ++ [Call.sign_get_c0 none, Call.sign_add_input 1 [] 3 0,
        Call.sign_step_b none 3 0 2])).sign.inputs_counter
      ≤ (run Crypto.small (step Crypto.small Emulator.small (Call.sign_start 2 0 2 1 0)).2
        (two_rounds ++ [Call.sign_get_c0 none, Call.sign_add_input 1 [] 3 0,
          Call.sign_step_b none 3 0 2])).sign.inputs_size :=
  ⟨by decide, by decide, by decide,
    (counter_bounds Crypto.small Emulator.small (Call.sign_start 2 0 2 1 0)
      (two_rounds ++ [Call.sign_get_c0 none, Call.sign_add_input 1 [] 3 0,
        Call.sign_step_b none 3 0 2]) rfl (by decide)).1⟩

theorem wrap64_add_wrap64 (m n : Nat) : wrap64 (wrap64 m + n) = wrap64 (m + n) := by
  unfold wrap64
  exact Nat.mod_add_mod m (2 ^ 64) n

theorem sign_add_extra_twice (C : Crypto S P) (e : Emulator S P) (a b : BinaryArray)
    (hstate : e.sign.state = State.EXPECT_ADD_EXTRA_CHUNK)
    (hlt : e.sign.extra_counter + a.length < e.sign.extra_size)
    (hle : e.sign.extra_counter + a.length + b.length ≤ e.sign.extra_size) :
    (sign_add_extra C e a).1 = some () ∧
    (sign_add_extra C e a).2.sign.state = State.EXPECT_ADD_EXTRA_CHUNK ∧
    (sign_add_extra C e a).2.sign.extra_counter = wrap64 (e.sign.extra_counter + a.length) ∧
    (sign_add_extra C e a).2.sign.extra_size = e.sign.extra_size ∧
    sign_add_extra C (sign_add_extra C e a).2 b = sign_add_extra C e (a ++ b) := by
  have ha : wrap64 (e.sign.extra_counter + a.length) < e.sign.extra_size :=
    lt_of_le_of_lt (wrap64_le _) hlt
  have hab : wrap64 (e.sign.extra_counter + (a ++ b).length) ≤ e.sign.extra_size := by
    rw [List.length_append, ← Nat.add_assoc]
    exact le_trans (wrap64_le _) hle
  have hb : wrap64 (wrap64 (e.sign.extra_counter + a.length) + b.length)
      = wrap64 (e.sign.extra_counter + (a ++ b).length) := by
    rw [wrap64_add_wrap64, List.length_append, Nat.add_assoc]
  have h1 : sign_add_extra C e a = (some (), { e with sign := { e.sign with
      tx_prefix_stream := e.sign.tx_prefix_stream.append a
      extra_counter := wrap64 (e.sign.extra_counter + a.length) } }) := by
    unfold sign_add_extra
    rw [if_neg (not_not.mpr hstate), if_neg (not_not.mpr (le_of_lt ha))]
    dsimp only
    rw [if_pos ha]
  refine ⟨by rw [h1], by rw [h1]; exact hstate, by rw [h1], by rw [h1], ?_⟩
  rw [h1]
  unfold sign_add_extra
  dsimp only
  rw [if_neg (not_not.mpr hstate), hb, if_neg (not_not.mpr hab)]
  simp only [KeccakStream.append, List.append_assoc]
  by_cases hc : wrap64 (e.sign.extra_counter + (a ++ b).length) < e.sign.extra_size
  · simp only [if_pos hc, if_neg (not_not.mpr hstate), if_neg (not_not.mpr hab)]
  · simp only [if_neg hc, if_neg (not_not.mpr hstate), if_neg (not_not.mpr hab)]

theorem add_extras_flatten (C : Crypto S P) (last : BinaryArray) (init : List BinaryArray) :
    ∀ e : Emulator S P, e.sign.state = State.EXPECT_ADD_EXTRA_CHUNK →
      (init ≠ [] → e.sign.extra_counter + init.flatten.length < e.sign.extra_size) →
      e.sign.extra_counter + (init ++ [last]).flatten.length ≤ e.sign.extra_size →
      run C e (add_extras (init ++ [last]))
        = (sign_add_extra C e (init ++ [last]).flatten).2 := by
  induction init with
  | nil =>
    intro e _ _ _
    simp [add_extras, run, step]
  | cons a rest ih =>
    intro e hstate hlt hle
    have hlt := hlt (List.cons_ne_nil _ _)
    simp only [List.flatten_cons, List.length_append, List.cons_append] at hlt hle
    obtain ⟨-, t2, t3, t4, t5⟩ := sign_add_extra_twice C e a (rest ++ [last]).flatten hstate
      (by omega) (by omega)
    have hw := wrap64_le (e.sign.extra_counter + a.length)
    have := ih (sign_add_extra C e a).2 t2
      (by intro _; rw [t3, t4]; omega)
      (by rw [t3, t4]; omega)
    show run C (step C e (Call.sign_add_extra a)).2 (add_extras (rest ++ [last])) = _
    simp only [step, List.flatten_cons, List.cons_append]
    rw [this, t5]

/-- C25 (extra chunking independence): in state `EXPECT_ADD_EXTRA_CHUNK`, for byte strings `a`
and `b` with `extra_counter + len(a) < extra_size` and
`extra_counter + len(a) + len(b) ≤ extra_size`, `sign_add_extra(a)` returns and
`sign_add_extra(b)` after it gives the same result and the same emulator, hence the same
session in every field, as the single call `sign_add_extra(a ‖ b)`.  The same holds for any
number of chunks that stay below `extra_size` before the last one, so `tx_prefix_hash` is that
of the single call on the concatenated bytes. -/
theorem extra_chunking_independence (C : Crypto S P) (e : Emulator S P) (a b : BinaryArray)
    (hstate : e.sign.state = State.EXPECT_ADD_EXTRA_CHUNK)
    (hlt : e.sign.extra_counter + a.length < e.sign.extra_size)
    (hle : e.sign.extra_counter + a.length + b.length ≤ e.sign.extra_size) :
    (sign_add_extra C e a).1 = some () ∧
    sign_add_extra C (sign_add_extra C e a).2 b = sign_add_extra C e (a ++ b) ∧
    (sign_add_extra C (sign_add_extra C e a).2 b).2.sign
      = (sign_add_extra C e (a ++ b)).2.sign ∧
    (∀ (init : List BinaryArray) (last : BinaryArray),
      (init ≠ [] → e.sign.extra_counter + init.flatten.length < e.sign.extra_size) →
      e.sign.extra_counter + (init ++ [last]).flatten.length ≤ e.sign.extra_size →
      run C e (add_extras (init ++ [last]))
        = (sign_add_extra C e (init ++ [last]).flatten).2) := by
  obtain ⟨t1, -, -, -, t5⟩ := sign_add_extra_twice C e a b hstate hlt hle
  exact ⟨t1, t5, by rw [t5], fun init last h1 h2 => add_extras_flatten C last init e hstate h1 h2⟩

/-- In `Emulator.paid`, which expects three bytes of extra, the chunks `[1, 2]` and `[3]` give
the session of the single chunk `[1, 2, 3]`, in state `EXPECT_STEP_A` with the prefix hash of
the transcript that ends in `1, 2, 3`. -/
theorem extra_chunking_independence_witness :
    (sign_add_extra Crypto.small Emulator.paid [1, 2]).2.sign.state
      = State.EXPECT_ADD_EXTRA_CHUNK ∧
    (sign_add_extra Crypto.small Emulator.paid [1, 2, 3]).2.sign.state = State.EXPECT_STEP_A ∧
    (sign_add_extra Crypto.small (sign_add_extra Crypto.small Emulator.paid [1, 2]).2 [3])
      = sign_add_extra Crypto.small Emulator.paid ([1, 2] ++ [3]) :=
  ⟨by decide, by decide,
    (extra_chunking_independence Crypto.small Emulator.paid [1, 2] [3] (by decide) (by decide)
      (by decide)).2.1⟩

theorem step_keys_cache (C : Crypto S P) (e : Emulator S P) (c : Call S P) :
    (step C e c).2.keys = e.keys ∧ (CacheOk C e → CacheOk C (step C e c).2) := by
  cases hc : c.inSession with
  | true => exact ⟨(step_frame C e c hc).1, step_cacheOk C e c hc⟩
  | false =>
    cases c with
    | sign_start version ut n m x =>
      have hspec := (sign_start_spec C e version ut n m x).2
      simp only [step]
      rw [hspec]
      split_ifs
      · exact ⟨rfl, id⟩
      · exact ⟨rfl, id⟩
    | proof_start data =>
      simp only [step, proof_start_eq]
      exact ⟨rfl, id⟩
    | sign_add_input => simp [Call.inSession] at hc
    | sign_add_output => simp [Call.inSession] at hc
    | sign_add_extra => simp [Call.inSession] at hc
    | sign_step_a => simp [Call.inSession] at hc
    | sign_step_a_more_data => simp [Call.inSession] at hc
    | sign_get_c0 => simp [Call.inSession] at hc
    | sign_step_b => simp [Call.inSession] at hc

theorem run_keys_cache (C : Crypto S P) (cs : List (Call S P)) :
    ∀ e : Emulator S P, (run C e cs).keys = e.keys ∧ (CacheOk C e → CacheOk C (run C e cs)) := by
  induction cs with
  | nil => intro e; exact ⟨rfl, id⟩
  | cons c rest ih =>
    intro e
    obtain ⟨h1, h2⟩ := ih (step C e c).2
    obtain ⟨s1, s2⟩ := step_keys_cache C e c
    exact ⟨h1.trans s1, fun h => h2 (s2 h)⟩

theorem opening_random_seed (C : Crypto S P) (e : Emulator S P) (opening : Call S P)
    (hopening : opening.inSession = false) (hopened : (step C e opening).1.isSome = true) :
    (step C e opening).2.sign.random_seed = zero_hash := by
  cases opening with
  | sign_start version ut n m x =>
    have hne : ¬ (n = 0 ∨ m = 0 ∨ version = 0) := by
      intro h
      simp only [step, ((sign_start_spec C e version ut n m x).1).mpr h] at hopened
      exact Bool.noConfusion hopened
    have hspec := (sign_start_spec C e version ut n m x).2
    rw [if_neg hne] at hspec
    simp only [step, hspec]
  | proof_start data => simp only [step, proof_start_eq]
  | sign_add_input => simp [Call.inSession] at hopening
  | sign_add_output => simp [Call.inSession] at hopening
  | sign_add_extra => simp [Call.inSession] at hopening
  | sign_step_a => simp [Call.inSession] at hopening
  | sign_step_a_more_data => simp [Call.inSession] at hopening
  | sign_get_c0 => simp [Call.inSession] at hopening
  | sign_step_b => simp [Call.inSession] at hopening

theorem keys_spend {e e' : Emulator S P} (h : e'.keys = e.keys) :
    e'.m_spend_secret_key = e.m_spend_secret_key ∧
    e'.m_audit_key_base_secret_key = e.m_audit_key_base_secret_key ∧
    e'.m_A_plus_sH = e.m_A_plus_sH := by
  simp only [Emulator.keys, Prod.mk.injEq] at h
  exact ⟨h.1, h.2.1, h.2.2.2.1⟩

theorem session_nonce (C : Crypto S P) (e : Emulator S P) (opening : Call S P)
    (cs : List (Call S P))
    (hopening : opening.inSession = false) (hopened : (step C e opening).1.isSome = true)
    (hcs : ∀ c ∈ cs, c.inSession = true) (j : Nat) (tag : Char × Char) :
    generate_sign_secret C (run C (step C e opening).2 cs) j tag =
      C.hash_to_scalar (zero_hash ++ C.scalar_data e.m_spend_secret_key ++ [tag.1.toNat] ++
        [tag.2.toNat] ++ C.get_varint_data j) := by
  obtain ⟨f1, -, f3, -⟩ := run_frame C cs (step C e opening).2 hcs
  have hk := (keys_spend (f1.trans (step_keys_cache C e opening).1)).1
  rw [generate_sign_secret_eq, nonce, f3, opening_random_seed C e opening hopening hopened, hk]

/-- C23 (nonce reuse across sessions): let a session be opened on an emulator `e` with a
consistent subaddress cache by an accepted `sign_start` or `proof_start`, and a second one on
the same emulator after any further calls `between`.  As both openings set `random_seed` to the
zero hash, `generate_sign_secret(k, tag)` is
`hash_to_scalar(0³² ‖ spend_secret_key ‖ tag ‖ varint(k))` in every state of both sessions,
so the nonces `ka`, `kb`, `kc` of every input position `k` are the same in both.  Hence, when
`sign_step_b` returns `(ra, rb, rc)` in the first session and `(ra', rb', rc')` in the second,
at the same input position and for the same `inv_output_secret_hash`, then
`rb − rb' = (c0' − c0)·secret_s` and `rc − rc' = c0·secret_a − c0'·secret_a'`, which is
`(c0 − c0')·secret_a` when the two calls name the same `address_index`; here `c0` and `c0'` are
the challenges `sign.c0` of the two sessions, `secret_s = spend_secret_key·inv` and
`secret_a`, `secret_a'` are the audit secrets of the two calls' `address_index` times `inv`. -/
theorem nonce_reuse_across_sessions (C : Crypto S P) (e : Emulator S P)
    (opening1 opening2 : Call S P) (cs1 between cs2 : List (Call S P))
    (px1 px2 : Option (S × S × S)) (inv : S) (address_index1 address_index2 : Nat)
    (my_c1 my_c2 : S) (r1 r2 : S × S × S)
    (hcache : CacheOk C e)
    (hopening1 : opening1.inSession = false) (hopened1 : (step C e opening1).1.isSome = true)
    (hcs1 : ∀ c ∈ cs1, c.inSession = true)
    (hopening2 : opening2.inSession = false)
    (hopened2 : (step C (run C e between) opening2).1.isSome = true)
    (hcs2 : ∀ c ∈ cs2, c.inSession = true)
    (hposition : (run C (step C e opening1).2 cs1).sign.inputs_counter
      = (run C (step C (run C e between) opening2).2 cs2).sign.inputs_counter)
    (hr1 : (sign_step_b C px1 (run C (step C e opening1).2 cs1) inv address_index1 my_c1).1
      = some r1)
    (hr2 : (sign_step_b C px2 (run C (step C (run C e between) opening2).2 cs2) inv
      address_index2 my_c2).1 = some r2) :
    (∀ (ds1 ds2 : List (Call S P)), (∀ c ∈ ds1, c.inSession = true) →
      (∀ c ∈ ds2, c.inSession = true) → ∀ (k : Nat) (tag : Char × Char),
      generate_sign_secret C (run C (step C e opening1).2 ds1) k tag =
        C.hash_to_scalar (zero_hash ++ C.scalar_data e.m_spend_secret_key ++ [tag.1.toNat] ++
          [tag.2.toNat] ++ C.get_varint_data k) ∧
      generate_sign_secret C (run C (step C (run C e between) opening2).2 ds2) k tag =
        generate_sign_secret C (run C (step C e opening1).2 ds1) k tag) ∧
    r1.2.1 - r2.2.1 =
      ((run C (step C (run C e between) opening2).2 cs2).sign.c0
        - (run C (step C e opening1).2 cs1).sign.c0) * (e.m_spend_secret_key * inv) ∧
    r1.2.2 - r2.2.2 =
      (run C (step C e opening1).2 cs1).sign.c0 *
          (C.generate_hd_secretkey e.m_audit_key_base_secret_key e.m_A_plus_sH address_index1
            * inv)
        - (run C (step C (run C e between) opening2).2 cs2).sign.c0 *
          (C.generate_hd_secretkey e.m_audit_key_base_secret_key e.m_A_plus_sH address_index2
            * inv) ∧
    (address_index1 = address_index2 →
      r1.2.2 - r2.2.2 =
        ((run C (step C e opening1).2 cs1).sign.c0
          - (run C (step C (run C e between) opening2).2 cs2).sign.c0) *
          (C.generate_hd_secretkey e.m_audit_key_base_secret_key e.m_A_plus_sH address_index1
            * inv)) := by
  obtain ⟨bk, bc⟩ := run_keys_cache C between e
  have hsp2 := (keys_spend bk).1
  have hn : ∀ (ds1 ds2 : List (Call S P)), (∀ c ∈ ds1, c.inSession = true) →
      (∀ c ∈ ds2, c.inSession = true) → ∀ (k : Nat) (tag : Char × Char),
      generate_sign_secret C (run C (step C e opening1).2 ds1) k tag =
        C.hash_to_scalar (zero_hash ++ C.scalar_data e.m_spend_secret_key ++ [tag.1.toNat] ++
          [tag.2.toNat] ++ C.get_varint_data k) ∧
      generate_sign_secret C (run C (step C (run C e between) opening2).2 ds2) k tag =
        generate_sign_secret C (run C (step C e opening1).2 ds1) k tag := by
    intro ds1 ds2 h1 h2 k tag
    have a1 := session_nonce C e opening1 ds1 hopening1 hopened1 h1 k tag
    have a2 := session_nonce C (run C e between) opening2 ds2 hopening2 hopened2 h2 k tag
    rw [hsp2] at a2
    exact ⟨a1, a2.trans a1.symm⟩
  refine ⟨hn, ?_⟩
  -- the two emulators in which `sign_step_b` is called
  obtain ⟨p1, -, -, q1⟩ := run_frame C cs1 (step C e opening1).2 hcs1
  obtain ⟨p2, -, -, q2⟩ := run_frame C cs2 (step C (run C e between) opening2).2 hcs2
  obtain ⟨o1, oc1⟩ := step_keys_cache C e opening1
  obtain ⟨o2, oc2⟩ := step_keys_cache C (run C e between) opening2
  obtain ⟨s1, a1, b1⟩ := keys_spend (p1.trans o1)
  obtain ⟨s2, a2, b2⟩ := keys_spend ((p2.trans o2).trans bk)
  have c1 := (prepare_address_cache C _ address_index1 (q1 (oc1 hcache))).2
  have c2 := (prepare_address_cache C _ address_index2 (q2 (oc2 (bc hcache)))).2
  have v1 := (sign_step_b_values C px1 _ inv address_index1 my_c1).2.2 r1 hr1
  have v2 := (sign_step_b_values C px2 _ inv address_index2 my_c2).2.2 r2 hr2
  have n1 := fun tag => (hn cs1 cs2 hcs1 hcs2
    (run C (step C e opening1).2 cs1).sign.inputs_counter tag).2
  simp only [← generate_sign_secret_eq] at v1 v2
  rw [← hposition] at v2
  rw [n1, n1, n1, c2, s2, a2, b2] at v2
  rw [c1, s1, a1, b1] at v1
  rw [v1, v2]
  refine ⟨by ring, by ring, ?_⟩
  intro h
  rw [← h]
  ring

/-- On `Emulator.small`: the round trip of the spec (`c0 = 201`) and, after it, a session opened
by `proof_start([1])` (`c0' = 110`) answer `sign_step_b(3, 0, ·)` at position 0 with
`(rb, rc) = (−2804, 5036)` and `(rb', rc') = (−1439, 2852)`; `rb − rb' = (110 − 201)·(5·3)`
and `rc − rc' = (201 − 110)·(8·3)`. -/
theorem nonce_reuse_across_sessions_witness :
    (sign_step_b Crypto.small none
      (run Crypto.small (step Crypto.small Emulator.small (Call.sign_start 2 0 1 1 0)).2
        round_trip.dropLast) 3 0 2).1 = some (162, -2804, 5036) ∧
    (sign_step_b Crypto.small none
      (run Crypto.small (step Crypto.small
        (run Crypto.small Emulator.small (Call.sign_start 2 0 1 1 0 :: round_trip))
        (Call.proof_start [1])).2 [Call.sign_step_a none 3 0, Call.sign_get_c0 none])
      3 0 4).1 = some (114, -1439, 2852) ∧
    (run Crypto.small (step Crypto.small Emulator.small (Call.sign_start 2 0 1 1 0)).2
      round_trip.dropLast).sign.c0 = 201 ∧
    (run Crypto.small (step Crypto.small
      (run Crypto.small Emulator.small (Call.sign_start 2 0 1 1 0 :: round_trip))
      (Call.proof_start [1])).2 [Call.sign_step_a none 3 0, Call.sign_get_c0 none]).sign.c0
      = 110 ∧
    ((162, -2804, 5036) : Int × Int × Int).2.1 - ((114, -1439, 2852) : Int × Int × Int).2.1 =
      ((run Crypto.small (step Crypto.small
          (run Crypto.small Emulator.small (Call.sign_start 2 0 1 1 0 :: round_trip))
          (Call.proof_start [1])).2 [Call.sign_step_a none 3 0, Call.sign_get_c0 none]).sign.c0
        - (run Crypto.small (step Crypto.small Emulator.small (Call.sign_start 2 0 1 1 0)).2
          round_trip.dropLast).sign.c0) * (Emulator.small.m_spend_secret_key * 3) ∧
    ((162, -2804, 5036) : Int × Int × Int).2.2 - ((114, -1439, 2852) : Int × Int × Int).2.2 =
      ((run Crypto.small (step Crypto.small Emulator.small (Call.sign_start 2 0 1 1 0)).2
          round_trip.dropLast).sign.c0
        - (run Crypto.small (step Crypto.small
          (run Crypto.small Emulator.small (Call.sign_start 2 0 1 1 0 :: round_trip))
          (Call.proof_start [1])).2 [Call.sign_step_a none 3 0, Call.sign_get_c0 none]).sign.c0)
        * (Crypto.small.generate_hd_secretkey Emulator.small.m_audit_key_base_secret_key
          Emulator.small.m_A_plus_sH 0 * 3) :=
  ⟨by decide, by decide, by decide, by decide,
    (nonce_reuse_across_sessions Crypto.small Emulator.small (Call.sign_start 2 0 1 1 0)
      (Call.proof_start [1]) round_trip.dropLast (Call.sign_start 2 0 1 1 0 :: round_trip)
      [Call.sign_step_a none 3 0, Call.sign_get_c0 none] none none 3 0 0 2 4
      (162, -2804, 5036) (114, -1439, 2852) rfl rfl (by decide) (by decide) rfl (by decide)
      (by decide) (by decide) (by decide) (by decide)).2.1,
    (nonce_reuse_across_sessions Crypto.small Emulator.small (Call.sign_start 2 0 1 1 0)
      (Call.proof_start [1]) round_trip.dropLast (Call.sign_start 2 0 1 1 0 :: round_trip)
      [Call.sign_step_a none 3 0, Call.sign_get_c0 none] none none 3 0 0 2 4
      (162, -2804, 5036) (114, -1439, 2852) rfl rfl (by decide) (by decide) rfl (by decide)
      (by decide) (by decide) (by decide) (by decide)).2.2.2 rfl⟩

theorem withoutProxy_noProxy (c : Call S P) : c.withoutProxy.noProxy = true := by
  cases c <;> rfl

theorem withoutProxy_inSession (c : Call S P) : c.withoutProxy.inSession = c.inSession := by
  cases c <;> rfl

theorem withoutProxy_typed (c : Call S P) (h : c.typed) : c.withoutProxy.typed := by
  cases c <;> exact h

theorem withoutProxy_of_noProxy (c : Call S P) (h : c.noProxy = true) : c.withoutProxy = c := by
  cases c <;> simp_all [Call.noProxy, Call.withoutProxy]

theorem proxy_refuses_of_noProxy (C : Crypto S P) (e : Emulator S P) (c : Call S P)
    (h : c.noProxy = true) : proxy_refuses C e c = false := by
  cases c <;> simp_all [Call.noProxy, proxy_refuses]

/-- A call that does not fail the comparison with the proxy does what it does with no proxy
attached. -/
theorem step_without_proxy (C : Crypto S P) (e : Emulator S P) (c : Call S P)
    (h : proxy_refuses C e c = false) : step C e c = step C e c.withoutProxy := by
  cases c with
  | sign_add_output px change amount cai tag ds dsv =>
    cases px with
    | none => rfl
    | some r =>
      have heq : sign_add_output C (some r) e change amount cai tag ds dsv
          = sign_add_output C none e change amount cai tag ds dsv := by
        rw [sign_add_output_eq C (some r), sign_add_output_eq C none]
        by_cases hpos : e.sign.state = State.EXPECT_ADD_OUTPUT ∧
            e.sign.outputs_counter < e.sign.outputs_size
        · simp only [if_pos hpos]
          cases hacc : (sign_add_output_account C e change amount cai tag ds dsv).1 with
          | none => rfl
          | some out =>
            simp only [proxy_refuses, hacc, decide_eq_true hpos, Bool.true_and,
              decide_eq_false_iff_not, not_not] at h
            simp [h]
        · simp only [if_neg hpos]
      simp only [step, Call.withoutProxy, heq]
  | sign_step_a px inv ai =>
    cases px with
    | none => rfl
    | some r =>
      have heq : sign_step_a C (some r) e inv ai = sign_step_a C none e inv ai := by
        cases hown : (sign_step_a C none e inv ai).1 with
        | none =>
          have hex : ¬ expected_position (Call.sign_step_a (none : Option (P × P × P)) inv ai)
              e.sign := by
            intro hexp
            have := (sign_step_a_ok C none e inv ai hexp).2.2.2.2.2.2.2 rfl
            rw [hown] at this
            exact Bool.noConfusion this
          rw [sign_step_a_fail C (some r) e inv ai hex, sign_step_a_fail C none e inv ai hex]
        | some own =>
          simp only [proxy_refuses, hown, decide_eq_false_iff_not, not_not] at h
          exact ((sign_step_a_parity C e inv ai r).2 own hown).2 h.symm
      simp only [step, Call.withoutProxy, heq]
  | sign_get_c0 px =>
    cases px with
    | none => rfl
    | some r =>
      have heq : sign_get_c0 C (some r) e = sign_get_c0 C none e := by
        cases hown : (sign_get_c0 C none e).1 with
        | none =>
          have hex : ¬ (e.sign.state = State.EXPECT_STEP_A_MORE_DATA ∧
              wrap64 (e.sign.inputs_counter + 1) = e.sign.inputs_size) := by
            intro hexp
            have := (sign_get_c0_ok C none e hexp).2.2.2.2 rfl
            rw [hown] at this
            exact Option.noConfusion this
          rw [sign_get_c0_fail C (some r) e hex, sign_get_c0_fail C none e hex]
        | some own =>
          simp only [proxy_refuses, hown, decide_eq_false_iff_not, not_not] at h
          exact ((sign_get_c0_parity C e r).2 own hown).2 h.symm
      simp only [step, Call.withoutProxy, heq]
  | sign_step_b px inv ai my_c =>
    cases px with
    | none => rfl
    | some r =>
      have heq : sign_step_b C (some r) e inv ai my_c = sign_step_b C none e inv ai my_c := by
        cases hown : (sign_step_b C none e inv ai my_c).1 with
        | none =>
          have hex : ¬ (e.sign.state = State.EXPECT_STEP_B ∧
              e.sign.inputs_counter < e.sign.inputs_size) := by
            intro hexp
            have := (sign_step_b_ok C none e inv ai my_c hexp).2 rfl
            rw [hown] at this
            exact Bool.noConfusion this
          rw [sign_step_b_fail C (some r) e inv ai my_c hex,
            sign_step_b_fail C none e inv ai my_c hex]
        | some own =>
          simp only [proxy_refuses, hown, decide_eq_false_iff_not, not_not] at h
          exact ((sign_step_b_parity C e inv ai my_c r).2 own hown).2 h.symm
      simp only [step, Call.withoutProxy, heq]
  | _ => rfl

theorem record_without_proxy (l : Ledger) (c : Call S P) (r : Option (Output S P)) :
    l.record c.withoutProxy r = l.record c r := by
  cases c with
  | sign_add_output px change amount cai tag ds dsv =>
    cases change <;> rcases r with _ | o <;> try rfl
    all_goals cases o <;> rfl
  | _ => rfl

theorem conserved_step_agree (C : Crypto S P) (clean : Bool) (l : Ledger) (e : Emulator S P)
    (c : Call S P) (hc : c.inSession = true) (htyped : c.typed)
    (hclean : clean = true → c.isAddOutput = true → proxy_refuses C e c = false)
    (h : Conserved clean l e) :
    Conserved clean (l.record c (step C e c).1) (step C e c).2 := by
  by_cases hk : clean = true ∧ c.isAddOutput = true
  · rw [step_without_proxy C e c (hclean hk.1 hk.2), ← record_without_proxy]
    exact conserved_step C clean l e c.withoutProxy (by rw [withoutProxy_inSession]; exact hc)
      (withoutProxy_typed c htyped) (fun _ _ => withoutProxy_noProxy c) h
  · exact conserved_step C clean l e c hc htyped (fun h1 h2 => absurd ⟨h1, h2⟩ hk) h

theorem conserved_run_agree (C : Crypto S P) (clean : Bool) (cs : List (Call S P)) :
    ∀ (l : Ledger) (e : Emulator S P), (∀ c ∈ cs, c.inSession = true) → (∀ c ∈ cs, c.typed) →
      (clean = true → ∀ ev ∈ trace C e cs, ev.call.isAddOutput = true →
        proxy_refuses C ev.pre ev.call = false) →
      Conserved clean l e → Conserved clean (ledger l (trace C e cs)) (run C e cs) := by
  induction cs with
  | nil => intro l e _ _ _ h; exact h
  | cons c cs ih =>
    intro l e hcs hty hag h
    have htrace : trace C e (c :: cs) = event C e c :: trace C (step C e c).2 cs := rfl
    have hstep := conserved_step_agree C clean l e c (hcs c (List.mem_cons_self _ _))
      (hty c (List.mem_cons_self _ _))
      (fun hc hk => hag hc (event C e c) (by rw [htrace]; exact List.mem_cons_self _ _) hk) h
    exact ih _ _ (fun c' hc' => hcs c' (List.mem_cons_of_mem _ hc'))
      (fun c' hc' => hty c' (List.mem_cons_of_mem _ hc'))
      (fun hc ev hev => hag hc ev (by rw [htrace]; exact List.mem_cons_of_mem _ hev)) hstep

/-- C1, as the code has it: in a session opened by a successful `sign_start`, after any session
operations with arguments of their C++ types, once the state is `EXPECT_ADD_EXTRA_CHUNK` or a
later one: the exact sums `inputs`, `dst`, `change` of the amounts of the accepted
`sign_add_input`, non-change and change `sign_add_output` calls satisfy
`dst + change ≤ 2^64 − 1` and `inputs ≥ dst + change`, `inputs_amount` holds `inputs`, and, when
no `sign_add_output` of the session failed the comparison with the proxy, `dst_amount` and
`change_amount` hold `dst` and `change` and the fee computed on the last `sign_add_output` is
`inputs − (dst + change)`. -/
theorem conservation (C : Crypto S P) (e : Emulator S P)
    (version ut n outputs_size extra_size : Nat) (cs : List (Call S P))
    (session final : Emulator S P) (books : Ledger)
    (hsize : outputs_size ≤ UINT64_MAX)
    (hstart : (sign_start C e version ut n outputs_size extra_size).1 = some ())
    (hsession : session = (sign_start C e version ut n outputs_size extra_size).2)
    (hcs : ∀ c ∈ cs, c.inSession = true) (htyped : ∀ c ∈ cs, c.typed)
    (hfinal : final = run C session cs)
    (hbooks : books = ledger ⟨0, 0, 0, none⟩ (trace C session cs))
    (hstate : final.sign.state = State.EXPECT_ADD_EXTRA_CHUNK ∨
      final.sign.state = State.EXPECT_STEP_A ∨
      final.sign.state = State.EXPECT_STEP_A_MORE_DATA ∨
      final.sign.state = State.EXPECT_STEP_B ∨ final.sign.state = State.FINISHED) :
    books.dst + books.change ≤ 2 ^ 64 - 1 ∧
    books.inputs ≥ books.dst + books.change ∧
    final.sign.inputs_amount = books.inputs ∧
    ((∀ ev ∈ trace C session cs, ev.call.isAddOutput = true →
        proxy_refuses C ev.pre ev.call = false) →
      final.sign.dst_amount = books.dst ∧ final.sign.change_amount = books.change ∧
      books.fee = some (books.inputs - (books.dst + books.change))) := by
  have hdone : final.sign.state.outputsDone = true := by
    rcases hstate with h | h | h | h | h <;> rw [h] <;> rfl
  subst hsession hfinal hbooks
  have hg := conserved_run_agree C false cs _ _ hcs htyped (fun h => Bool.noConfusion h)
    (sign_start_conserved C false e version ut n outputs_size extra_size hsize hstart)
  obtain ⟨g1, -, -, g4, g5, -, g7⟩ := hg
  rw [hdone] at g7
  simp only [if_true] at g7
  refine ⟨by omega, by omega, g1, ?_⟩
  intro hag
  have hc := conserved_run_agree C true cs _ _ hcs htyped (fun _ => hag)
    (sign_start_conserved C true e version ut n outputs_size extra_size hsize hstart)
  obtain ⟨c1, -, -, -, -, c6, c7⟩ := hc
  rw [hdone] at c7
  simp only [if_true] at c7
  rcases c6 rfl with ⟨hs, -⟩ | ⟨q1, q2⟩
  · rw [hs] at hdone
    exact Bool.noConfusion hdone
  · refine ⟨q1.symm, q2.symm, ?_⟩
    rw [c7.2.2, c1, q1, q2]

/-- Witness of C1 on the round trip of the spec with a proxy attached that agrees on
`sign_add_output`: the books end with inputs 1000, outputs 900 and fee 100, and `dst_amount`
holds 900. -/
theorem conservation_witness :
    (run Crypto.small (sign_start Crypto.small Emulator.small 2 0 1 1 0).2
      round_trip_agreeing).sign.state = State.FINISHED ∧
    ledger ⟨0, 0, 0, none⟩
      (trace Crypto.small (sign_start Crypto.small Emulator.small 2 0 1 1 0).2
        round_trip_agreeing) = ⟨1000, 900, 0, some 100⟩ ∧
    (1000 : Nat) ≥ 900 + 0 ∧
    ((run Crypto.small (sign_start Crypto.small Emulator.small 2 0 1 1 0).2
        round_trip_agreeing).sign.dst_amount = 900 ∧
      (run Crypto.small (sign_start Crypto.small Emulator.small 2 0 1 1 0).2
        round_trip_agreeing).sign.change_amount = 0 ∧
      some 100 = some (1000 - (900 + 0))) :=
  ⟨by decide, by rfl,
    (conservation Crypto.small Emulator.small 2 0 1 1 0 round_trip_agreeing
      (sign_start Crypto.small Emulator.small 2 0 1 1 0).2
      (run Crypto.small (sign_start Crypto.small Emulator.small 2 0 1 1 0).2 round_trip_agreeing)
      ⟨1000, 900, 0, some 100⟩ (by decide) (by decide) rfl (by decide)
      (by simp [round_trip_agreeing, Call.typed, UINT64_MAX]) rfl (by rfl)
      (Or.inr (Or.inr (Or.inr (Or.inr (by decide)))))).2.1,
    (conservation Crypto.small Emulator.small 2 0 1 1 0 round_trip_agreeing
      (sign_start Crypto.small Emulator.small 2 0 1 1 0).2
      (run Crypto.small (sign_start Crypto.small Emulator.small 2 0 1 1 0).2 round_trip_agreeing)
      ⟨1000, 900, 0, some 100⟩ (by decide) (by decide) rfl (by decide)
      (by simp [round_trip_agreeing, Call.typed, UINT64_MAX]) rfl (by rfl)
      (Or.inr (Or.inr (Or.inr (Or.inr (by decide)))))).2.2.2 (by decide)⟩

/-- C1 as stated fails in a session in which the proxy refuses an output.  After
`sign_start(2, 0, 1, 2, 0)` and the calls `refused_output`, of which the second fails the
comparison with the proxy and the others are accepted, the state is `EXPECT_ADD_EXTRA_CHUNK` and
the accepted calls sum to inputs 1000 and non-change outputs 200; yet `dst_amount` is 300, as the
refused output was charged before the comparison, and the fee computed on the last
`sign_add_output` is 700, not `1000 − (200 + 0)`. -/
theorem books_after_refused_output :
    (trace Crypto.small (sign_start Crypto.small Emulator.small 2 0 1 2 0).2 refused_output).map
      (fun ev => (proxy_refuses Crypto.small ev.pre ev.call, ev.ok))
      = [(false, true), (true, false), (false, true), (false, true)] ∧
    (run Crypto.small (sign_start Crypto.small Emulator.small 2 0 1 2 0).2
      refused_output).sign.state = State.EXPECT_ADD_EXTRA_CHUNK ∧
    ledger ⟨0, 0, 0, none⟩
      (trace Crypto.small (sign_start Crypto.small Emulator.small 2 0 1 2 0).2 refused_output)
      = ⟨1000, 200, 0, some 700⟩ ∧
    (run Crypto.small (sign_start Crypto.small Emulator.small 2 0 1 2 0).2
      refused_output).sign.dst_amount = 300 ∧
    ¬ ((run Crypto.small (sign_start Crypto.small Emulator.small 2 0 1 2 0).2
        refused_output).sign.dst_amount
      = (ledger ⟨0, 0, 0, none⟩ (trace Crypto.small
          (sign_start Crypto.small Emulator.small 2 0 1 2 0).2 refused_output)).dst) ∧
    ¬ ((ledger ⟨0, 0, 0, none⟩ (trace Crypto.small
          (sign_start Crypto.small Emulator.small 2 0 1 2 0).2 refused_output)).fee
      = some ((ledger ⟨0, 0, 0, none⟩ (trace Crypto.small
            (sign_start Crypto.small Emulator.small 2 0 1 2 0).2 refused_output)).inputs
          - ((ledger ⟨0, 0, 0, none⟩ (trace Crypto.small
              (sign_start Crypto.small Emulator.small 2 0 1 2 0).2 refused_output)).dst
            + (ledger ⟨0, 0, 0, none⟩ (trace Crypto.small
              (sign_start Crypto.small Emulator.small 2 0 1 2 0).2 refused_output)).change))) := by
  refine ⟨by decide, by decide, by rfl, by decide, by decide, by decide⟩

theorem serialized_without_proxy (C : Crypto S P) (e : Emulator S P) (c : Call S P)
    (hs : step C e c = step C e c.withoutProxy) :
    serialized_inputs C [event C e c.withoutProxy] = serialized_inputs C [event C e c] ∧
    serialized_outputs C [event C e c.withoutProxy] = serialized_outputs C [event C e c] ∧
    extra_chunks [event C e c.withoutProxy] = extra_chunks [event C e c] := by
  simp only [event, ← hs]
  generalize (step C e c).1 = r
  generalize (step C e c).2 = e2
  clear hs
  cases c with
  | sign_add_output px change amount cai tag ds dsv =>
    rcases r with _ | o
    · exact ⟨rfl, rfl, rfl⟩
    · cases o <;> exact ⟨rfl, rfl, rfl⟩
  | _ => rcases r with _ | o <;> exact ⟨rfl, rfl, rfl⟩

theorem prefixPhase_step_agree (C : Crypto S P) (head : BinaryArray) (m x : Nat)
    (I O X : BinaryArray) (e : Emulator S P) (c : Call S P) (hc : c.inSession = true)
    (hag : c.isAddOutput = true → proxy_refuses C e c = false)
    (h : PrefixPhase C head m x I O X e) :
    PrefixPhase C head m x
      (I ++ serialized_inputs C [event C e c]) (O ++ serialized_outputs C [event C e c])
      (X ++ extra_chunks [event C e c]) (step C e c).2 := by
  by_cases hk : c.isAddOutput = true
  · have hs := step_without_proxy C e c (hag hk)
    obtain ⟨z1, z2, z3⟩ := serialized_without_proxy C e c hs
    have := prefixPhase_step C head m x I O X e c.withoutProxy
      (by rw [withoutProxy_inSession]; exact hc) (fun _ => withoutProxy_noProxy c) h
    rw [z1, z2, z3, ← hs] at this
    exact this
  · exact prefixPhase_step C head m x I O X e c hc (fun h1 => absurd h1 hk) h

theorem prefixPhase_run_agree (C : Crypto S P) (head : BinaryArray) (m x : Nat)
    (cs : List (Call S P)) :
    ∀ (I O X : BinaryArray) (e : Emulator S P), (∀ c ∈ cs, c.inSession = true) →
      (∀ ev ∈ trace C e cs, ev.call.isAddOutput = true →
        proxy_refuses C ev.pre ev.call = false) →
      PrefixPhase C head m x I O X e →
      PrefixPhase C head m x (I ++ serialized_inputs C (trace C e cs))
        (O ++ serialized_outputs C (trace C e cs)) (X ++ extra_chunks (trace C e cs))
        (run C e cs) := by
  induction cs with
  | nil =>
    intro I O X e _ _ h
    simpa [trace, run, serialized_inputs, serialized_outputs, extra_chunks, accepted] using h
  | cons c rest ih =>
    intro I O X e hcs hag h
    have htrace : trace C e (c :: rest) = event C e c :: trace C (step C e c).2 rest := rfl
    have hstep := prefixPhase_step_agree C head m x I O X e c (hcs c (List.mem_cons_self _ _))
      (fun hk => hag (event C e c) (by rw [htrace]; exact List.mem_cons_self _ _) hk) h
    have hrest := ih _ _ _ _ (fun c2 h2 => hcs c2 (List.mem_cons_of_mem _ h2))
      (fun ev hev => hag ev (by rw [htrace]; exact List.mem_cons_of_mem _ hev)) hstep
    rw [htrace, serialized_inputs_cons, serialized_outputs_cons, extra_chunks_cons,
      ← List.append_assoc, ← List.append_assoc, ← List.append_assoc]
    exact hrest

/-- C13 (prefix finalisation), as the code has it: in a session opened by
`sign_start(version, ut, n, m, x)` and driven by calls of session operations of which no
`sign_add_output` failed the comparison with the proxy, when an accepted `sign_add_extra(chunk)`
brings `extra_counter` to `extra_size`, the prefix transcript is
`varint(version) ‖ varint(ut) ‖ varint(n) ‖ serialised inputs ‖ varint(m) ‖ serialised outputs ‖
varint(x) ‖ all extra chunks in call order` (the inputs, outputs and chunks of the accepted calls,
this `chunk` last), `tx_prefix_hash` is set to its hash, the inputs transcript is replaced by
exactly the bytes of `tx_prefix_hash`, `inputs_counter` becomes 0 and the state becomes
`EXPECT_STEP_A`. -/
theorem prefix_finalisation (C : Crypto S P) (e : Emulator S P)
    (version ut n m x : Nat) (cs : List (Call S P)) (chunk : BinaryArray)
    (session pre : Emulator S P) (log : List (Event S P))
    (hstart : (sign_start C e version ut n m x).1 = some ())
    (hsession : session = (sign_start C e version ut n m x).2)
    (hcs : ∀ c ∈ cs, c.inSession = true)
    (hpre : pre = run C session cs) (hlog : log = trace C session cs)
    (hagree : ∀ ev ∈ log, ev.call.isAddOutput = true → proxy_refuses C ev.pre ev.call = false)
    (hok : (sign_add_extra C pre chunk).1 = some ())
    (hfull : (sign_add_extra C pre chunk).2.sign.extra_counter = pre.sign.extra_size) :
    (sign_add_extra C pre chunk).2.sign.tx_prefix_stream =
      C.get_varint_data version ++ C.get_varint_data ut ++ C.get_varint_data n ++
        serialized_inputs C log ++ C.get_varint_data m ++ serialized_outputs C log ++
        C.get_varint_data x ++ (extra_chunks log ++ chunk) ∧
    (sign_add_extra C pre chunk).2.sign.tx_prefix_hash =
      C.cn_fast_hash (sign_add_extra C pre chunk).2.sign.tx_prefix_stream ∧
    (sign_add_extra C pre chunk).2.sign.tx_inputs_stream =
      (sign_add_extra C pre chunk).2.sign.tx_prefix_hash ∧
    (sign_add_extra C pre chunk).2.sign.inputs_counter = 0 ∧
    (sign_add_extra C pre chunk).2.sign.state = State.EXPECT_STEP_A := by
  subst hsession hpre hlog
  have hne : ¬ (n = 0 ∨ m = 0 ∨ version = 0) := by
    intro h
    rw [((sign_start_spec C e version ut n m x).1).mpr h] at hstart
    exact Option.noConfusion hstart
  have hspec := (sign_start_spec C e version ut n m x).2
  rw [if_neg hne] at hspec
  have h0 : PrefixPhase C
      (C.get_varint_data version ++ C.get_varint_data ut ++ C.get_varint_data n) m x [] [] []
      (sign_start C e version ut n m x).2 := by
    rw [hspec]
    refine ⟨rfl, rfl, ?_⟩
    dsimp only
    simp
  have hinv := prefixPhase_run_agree C _ m x cs [] [] [] _ hcs hagree h0
  simp only [List.nil_append] at hinv
  generalize run C (sign_start C e version ut n m x).2 cs = pre at hinv hok hfull ⊢
  generalize trace C (sign_start C e version ut n m x).2 cs = log at hinv ⊢
  have hpos : pre.sign.state = State.EXPECT_ADD_EXTRA_CHUNK ∧
      wrap64 (pre.sign.extra_counter + chunk.length) ≤ pre.sign.extra_size := by
    by_contra hp
    rw [sign_add_extra_fail C pre chunk hp] at hok
    exact Option.noConfusion hok
  obtain ⟨-, o2, -, o4, o5⟩ := sign_add_extra_ok C pre chunk hpos.1 hpos.2
  obtain ⟨s1, -, s3⟩ := sign_add_extra_streams C pre chunk hpos.1 hpos.2
  rw [o2] at hfull
  have hnot : ¬ wrap64 (pre.sign.extra_counter + chunk.length) < pre.sign.extra_size := by
    rw [hfull]
    exact lt_irrefl _
  rw [if_neg hnot] at o4 o5 s3
  obtain ⟨-, -, hmatch⟩ := hinv
  rw [hpos.1] at hmatch
  dsimp only at hmatch
  refine ⟨?_, ?_, ?_, o5, o4⟩
  · rw [s1, hmatch]
    simp
  · rw [s3.1, s1]
  · rw [s3.2, s3.1]

/-- The session `sign_start(2, 0, 1, 1, 3)` with one input, one output on which the attached
proxy gives the emulator's own answer, and the extra sent as `[1, 2]` then `[3]`: the second chunk
finalises the prefix. -/
theorem prefix_finalisation_witness :
    (sign_add_extra Crypto.small
      (run Crypto.small (sign_start Crypto.small Emulator.small 2 0 1 1 3).2
        [Call.sign_add_input 1000 [7] 3 0,
          Call.sign_add_output (some (217, 219, 212)) false 900 0 0 4 6,
          Call.sign_add_extra [1, 2]]) [3]).2.sign.tx_prefix_stream
      = [2, 0, 1] ++ [2, 104, 1, 7, 88] ++ [1] ++ [2, 4, 217, 219, 212] ++ [3] ++ [1, 2, 3] ∧
    (sign_add_extra Crypto.small
      (run Crypto.small (sign_start Crypto.small Emulator.small 2 0 1 1 3).2
        [Call.sign_add_input 1000 [7] 3 0,
          Call.sign_add_output (some (217, 219, 212)) false 900 0 0 4 6,
          Call.sign_add_extra [1, 2]]) [3]).2.sign.tx_inputs_stream = [101] ∧
    (sign_add_extra Crypto.small
      (run Crypto.small (sign_start Crypto.small Emulator.small 2 0 1 1 3).2
        [Call.sign_add_input 1000 [7] 3 0,
          Call.sign_add_output (some (217, 219, 212)) false 900 0 0 4 6,
          Call.sign_add_extra [1, 2]]) [3]).2.sign.tx_prefix_stream =
      Crypto.small.get_varint_data 2 ++ Crypto.small.get_varint_data 0 ++
        Crypto.small.get_varint_data 1 ++
        serialized_inputs Crypto.small
          (trace Crypto.small (sign_start Crypto.small Emulator.small 2 0 1 1 3).2
            [Call.sign_add_input 1000 [7] 3 0,
              Call.sign_add_output (some (217, 219, 212)) false 900 0 0 4 6,
              Call.sign_add_extra [1, 2]]) ++
        Crypto.small.get_varint_data 1 ++
        serialized_outputs Crypto.small
          (trace Crypto.small (sign_start Crypto.small Emulator.small 2 0 1 1 3).2
            [Call.sign_add_input 1000 [7] 3 0,
              Call.sign_add_output (some (217, 219, 212)) false 900 0 0 4 6,
              Call.sign_add_extra [1, 2]]) ++
        Crypto.small.get_varint_data 3 ++
        (extra_chunks
          (trace Crypto.small (sign_start Crypto.small Emulator.small 2 0 1 1 3).2
            [Call.sign_add_input 1000 [7] 3 0,
              Call.sign_add_output (some (217, 219, 212)) false 900 0 0 4 6,
              Call.sign_add_extra [1, 2]]) ++ [3]) :=
  ⟨by decide, by decide,
    (prefix_finalisation Crypto.small Emulator.small 2 0 1 1 3
      [Call.sign_add_input 1000 [7] 3 0,
        Call.sign_add_output (some (217, 219, 212)) false 900 0 0 4 6,
        Call.sign_add_extra [1, 2]] [3] _ _ _ (by decide) rfl (by decide) rfl rfl (by decide)
      (by decide) (by decide)).1⟩

/-- C13 as stated fails in a session in which the proxy refuses an output.  After
`sign_start(2, 0, 1, 2, 0)` and the calls `refused_output`, the accepted `sign_add_extra([])`
brings `extra_counter` to `extra_size = 0` and hashes a prefix transcript that holds three output
records, the first being that of the refused `sign_add_output`, which was serialised before the
comparison with the proxy; the session has two outputs, and neither the transcript nor its hash is
that of the claimed composition. -/
theorem prefix_after_refused_output :
    (sign_add_extra Crypto.small
      (run Crypto.small (sign_start Crypto.small Emulator.small 2 0 1 2 0).2 refused_output)
      []).1 = some () ∧
    (sign_add_extra Crypto.small
      (run Crypto.small (sign_start Crypto.small Emulator.small 2 0 1 2 0).2 refused_output)
      []).2.sign.extra_counter
      = (run Crypto.small (sign_start Crypto.small Emulator.small 2 0 1 2 0).2
        refused_output).sign.extra_size ∧
    (sign_add_extra Crypto.small
      (run Crypto.small (sign_start Crypto.small Emulator.small 2 0 1 2 0).2 refused_output)
      []).2.sign.tx_prefix_stream
      = [2, 0, 1] ++ [2, 104, 1, 7, 88] ++ [2] ++
        ([2, 100, 217, 219, 212] ++ [2, 100, 217, 219, 212] ++ [2, 100, 219, 220, 213]) ++ [0] ∧
    serialized_outputs Crypto.small
      (trace Crypto.small (sign_start Crypto.small Emulator.small 2 0 1 2 0).2 refused_output)
      = [2, 100, 217, 219, 212] ++ [2, 100, 219, 220, 213] ∧
    ¬ ((sign_add_extra Crypto.small
        (run Crypto.small (sign_start Crypto.small Emulator.small 2 0 1 2 0).2 refused_output)
        []).2.sign.tx_prefix_stream =
      Crypto.small.get_varint_data 2 ++ Crypto.small.get_varint_data 0 ++
        Crypto.small.get_varint_data 1 ++
        serialized_inputs Crypto.small
          (trace Crypto.small (sign_start Crypto.small Emulator.small 2 0 1 2 0).2
            refused_output) ++
        Crypto.small.get_varint_data 2 ++
        serialized_outputs Crypto.small
          (trace Crypto.small (sign_start Crypto.small Emulator.small 2 0 1 2 0).2
            refused_output) ++
        Crypto.small.get_varint_data 0 ++
        (extra_chunks
          (trace Crypto.small (sign_start Crypto.small Emulator.small 2 0 1 2 0).2
            refused_output) ++ [])) ∧
    ¬ ((sign_add_extra Crypto.small
        (run Crypto.small (sign_start Crypto.small Emulator.small 2 0 1 2 0).2 refused_output)
        []).2.sign.tx_prefix_hash =
      Crypto.small.cn_fast_hash
        (Crypto.small.get_varint_data 2 ++ Crypto.small.get_varint_data 0 ++
          Crypto.small.get_varint_data 1 ++
          serialized_inputs Crypto.small
            (trace Crypto.small (sign_start Crypto.small Emulator.small 2 0 1 2 0).2
              refused_output) ++
          Crypto.small.get_varint_data 2 ++
          serialized_outputs Crypto.small
            (trace Crypto.small (sign_start Crypto.small Emulator.small 2 0 1 2 0).2
              refused_output) ++
          Crypto.small.get_varint_data 0 ++
          (extra_chunks
            (trace Crypto.small (sign_start Crypto.small Emulator.small 2 0 1 2 0).2
              refused_output) ++ []))) := by
  refine ⟨by decide, by decide, by decide, by decide, by decide, by decide⟩

/-- When no `sign_step_a` fails the comparison with the proxy, a `sign_step_a` is accepted
exactly when it is called in its expected position. -/
theorem accepted_step_a_eq_carried_agree (C : Crypto S P) (cs : List (Call S P))
    (e : Emulator S P) (hcs : ∀ c ∈ cs, c.inSession = true)
    (hag : ∀ ev ∈ trace C e cs, ev.call.isStepA = true →
      proxy_refuses C ev.pre ev.call = false) :
    accepted Call.isStepA (trace C e cs) = carried Call.isStepA (trace C e cs) := by
  unfold accepted carried
  apply List.filter_congr
  intro ev hev
  obtain ⟨hmem, hres, -⟩ := trace_event C cs e hcs ev hev
  have hag' := hag ev hev
  cases hcall : ev.call with
  | sign_step_a px inv address_index =>
    rw [hcall] at hag'
    have hs := congrArg (fun t => t.1.isSome) (step_without_proxy C ev.pre _ (hag' rfl))
    simp only [Call.withoutProxy, step, Option.isSome_map'] at hs
    simp only [Call.isStepA, Bool.and_true, Event.ok, hres, hcall, step, Option.isSome_map', hs]
    by_cases hexp : expected_position (Call.sign_step_a px inv address_index) ev.pre.sign
    · rw [decide_eq_true hexp]
      exact (sign_step_a_ok C none ev.pre inv address_index hexp).2.2.2.2.2.2.2 rfl
    · rw [decide_eq_false hexp, sign_step_a_fail C none ev.pre inv address_index hexp]
      rfl
  | _ => simp [Call.isStepA]

theorem opening_stepPhase (C : Crypto S P) (e : Emulator S P) (opening : Call S P)
    (hopening : opening.inSession = false) (hopened : (step C e opening).1.isSome = true) :
    StepPhase (step C e opening).2.sign.inputs_size 0 0 (step C e opening).2 := by
  cases opening with
  | sign_start version ut n m x =>
    have hne : ¬ (n = 0 ∨ m = 0 ∨ version = 0) := by
      intro h
      simp only [step, ((sign_start_spec C e version ut n m x).1).mpr h] at hopened
      exact Bool.noConfusion hopened
    have hspec := (sign_start_spec C e version ut n m x).2
    rw [if_neg hne] at hspec
    simp only [step, hspec]
    exact ⟨rfl, rfl, rfl⟩
  | proof_start data =>
    simp only [step, proof_start_eq]
    exact ⟨rfl, rfl, rfl, rfl⟩
  | sign_add_input => simp [Call.inSession] at hopening
  | sign_add_output => simp [Call.inSession] at hopening
  | sign_add_extra => simp [Call.inSession] at hopening
  | sign_step_a => simp [Call.inSession] at hopening
  | sign_step_a_more_data => simp [Call.inSession] at hopening
  | sign_get_c0 => simp [Call.inSession] at hopening
  | sign_step_b => simp [Call.inSession] at hopening

/-- C6, as the code has it: in a session opened by an accepted `sign_start` or `proof_start` in
which no `sign_step_a` failed the comparison with the proxy, the `k`-th accepted `sign_step_a`
and the `k`-th accepted `sign_step_b` (counted from 0; then `k < inputs_size`) work with the same
three nonces `hash_to_scalar(random_seed ‖ spend_secret_key ‖ tag[0] ‖ tag[1] ‖ varint(k))`, `tag`
in `ka`, `kb`, `kc`, where `random_seed` is the zero hash: `sign_step_a` returns `x` and `y` built
from `ka` and appends `p` and `z = kb·H + kc·B`, and `sign_step_b` returns
`ra = ka − my_c·secret_a`, `rb = kb − c0·secret_s`, `rc = kc + c0·secret_a`. -/
theorem nonce_determinism (C : Crypto S P) (e : Emulator S P) (opening : Call S P)
    (cs : List (Call S P)) (k : Nat) (eva evb : Event S P)
    (hopening : opening.inSession = false) (hopened : (step C e opening).1.isSome = true)
    (hn : (step C e opening).2.sign.inputs_size ≤ UINT64_MAX)
    (hcs : ∀ c ∈ cs, c.inSession = true)
    (hagree : ∀ ev ∈ trace C (step C e opening).2 cs, ev.call.isStepA = true →
      proxy_refuses C ev.pre ev.call = false)
    (hka : (accepted Call.isStepA (trace C (step C e opening).2 cs))[k]? = some eva)
    (hkb : (accepted Call.isStepB (trace C (step C e opening).2 cs))[k]? = some evb) :
    k < (step C e opening).2.sign.inputs_size ∧
    (∀ tag : Char × Char,
      nonce C eva.pre k tag =
        C.hash_to_scalar (zero_hash ++ C.scalar_data e.m_spend_secret_key ++ [tag.1.toNat] ++
          [tag.2.toNat] ++ C.get_varint_data k) ∧
      nonce C evb.pre k tag = nonce C eva.pre k tag) ∧
    (∃ px inv address_index,
      eva.call = Call.sign_step_a px inv address_index ∧
      eva.result = some (Output.step_a (step_a_values C eva.pre k inv address_index).p
        (step_a_values C eva.pre k inv address_index).x
        (step_a_values C eva.pre k inv address_index).y) ∧
      eva.post.sign.tx_inputs_stream = eva.pre.sign.tx_inputs_stream ++
        C.point_data (step_a_values C eva.pre k inv address_index).p ++
        C.point_data (step_a_values C eva.pre k inv address_index).z) ∧
    (∃ px inv address_index my_c,
      evb.call = Call.sign_step_b px inv address_index my_c ∧
      evb.result = some (Output.step_b
        (nonce C evb.pre k ('k', 'a') -
          my_c * ((prepare_address C evb.pre address_index).last_address_audit_secret_key * inv))
        (nonce C evb.pre k ('k', 'b') - evb.pre.sign.c0 * (evb.pre.m_spend_secret_key * inv))
        (nonce C evb.pre k ('k', 'c') +
          evb.pre.sign.c0 *
            ((prepare_address C evb.pre address_index).last_address_audit_secret_key * inv)))) := by
  have hphase := opening_stepPhase C e opening hopening hopened
  have hseed := opening_random_seed C e opening hopening hopened
  have hkeys := (step_keys_cache C e opening).1
  generalize (step C e opening).2 = E at *
  obtain ⟨-, hia, hib⟩ := stepPhase_trace C E.sign.inputs_size hn cs 0 0 E hcs hphase
  have hidxa := hia k eva (by rw [← accepted_step_a_eq_carried_agree C cs E hcs hagree]; exact hka)
  have hidxb := hib k evb hkb
  rw [Nat.zero_add] at hidxa hidxb
  obtain ⟨hma, hoka, hkinda⟩ := mem_of_accepted _ _ _ _ hka
  obtain ⟨hmb, hokb, hkindb⟩ := mem_of_accepted _ _ _ _ hkb
  obtain ⟨hca, hra, hpa, hkeya, hshapea, hseeda⟩ := trace_event C cs E hcs eva hma
  obtain ⟨hcb, hrb, hpb, hkeyb, -, hseedb⟩ := trace_event C cs E hcs evb hmb
  have spend : ∀ e' : Emulator S P, e'.keys = E.keys →
      e'.m_spend_secret_key = e.m_spend_secret_key := by
    intro e' h
    have := congrArg (fun t => t.1) (h.trans hkeys)
    simpa [Emulator.keys] using this
  have hstepa : ∃ px inv address_index, eva.call = Call.sign_step_a px inv address_index ∧
      ((eva.pre.sign.state = State.EXPECT_STEP_A ∧
          eva.pre.sign.inputs_counter < eva.pre.sign.inputs_size) ∨
        (eva.pre.sign.state = State.EXPECT_STEP_A_MORE_DATA ∧
          wrap64 (eva.pre.sign.inputs_counter + 1) < eva.pre.sign.inputs_size)) ∧
      (sign_step_a C px eva.pre inv address_index).1.isSome = true := by
    cases hcall : eva.call with
    | sign_step_a px inv address_index =>
      refine ⟨px, inv, address_index, rfl, ?_⟩
      simp only [Event.ok, hra, hcall, step, Option.isSome_map'] at hoka
      refine ⟨?_, hoka⟩
      by_contra hne
      rw [sign_step_a_fail C px eva.pre inv address_index hne] at hoka
      exact Bool.noConfusion hoka
    | _ => rw [hcall] at hkinda; simp [Call.isStepA] at hkinda
  obtain ⟨px, inv, address_index, hcall, hexp, hoka'⟩ := hstepa
  obtain ⟨-, -, hlt, hstream, -, -, hval, -⟩ := sign_step_a_ok C px eva.pre inv address_index hexp
  rw [hidxa] at hval hstream hlt
  refine ⟨?_, ?_, ⟨px, inv, address_index, hcall, ?_, ?_⟩, ?_⟩
  · rw [← shape_inputs_size hshapea]
    exact hlt
  · intro tag
    simp only [nonce, hseeda, hseedb, hseed, spend _ hkeya, spend _ hkeyb, and_self]
  · rw [hra, hcall]
    simp only [step]
    obtain ⟨o, ho⟩ := Option.isSome_iff_exists.mp hoka'
    rw [ho, hval o ho]
    rfl
  · rw [hpa, hcall]
    simp only [step]
    exact hstream
  · cases hcallb : evb.call with
    | sign_step_b pxb invb address_indexb my_c =>
      refine ⟨pxb, invb, address_indexb, my_c, rfl, ?_⟩
      simp only [Event.ok, hrb, hcallb, step, Option.isSome_map'] at hokb
      obtain ⟨-, -, hvalb⟩ := sign_step_b_values C pxb evb.pre invb address_indexb my_c
      rw [hidxb] at hvalb
      rw [hrb, hcallb]
      simp only [step]
      obtain ⟨o, ho⟩ := Option.isSome_iff_exists.mp hokb
      rw [ho, hvalb o ho]
      rfl
    | _ => rw [hcallb] at hkindb; simp [Call.isStepB] at hkindb

/-- Witness of C6 on the session `signed_rounds` of two inputs, at `k = 1`: the second
`sign_step_a`, on which the attached proxy agrees, and the second `sign_step_b` are the accepted
calls number 1 and use the same `kb`. -/
theorem nonce_determinism_witness :
    (accepted Call.isStepA
      (trace Crypto.small (step Crypto.small Emulator.small (Call.sign_start 2 0 2 1 0)).2
        signed_rounds))[1]?
      = some (event Crypto.small
        (run Crypto.small (step Crypto.small Emulator.small (Call.sign_start 2 0 2 1 0)).2
          (signed_rounds.take 7))
        (Call.sign_step_a (some (-43791, 342664, 12660)) 3 1)) ∧
    (accepted Call.isStepB
      (trace Crypto.small (step Crypto.small Emulator.small (Call.sign_start 2 0 2 1 0)).2
        signed_rounds))[1]?
      = some (event Crypto.small
        (run Crypto.small (step Crypto.small Emulator.small (Call.sign_start 2 0 2 1 0)).2
          (signed_rounds.take 11))
        (Call.sign_step_b none 3 1 2)) ∧
    nonce Crypto.small
      (run Crypto.small (step Crypto.small Emulator.small (Call.sign_start 2 0 2 1 0)).2
        (signed_rounds.take 11)) 1 ('k', 'b') =
      nonce Crypto.small
        (run Crypto.small (step Crypto.small Emulator.small (Call.sign_start 2 0 2 1 0)).2
          (signed_rounds.take 7)) 1 ('k', 'b') ∧
    (event Crypto.small
      (run Crypto.small (step Crypto.small Emulator.small (Call.sign_start 2 0 2 1 0)).2
        (signed_rounds.take 11))
      (Call.sign_step_b none 3 1 2)).result = some (Output.step_b 157 (-4213) 8178) :=
  ⟨by rfl, by rfl,
    ((nonce_determinism Crypto.small Emulator.small (Call.sign_start 2 0 2 1 0) signed_rounds 1
      (event Crypto.small
        (run Crypto.small (step Crypto.small Emulator.small (Call.sign_start 2 0 2 1 0)).2
          (signed_rounds.take 7))
        (Call.sign_step_a (some (-43791, 342664, 12660)) 3 1))
      (event Crypto.small
        (run Crypto.small (step Crypto.small Emulator.small (Call.sign_start 2 0 2 1 0)).2
          (signed_rounds.take 11))
        (Call.sign_step_b none 3 1 2))
      rfl (by decide) (by decide) (by decide) (by decide) (by rfl) (by rfl)).2.1
      ('k', 'b')).2, by rfl⟩

/-- C6 as stated fails in a session in which the proxy refuses a `sign_step_a`.  After
`sign_start(2, 0, 2, 1, 0)` and the calls `refused_step_a`, the refused `sign_step_a` has left the
session in `EXPECT_STEP_A_MORE_DATA`, so the accepted `sign_step_a` number 0 works on input 1: it
returns `x = 342664`, built from the nonce `ka` of index 1 (`211`), and not `341040`, which the
nonce of index 0 (`210`) gives; the accepted `sign_step_b` number 0 works with the nonce `ka` of
index 0. -/
theorem nonces_after_refused_step_a :
    (trace Crypto.small (step Crypto.small Emulator.small (Call.sign_start 2 0 2 1 0)).2
        refused_step_a).map (fun ev => (proxy_refuses Crypto.small ev.pre ev.call, ev.ok))
      = [(false, true), (false, true), (false, true), (false, true), (true, false),
        (false, true), (false, true), (false, true), (false, true), (false, true)] ∧
    (accepted Call.isStepA
      (trace Crypto.small (step Crypto.small Emulator.small (Call.sign_start 2 0 2 1 0)).2
        refused_step_a))[0]?
      = some (event Crypto.small
        (run Crypto.small (step Crypto.small Emulator.small (Call.sign_start 2 0 2 1 0)).2
          (refused_step_a.take 5))
        (Call.sign_step_a none 3 1)) ∧
    (accepted Call.isStepB
      (trace Crypto.small (step Crypto.small Emulator.small (Call.sign_start 2 0 2 1 0)).2
        refused_step_a))[0]?
      = some (event Crypto.small
        (run Crypto.small (step Crypto.small Emulator.small (Call.sign_start 2 0 2 1 0)).2
          (refused_step_a.take 8))
        (Call.sign_step_b none 3 0 2)) ∧
    (event Crypto.small
      (run Crypto.small (step Crypto.small Emulator.small (Call.sign_start 2 0 2 1 0)).2
        (refused_step_a.take 5))
      (Call.sign_step_a none 3 1)).result = some (Output.step_a (-43791) 342664 12660) ∧
    (step_a_values Crypto.small
      (run Crypto.small (step Crypto.small Emulator.small (Call.sign_start 2 0 2 1 0)).2
        (refused_step_a.take 5)) 1 3 1).x = 342664 ∧
    (step_a_values Crypto.small
      (run Crypto.small (step Crypto.small Emulator.small (Call.sign_start 2 0 2 1 0)).2
        (refused_step_a.take 5)) 0 3 1).x = 341040 ∧
    (event Crypto.small
      (run Crypto.small (step Crypto.small Emulator.small (Call.sign_start 2 0 2 1 0)).2
        (refused_step_a.take 8))
      (Call.sign_step_b none 3 0 2)).result = some (Output.step_b 162 (-3959) 6884) ∧
    nonce Crypto.small
      (run Crypto.small (step Crypto.small Emulator.small (Call.sign_start 2 0 2 1 0)).2
        (refused_step_a.take 8)) 0 ('k', 'a')
      - 2 * ((prepare_address Crypto.small
        (run Crypto.small (step Crypto.small Emulator.small (Call.sign_start 2 0 2 1 0)).2
          (refused_step_a.take 8)) 0).last_address_audit_secret_key * 3) = 162 ∧
    nonce Crypto.small
      (run Crypto.small (step Crypto.small Emulator.small (Call.sign_start 2 0 2 1 0)).2
        (refused_step_a.take 5)) 1 ('k', 'a') = 211 ∧
    nonce Crypto.small
      (run Crypto.small (step Crypto.small Emulator.small (Call.sign_start 2 0 2 1 0)).2
        (refused_step_a.take 8)) 0 ('k', 'a') = 210 ∧
    ¬ ((step_a_values Crypto.small
        (run Crypto.small (step Crypto.small Emulator.small (Call.sign_start 2 0 2 1 0)).2
          (refused_step_a.take 5)) 1 3 1).x
      = (step_a_values Crypto.small
        (run Crypto.small (step Crypto.small Emulator.small (Call.sign_start 2 0 2 1 0)).2
          (refused_step_a.take 5)) 0 3 1).x) := by
  refine ⟨by decide, by rfl, by rfl, by rfl, by decide, by decide, by rfl, by decide, by decide,
    by decide, by decide⟩

/-- C15 (subaddress cache): for every index `i` and every prior cache content that the code
can have left (a cache that is not labelled `i`, whatever it holds, or a cache labelled `i` that
holds the secret of `i`: the cache is written by `prepare_address` only, as a label together with
the secret of that label), after `prepare_address(i)` the cache is labelled `i` and the cached
secret is `generate_hd_secretkey(audit_base_secret_key, A_plus_sH, i)`; the cache is then
consistent, and the sequence `prepare_address(i)`, `prepare_address(j)`, `prepare_address(i)`
yields the same secret both times `i` is requested, for every `j`.  A consistent cache stays
consistent under every sequence of calls of the protocol, after which every request still yields
the secret of the requested index. -/
theorem prepare_address_cached_secret (C : Crypto S P) (e : Emulator S P) (i : Nat)
    (h : e.last_address_index = i → CacheOk C e) :
    (prepare_address C e i).last_address_index = i ∧
    (prepare_address C e i).last_address_audit_secret_key =
      C.generate_hd_secretkey e.m_audit_key_base_secret_key e.m_A_plus_sH i ∧
    CacheOk C (prepare_address C e i) ∧
    (∀ j, (prepare_address C (prepare_address C (prepare_address C e i) j)
        i).last_address_audit_secret_key
      = (prepare_address C e i).last_address_audit_secret_key) ∧
    (CacheOk C e → ∀ (cs : List (Call S P)) (k : Nat),
      CacheOk C (run C e cs) ∧
      (prepare_address C (run C e cs) k).last_address_audit_secret_key =
        C.generate_hd_secretkey e.m_audit_key_base_secret_key e.m_A_plus_sH k) := by
  have h1 : (prepare_address C e i).last_address_index = i ∧
      (prepare_address C e i).last_address_audit_secret_key =
        C.generate_hd_secretkey e.m_audit_key_base_secret_key e.m_A_plus_sH i := by
    unfold prepare_address
    split
    · exact ⟨rfl, rfl⟩
    · rename_i hh
      simp only [ne_eq, not_not] at hh
      have hc := h hh.symm
      unfold CacheOk at hc
      rw [← hh] at hc
      exact ⟨hh.symm, hc⟩
  have hok : CacheOk C (prepare_address C e i) := by
    unfold CacheOk
    rw [h1.2, h1.1, prepare_address_m_audit_key_base_secret_key, prepare_address_m_A_plus_sH]
  refine ⟨h1.1, h1.2, hok, ?_, ?_⟩
  swap
  · intro hc cs k
    obtain ⟨rk, rc⟩ := run_keys_cache C cs e
    obtain ⟨-, a2, a3⟩ := keys_spend rk
    refine ⟨rc hc, ?_⟩
    rw [(prepare_address_cache C _ k (rc hc)).2, a2, a3]
  intro j
  have hok2 : CacheOk C (prepare_address C (prepare_address C e i) j) := by
    have := prepare_address_cache C (prepare_address C e i) j hok
    unfold CacheOk
    rw [this.2, this.1]
    simp only [prepare_address_m_audit_key_base_secret_key, prepare_address_m_A_plus_sH]
  rw [(prepare_address_cache C _ i hok2).2, h1.2]
  simp only [prepare_address_m_audit_key_base_secret_key, prepare_address_m_A_plus_sH]

/-- On `Emulator.small`, whose cache is labelled `0` and holds the secret of index `0`, the
index `0` is requested, then `1`, then `0` again; and after the round trip of the spec a request
of index `5` yields the secret of index `5`. -/
theorem prepare_address_cached_secret_witness :
    CacheOk Crypto.small Emulator.small ∧
    (prepare_address Crypto.small Emulator.small 0).last_address_audit_secret_key = 8 ∧
    (prepare_address Crypto.small Emulator.small 0).last_address_audit_secret_key =
      Crypto.small.generate_hd_secretkey Emulator.small.m_audit_key_base_secret_key
        Emulator.small.m_A_plus_sH 0 ∧
    (prepare_address Crypto.small
      (prepare_address Crypto.small (prepare_address Crypto.small Emulator.small 0) 1)
      0).last_address_audit_secret_key
      = (prepare_address Crypto.small Emulator.small 0).last_address_audit_secret_key ∧
    (prepare_address Crypto.small
      (run Crypto.small Emulator.small (Call.sign_start 2 0 1 1 0 :: round_trip))
      5).last_address_audit_secret_key = 13 ∧
    (prepare_address Crypto.small
      (run Crypto.small Emulator.small (Call.sign_start 2 0 1 1 0 :: round_trip))
      5).last_address_audit_secret_key =
      Crypto.small.generate_hd_secretkey Emulator.small.m_audit_key_base_secret_key
        Emulator.small.m_A_plus_sH 5 :=
  ⟨rfl, by decide,
    (prepare_address_cached_secret Crypto.small Emulator.small 0 (fun _ => rfl)).2.1,
    (prepare_address_cached_secret Crypto.small Emulator.small 0 (fun _ => rfl)).2.2.2.1 1,
    by decide,
    ((prepare_address_cached_secret Crypto.small Emulator.small 0 (fun _ => rfl)).2.2.2.2 rfl
      (Call.sign_start 2 0 1 1 0 :: round_trip) 5).2⟩

/-- In its expected position `sign_step_a` returns its own values with no proxy, and with a proxy
exactly when the proxy answers these values. -/
theorem sign_step_a_proxy (C : Crypto S P) (e : Emulator S P) (inv : S) (address_index : Nat)
    (h : (e.sign.state = State.EXPECT_STEP_A ∧ e.sign.inputs_counter < e.sign.inputs_size) ∨
      (e.sign.state = State.EXPECT_STEP_A_MORE_DATA ∧
        wrap64 (e.sign.inputs_counter + 1) < e.sign.inputs_size)) :
    (sign_step_a C none e inv address_index).1 =
      some ((step_a_values C e (step_a_index e.sign) inv address_index).p,
        (step_a_values C e (step_a_index e.sign) inv address_index).x,
        (step_a_values C e (step_a_index e.sign) inv address_index).y) ∧
    ∀ r : P × P × P,
      (sign_step_a C (some r) e inv address_index).1 =
        (if r = ((step_a_values C e (step_a_index e.sign) inv address_index).p,
            (step_a_values C e (step_a_index e.sign) inv address_index).x,
            (step_a_values C e (step_a_index e.sign) inv address_index).y)
          then some r else none) := by
  obtain ⟨-, -, -, -, -, -, hval, hsome⟩ := sign_step_a_ok C none e inv address_index h
  obtain ⟨o, ho⟩ := Option.isSome_iff_exists.mp (hsome rfl)
  have hown := hval o ho
  subst hown
  refine ⟨ho, fun r => ?_⟩
  obtain ⟨-, p2⟩ := sign_step_a_parity C e inv address_index r
  obtain ⟨q1, q2⟩ := p2 _ ho
  by_cases hr : r = ((step_a_values C e (step_a_index e.sign) inv address_index).p,
      (step_a_values C e (step_a_index e.sign) inv address_index).x,
      (step_a_values C e (step_a_index e.sign) inv address_index).y)
  · rw [if_pos hr, q2 hr, ho, hr]
  · rw [if_neg hr, q1 hr]

/-- In its expected position `sign_get_c0` returns its own value with no proxy, and with a proxy
exactly when the proxy answers this value. -/
theorem sign_get_c0_proxy (C : Crypto S P) (e : Emulator S P)
    (h : e.sign.state = State.EXPECT_STEP_A_MORE_DATA ∧
      wrap64 (e.sign.inputs_counter + 1) = e.sign.inputs_size) :
    (sign_get_c0 C none e).1 = some (C.hash_to_scalar e.sign.tx_inputs_stream) ∧
    ∀ r : S, (sign_get_c0 C (some r) e).1 =
      (if r = C.hash_to_scalar e.sign.tx_inputs_stream then some r else none) := by
  have ho := (sign_get_c0_ok C none e h).2.2.2.2 rfl
  refine ⟨ho, fun r => ?_⟩
  obtain ⟨q1, q2⟩ := (sign_get_c0_parity C e r).2 _ ho
  by_cases hr : r = C.hash_to_scalar e.sign.tx_inputs_stream
  · rw [if_pos hr, q2 hr, ho, hr]
  · rw [if_neg hr, q1 hr]

/-- In its expected position `sign_step_b` returns its own values with no proxy, and with a proxy
exactly when the proxy answers these values. -/
theorem sign_step_b_proxy (C : Crypto S P) (e : Emulator S P) (inv : S) (address_index : Nat)
    (my_c : S)
    (h : e.sign.state = State.EXPECT_STEP_B ∧ e.sign.inputs_counter < e.sign.inputs_size) :
    (sign_step_b C none e inv address_index my_c).1 =
      some (nonce C e e.sign.inputs_counter ('k', 'a') -
            my_c * ((prepare_address C e address_index).last_address_audit_secret_key * inv),
          nonce C e e.sign.inputs_counter ('k', 'b') -
            e.sign.c0 * (e.m_spend_secret_key * inv),
          nonce C e e.sign.inputs_counter ('k', 'c') +
            e.sign.c0 * ((prepare_address C e address_index).last_address_audit_secret_key * inv))
      ∧
    ∀ r : S × S × S,
      (sign_step_b C (some r) e inv address_index my_c).1 =
        (if r = (nonce C e e.sign.inputs_counter ('k', 'a') -
            my_c * ((prepare_address C e address_index).last_address_audit_secret_key * inv),
          nonce C e e.sign.inputs_counter ('k', 'b') -
            e.sign.c0 * (e.m_spend_secret_key * inv),
          nonce C e e.sign.inputs_counter ('k', 'c') +
            e.sign.c0 * ((prepare_address C e address_index).last_address_audit_secret_key * inv))
          then some r else none) := by
  have hsome := (sign_step_b_ok C none e inv address_index my_c h).2 rfl
  obtain ⟨o, ho⟩ := Option.isSome_iff_exists.mp hsome
  have hown := (sign_step_b_values C none e inv address_index my_c).2.2 o ho
  subst hown
  refine ⟨ho, fun r => ?_⟩
  obtain ⟨q1, q2⟩ := (sign_step_b_parity C e inv address_index my_c r).2 _ ho
  split_ifs with hr
  · rw [q2 hr, ho, hr]
  · rw [q1 hr]

/-- A `sign_add_output` that passes the emulator's own checks returns the derived output with no
proxy, and with a proxy exactly when the proxy answers this output. -/
theorem sign_add_output_proxy (C : Crypto S P) (e : Emulator S P) (change : Bool)
    (amount cai tag : Nat) (ds dsv : P)
    (hpos : e.sign.state = State.EXPECT_ADD_OUTPUT ∧ e.sign.outputs_counter < e.sign.outputs_size)
    (hsize : e.sign.outputs_size ≤ UINT64_MAX) (hin : e.sign.inputs_amount ≤ UINT64_MAX)
    (hdest : change = false → e.sign.dst_address_set = true →
      (e.sign.dst_address_tag = tag ∧ e.sign.dst_address_s = ds ∧ e.sign.dst_address_s_v = dsv))
    (hfit : e.sign.dst_amount + e.sign.change_amount + amount ≤ e.sign.inputs_amount) :
    ∃ fee : Option Nat,
      (sign_add_output C none e change amount cai tag ds dsv).1 =
        some ((if change = true then
            derived_output C e C.AccountAddressUnlinkable_type_tag
              (prepare_address_public C e cai).2.1 (prepare_address_public C e cai).2.2
          else derived_output C e tag ds dsv), fee) ∧
      ∀ r : P × P × Nat,
        (sign_add_output C (some r) e change amount cai tag ds dsv).1 =
          (if r = (if change = true then
              derived_output C e C.AccountAddressUnlinkable_type_tag
                (prepare_address_public C e cai).2.1 (prepare_address_public C e cai).2.2
            else derived_output C e tag ds dsv)
            then some (r, fee) else none) := by
  have hsome := (sign_add_output_accepts C e change amount cai tag ds dsv hpos hsize hin hdest
    hfit).1
  obtain ⟨⟨out, fee⟩, ho⟩ := Option.isSome_iff_exists.mp hsome
  obtain ⟨-, hacc, -⟩ := sign_add_output_out C none e change amount cai tag ds dsv out fee ho
  have hown := sign_add_output_account_out C e change amount cai tag ds dsv out hacc
  subst hown
  refine ⟨fee, ho, fun r => ?_⟩
  obtain ⟨q1, q2⟩ := (sign_add_output_parity C e change amount cai tag ds dsv r).2 _ fee ho
  generalize (if change = true then
      derived_output C e C.AccountAddressUnlinkable_type_tag
        (prepare_address_public C e cai).2.1 (prepare_address_public C e cai).2.2
    else derived_output C e tag ds dsv) = own at *
  by_cases hr : r = own
  · rw [if_pos hr, q2 hr, ho, hr]
  · rw [if_neg hr, q1 hr]

/-- C18 (proxy parity): with a hardware proxy attached that answers `r` to the same call, each of
`sign_add_output`, `sign_step_a`, `sign_get_c0` and `sign_step_b` throws whenever the operation
throws on its own (with no proxy), and, when the operation on its own returns the result `own`
(`(public_key, encrypted_secret, encrypted_address_type)`; `(sig_p, x, y)`; `c0`;
`(ra, rb, rc)`), it throws if `r` differs from `own` in any component and behaves exactly as with
no proxy if `r` is identical to `own`.  And the operations do return when their checks pass:
`sign_step_a`, `sign_get_c0` and `sign_step_b` called in their expected position, and
`sign_add_output` called in its expected position for the committed destination with an amount
that the inputs cover, return their own values with no proxy attached, and with a proxy attached
they return exactly when the proxy answers these values. -/
theorem proxy_parity (C : Crypto S P) (e : Emulator S P) :
    (∀ change amount change_address_index dst_address_tag dst_address_s dst_address_s_v
        (r : P × P × Nat),
      ((sign_add_output C none e change amount change_address_index dst_address_tag dst_address_s
          dst_address_s_v).1 = none →
        (sign_add_output C (some r) e change amount change_address_index dst_address_tag
          dst_address_s dst_address_s_v).1 = none) ∧
      (∀ own fee, (sign_add_output C none e change amount change_address_index dst_address_tag
          dst_address_s dst_address_s_v).1 = some (own, fee) →
        (r ≠ own → (sign_add_output C (some r) e change amount change_address_index
          dst_address_tag dst_address_s dst_address_s_v).1 = none) ∧
        (r = own → sign_add_output C (some r) e change amount change_address_index
            dst_address_tag dst_address_s dst_address_s_v
          = sign_add_output C none e change amount change_address_index dst_address_tag
            dst_address_s dst_address_s_v))) ∧
    (∀ inv address_index (r : P × P × P),
      ((sign_step_a C none e inv address_index).1 = none →
        (sign_step_a C (some r) e inv address_index).1 = none) ∧
      (∀ own, (sign_step_a C none e inv address_index).1 = some own →
        (r ≠ own → (sign_step_a C (some r) e inv address_index).1 = none) ∧
        (r = own → sign_step_a C (some r) e inv address_index
          = sign_step_a C none e inv address_index))) ∧
    (∀ r : S,
      ((sign_get_c0 C none e).1 = none → (sign_get_c0 C (some r) e).1 = none) ∧
      (∀ own, (sign_get_c0 C none e).1 = some own →
        (r ≠ own → (sign_get_c0 C (some r) e).1 = none) ∧
        (r = own → sign_get_c0 C (some r) e = sign_get_c0 C none e))) ∧
    (∀ inv address_index my_c (r : S × S × S),
      ((sign_step_b C none e inv address_index my_c).1 = none →
        (sign_step_b C (some r) e inv address_index my_c).1 = none) ∧
      (∀ own, (sign_step_b C none e inv address_index my_c).1 = some own →
        (r ≠ own → (sign_step_b C (some r) e inv address_index my_c).1 = none) ∧
        (r = own → sign_step_b C (some r) e inv address_index my_c
          = sign_step_b C none e inv address_index my_c))) ∧
    (∀ change amount change_address_index dst_address_tag dst_address_s dst_address_s_v,
      (e.sign.state = State.EXPECT_ADD_OUTPUT ∧ e.sign.outputs_counter < e.sign.outputs_size) →
      e.sign.outputs_size ≤ UINT64_MAX → e.sign.inputs_amount ≤ UINT64_MAX →
      (change = false → e.sign.dst_address_set = true →
        (e.sign.dst_address_tag = dst_address_tag ∧ e.sign.dst_address_s = dst_address_s ∧
          e.sign.dst_address_s_v = dst_address_s_v)) →
      e.sign.dst_amount + e.sign.change_amount + amount ≤ e.sign.inputs_amount →
      ∃ fee : Option Nat,
        (sign_add_output C none e change amount change_address_index dst_address_tag
            dst_address_s dst_address_s_v).1 =
          some ((if change = true then
              derived_output C e C.AccountAddressUnlinkable_type_tag
                (prepare_address_public C e change_address_index).2.1
                (prepare_address_public C e change_address_index).2.2
            else derived_output C e dst_address_tag dst_address_s dst_address_s_v), fee) ∧
        ∀ r : P × P × Nat,
          (sign_add_output C (some r) e change amount change_address_index dst_address_tag
              dst_address_s dst_address_s_v).1 =
            (if r = (if change = true then
                derived_output C e C.AccountAddressUnlinkable_type_tag
                  (prepare_address_public C e change_address_index).2.1
                  (prepare_address_public C e change_address_index).2.2
              else derived_output C e dst_address_tag dst_address_s dst_address_s_v)
              then some (r, fee) else none)) ∧
    (∀ inv address_index,
      ((e.sign.state = State.EXPECT_STEP_A ∧ e.sign.inputs_counter < e.sign.inputs_size) ∨
        (e.sign.state = State.EXPECT_STEP_A_MORE_DATA ∧
          wrap64 (e.sign.inputs_counter + 1) < e.sign.inputs_size)) →
      (sign_step_a C none e inv address_index).1 =
        some ((step_a_values C e (step_a_index e.sign) inv address_index).p,
          (step_a_values C e (step_a_index e.sign) inv address_index).x,
          (step_a_values C e (step_a_index e.sign) inv address_index).y) ∧
      ∀ r : P × P × P,
        (sign_step_a C (some r) e inv address_index).1 =
          (if r = ((step_a_values C e (step_a_index e.sign) inv address_index).p,
              (step_a_values C e (step_a_index e.sign) inv address_index).x,
              (step_a_values C e (step_a_index e.sign) inv address_index).y)
            then some r else none)) ∧
    ((e.sign.state = State.EXPECT_STEP_A_MORE_DATA ∧
        wrap64 (e.sign.inputs_counter + 1) = e.sign.inputs_size) →
      (sign_get_c0 C none e).1 = some (C.hash_to_scalar e.sign.tx_inputs_stream) ∧
      ∀ r : S, (sign_get_c0 C (some r) e).1 =
        (if r = C.hash_to_scalar e.sign.tx_inputs_stream then some r else none)) ∧
    (∀ inv address_index my_c,
      (e.sign.state = State.EXPECT_STEP_B ∧ e.sign.inputs_counter < e.sign.inputs_size) →
      (sign_step_b C none e inv address_index my_c).1 =
        some (nonce C e e.sign.inputs_counter ('k', 'a') -
              my_c * ((prepare_address C e address_index).last_address_audit_secret_key * inv),
            nonce C e e.sign.inputs_counter ('k', 'b') -
              e.sign.c0 * (e.m_spend_secret_key * inv),
            nonce C e e.sign.inputs_counter ('k', 'c') +
              e.sign.c0 *
                ((prepare_address C e address_index).last_address_audit_secret_key * inv)) ∧
      ∀ r : S × S × S,
        (sign_step_b C (some r) e inv address_index my_c).1 =
          (if r = (nonce C e e.sign.inputs_counter ('k', 'a') -
              my_c * ((prepare_address C e address_index).last_address_audit_secret_key * inv),
            nonce C e e.sign.inputs_counter ('k', 'b') -
              e.sign.c0 * (e.m_spend_secret_key * inv),
            nonce C e e.sign.inputs_counter ('k', 'c') +
              e.sign.c0 *
                ((prepare_address C e address_index).last_address_audit_secret_key * inv))
            then some r else none)) :=
  ⟨fun change amount cai tag ds dsv r => sign_add_output_parity C e change amount cai tag ds dsv r,
    fun inv ai r => sign_step_a_parity C e inv ai r,
    fun r => sign_get_c0_parity C e r,
    fun inv ai my_c r => sign_step_b_parity C e inv ai my_c r,
    fun change amount cai tag ds dsv hpos hsize hin hdest hfit =>
      sign_add_output_proxy C e change amount cai tag ds dsv hpos hsize hin hdest hfit,
    fun inv ai h => sign_step_a_proxy C e inv ai h,
    fun h => sign_get_c0_proxy C e h,
    fun inv ai my_c h => sign_step_b_proxy C e inv ai my_c h⟩

/-- Witness of C18 on the round trip of the spec.  On `Emulator.prepared`, `sign_step_a(3, 0)`
returns `(−32874, 288120, 11970)` with no proxy, returns it with a proxy that answers it and
throws with a proxy that answers `(−32874, 288120, 0)`; after it `sign_get_c0` returns `201` and
throws on the answer `200`, and after that `sign_step_b(3, 0, 2)` returns `(162, −2804, 5036)` and
throws on the answer `(162, −2804, 0)`; on `Emulator.funded`, `sign_add_output` returns
`(217, 219, 212)` and throws on the answer `(217, 219, 0)`. -/
theorem proxy_parity_witness :
    ((sign_step_a Crypto.small none Emulator.prepared 3 0).1 = some (-32874, 288120, 11970) ∧
      (sign_step_a Crypto.small (some (-32874, 288120, 11970)) Emulator.prepared 3 0).1
        = some (-32874, 288120, 11970) ∧
      (sign_step_a Crypto.small (some (-32874, 288120, 0)) Emulator.prepared 3 0).1 = none) ∧
    ((sign_get_c0 Crypto.small none
        (sign_step_a Crypto.small none Emulator.prepared 3 0).2).1 = some 201 ∧
      (sign_get_c0 Crypto.small (some 201)
        (sign_step_a Crypto.small none Emulator.prepared 3 0).2).1 = some 201 ∧
      (sign_get_c0 Crypto.small (some 200)
        (sign_step_a Crypto.small none Emulator.prepared 3 0).2).1 = none) ∧
    ((sign_step_b Crypto.small none
        (sign_get_c0 Crypto.small none (sign_step_a Crypto.small none Emulator.prepared 3 0).2).2
        3 0 2).1 = some (162, -2804, 5036) ∧
      (sign_step_b Crypto.small (some (162, -2804, 5036))
        (sign_get_c0 Crypto.small none (sign_step_a Crypto.small none Emulator.prepared 3 0).2).2
        3 0 2).1 = some (162, -2804, 5036) ∧
      (sign_step_b Crypto.small (some (162, -2804, 0))
        (sign_get_c0 Crypto.small none (sign_step_a Crypto.small none Emulator.prepared 3 0).2).2
        3 0 2).1 = none) ∧
    ((sign_add_output Crypto.small none Emulator.funded false 900 0 0 4 6).1
        = some ((217, 219, 212), none) ∧
      (sign_add_output Crypto.small (some (217, 219, 212)) Emulator.funded false 900 0 0 4 6).1
        = some ((217, 219, 212), none) ∧
      (sign_add_output Crypto.small (some (217, 219, 0)) Emulator.funded false 900 0 0 4 6).1
        = none) ∧
    (∀ r : Int × Int × Int,
      (sign_step_a Crypto.small (some r) Emulator.prepared 3 0).1 =
        (if r = ((step_a_values Crypto.small Emulator.prepared
              (step_a_index Emulator.prepared.sign) 3 0).p,
            (step_a_values Crypto.small Emulator.prepared
              (step_a_index Emulator.prepared.sign) 3 0).x,
            (step_a_values Crypto.small Emulator.prepared
              (step_a_index Emulator.prepared.sign) 3 0).y)
          then some r else none)) ∧
    (∀ r : Int,
      (sign_get_c0 Crypto.small (some r)
        (sign_step_a Crypto.small none Emulator.prepared 3 0).2).1 =
        (if r = Crypto.small.hash_to_scalar
            (sign_step_a Crypto.small none Emulator.prepared 3 0).2.sign.tx_inputs_stream
          then some r else none)) :=
  ⟨by decide, by decide, by decide, by decide,
    ((proxy_parity Crypto.small Emulator.prepared).2.2.2.2.2.1 3 0 (Or.inl (by decide))).2,
    ((proxy_parity Crypto.small
      (sign_step_a Crypto.small none Emulator.prepared 3 0).2).2.2.2.2.2.2.1 (by decide)).2⟩

-- THEOREMS-END
end Theorems

end Armor
